import Mathlib

/-!
# MyTinySTL: the heap, sorting, selection and merging algorithms

A shallow embedding of `heap_algo.h` and of the sorting / selection / merging / rotating
part of `algo.h`, with `swap` of `util.h`.

* The storage a range lives in is a `List α`; a position (random-access iterator) is an
  index into it, so `first + n`, `last - first` and `*(first + n)` are index arithmetic and
  indexed access.  A read or a write outside the storage has no result (`none`).
* Every algorithm takes the comparison `comp : α → α → Bool`.  The `operator<` overload of
  a function is the same definition with `comp` the element type's `<`; where the two
  overloads differ by more than the comparison (`sort`, `nth_element`, `binary_search`,
  `is_heap`), the definition takes both comparisons or there are two definitions.
* A `while` loop is a function recursive on a step budget that is large enough for every
  run of the loop; running out of budget has no result (`none`).
* A `const T&` argument that can be bound to an element of the range being modified is a
  `Ref`: either the address of a slot or a value held outside the range.
* A definition named after a function with `_nesting`, `_ends`, `_stop` or `_stops` added is
  that function returning, next to its result, a count or the positions its loops have
  reached; its first component is the result of the function itself.
-/

set_option linter.all false

namespace mystl

variable {α : Type}

/-! ## Storage -/

/-- Reading `*p` for the position `p` with index `i`. -/
def rd (a : List α) (i : Nat) : Option α := a[i]?

/-- The assignment `*p = v` for the position `p` with index `i`. -/
def wr (a : List α) (i : Nat) (v : α) : Option (List α) :=
  if i < a.length then some (a.set i v) else none

/-- The elements of the range `[first, last)`. -/
def range (a : List α) (first last : Nat) : List α := (a.drop first).take (last - first)

/-! ## heap_algo.h -/

/-- The loop of `push_heap_aux` (heap_algo.h 63-76): while the hole is below `topIndex` and
its parent compares less than `value`, the parent moves down into the hole; then `value` is
stored in the hole. -/
def push_heap_loop (comp : α → α → Bool) (first topIndex : Nat) (value : α) :
    Nat → List α → Nat → Option (List α)
  | 0, _, _ => none
  | fuel + 1, a, holeIndex =>
    let parent := (holeIndex - 1) / 2
    if holeIndex > topIndex then
      (rd a (first + parent)).bind fun p =>
        if comp p value then
          (wr a (first + holeIndex) p).bind fun a1 =>
            push_heap_loop comp first topIndex value fuel a1 parent
        else wr a (first + holeIndex) value
    else wr a (first + holeIndex) value

/-- `push_heap_aux(first, holeIndex, topIndex, value, comp)`; `value` is passed by value. -/
def push_heap_aux (comp : α → α → Bool) (a : List α) (first holeIndex topIndex : Nat)
    (value : α) : Option (List α) :=
  push_heap_loop comp first topIndex value (holeIndex + 1) a holeIndex

/-- `push_heap(first, last, comp)` through `push_heap_d`: the new element is `*(last - 1)`.
On an empty range `(last - first) - 1` is negative and `*(last - 1)` lies before the range:
no result. -/
def push_heap (comp : α → α → Bool) (a : List α) (first last : Nat) : Option (List α) :=
  if last ≤ first then none else
  (rd a (last - 1)).bind fun v =>
    push_heap_aux comp a first ((last - first) - 1) 0 v

/-- The percolate-down loop of `adjust_heap` (heap_algo.h 181-188): returns the storage,
`holeIndex` and `rchild` at loop exit. -/
def adjust_heap_loop (comp : α → α → Bool) (first len : Nat) :
    Nat → List α → Nat → Nat → Option (List α × Nat × Nat)
  | 0, _, _, _ => none
  | fuel + 1, a, holeIndex, rchild =>
    if rchild < len then
      (rd a (first + rchild)).bind fun r =>
      (rd a (first + rchild - 1)).bind fun l =>
        let rchild1 := if comp r l then rchild - 1 else rchild
        (rd a (first + rchild1)).bind fun c =>
        (wr a (first + holeIndex) c).bind fun a1 =>
          adjust_heap_loop comp first len fuel a1 rchild1 (2 * (rchild1 + 1))
    else some (a, holeIndex, rchild)

/-- `adjust_heap(first, holeIndex, len, value, comp)` (heap_algo.h 172-195). -/
def adjust_heap (comp : α → α → Bool) (a : List α) (first holeIndex len : Nat) (value : α) :
    Option (List α) :=
  let topIndex := holeIndex
  (adjust_heap_loop comp first len (len + 1) a holeIndex (2 * holeIndex + 2)).bind
    fun (a1, holeIndex1, rchild) =>
      if rchild = len then
        (rd a1 (first + (rchild - 1))).bind fun c =>
        (wr a1 (first + holeIndex1) c).bind fun a2 =>
          push_heap_aux comp a2 first (rchild - 1) topIndex value
      else push_heap_aux comp a1 first holeIndex1 topIndex value

/-- `pop_heap_aux(first, last, result, value, comp)` (heap_algo.h 197-207). -/
def pop_heap_aux (comp : α → α → Bool) (a : List α) (first last result : Nat) (value : α) :
    Option (List α) :=
  (rd a first).bind fun top =>
  (wr a result top).bind fun a1 =>
    adjust_heap comp a1 first 0 (last - first) value

/-- `pop_heap(first, last, comp)` (heap_algo.h 209-213).  On an empty range `*(last - 1)`
lies before the range: no result. -/
def pop_heap (comp : α → α → Bool) (a : List α) (first last : Nat) : Option (List α) :=
  if last ≤ first then none else
  (rd a (last - 1)).bind fun v =>
    pop_heap_aux comp a first (last - 1) (last - 1) v

/-- The loop of `sort_heap` (heap_algo.h 237-242): `pop_heap(first, last--)` while
`last - first > 1`. -/
def sort_heap_loop (comp : α → α → Bool) (first : Nat) : Nat → List α → Nat → Option (List α)
  | 0, _, _ => none
  | fuel + 1, a, last =>
    if last - first > 1 then
      (pop_heap comp a first last).bind fun a1 => sort_heap_loop comp first fuel a1 (last - 1)
    else some a

/-- `sort_heap(first, last, comp)`. -/
def sort_heap (comp : α → α → Bool) (a : List α) (first last : Nat) : Option (List α) :=
  sort_heap_loop comp first (last - first + 1) a last

/-- The loop of `make_heap_aux` (heap_algo.h 292-299): `adjust_heap` on `holeIndex`, then on
`holeIndex - 1`, down to `0`. -/
def make_heap_loop (comp : α → α → Bool) (first len : Nat) : Nat → List α → Nat → Option (List α)
  | 0, _, _ => none
  | fuel + 1, a, holeIndex =>
    (rd a (first + holeIndex)).bind fun v =>
    (adjust_heap comp a first holeIndex len v).bind fun a1 =>
      if holeIndex = 0 then some a1 else make_heap_loop comp first len fuel a1 (holeIndex - 1)

/-- `make_heap(first, last, comp)` through `make_heap_aux` (heap_algo.h 282-305). -/
def make_heap (comp : α → α → Bool) (a : List α) (first last : Nat) : Option (List α) :=
  if last - first < 2 then some a
  else
    let len := last - first
    make_heap_loop comp first len ((len - 2) / 2 + 1) a ((len - 2) / 2)

/-! ## algobase.h (not part of the sources at hand) -/

/-- Modelled from the spec: `iter_swap` of algobase.h, which is missing; the spec's
partition and merge "swap the elements they reference". -/
def iter_swap (a : List α) (i j : Nat) : Option (List α) :=
  (rd a i).bind fun x => (rd a j).bind fun y => (wr a i y).bind fun a1 => wr a1 j x

/-- Modelled from the spec: `copy` of algobase.h, which is missing; the spec's "single
copy" block move, element by element from the front.  `n` is `last - first`; the returned
position is `result + n`. -/
def copy (first result : Nat) : Nat → List α → Option (List α)
  | 0, a => some a
  | n + 1, a =>
    (rd a first).bind fun x => (wr a result x).bind fun a1 => copy (first + 1) (result + 1) n a1

/-- Modelled from the spec: `copy_backward` of algobase.h, which is missing; the spec's
"block copy", element by element from the back, `*--result = *--last`.  `n` is
`last - first`; the returned position is `result - n`. -/
def copy_backward (last result : Nat) : Nat → List α → Option (List α)
  | 0, a => some a
  | n + 1, a =>
    if last = 0 ∨ result = 0 then none else
    (rd a (last - 1)).bind fun x =>
    (wr a (result - 1) x).bind fun a1 => copy_backward (last - 1) (result - 1) n a1

/-! ## algo.h: partial_sort, partial_sort_copy -/

/-- The `for (auto i = middle; i < last; ++i)` loop of `partial_sort` (algo.h 741-746);
the first argument is the number of iterations left, `last - i`. -/
def partial_sort_loop (comp : α → α → Bool) (first middle : Nat) :
    Nat → List α → Nat → Option (List α)
  | 0, a, _ => some a
  | n + 1, a, i =>
    (rd a i).bind fun x =>
    (rd a first).bind fun top =>
      if comp x top then
        (pop_heap_aux comp a first middle i x).bind fun a1 =>
          partial_sort_loop comp first middle n a1 (i + 1)
      else partial_sort_loop comp first middle n a (i + 1)

/-- `partial_sort(first, middle, last, comp)` (algo.h 735-748). -/
def partial_sort (comp : α → α → Bool) (a : List α) (first middle last : Nat) :
    Option (List α) :=
  (make_heap comp a first middle).bind fun a1 =>
  (partial_sort_loop comp first middle (last - middle) a1 middle).bind fun a2 =>
    sort_heap comp a2 first middle

/-- The first loop of `psort_copy_aux` (algo.h 1461-1465): copies while neither the source
nor the destination is exhausted; returns the storage, `first` and `result_iter`. -/
def psort_copy_fill (last result_last : Nat) :
    Nat → List α → Nat → Nat → Option (List α × Nat × Nat)
  | 0, _, _, _ => none
  | fuel + 1, a, first, result_iter =>
    if first ≠ last ∧ result_iter ≠ result_last then
      (rd a first).bind fun x =>
      (wr a result_iter x).bind fun a1 =>
        psort_copy_fill last result_last fuel a1 (first + 1) (result_iter + 1)
    else some (a, first, result_iter)

/-- The second loop of `psort_copy_aux` (algo.h 1467-1473); the first argument is the
number of iterations left, `last - first`. -/
def psort_copy_select (comp : α → α → Bool) (result_first result_iter : Nat) :
    Nat → List α → Nat → Option (List α)
  | 0, a, _ => some a
  | n + 1, a, first =>
    (rd a first).bind fun x =>
    (rd a result_first).bind fun top =>
      if comp x top then
        (adjust_heap comp a result_first 0 (result_iter - result_first) x).bind fun a1 =>
          psort_copy_select comp result_first result_iter n a1 (first + 1)
      else psort_copy_select comp result_first result_iter n a (first + 1)

/-- `partial_sort_copy(first, last, result_first, result_last, comp)` through
`psort_copy_aux` (algo.h 1451-1486): the storage afterwards and the returned position. -/
def partial_sort_copy (comp : α → α → Bool) (a : List α)
    (first last result_first result_last : Nat) : Option (List α × Nat) :=
  if result_first = result_last then some (a, result_last)
  else
    (psort_copy_fill last result_last (last - first + 1) a first result_first).bind
      fun (a1, first1, result_iter) =>
        (make_heap comp a1 result_first result_iter).bind fun a2 =>
        (psort_copy_select comp result_first result_iter (last - first1) a2 first1).bind
          fun a3 =>
            (sort_heap comp a3 result_first result_iter).map fun a4 => (a4, result_iter)

/-! ## algo.h: median, partition, sort, nth_element -/

/-- `median(left, mid, right, comp)` (algo.h 1394-1409).  The function takes and returns
references: `β` is whatever denotes the three arguments (a value, or a slot together with
its content) and `comp` compares what they refer to. -/
def median {β : Type} (comp : β → β → Bool) (left mid right : β) : β :=
  if comp left mid then
    if comp mid right then mid
    else if comp left right then right
    else left
  else if comp left right then left
  else if comp mid right then right
  else mid

/-- The constant `kSmallSectionSize` (algo.h 1493). -/
def kSmallSectionSize : Nat := 128

/-- The loop of `slg2` (algo.h 1499-1501): `for (; n > 1; n >>= 1) ++k`. -/
def slg2_loop : Nat → Nat → Nat → Option Nat
  | 0, _, _ => none
  | fuel + 1, n, k => if n > 1 then slg2_loop fuel (n >>> 1) (k + 1) else some k

/-- `slg2(n)` (algo.h 1495-1503). -/
def slg2 (n : Nat) : Option Nat := slg2_loop (n + 1) n 0

/-- A `const T&` parameter: bound to a slot of the storage, or to a value held elsewhere
(a local copy or a temporary). -/
inductive Ref (α : Type) where
  | slot (i : Nat)
  | val (v : α)

/-- Reading through a `const T&`. -/
def deref (a : List α) : Ref α → Option α
  | Ref.slot i => rd a i
  | Ref.val v => some v

/-- The loop `while (comp(*first, pivot)) ++first;` of `unchecked_partition`. -/
def scan_up (comp : α → α → Bool) (pivot : Ref α) : Nat → List α → Nat → Option Nat
  | 0, _, _ => none
  | fuel + 1, a, first =>
    (rd a first).bind fun x =>
    (deref a pivot).bind fun p =>
      if comp x p then scan_up comp pivot fuel a (first + 1) else some first

/-- The loop `while (comp(pivot, *last)) --last;` of `unchecked_partition`. -/
def scan_down (comp : α → α → Bool) (pivot : Ref α) : Nat → List α → Nat → Option Nat
  | 0, _, _ => none
  | fuel + 1, a, last =>
    (deref a pivot).bind fun p =>
    (rd a last).bind fun x =>
      if comp p x then
        (if last = 0 then none else scan_down comp pivot fuel a (last - 1))
      else some last

/-- The `while (true)` loop of `unchecked_partition` (algo.h 1536-1555): the storage
afterwards and the returned position. -/
def unchecked_partition_loop (comp : α → α → Bool) (pivot : Ref α) :
    Nat → List α → Nat → Nat → Option (List α × Nat)
  | 0, _, _, _ => none
  | fuel + 1, a, first, last =>
    (scan_up comp pivot (a.length + 1) a first).bind fun first1 =>
      if last = 0 then none else
      (scan_down comp pivot (a.length + 1) a (last - 1)).bind fun last1 =>
        if ¬ (first1 < last1) then some (a, first1)
        else
          (iter_swap a first1 last1).bind fun a1 =>
            unchecked_partition_loop comp pivot fuel a1 (first1 + 1) last1

/-- `unchecked_partition(first, last, pivot, comp)`; `pivot` is a `const T&`. -/
def unchecked_partition (comp : α → α → Bool) (a : List α) (first last : Nat)
    (pivot : Ref α) : Option (List α × Nat) :=
  unchecked_partition_loop comp pivot (a.length + 1) a first last

/-- The loop of `unchecked_linear_insert` (algo.h 1628-1639); `next` is `last - 1`. -/
def unchecked_linear_insert_loop (comp : α → α → Bool) (value : Ref α) :
    Nat → List α → Nat → Option (List α)
  | 0, _, _ => none
  | fuel + 1, a, last =>
    if last = 0 then none else
    (deref a value).bind fun v =>
    (rd a (last - 1)).bind fun x =>
      if comp v x then
        (wr a last x).bind fun a1 => unchecked_linear_insert_loop comp value fuel a1 (last - 1)
      else wr a last v

/-- `unchecked_linear_insert(last, value, comp)`; `value` is a `const T&`. -/
def unchecked_linear_insert (comp : α → α → Bool) (a : List α) (last : Nat) (value : Ref α) :
    Option (List α) :=
  unchecked_linear_insert_loop comp value (last + 1) a last

/-- `unchecked_insertion_sort(first, last, comp)` (algo.h 1653-1660): the loop
`for (auto i = first; i != last; ++i) unchecked_linear_insert(i, *i, comp)`, whose second
argument binds `value` to the slot `*i`.  The first argument is the number of iterations
left, `last - i`. -/
def unchecked_insertion_sort (comp : α → α → Bool) : Nat → List α → Nat → Option (List α)
  | 0, a, _ => some a
  | n + 1, a, i =>
    (unchecked_linear_insert comp a i (Ref.slot i)).bind fun a1 =>
      unchecked_insertion_sort comp n a1 (i + 1)

/-- The loop of `insertion_sort` (algo.h 1692-1700); `auto value = *i` is a copy.  The
first argument is the number of iterations left, `last - i`. -/
def insertion_sort_loop (comp : α → α → Bool) (first : Nat) : Nat → List α → Nat → Option (List α)
  | 0, a, _ => some a
  | n + 1, a, i =>
    (rd a i).bind fun value =>
    (rd a first).bind fun x =>
      if comp value x then
        (copy_backward i (i + 1) (i - first) a).bind fun a1 =>
        (wr a1 first value).bind fun a2 => insertion_sort_loop comp first n a2 (i + 1)
      else
        (unchecked_linear_insert comp a i (Ref.val value)).bind fun a1 =>
          insertion_sort_loop comp first n a1 (i + 1)

/-- `insertion_sort(first, last, comp)` (algo.h 1688-1701). -/
def insertion_sort (comp : α → α → Bool) (a : List α) (first last : Nat) : Option (List α) :=
  if first = last then some a
  else insertion_sort_loop comp first (last - (first + 1)) a (first + 1)

/-- `static_cast<size_t>(last - first)`: a negative difference wraps around. -/
def size_cast (first last : Nat) : Nat :=
  if first ≤ last then last - first else 2 ^ 64 - (first - last)

/-- `final_insertion_sort(first, last, comp)` (algo.h 1725-1733). -/
def final_insertion_sort (comp : α → α → Bool) (a : List α) (first last : Nat) :
    Option (List α) :=
  if size_cast first last > kSmallSectionSize then
    (insertion_sort comp a first (first + kSmallSectionSize)).bind fun a1 =>
      unchecked_insertion_sort comp (last - (first + kSmallSectionSize)) a1
        (first + kSmallSectionSize)
  else insertion_sort comp a first last

/-- `intro_sort(first, last, depth_limit, comp)` (algo.h 1584-1601).  Every iteration of
the `while` loop decrements `depth_limit` before it recurses on `[cut, last)` and before it
goes round again with `last = cut`, so both continue with the decremented budget.  The
pivot `mid` is a copy (`auto mid = ...`) of the median found with `lt`: with the element
type's `operator<` in both overloads, the comparator overload never passing `comp` to
`median`. -/
def intro_sort (lt comp : α → α → Bool) : Nat → List α → Nat → Nat → Option (List α)
  | 0, a, first, last =>
    if size_cast first last > kSmallSectionSize then partial_sort comp a first last last
    else some a
  | depth_limit + 1, a, first, last =>
    if size_cast first last > kSmallSectionSize then
      (rd a first).bind fun x =>
      (rd a (first + (last - first) / 2)).bind fun y =>
      (if last = 0 then none else rd a (last - 1)).bind fun z =>
        let mid := median lt x y z
        (unchecked_partition comp a first last (Ref.val mid)).bind fun (a1, cut) =>
        (intro_sort lt comp depth_limit a1 cut last).bind fun a2 =>
          intro_sort lt comp depth_limit a2 first cut
    else some a

/-- `sort(first, last, comp)` (algo.h 1747-1754); `lt` is the element type's `operator<`,
which the comparator overload of `intro_sort` hands to `median`. -/
def sort_comp (lt comp : α → α → Bool) (a : List α) (first last : Nat) : Option (List α) :=
  if first ≠ last then
    (slg2 (last - first)).bind fun k =>
    (intro_sort lt comp (k * 2) a first last).bind fun a1 =>
      final_insertion_sort comp a1 first last
  else some a

/-- `sort(first, last)` (algo.h 1735-1745): everything is compared with `operator<`. -/
def sort (lt : α → α → Bool) (a : List α) (first last : Nat) : Option (List α) :=
  sort_comp lt lt a first last

/-- The `while (last - first > 3)` loop of `nth_element` (algo.h 1765-1773 and 1785-1794).
`median` returns one of the references it was given, and `unchecked_partition` takes it as a
reference too: the pivot is the slot `median` chose.  Both overloads call the three-argument
`median`, which compares with the element type's `operator<`, here `lt`; only
`unchecked_partition` gets `comp`. -/
def nth_element_loop (lt comp : α → α → Bool) (nth : Nat) :
    Nat → List α → Nat → Nat → Option (List α × Nat × Nat)
  | 0, _, _, _ => none
  | fuel + 1, a, first, last =>
    if last - first > 3 then
      (rd a first).bind fun x =>
      (rd a (first + (last - first) / 2)).bind fun y =>
      (rd a (last - 1)).bind fun z =>
        let m := median (fun (p q : Nat × α) => lt p.2 q.2)
          (first, x) (first + (last - first) / 2, y) (last - 1, z)
        (unchecked_partition comp a first last (Ref.slot m.1)).bind fun (a1, cut) =>
          if cut ≤ nth then nth_element_loop lt comp nth fuel a1 cut last
          else nth_element_loop lt comp nth fuel a1 first cut
    else some (a, first, last)

/-- `nth_element(first, nth, last, comp)` (algo.h 1777-1796); `lt` is the element type's
`operator<`, which `median` uses. -/
def nth_element_comp (lt comp : α → α → Bool) (a : List α) (first nth last : Nat) :
    Option (List α) :=
  if nth = last then some a
  else
    (nth_element_loop lt comp nth (last - first + 1) a first last).bind
      fun (a1, first1, last1) => insertion_sort comp a1 first1 last1

/-- `nth_element(first, nth, last)` (algo.h 1761-1775): everything is compared with
`operator<`. -/
def nth_element (lt : α → α → Bool) (a : List α) (first nth last : Nat) : Option (List α) :=
  nth_element_comp lt lt a first nth last

/-! ## algo.h: lower_bound, upper_bound, rotate -/

/-- The loop of `lbound_dispatch`, random-access version (algo.h 563-583). -/
def lbound_loop (comp : α → α → Bool) (a : List α) (value : α) : Nat → Nat → Nat → Option Nat
  | 0, _, _ => none
  | fuel + 1, first, len =>
    if len > 0 then
      let half := len >>> 1
      let middle := first + half
      (rd a middle).bind fun x =>
        if comp x value then lbound_loop comp a value fuel (middle + 1) (len - half - 1)
        else lbound_loop comp a value fuel first half
    else some first

/-- `lower_bound(first, last, value, comp)` (algo.h 585-592). -/
def lower_bound (comp : α → α → Bool) (a : List α) (first last : Nat) (value : α) :
    Option Nat :=
  lbound_loop comp a value (last - first + 1) first (last - first)

/-- The loop of `ubound_dispatch`, random-access version (algo.h 678-698). -/
def ubound_loop (comp : α → α → Bool) (a : List α) (value : α) : Nat → Nat → Nat → Option Nat
  | 0, _, _ => none
  | fuel + 1, first, len =>
    if len > 0 then
      let half := len >>> 1
      let middle := first + half
      (rd a middle).bind fun x =>
        if comp value x then ubound_loop comp a value fuel first half
        else ubound_loop comp a value fuel (middle + 1) (len - half - 1)
    else some first

/-- `upper_bound(first, last, value, comp)` (algo.h 700-707). -/
def upper_bound (comp : α → α → Bool) (a : List α) (first last : Nat) (value : α) :
    Option Nat :=
  ubound_loop comp a value (last - first + 1) first (last - first)

/-- `swap_ranges(first1, last1, first2)` (algo.h 788-796); the first argument is the number
of iterations left, `last1 - first1`. -/
def swap_ranges : Nat → List α → Nat → Nat → Option (List α)
  | 0, a, _, _ => some a
  | n + 1, a, first1, first2 =>
    (iter_swap a first1 first2).bind fun a1 => swap_ranges n a1 (first1 + 1) (first2 + 1)

/-- The loop of `rgcd` (algo.h 851-855). -/
def rgcd_loop : Nat → Nat → Nat → Option Nat
  | 0, _, _ => none
  | fuel + 1, m, n => if n ≠ 0 then rgcd_loop fuel n (m % n) else some m

/-- `rgcd(m, n)` (algo.h 849-857). -/
def rgcd (m n : Nat) : Option Nat := rgcd_loop (n + 2) m n

/-- The inner loop of the random-access `rotate_dispatch` for `l < r` (algo.h 879-886);
the first argument is the number of iterations left; returns the storage and `p`. -/
def rotate_cycle_lt (first l r : Nat) : Nat → List α → Nat → Option (List α × Nat)
  | 0, a, p => some (a, p)
  | n + 1, a, p =>
    (if p > first + r then
        (rd a (p - r)).bind fun x => (wr a p x).map fun a1 => (a1, p - r)
      else some (a, p)).bind fun (a1, p1) =>
    (rd a1 (p1 + l)).bind fun y =>
    (wr a1 p1 y).bind fun a2 => rotate_cycle_lt first l r n a2 (p1 + l)

/-- The inner loop of the random-access `rotate_dispatch` for `l > r` (algo.h 888-895);
the first argument is the number of iterations left; returns the storage and `p`. -/
def rotate_cycle_ge (last l r : Nat) : Nat → List α → Nat → Option (List α × Nat)
  | 0, a, p => some (a, p)
  | n + 1, a, p =>
    (if p + l < last then
        (rd a (p + l)).bind fun x => (wr a p x).map fun a1 => (a1, p + l)
      else some (a, p)).bind fun (a1, p1) =>
    if p1 < r then none else
    (rd a1 (p1 - r)).bind fun y =>
    (wr a1 p1 y).bind fun a2 => rotate_cycle_ge last l r n a2 (p1 - r)

/-- The outer loop of the random-access `rotate_dispatch` (algo.h 875-899); the first
argument is the number of iterations left, `cycle_times - i`. -/
def rotate_outer (last l r cycle_times : Nat) : Nat → List α → Nat → Option (List α)
  | 0, a, _ => some a
  | n + 1, a, first =>
    (rd a first).bind fun tmp =>
    (if l < r then rotate_cycle_lt first l r (r / cycle_times) a first
      else rotate_cycle_ge last l r (l / cycle_times - 1) a first).bind fun (a1, p) =>
    (wr a1 p tmp).bind fun a2 => rotate_outer last l r cycle_times n a2 (first + 1)

/-- `rotate_dispatch(first, middle, last, random_access_iterator_tag)` (algo.h 860-901):
the storage afterwards and the returned position. -/
def rotate_dispatch (a : List α) (first middle last : Nat) : Option (List α × Nat) :=
  let n := last - first
  let l := middle - first
  let r := n - l
  let result := first + (last - middle)
  if l = r then (swap_ranges (middle - first) a first middle).map fun a1 => (a1, result)
  else
    (rgcd n l).bind fun cycle_times =>
      if cycle_times = 0 then none else
      (rotate_outer last l r cycle_times cycle_times a first).map fun a1 => (a1, result)

/-- `rotate(first, middle, last)` (algo.h 903-911), on random-access positions. -/
def rotate (a : List α) (first middle last : Nat) : Option (List α × Nat) :=
  if first = middle then some (a, last)
  else if middle = last then some (a, first)
  else rotate_dispatch a first middle last

/-! ## algo.h: merge, inplace_merge -/

/-- The loop of `merge` (algo.h 945-954): returns the storage, `first1`, `first2` and
`result` at loop exit. -/
def merge_loop (comp : α → α → Bool) (last1 last2 : Nat) :
    Nat → List α → Nat → Nat → Nat → Option (List α × Nat × Nat × Nat)
  | 0, _, _, _, _ => none
  | fuel + 1, a, first1, first2, result =>
    if first1 ≠ last1 ∧ first2 ≠ last2 then
      (rd a first2).bind fun y =>
      (rd a first1).bind fun x =>
        if comp y x then
          (wr a result y).bind fun a1 =>
            merge_loop comp last1 last2 fuel a1 first1 (first2 + 1) (result + 1)
        else
          (wr a result x).bind fun a1 =>
            merge_loop comp last1 last2 fuel a1 (first1 + 1) first2 (result + 1)
    else some (a, first1, first2, result)

/-- `merge(first1, last1, first2, last2, result, comp)` (algo.h 938-956): the storage
afterwards. -/
def merge (comp : α → α → Bool) (a : List α) (first1 last1 first2 last2 result : Nat) :
    Option (List α) :=
  (merge_loop comp last1 last2 ((last1 - first1) + (last2 - first2) + 1) a first1 first2
      result).bind fun (a1, f1, f2, res) =>
    (copy f1 res (last1 - f1) a1).bind fun a2 =>
      copy f2 (res + (last1 - f1)) (last2 - f2) a2

/-- The `while (true)` loop of `merge_backward` (algo.h 1180-1192); `last1` and `last2`
are the positions after `--last1; --last2;`. -/
def merge_backward_loop (comp : α → α → Bool) (first1 first2 : Nat) :
    Nat → List α → Nat → Nat → Nat → Option (List α)
  | 0, _, _, _, _ => none
  | fuel + 1, a, last1, last2, result =>
    (rd a last2).bind fun y =>
    (rd a last1).bind fun x =>
      if result = 0 then none else
      if comp y x then
        (wr a (result - 1) x).bind fun a1 =>
          if first1 = last1 then copy_backward (last2 + 1) (result - 1) (last2 + 1 - first2) a1
          else if last1 = 0 then none
          else merge_backward_loop comp first1 first2 fuel a1 (last1 - 1) last2 (result - 1)
      else
        (wr a (result - 1) y).bind fun a1 =>
          if first2 = last2 then copy_backward (last1 + 1) (result - 1) (last1 + 1 - first1) a1
          else if last2 = 0 then none
          else merge_backward_loop comp first1 first2 fuel a1 last1 (last2 - 1) (result - 1)

/-- `merge_backward(first1, last1, first2, last2, result, comp)` (algo.h 1167-1193): the
storage afterwards. -/
def merge_backward (comp : α → α → Bool) (a : List α)
    (first1 last1 first2 last2 result : Nat) : Option (List α) :=
  if first1 = last1 then copy_backward last2 result (last2 - first2) a
  else if first2 = last2 then copy_backward last1 result (last1 - first1) a
  else if last1 = 0 ∨ last2 = 0 then none
  else
    merge_backward_loop comp first1 first2 ((last1 - first1) + (last2 - first2) + 1) a
      (last1 - 1) (last2 - 1) result

/-- `rotate_adaptive(first, middle, last, len1, len2, buffer, buffer_size)`
(algo.h 1040-1060): the storage afterwards and the returned position.  The scratch buffer
is the part `[buffer, buffer + buffer_size)` of the storage. -/
def rotate_adaptive (a : List α) (first middle last len1 len2 buffer buffer_size : Nat) :
    Option (List α × Nat) :=
  if len1 > len2 ∧ len2 ≤ buffer_size then
    (copy middle buffer (last - middle) a).bind fun a1 =>
    (copy_backward middle last (middle - first) a1).bind fun a2 =>
    (copy buffer first (last - middle) a2).map fun a3 => (a3, first + (last - middle))
  else if len1 ≤ buffer_size then
    (copy first buffer (middle - first) a).bind fun a1 =>
    (copy middle first (last - middle) a1).bind fun a2 =>
    (copy_backward (buffer + (middle - first)) last (middle - first) a2).map fun a3 =>
      (a3, last - (middle - first))
  else rotate a first middle last

/-- `merge_adaptive(first, middle, last, len1, len2, buffer, buffer_size, comp)`
(algo.h 1196-1239).  The first argument bounds the depth of the recursion. -/
def merge_adaptive (comp : α → α → Bool) (buffer buffer_size : Nat) :
    Nat → List α → Nat → Nat → Nat → Nat → Nat → Option (List α)
  | 0, _, _, _, _, _, _ => none
  | fuel + 1, a, first, middle, last, len1, len2 =>
    if len1 ≤ len2 ∧ len1 ≤ buffer_size then
      (copy first buffer (middle - first) a).bind fun a1 =>
        merge comp a1 buffer (buffer + (middle - first)) middle last first
    else if len2 ≤ buffer_size then
      (copy middle buffer (last - middle) a).bind fun a1 =>
        merge_backward comp a1 first middle buffer (buffer + (last - middle)) last
    else
      (if len1 > len2 then
          (rd a (first + (len1 >>> 1))).bind fun v =>
          (lower_bound comp a middle last v).map fun second_cut =>
            (first + (len1 >>> 1), second_cut, len1 >>> 1, second_cut - middle)
        else
          (rd a (middle + (len2 >>> 1))).bind fun v =>
          (upper_bound comp a first middle v).map fun first_cut =>
            (first_cut, middle + (len2 >>> 1), first_cut - first, len2 >>> 1)).bind
        fun (first_cut, second_cut, len11, len22) =>
          (rotate_adaptive a first_cut middle second_cut (len1 - len11) len22 buffer
              buffer_size).bind fun (a1, new_middle) =>
          (merge_adaptive comp buffer buffer_size fuel a1 first first_cut new_middle len11
              len22).bind fun a2 =>
            merge_adaptive comp buffer buffer_size fuel a2 new_middle second_cut last
              (len1 - len11) (len2 - len22)

/-- `merge_without_buffer(first, middle, last, len1, len2, comp)` (algo.h 1131-1165).  The
first argument bounds the depth of the recursion. -/
def merge_without_buffer (comp : α → α → Bool) :
    Nat → List α → Nat → Nat → Nat → Nat → Nat → Option (List α)
  | 0, _, _, _, _, _, _ => none
  | fuel + 1, a, first, middle, last, len1, len2 =>
    if len1 = 0 ∨ len2 = 0 then some a
    else if len1 + len2 = 2 then
      (rd a middle).bind fun y =>
      (rd a first).bind fun x =>
        if comp y x then iter_swap a first middle else some a
    else
      (if len1 > len2 then
          (rd a (first + (len1 >>> 1))).bind fun v =>
          (lower_bound comp a middle last v).map fun second_cut =>
            (first + (len1 >>> 1), second_cut, len1 >>> 1, second_cut - middle)
        else
          (rd a (middle + (len2 >>> 1))).bind fun v =>
          (upper_bound comp a first middle v).map fun first_cut =>
            (first_cut, middle + (len2 >>> 1), first_cut - first, len2 >>> 1)).bind
        fun (first_cut, second_cut, len11, len22) =>
          (rotate a first_cut middle second_cut).bind fun (a1, new_middle) =>
          (merge_without_buffer comp fuel a1 first first_cut new_middle len11 len22).bind
            fun a2 =>
              merge_without_buffer comp fuel a2 new_middle second_cut last (len1 - len11)
                (len2 - len22)

/-- `inplace_merge(first, middle, last, comp)` through `inplace_merge_aux`
(algo.h 1241-1267).  The class `temporary_buffer` is not part of the sources at hand: the
outcome of its allocation is the argument `buf`, `none` when `buf.begin()` is null and
otherwise the position and the size of the scratch buffer. -/
def inplace_merge (comp : α → α → Bool) (a : List α) (first middle last : Nat)
    (buf : Option (Nat × Nat)) : Option (List α) :=
  if first = middle ∨ middle = last then some a
  else
    let len1 := middle - first
    let len2 := last - middle
    match buf with
    | none => merge_without_buffer comp (len1 + len2 + 1) a first middle last len1 len2
    | some (buffer, buffer_size) =>
      merge_adaptive comp buffer buffer_size (len1 + len2 + 1) a first middle last len1 len2

/-! ## algo.h: the recursion of intro_sort, binary_search, equal_range, is_heap -/

/-- `intro_sort` (algo.h 1558-1601) with a counter: the second component is the nesting
depth of its self-recursion below this call, the greatest number of calls
`intro_sort(cut, last, depth_limit)` that are active at once.  Going round the `while` loop
with `last = cut` stays in the same call. -/
def intro_sort_nesting (lt comp : α → α → Bool) :
    Nat → List α → Nat → Nat → Option (List α × Nat)
  | 0, a, first, last =>
    if size_cast first last > kSmallSectionSize then
      (partial_sort comp a first last last).map fun a1 => (a1, 0)
    else some (a, 0)
  | depth_limit + 1, a, first, last =>
    if size_cast first last > kSmallSectionSize then
      (rd a first).bind fun x =>
      (rd a (first + (last - first) / 2)).bind fun y =>
      (if last = 0 then none else rd a (last - 1)).bind fun z =>
        let mid := median lt x y z
        (unchecked_partition comp a first last (Ref.val mid)).bind fun (a1, cut) =>
        (intro_sort_nesting lt comp depth_limit a1 cut last).bind fun (a2, n1) =>
        (intro_sort_nesting lt comp depth_limit a2 first cut).map fun (a3, n2) =>
          (a3, max (n1 + 1) n2)
    else some (a, 0)

/-- `binary_search(first, last, value)` (algo.h 1987-1991):
`i != last && !(value < *i)` with `i = lower_bound(first, last, value)`. -/
def binary_search (lt : α → α → Bool) (a : List α) (first last : Nat) (value : α) :
    Option Bool :=
  (lower_bound lt a first last value).bind fun i =>
    if i ≠ last then (rd a i).map fun x => !lt value x else some false

/-- `binary_search(first, last, value, comp)` (algo.h 1993-2001).  It calls the
three-argument `lower_bound`, which compares with the element type's `operator<`, here
`lt`; `comp` is used for the last test only. -/
def binary_search_comp (lt comp : α → α → Bool) (a : List α) (first last : Nat) (value : α) :
    Option Bool :=
  (lower_bound lt a first last value).bind fun i =>
    if i ≠ last then (rd a i).map fun x => !comp value x else some false

/-- The loop of `erange_dispatch`, random-access version (algo.h 2041-2064 and, with
`comp`, 2106-2129); `last0` is the `last` the function was called with. -/
def erange_loop (comp : α → α → Bool) (a : List α) (value : α) (last0 : Nat) :
    Nat → Nat → Nat → Option (Nat × Nat)
  | 0, _, _ => none
  | fuel + 1, first, len =>
    if len > 0 then
      let half := len >>> 1
      let middle := first + half
      (rd a middle).bind fun x =>
        if comp x value then erange_loop comp a value last0 fuel (middle + 1) (len - half - 1)
        else if comp value x then erange_loop comp a value last0 fuel first half
        else
          (lower_bound comp a first middle value).bind fun left =>
          (upper_bound comp a (middle + 1) (first + len) value).map fun right => (left, right)
    else some (last0, last0)

/-- `equal_range(first, last, value)` (algo.h 2066-2072, with `comp` 2131-2139). -/
def equal_range (comp : α → α → Bool) (a : List α) (first last : Nat) (value : α) :
    Option (Nat × Nat) :=
  erange_loop comp a value last (last - first + 1) first (last - first)

/-- The loop of `is_heap(first, last)`, the `operator<` overload (algo.h 2211-2225); the
first argument is the number of iterations left, `n - child`.  The test `child & 1 == 0`
is `child & (1 == 0)`, `==` binding tighter than `&`. -/
def is_heap_loop (lt : α → α → Bool) (a : List α) (first : Nat) :
    Nat → Nat → Nat → Option Bool
  | 0, _, _ => some true
  | k + 1, parent, child =>
    (rd a (first + parent)).bind fun p =>
    (rd a (first + child)).bind fun c =>
      if lt p c then some false
      else
        is_heap_loop lt a first k
          (if child &&& (if (1 : Nat) = 0 then 1 else 0) ≠ 0 then parent + 1 else parent)
          (child + 1)

/-- `is_heap(first, last)`, the `operator<` overload (algo.h 2209-2227). -/
def is_heap (lt : α → α → Bool) (a : List α) (first last : Nat) : Option Bool :=
  is_heap_loop lt a first (last - first - 1) 0 1

/-- The loop of `is_heap(first, last, comp)` (algo.h 2234-2239), with the test
`(child & 1) == 0`. -/
def is_heap_comp_loop (comp : α → α → Bool) (a : List α) (first : Nat) :
    Nat → Nat → Nat → Option Bool
  | 0, _, _ => some true
  | k + 1, parent, child =>
    (rd a (first + parent)).bind fun p =>
    (rd a (first + child)).bind fun c =>
      if comp p c then some false
      else
        is_heap_comp_loop comp a first k (if child &&& 1 = 0 then parent + 1 else parent)
          (child + 1)

/-- `is_heap(first, last, comp)` (algo.h 2230-2241). -/
def is_heap_comp (comp : α → α → Bool) (a : List α) (first last : Nat) : Option Bool :=
  is_heap_comp_loop comp a first (last - first - 1) 0 1

/-! ## algo.h: where the unchecked loops of sort stop -/

/-- The `while (true)` loop of `unchecked_partition` (algo.h 1536-1555) together with the
position `last` at the moment it returns.  `first` only moves up and `last` only moves
down, so the positions the call reads or writes are those from the `first` it was called
with up to the returned cut, and those from the final `last` up to the `last` it was called
with. -/
def unchecked_partition_loop_ends (comp : α → α → Bool) (pivot : Ref α) :
    Nat → List α → Nat → Nat → Option (List α × Nat × Nat)
  | 0, _, _, _ => none
  | fuel + 1, a, first, last =>
    (scan_up comp pivot (a.length + 1) a first).bind fun first1 =>
      if last = 0 then none else
      (scan_down comp pivot (a.length + 1) a (last - 1)).bind fun last1 =>
        if ¬ (first1 < last1) then some (a, first1, last1)
        else
          (iter_swap a first1 last1).bind fun a1 =>
            unchecked_partition_loop_ends comp pivot fuel a1 (first1 + 1) last1

/-- `unchecked_partition(first, last, pivot, comp)`: the storage, the returned position and
the final `last`. -/
def unchecked_partition_ends (comp : α → α → Bool) (a : List α) (first last : Nat)
    (pivot : Ref α) : Option (List α × Nat × Nat) :=
  unchecked_partition_loop_ends comp pivot (a.length + 1) a first last

/-- The loop of `unchecked_linear_insert` (algo.h 1628-1639) together with the position
`next` at the moment the loop ends.  `next` only moves down, so it is the lowest position
the call reads; the writes go to the positions above it, up to the `last` of the call. -/
def unchecked_linear_insert_loop_stop (comp : α → α → Bool) (value : Ref α) :
    Nat → List α → Nat → Option (List α × Nat)
  | 0, _, _ => none
  | fuel + 1, a, last =>
    if last = 0 then none else
    (deref a value).bind fun v =>
    (rd a (last - 1)).bind fun x =>
      if comp v x then
        (wr a last x).bind fun a1 =>
          unchecked_linear_insert_loop_stop comp value fuel a1 (last - 1)
      else (wr a last v).map fun a1 => (a1, last - 1)

/-- `unchecked_linear_insert(last, value, comp)`: the storage afterwards and the lowest
position read. -/
def unchecked_linear_insert_stop (comp : α → α → Bool) (a : List α) (last : Nat)
    (value : Ref α) : Option (List α × Nat) :=
  unchecked_linear_insert_loop_stop comp value (last + 1) a last

/-- `unchecked_insertion_sort(first, last, comp)` (algo.h 1653-1660): the storage afterwards
and, for every call `unchecked_linear_insert(i, *i, comp)`, the position `i` together with
the lowest position the call has read. -/
def unchecked_insertion_sort_stops (comp : α → α → Bool) :
    Nat → List α → Nat → Option (List α × List (Nat × Nat))
  | 0, a, _ => some (a, [])
  | n + 1, a, i =>
    (unchecked_linear_insert_stop comp a i (Ref.slot i)).bind fun (a1, p) =>
      (unchecked_insertion_sort_stops comp n a1 (i + 1)).map fun (out, ps) =>
        (out, (i, p) :: ps)

/-- The loop of `insertion_sort` (algo.h 1692-1700): the storage afterwards and, for every
call `unchecked_linear_insert(i, value, comp)`, the position `i` together with the lowest
position the call has read. -/
def insertion_sort_loop_stops (comp : α → α → Bool) (first : Nat) :
    Nat → List α → Nat → Option (List α × List (Nat × Nat))
  | 0, a, _ => some (a, [])
  | n + 1, a, i =>
    (rd a i).bind fun value =>
    (rd a first).bind fun x =>
      if comp value x then
        (copy_backward i (i + 1) (i - first) a).bind fun a1 =>
        (wr a1 first value).bind fun a2 => insertion_sort_loop_stops comp first n a2 (i + 1)
      else
        (unchecked_linear_insert_stop comp a i (Ref.val value)).bind fun (a1, p) =>
          (insertion_sort_loop_stops comp first n a1 (i + 1)).map fun (out, ps) =>
            (out, (i, p) :: ps)

/-- `insertion_sort(first, last, comp)` (algo.h 1688-1701) with the positions of its calls
of `unchecked_linear_insert` and the lowest positions they have read. -/
def insertion_sort_stops (comp : α → α → Bool) (a : List α) (first last : Nat) :
    Option (List α × List (Nat × Nat)) :=
  if first = last then some (a, [])
  else insertion_sort_loop_stops comp first (last - (first + 1)) a (first + 1)

/-- `final_insertion_sort(first, last, comp)` (algo.h 1725-1733) with the positions of its
calls of `unchecked_linear_insert` and the lowest positions they have read. -/
def final_insertion_sort_stops (comp : α → α → Bool) (a : List α) (first last : Nat) :
    Option (List α × List (Nat × Nat)) :=
  if size_cast first last > kSmallSectionSize then
    (insertion_sort_stops comp a first (first + kSmallSectionSize)).bind fun (a1, ps) =>
      (unchecked_insertion_sort_stops comp (last - (first + kSmallSectionSize)) a1
        (first + kSmallSectionSize)).map fun (out, qs) => (out, ps ++ qs)
  else insertion_sort_stops comp a first last

/-- `sort(first, last, comp)` (algo.h 1747-1754) with the positions of the calls of
`unchecked_linear_insert` that `final_insertion_sort` makes and the lowest positions they
have read. -/
def sort_stops (lt comp : α → α → Bool) (a : List α) (first last : Nat) :
    Option (List α × List (Nat × Nat)) :=
  if first ≠ last then
    (slg2 (last - first)).bind fun k =>
    (intro_sort lt comp (k * 2) a first last).bind fun a1 =>
      final_insertion_sort_stops comp a1 first last
  else some (a, [])

/-! ## algo.h: the cuts of the recursive merges -/

/-- The choice of the cuts in `merge_without_buffer` (algo.h 1149-1159) and in
`merge_adaptive` (algo.h 1220-1230), the block both run before they recurse: `first_cut`,
`second_cut`, `len11` and `len22`.  The longer range is halved and the cut of the other one
is found by binary search. -/
def merge_cuts (comp : α → α → Bool) (a : List α) (first middle last len1 len2 : Nat) :
    Option (Nat × Nat × Nat × Nat) :=
  if len1 > len2 then
    (rd a (first + (len1 >>> 1))).bind fun v =>
    (lower_bound comp a middle last v).map fun second_cut =>
      (first + (len1 >>> 1), second_cut, len1 >>> 1, second_cut - middle)
  else
    (rd a (middle + (len2 >>> 1))).bind fun v =>
    (upper_bound comp a first middle v).map fun first_cut =>
      (first_cut, middle + (len2 >>> 1), first_cut - first, len2 >>> 1)

/-! ## util.h and algo.h: the forward and the bidirectional rotate -/

/-- `swap(lhs, rhs)` (util.h 64-69) on two slots of the storage: `tmp = lhs`, `lhs = rhs`,
`rhs = tmp`. -/
def swap (a : List α) (i j : Nat) : Option (List α) :=
  (rd a i).bind fun tmp => (rd a j).bind fun r => (wr a i r).bind fun a1 => wr a1 j tmp

/-- `reverse_dispatch(first, last, bidirectional_iterator_tag)` (algo.h 755-766): in every
round `first == last || first == --last` ends the loop, and otherwise `iter_swap(first++,
last)` exchanges the two ends. -/
def reverse_dispatch : Nat → List α → Nat → Nat → Option (List α)
  | 0, _, _, _ => none
  | fuel + 1, a, first, last =>
    if first = last then some a
    else if last = 0 then none
    else if first = last - 1 then some a
    else
      (iter_swap a first (last - 1)).bind fun a1 =>
        reverse_dispatch fuel a1 (first + 1) (last - 1)

/-- The `do ... while (first2 != last)` loop of the forward `rotate_dispatch`
(algo.h 810-814): the storage, `first` and `middle` at loop exit. -/
def rotate_forward_fill (last : Nat) :
    Nat → List α → Nat → Nat → Nat → Option (List α × Nat × Nat)
  | 0, _, _, _, _ => none
  | fuel + 1, a, first, middle, first2 =>
    (swap a first first2).bind fun a1 =>
      let middle1 := if first + 1 = middle then first2 + 1 else middle
      if first2 + 1 ≠ last then rotate_forward_fill last fuel a1 (first + 1) middle1 (first2 + 1)
      else some (a1, first + 1, middle1)

/-- The `while (first2 != last)` loop of the forward `rotate_dispatch` (algo.h 818-825). -/
def rotate_forward_rest (last : Nat) : Nat → List α → Nat → Nat → Nat → Option (List α)
  | 0, _, _, _, _ => none
  | fuel + 1, a, first, middle, first2 =>
    if first2 ≠ last then
      (swap a first first2).bind fun a1 =>
        if first + 1 = middle then
          rotate_forward_rest last fuel a1 (first + 1) (first2 + 1) (first2 + 1)
        else if first2 + 1 = last then rotate_forward_rest last fuel a1 (first + 1) middle middle
        else rotate_forward_rest last fuel a1 (first + 1) middle (first2 + 1)
    else some a

/-- `rotate_dispatch(first, middle, last, forward_iterator_tag)` (algo.h 804-827): the
storage afterwards and the returned position `new_middle`. -/
def rotate_dispatch_forward (a : List α) (first middle last : Nat) : Option (List α × Nat) :=
  (rotate_forward_fill last (last - first + 1) a first middle middle).bind
    fun (a1, new_middle, middle1) =>
      (rotate_forward_rest last (last - first + 1) a1 new_middle middle1 middle1).map
        fun a2 => (a2, new_middle)

/-- The loop `while (first != middle && middle != last) swap(*first++, *--last)` of the
bidirectional `rotate_dispatch` (algo.h 837-838): the storage, `first` and `last` at loop
exit. -/
def rotate_bidirectional_loop (middle : Nat) :
    Nat → List α → Nat → Nat → Option (List α × Nat × Nat)
  | 0, _, _, _ => none
  | fuel + 1, a, first, last =>
    if first ≠ middle ∧ middle ≠ last then
      if last = 0 then none else
      (swap a first (last - 1)).bind fun a1 =>
        rotate_bidirectional_loop middle fuel a1 (first + 1) (last - 1)
    else some (a, first, last)

/-- `rotate_dispatch(first, middle, last, bidirectional_iterator_tag)` (algo.h 830-846):
the storage afterwards and the returned position. -/
def rotate_dispatch_bidirectional (a : List α) (first middle last : Nat) :
    Option (List α × Nat) :=
  (reverse_dispatch (middle - first + 1) a first middle).bind fun a1 =>
  (reverse_dispatch (last - middle + 1) a1 middle last).bind fun a2 =>
  (rotate_bidirectional_loop middle (last - first + 1) a2 first last).bind
    fun (a3, first1, last1) =>
      if first1 = middle then
        (reverse_dispatch (last1 - middle + 1) a3 middle last1).map fun a4 => (a4, last1)
      else
        (reverse_dispatch (middle - first1 + 1) a3 first1 middle).map fun a4 => (a4, first1)

end mystl

/-! ## Specification vocabulary -/

namespace mystl

variable {α : Type}

/-- A strict weak ordering given as a Boolean comparison: irreflexive, transitive, and with
a transitive incomparability. -/
structure StrictWeakOrder (comp : α → α → Bool) : Prop where
  irrefl : ∀ x, comp x x = false
  trans : ∀ x y z, comp x y = true → comp y z = true → comp x z = true
  incomp_trans : ∀ x y z, comp x y = false → comp y z = false → comp x z = false

/-- `InSubtree top h`: in the implicit binary tree (the parent of `i` is `(i - 1) / 2`),
node `h` lies in the subtree rooted at `top`. -/
inductive InSubtree (top : Nat) : Nat → Prop
  | root : InSubtree top top
  | child {h : Nat} : 1 ≤ h → InSubtree top ((h - 1) / 2) → InSubtree top h

/-- The element at position `i` does not compare less than the element at position `j`. -/
def NotLess (comp : α → α → Bool) (a : List α) (i j : Nat) : Prop :=
  ∀ x y, a[i]? = some x → a[j]? = some y → comp x y = false

/-- The max-heap invariant on the `len` elements from position `first`: no element
compares greater than its parent, the parent of index `i` being `(i - 1) / 2`. -/
def IsHeap (comp : α → α → Bool) (a : List α) (first len : Nat) : Prop :=
  ∀ i, 1 ≤ i → i < len → NotLess comp a (first + (i - 1) / 2) (first + i)

/-- The range `[first, last)` is sorted ascending: in every adjacent pair the second
element does not compare less than the first. -/
def SortedOn (comp : α → α → Bool) (a : List α) (first last : Nat) : Prop :=
  ∀ i, first ≤ i → i + 1 < last → NotLess comp a (i + 1) i

/-- The shape of the storage after `v`, the former content of slot `i`, has been inserted at
position `p` of `[first, i]`: the elements of `[p, i)` have moved one place up. -/
def InsertedAt (a out : List α) (p i : Nat) (v : α) : Prop :=
  out.length = a.length ∧ (∀ j, j < p ∨ i < j → out[j]? = a[j]?) ∧ out[p]? = some v ∧
    ∀ j, p < j → j ≤ i → out[j]? = a[j - 1]?

/-- The stable merge of two lists, the reference for `inplace_merge`: the head of the second
list is taken exactly when it compares less than the head of the first, so of two
equivalent elements the one from the first list comes first. -/
def stable_merge (comp : α → α → Bool) : List α → List α → List α
  | [], ys => ys
  | x :: xs, [] => x :: xs
  | x :: xs, y :: ys =>
    if comp y x then y :: stable_merge comp (x :: xs) ys
    else x :: stable_merge comp xs (y :: ys)
termination_by xs ys => xs.length + ys.length

/-- `StableInterleave comp l1 l2 out`: `out` interleaves `l1` and `l2`, keeping the order
inside each of them, and an element of `l2` is placed before elements of `l1` only when it
compares less than every one of them. -/
inductive StableInterleave (comp : α → α → Bool) : List α → List α → List α → Prop
  | nil : StableInterleave comp [] [] []
  | first (x : α) {l1 l2 out : List α} :
      StableInterleave comp l1 l2 out → StableInterleave comp (x :: l1) l2 (x :: out)
  | second (y : α) {l1 l2 out : List α} : (∀ x ∈ l1, comp y x = true) →
      StableInterleave comp l1 l2 out → StableInterleave comp l1 (y :: l2) (y :: out)

/-- A list sorted ascending: no element compares less than an earlier one. -/
def SortedList (comp : α → α → Bool) (l : List α) : Prop :=
  l.Pairwise fun x y => comp y x = false

/-- The comparison `<` of the natural numbers, used for the concrete instances. -/
def natLt (x y : Nat) : Bool := decide (x < y)

/-- The 129 numbers `1, 2, ..., 128, 0`: one more than `kSmallSectionSize`. -/
def ascendingThenZero : List Nat := (List.range 128).map (· + 1) ++ [0]

/-- The `s`-th place of the cycle that a rotation by `l` of `N` places runs through from
place 0. -/
def orbit (l N s : Nat) : Nat := (s * l) % N

/-- The state of one cycle of the random-access `rotate` after `t` moves: `cur0` is the
storage when the cycle began, `base + d * u` the position of place `u` of the cycle.  The
first `t` places of the cycle hold what their successors held, the rest is as it was. -/
def CycleInv (base d l N : Nat) (cur0 cur : List α) (t : Nat) : Prop :=
  cur.length = cur0.length ∧
  (∀ s, s < t → cur[base + d * orbit l N s]? = cur0[base + d * orbit l N (s + 1)]?) ∧
  (∀ y, (∀ s, s < t → y ≠ base + d * orbit l N s) → cur[y]? = cur0[y]?)

/-- The source of place `x` in a rotation that moves the `l` first of `l + r` elements
behind the other `r`. -/
def rotSource (l r x : Nat) : Nat := if x < r then x + l else x - r

/-- Two sorted halves with the values 2 and 3 in both of them, told apart by a tag that the
comparison does not look at. -/
def taggedHalves : List (Nat × Nat) := [(1, 0), (2, 0), (3, 0), (2, 1), (3, 1), (4, 1)]

/-- The comparison of tagged numbers by the number alone. -/
def tagLt (x y : Nat × Nat) : Bool := decide (x.1 < y.1)

/-- Two states of the storage that hold, position by position, elements equivalent under
`comp`: neither compares less than the other. -/
def EquivAt (comp : α → α → Bool) (a b : List α) : Prop :=
  a.length = b.length ∧
    ∀ (j : Nat) (x y : α), a[j]? = some x → b[j]? = some y →
      comp x y = false ∧ comp y x = false

/-- The 129 pairs `(0, 0), (0, 1), ..., (0, 128)`: equivalent under `tagLt`, told apart by
their second component. -/
def equalKeys : List (Nat × Nat) := (List.range 129).map fun i => (0, i)

/-- The comparison `>` of the natural numbers. -/
def natGt (x y : Nat) : Bool := decide (y < x)

/-- The 129 numbers `0, 2, 3, ..., 128, 1`: what `intro_sort` leaves of
`ascendingThenZero`. -/
def coarselyOrdered : List Nat := 0 :: (List.range 127).map (· + 2) ++ [1]

/-- A comparison unrelated to `<`: the natural numbers by their last decimal digit. -/
def lastDigitLt (x y : Nat) : Bool := decide (x % 10 < y % 10)

/-- The 129 numbers `10, 7, ..., 7, 5, 7, ..., 7, 22`, with `5` in the middle (index 64). -/
def sampledRange : List Nat :=
  10 :: List.replicate 63 7 ++ 5 :: List.replicate 63 7 ++ [22]

/-- What the forward `rotate` still has to bring about on `[f, last)` when its positions
are `first = f`, `middle = m` and `first2 = f2`: the elements from `f2` on, then those of
`[m, f2)`, then those of `[f, m)`. -/
def rotTarget (a : List α) (last f m f2 : Nat) : List α :=
  range a f2 last ++ range a m f2 ++ range a f m

end mystl

/-! ## Basic facts about the storage -/

namespace mystl
variable {α : Type}

theorem StrictWeakOrder.asymm {comp : α → α → Bool} (h : StrictWeakOrder comp) {x y : α}
    (hxy : comp x y = true) : comp y x = false := by
  cases hyx : comp y x with
  | false => rfl
  | true => have := h.trans x y x hxy hyx; rw [h.irrefl] at this; exact this.symm

theorem exists_rd {a : List α} {i : Nat} (h : i < a.length) : ∃ x, a[i]? = some x :=
  ⟨a[i], List.getElem?_eq_getElem h⟩

theorem lt_length_of_getElem? {a : List α} {i : Nat} {x : α} (h : a[i]? = some x) :
    i < a.length := by
  rcases List.getElem?_eq_some.mp h with ⟨h1, _⟩
  exact h1

theorem count_set_add [DecidableEq α] (l : List α) (i : Nat) (x v b : α) (h : l[i]? = some x) :
    (l.set i v).count b + (if x = b then 1 else 0) = l.count b + (if v = b then 1 else 0) := by
  rcases List.getElem?_eq_some.mp h with ⟨h1, h2⟩
  rw [List.count_set _ _ _ _ h1]
  have := List.boole_getElem_le_countP (fun y => y == b) l i h1
  simp only [List.count_eq_countP, beq_iff_eq, h2] at *
  omega

/-- Moving the content of slot `j` into slot `i` and a new value into slot `j` holds the
same elements as putting the new value into slot `i`. -/
theorem perm_set_move {l : List α} {i j : Nat} {y : α} (hi : i < l.length)
    (hj : l[j]? = some y) (hij : i ≠ j) (v : α) :
    ((l.set i y).set j v).Perm (l.set i v) := by
  classical
  rw [List.perm_iff_count]
  intro b
  obtain ⟨x, hx⟩ := exists_rd hi
  have h1 := count_set_add (l.set i y) j y v b (by rw [List.getElem?_set_ne hij]; exact hj)
  have h2 := count_set_add l i x y b hx
  have h3 := count_set_add l i x v b hx
  omega

theorem perm_set_swap {l : List α} {i j : Nat} {x y : α} (hi : l[i]? = some x)
    (hj : l[j]? = some y) : ((l.set i y).set j x).Perm l := by
  classical
  by_cases hij : i = j
  · subst hij
    have : x = y := by rw [hi] at hj; exact Option.some.inj hj
    subst this
    rw [List.set_set]
    rw [List.perm_iff_count]; intro b
    have := count_set_add l i x x b hi
    omega
  · rw [List.perm_iff_count]
    intro b
    have h1 := count_set_add (l.set i y) j y x b (by rw [List.getElem?_set_ne hij]; exact hj)
    have h2 := count_set_add l i x y b hi
    omega

theorem set_self_of_getElem? {l : List α} {i : Nat} {x : α} (h : l[i]? = some x) :
    l.set i x = l := by
  apply List.ext_getElem?
  intro j
  rw [List.getElem?_set]
  by_cases hij : i = j
  · subst hij; simp [h, lt_length_of_getElem? h]
  · simp [hij]

theorem natLt_strictWeakOrder : StrictWeakOrder natLt where
  irrefl := by intro x; simp [natLt]
  trans := by intro x y z; simp only [natLt, decide_eq_true_eq]; omega
  incomp_trans := by intro x y z; simp only [natLt, decide_eq_false_iff_not]; omega

end mystl

/-! ## The heap: sifting up and down -/

namespace mystl
variable {α : Type}

theorem InSubtree.le {top h : Nat} (hs : InSubtree top h) : top ≤ h := by
  induction hs with
  | root => exact Nat.le_refl _
  | child h1 _ ih => omega

theorem InSubtree.parent {top h : Nat} (hs : InSubtree top h) (hne : h ≠ top) :
    1 ≤ h ∧ InSubtree top ((h - 1) / 2) := by
  cases hs with
  | root => exact absurd rfl hne
  | child h1 h2 => exact ⟨h1, h2⟩

theorem inSubtree_zero (h : Nat) : InSubtree 0 h := by
  induction h using Nat.strong_induction_on with
  | _ h ih =>
    by_cases h0 : h = 0
    · subst h0; exact InSubtree.root
    · exact InSubtree.child (by omega) (ih _ (by omega))

theorem not_inSubtree_parent {top : Nat} (h1 : 1 ≤ top) : ¬ InSubtree top ((top - 1) / 2) := by
  intro hs
  have := hs.le
  omega

theorem push_heap_loop_spec {comp : α → α → Bool} (hc : StrictWeakOrder comp)
    (first top len : Nat) (value : α) :
    ∀ (fuel : Nat) (a : List α) (h : Nat),
      h < fuel → first + len ≤ a.length → h < len → InSubtree top h →
      (∀ i, 1 ≤ i → i < len → InSubtree top ((i - 1) / 2) → i ≠ h → (i - 1) / 2 ≠ h →
        NotLess comp a (first + (i - 1) / 2) (first + i)) →
      (h ≠ top → ∀ c, 1 ≤ c → c < len → (c - 1) / 2 = h →
        NotLess comp a (first + (h - 1) / 2) (first + c)) →
      (∀ c, 1 ≤ c → c < len → (c - 1) / 2 = h →
        ∀ y, a[first + c]? = some y → comp value y = false) →
      ∃ out, push_heap_loop comp first top value fuel a h = some out ∧
        out.length = a.length ∧
        (∀ i, 1 ≤ i → i < len → InSubtree top ((i - 1) / 2) →
          NotLess comp out (first + (i - 1) / 2) (first + i)) ∧
        (∀ j, (∀ x, InSubtree top x → x ≤ h → j ≠ first + x) → out[j]? = a[j]?) ∧
        out.Perm (a.set (first + h) value) := by
  intro fuel
  induction fuel with
  | zero => intro a h hf; omega
  | succ fuel ih =>
    intro a h hf hlen hh hs E1 E2 E3
    have hwr : ∀ v, wr a (first + h) v = some (a.set (first + h) v) := by
      intro v; simp only [wr]; rw [if_pos (by omega)]
    -- the final store `*(first + holeIndex) = value`
    have hstore : (h = top ∨ ∀ p, a[first + (h - 1) / 2]? = some p → comp p value = false) →
        ∃ out, some (a.set (first + h) value) = some out ∧
        out.length = a.length ∧
        (∀ i, 1 ≤ i → i < len → InSubtree top ((i - 1) / 2) →
          NotLess comp out (first + (i - 1) / 2) (first + i)) ∧
        (∀ j, (∀ x, InSubtree top x → x ≤ h → j ≠ first + x) → out[j]? = a[j]?) ∧
        out.Perm (a.set (first + h) value) := by
      intro hcase
      refine ⟨_, rfl, by simp, ?_, ?_, List.Perm.refl _⟩
      · intro i hi1 hi2 hsi x y hx hy
        by_cases hih : i = h
        · subst hih
          rcases hcase with htop | hp
          · subst htop; exact absurd hsi (not_inSubtree_parent hi1)
          · rw [List.getElem?_set_ne (by omega)] at hx
            rw [List.getElem?_set_self (by omega)] at hy
            cases hy
            exact hp x hx
        · by_cases hph : (i - 1) / 2 = h
          · rw [hph, List.getElem?_set_self (by omega)] at hx
            rw [List.getElem?_set_ne (by omega)] at hy
            cases hx
            exact E3 i hi1 hi2 hph y hy
          · rw [List.getElem?_set_ne (by omega)] at hx hy
            exact E1 i hi1 hi2 hsi hih hph x y hx hy
      · intro j hj
        rw [List.getElem?_set_ne]
        exact fun e => hj h hs (Nat.le_refl _) e.symm
    unfold push_heap_loop
    simp only []
    by_cases htop : h > top
    · rw [if_pos htop]
      have hne : h ≠ top := by omega
      obtain ⟨h1, hsp⟩ := hs.parent hne
      obtain ⟨p, hp⟩ := exists_rd (a := a) (i := first + (h - 1) / 2) (by omega)
      simp only [rd, hp, Option.bind]
      cases hcmp : comp p value with
      | false =>
        simp only [hwr]
        apply hstore
        right
        intro p' hp'
        rw [hp] at hp'; cases hp'; exact hcmp
      | true =>
        simp only [hwr, if_true]
        have hpar : (h - 1) / 2 < h := by omega
        obtain ⟨out, ho, hol, hoe, hof, hop⟩ := ih (a.set (first + h) p) ((h - 1) / 2)
          (by omega) (by simpa using hlen) (by omega) hsp
          (by
            intro i hi1 hi2 hsi hih hph x y hx hy
            by_cases hih' : i = h
            · subst hih'; exact absurd rfl hph
            · by_cases hph' : (i - 1) / 2 = h
              · rw [hph', List.getElem?_set_self (by omega)] at hx
                rw [List.getElem?_set_ne (by omega)] at hy
                cases hx
                exact E2 hne i hi1 hi2 hph' _ _ hp hy
              · rw [List.getElem?_set_ne (by omega)] at hx hy
                exact E1 i hi1 hi2 hsi hih' hph' x y hx hy)
          (by
            intro hne' c hc1 hc2 hcp x y hx hy
            obtain ⟨h1', hsp'⟩ := hsp.parent hne'
            rw [List.getElem?_set_ne (by omega)] at hx
            have e1 : comp x p = false :=
              E1 ((h - 1) / 2) h1' (by omega) hsp' (by omega) (by omega) x p hx hp
            by_cases hch : c = h
            · subst hch
              rw [List.getElem?_set_self (by omega)] at hy
              cases hy
              exact e1
            · rw [List.getElem?_set_ne (by omega)] at hy
              have e2 : comp p y = false :=
                E1 c hc1 hc2 (by rw [hcp]; exact hsp) hch (by omega) p y (by rw [hcp]; exact hp) hy
              exact hc.incomp_trans _ _ _ e1 e2)
          (by
            intro c hc1 hc2 hcp y hy
            by_cases hch : c = h
            · subst hch
              rw [List.getElem?_set_self (by omega)] at hy
              cases hy
              exact hc.asymm hcmp
            · rw [List.getElem?_set_ne (by omega)] at hy
              have e2 : comp p y = false :=
                E1 c hc1 hc2 (by rw [hcp]; exact hsp) hch (by omega) p y (by rw [hcp]; exact hp) hy
              cases hvy : comp value y with
              | false => rfl
              | true => rw [hc.trans _ _ _ hcmp hvy] at e2; exact e2)
        refine ⟨out, ho, by simpa using hol, hoe, ?_, ?_⟩
        · intro j hj
          rw [hof j (fun x hx hxl => hj x hx (by omega))]
          rw [List.getElem?_set_ne]
          exact fun e => hj h hs (Nat.le_refl _) e.symm
        · exact hop.trans (perm_set_move (by omega) hp (by omega) value)
    · rw [if_neg htop]
      simp only [hwr]
      apply hstore
      left
      have := hs.le
      omega

end mystl

namespace mystl
variable {α : Type}

theorem adjust_heap_loop_spec {comp : α → α → Bool} (hc : StrictWeakOrder comp)
    (first len k : Nat) (value : α) :
    ∀ (fuel : Nat) (a : List α) (h rchild : Nat),
      rchild = 2 * h + 2 → 0 < fuel → len < fuel + rchild → first + len ≤ a.length → h < len →
      InSubtree k h →
      (∀ i, 1 ≤ i → i < len → InSubtree k ((i - 1) / 2) → (i - 1) / 2 ≠ h →
        NotLess comp a (first + (i - 1) / 2) (first + i)) →
      (h ≠ k → ∀ c, 1 ≤ c → c < len → (c - 1) / 2 = h →
        NotLess comp a (first + (h - 1) / 2) (first + c)) →
      ∃ out h1, adjust_heap_loop comp first len fuel a h rchild = some (out, h1, 2 * h1 + 2) ∧
        len ≤ 2 * h1 + 2 ∧ h1 < len ∧ h ≤ h1 ∧ InSubtree k h1 ∧
        out.length = a.length ∧
        (∀ i, 1 ≤ i → i < len → InSubtree k ((i - 1) / 2) → (i - 1) / 2 ≠ h1 →
          NotLess comp out (first + (i - 1) / 2) (first + i)) ∧
        (h1 ≠ k → ∀ c, 1 ≤ c → c < len → (c - 1) / 2 = h1 →
          NotLess comp out (first + (h1 - 1) / 2) (first + c)) ∧
        (∀ j, (∀ x, InSubtree k x → x < len → j ≠ first + x) → out[j]? = a[j]?) ∧
        (out.set (first + h1) value).Perm (a.set (first + h) value) := by
  intro fuel
  induction fuel with
  | zero =>
    intro a h rchild hr hf0 hf hlen hh hs I1 I2
    omega
  | succ fuel ih =>
    intro a h rchild hr _ hf hlen hh hs I1 I2
    subst hr
    unfold adjust_heap_loop
    by_cases hrl : 2 * h + 2 < len
    · rw [if_pos hrl]
      obtain ⟨r, hrd⟩ := exists_rd (a := a) (i := first + (2 * h + 2)) (by omega)
      obtain ⟨l, hld⟩ := exists_rd (a := a) (i := first + (2 * h + 1)) (by omega)
      have e2 : first + (2 * h + 2) - 1 = first + (2 * h + 1) := by omega
      simp only [rd, e2, hrd, hld, Option.some_bind]
      -- the child that moves up, and the other one
      obtain ⟨c1, s, hc1, hc1v, hsv, hsne, hcs⟩ : ∃ c1 s, (if comp r l = true then 2 * h + 2 - 1 else 2 * h + 2) = c1 ∧
          (c1 = 2 * h + 1 ∨ c1 = 2 * h + 2) ∧ (s = 2 * h + 1 ∨ s = 2 * h + 2) ∧ s ≠ c1 ∧
          (∀ x y, a[first + c1]? = some x → a[first + s]? = some y → comp x y = false) := by
        cases hcmp : comp r l with
        | true =>
          refine ⟨2 * h + 1, 2 * h + 2, by simp, Or.inl rfl, Or.inr rfl, by omega, ?_⟩
          intro x y hx hy
          rw [hld] at hx; rw [hrd] at hy; cases hx; cases hy
          exact hc.asymm hcmp
        | false =>
          refine ⟨2 * h + 2, 2 * h + 1, by simp, Or.inr rfl, Or.inl rfl, by omega, ?_⟩
          intro x y hx hy
          rw [hrd] at hx; rw [hld] at hy; cases hx; cases hy
          exact hcmp
      rw [hc1]
      have hc1len : c1 < len := by omega
      have hsc : ∀ i, (i - 1) / 2 = h → 1 ≤ i → i = c1 ∨ i = s ∨ (c1 = s) := by
        intro i hi hi1; omega
      obtain ⟨c, hcd⟩ := exists_rd (a := a) (i := first + c1) (by omega)
      have hwr : wr a (first + h) c = some (a.set (first + h) c) := by
        simp only [wr]; rw [if_pos (by omega)]
      simp only [hcd, hwr, Option.some_bind]
      have hsc1 : InSubtree k c1 := InSubtree.child (by omega) (by
        have : (c1 - 1) / 2 = h := by omega
        rw [this]; exact hs)
      have hkle := hs.le
      obtain ⟨out, h1, ho, hge, hh1, hle, hs1, hol, hoe, hoe2, hof, hop⟩ :=
        ih (a.set (first + h) c) c1 (2 * (c1 + 1)) (by omega) (by omega) (by omega) (by simpa using hlen)
          hc1len hsc1
          (by
            intro i hi1 hi2 hsi hpc x y hx hy
            by_cases hph : (i - 1) / 2 = h
            · rw [hph, List.getElem?_set_self (by omega)] at hx
              rw [List.getElem?_set_ne (by omega)] at hy
              cases hx
              by_cases hic : i = c1
              · subst hic
                rw [hcd] at hy; cases hy
                exact hc.irrefl _
              · have : i = s := by omega
                subst this
                exact hcs _ _ hcd hy
            · rw [List.getElem?_set_ne (by omega)] at hx
              by_cases hih : i = h
              · subst hih
                rw [List.getElem?_set_self (by omega)] at hy
                cases hy
                have hne : i ≠ k := by
                  intro e; subst e; exact not_inSubtree_parent hi1 hsi
                exact I2 hne c1 (by omega) hc1len (by omega) x _ hx hcd
              · rw [List.getElem?_set_ne (by omega)] at hy
                exact I1 i hi1 hi2 hsi hph x y hx hy)
          (by
            intro _ cc hcc1 hcc2 hccp x y hx hy
            have e : (c1 - 1) / 2 = h := by omega
            rw [e, List.getElem?_set_self (by omega)] at hx
            rw [List.getElem?_set_ne (by omega)] at hy
            cases hx
            exact I1 cc hcc1 hcc2 (by rw [hccp]; exact hsc1) (by omega) _ _
              (by rw [hccp]; exact hcd) hy)
      refine ⟨out, h1, ?_, hge, hh1, by omega, hs1, by simpa using hol, hoe, hoe2, ?_, ?_⟩
      · exact ho
      · intro j hj
        rw [hof j hj, List.getElem?_set_ne]
        exact fun e => hj h hs hh e.symm
      · exact hop.trans (perm_set_move (by omega) hcd (by omega) value)
    · rw [if_neg hrl]
      exact ⟨a, h, rfl, by omega, hh, Nat.le_refl _, hs, rfl, I1, I2, fun j _ => rfl,
        List.Perm.refl _⟩

end mystl

namespace mystl
variable {α : Type}

/-- `adjust_heap(first, k, len, value)`: when the subtrees below `k` are heaps, the subtree
rooted at `k` becomes a heap, nothing outside that subtree changes, and the storage holds
the old elements with the one at `k` replaced by `value`. -/
theorem adjust_heap_spec {comp : α → α → Bool} (hc : StrictWeakOrder comp)
    (a : List α) (first k len : Nat) (value : α)
    (hlen : first + len ≤ a.length) (hk : k < len)
    (H : ∀ i, 1 ≤ i → i < len → InSubtree k ((i - 1) / 2) → (i - 1) / 2 ≠ k →
      NotLess comp a (first + (i - 1) / 2) (first + i)) :
    ∃ out, adjust_heap comp a first k len value = some out ∧ out.length = a.length ∧
      (∀ i, 1 ≤ i → i < len → InSubtree k ((i - 1) / 2) →
        NotLess comp out (first + (i - 1) / 2) (first + i)) ∧
      (∀ j, (∀ x, InSubtree k x → x < len → j ≠ first + x) → out[j]? = a[j]?) ∧
      out.Perm (a.set (first + k) value) := by
  obtain ⟨a1, h1, ho, hge, hh1, hle, hs1, hol, I1, I2, hof, hop⟩ :=
    adjust_heap_loop_spec hc first len k value (len + 1) a k (2 * k + 2) rfl (by omega)
      (by omega) hlen hk InSubtree.root H (fun h => absurd rfl h)
  unfold adjust_heap
  simp only [ho, Option.some_bind]
  by_cases hrl : 2 * h1 + 2 = len
  · rw [if_pos hrl]
    have e : 2 * h1 + 2 - 1 = 2 * h1 + 1 := by omega
    rw [e]
    obtain ⟨c, hcd⟩ := exists_rd (a := a1) (i := first + (2 * h1 + 1)) (by omega)
    have hwr : wr a1 (first + h1) c = some (a1.set (first + h1) c) := by
      simp only [wr]; rw [if_pos (by omega)]
    simp only [rd, hcd, hwr, Option.some_bind, push_heap_aux]
    have hsc : InSubtree k (2 * h1 + 1) := InSubtree.child (by omega) (by
      have : (2 * h1 + 1 - 1) / 2 = h1 := by omega
      rw [this]; exact hs1)
    obtain ⟨out, hpo, hpl, hpe, hpf, hpp⟩ :=
      push_heap_loop_spec hc first k len value (2 * h1 + 1 + 1) (a1.set (first + h1) c)
        (2 * h1 + 1) (by omega) (by simp; omega) (by omega) hsc
        (by
          intro i hi1 hi2 hsi hih hph x y hx hy
          have hph1 : (i - 1) / 2 ≠ h1 := by omega
          rw [List.getElem?_set_ne (by omega)] at hx
          by_cases hi : i = h1
          · subst hi
            rw [List.getElem?_set_self (by omega)] at hy
            cases hy
            have hne : i ≠ k := by
              intro e; subst e; exact not_inSubtree_parent hi1 hsi
            exact I2 hne (2 * i + 1) (by omega) (by omega) (by omega) x _ hx hcd
          · rw [List.getElem?_set_ne (by omega)] at hy
            exact I1 i hi1 hi2 hsi hph1 x y hx hy)
        (by intro _ c' h1' h2' h3'; omega)
        (by intro c' h1' h2' h3'; omega)
    refine ⟨out, hpo, by rw [hpl]; simpa using hol, hpe, ?_, ?_⟩
    · intro j hj
      rw [hpf j (fun x hx hxl => hj x hx (by omega)), List.getElem?_set_ne, hof j hj]
      exact fun e => hj h1 hs1 hh1 e.symm
    · exact (hpp.trans (perm_set_move (by omega) hcd (by omega) value)).trans hop
  · rw [if_neg hrl]
    simp only [push_heap_aux]
    obtain ⟨out, hpo, hpl, hpe, hpf, hpp⟩ :=
      push_heap_loop_spec hc first k len value (h1 + 1) a1 h1 (by omega) (by omega) hh1 hs1
        (fun i hi1 hi2 hsi _ hph => I1 i hi1 hi2 hsi hph)
        (by intro _ c' h1' h2' h3'; omega)
        (by intro c' h1' h2' h3'; omega)
    refine ⟨out, hpo, by rw [hpl]; exact hol, hpe, ?_, hpp.trans hop⟩
    intro j hj
    rw [hpf j (fun x hx hxl => hj x hx (by omega)), hof j hj]

end mystl

namespace mystl
variable {α : Type}

theorem take_eq_of_frame {a out : List α} {n : Nat}
    (h : ∀ j, j < n → out[j]? = a[j]?) : out.take n = a.take n := by
  apply List.ext_getElem?
  intro j
  rw [List.getElem?_take, List.getElem?_take]
  by_cases hj : j < n
  · simp [hj, h j hj]
  · simp [hj]

theorem drop_eq_of_frame {a out : List α} {n : Nat}
    (h : ∀ j, n ≤ j → out[j]? = a[j]?) : out.drop n = a.drop n := by
  apply List.ext_getElem?
  intro j
  rw [List.getElem?_drop, List.getElem?_drop]
  exact h _ (by omega)

theorem split_range (a : List α) (first last : Nat) (hfl : first ≤ last) :
    a = a.take first ++ (range a first last ++ a.drop last) := by
  unfold range
  have : a.drop last = (a.drop first).drop (last - first) := by
    rw [List.drop_drop]; congr 1; omega
  rw [this, List.take_append_drop, List.take_append_drop]

/-- A permutation of the storage that leaves every position outside `[first, last)` alone
permutes the range `[first, last)`. -/
theorem range_perm_of_perm {a out : List α} {first last : Nat} (hfl : first ≤ last)
    (hframe : ∀ j, j < first ∨ last ≤ j → out[j]? = a[j]?) (hp : out.Perm a) :
    (range out first last).Perm (range a first last) := by
  have h1 := split_range a first last hfl
  have h2 := split_range out first last hfl
  rw [take_eq_of_frame (fun j hj => hframe j (Or.inl hj)),
    drop_eq_of_frame (fun j hj => hframe j (Or.inr hj))] at h2
  rw [h1, h2] at hp
  exact (List.perm_append_right_iff _).mp ((List.perm_append_left_iff _).mp hp)

theorem adjust_heap_len_zero (comp : α → α → Bool) (a : List α) (first : Nat) (v : α) :
    adjust_heap comp a first 0 0 v = wr a first v := by
  simp [adjust_heap, adjust_heap_loop, push_heap_aux, push_heap_loop]

theorem make_heap_loop_spec {comp : α → α → Bool} (hc : StrictWeakOrder comp)
    (first len : Nat) :
    ∀ (fuel : Nat) (a : List α) (hole : Nat),
      hole < fuel → first + len ≤ a.length → hole < len →
      (∀ i, 1 ≤ i → i < len → hole + 1 ≤ (i - 1) / 2 →
        NotLess comp a (first + (i - 1) / 2) (first + i)) →
      ∃ out, make_heap_loop comp first len fuel a hole = some out ∧ out.length = a.length ∧
        IsHeap comp out first len ∧
        (∀ j, j < first ∨ first + len ≤ j → out[j]? = a[j]?) ∧ out.Perm a := by
  intro fuel
  induction fuel with
  | zero => intro a hole hf; omega
  | succ fuel ih =>
    intro a hole hf hlen hh H
    obtain ⟨v, hv⟩ := exists_rd (a := a) (i := first + hole) (by omega)
    obtain ⟨a1, ho, hol, hoe, hof, hop⟩ := adjust_heap_spec hc a first hole len v hlen hh
      (fun i hi1 hi2 hsi hne => H i hi1 hi2 (by have := hsi.le; omega))
    rw [set_self_of_getElem? hv] at hop
    have hframe : ∀ j, j < first ∨ first + len ≤ j → a1[j]? = a[j]? := by
      intro j hj
      exact hof j (fun x _ hx => by omega)
    have hheap : ∀ i, 1 ≤ i → i < len → hole ≤ (i - 1) / 2 →
        NotLess comp a1 (first + (i - 1) / 2) (first + i) := by
      intro i hi1 hi2 hp
      by_cases hsi : InSubtree hole ((i - 1) / 2)
      · exact hoe i hi1 hi2 hsi
      · have hne : (i - 1) / 2 ≠ hole := fun e => hsi (e ▸ InSubtree.root)
        intro x y hx hy
        rw [hof _ (fun z hz _ e => hsi (by
          have : (i - 1) / 2 = z := by omega
          rw [this]; exact hz))] at hx
        rw [hof _ (fun z hz _ e => hsi (by
          have e' : i = z := by omega
          subst e'
          exact (hz.parent (by omega)).2))] at hy
        exact H i hi1 hi2 (by omega) x y hx hy
    unfold make_heap_loop
    simp only [rd, hv, ho, Option.some_bind]
    by_cases h0 : hole = 0
    · rw [if_pos h0]
      subst h0
      exact ⟨a1, rfl, hol, fun i hi1 hi2 => hheap i hi1 hi2 (Nat.zero_le _), hframe, hop⟩
    · rw [if_neg h0]
      obtain ⟨out, ho2, hol2, hoh2, hof2, hop2⟩ := ih a1 (hole - 1) (by omega)
        (by rw [hol]; exact hlen) (by omega)
        (fun i hi1 hi2 hp => hheap i hi1 hi2 (by omega))
      exact ⟨out, ho2, by rw [hol2, hol], hoh2,
        fun j hj => by rw [hof2 j hj, hframe j hj], hop2.trans hop⟩

/-- The heap invariant puts a greatest element first: no element of the heap compares
greater than the one at `first`. -/
theorem IsHeap.root_max {comp : α → α → Bool} (hc : StrictWeakOrder comp) {a : List α}
    {first len : Nat} (hlen : first + len ≤ a.length) (hh : IsHeap comp a first len) :
    ∀ i, i < len → NotLess comp a first (first + i) := by
  intro i
  induction i using Nat.strong_induction_on with
  | _ i ih =>
    intro hi x y hx hy
    by_cases h0 : i = 0
    · subst h0
      rw [Nat.add_zero, hx] at hy
      cases hy
      exact hc.irrefl _
    · obtain ⟨p, hp⟩ := exists_rd (a := a) (i := first + (i - 1) / 2) (by omega)
      exact hc.incomp_trans _ _ _ (ih ((i - 1) / 2) (by omega) (by omega) x p hx hp)
        (hh i (by omega) hi p y hp hy)

end mystl

namespace mystl
variable {α : Type}

theorem getElem?_range {a : List α} {first last i : Nat} :
    (range a first last)[i]? = if i < last - first then a[first + i]? else none := by
  unfold range
  rw [List.getElem?_take]
  split
  · rw [List.getElem?_drop]
  · rfl

theorem mem_range_iff {a : List α} {first last : Nat} {y : α} :
    y ∈ range a first last ↔ ∃ j, first ≤ j ∧ j < last ∧ a[j]? = some y := by
  rw [List.mem_iff_getElem?]
  constructor
  · rintro ⟨i, hi⟩
    rw [getElem?_range] at hi
    split at hi
    · exact ⟨first + i, by omega, by omega, hi⟩
    · cases hi
  · rintro ⟨j, h1, h2, h3⟩
    refine ⟨j - first, ?_⟩
    rw [getElem?_range, if_pos (by omega)]
    have : first + (j - first) = j := by omega
    rw [this]; exact h3

theorem length_range {a : List α} {first last : Nat} (hl : last ≤ a.length) :
    (range a first last).length = last - first := by
  unfold range
  rw [List.length_take, List.length_drop]
  omega

/-- `pop_heap_aux(first, last, result, value)` on a heap `[first, last)` that is not empty,
`result` being a position outside it: the old top goes to `result`, and `[first, last)`
is again a heap, holding its old elements with the top replaced by `value`. -/
theorem pop_heap_aux_spec {comp : α → α → Bool} (hc : StrictWeakOrder comp)
    (a : List α) (first last result : Nat) (value : α)
    (hfl : first < last) (hl : last ≤ a.length) (hr : last ≤ result)
    (hra : result < a.length) (hh : IsHeap comp a first (last - first)) :
    ∃ out, pop_heap_aux comp a first last result value = some out ∧ out.length = a.length ∧
      IsHeap comp out first (last - first) ∧ out[result]? = a[first]? ∧
      (∀ j, j < first ∨ last ≤ j → j ≠ result → out[j]? = a[j]?) ∧
      out.Perm ((a.set result (a[first]?.getD value)).set first value) := by
  obtain ⟨top, htop⟩ := exists_rd (a := a) (i := first) (by omega)
  have hwr : wr a result top = some (a.set result top) := by
    simp only [wr]; rw [if_pos hra]
  unfold pop_heap_aux
  simp only [rd, htop, hwr, Option.some_bind, Option.getD_some]
  obtain ⟨out, ho, hol, hoe, hof, hop⟩ := adjust_heap_spec hc (a.set result top) first 0
    (last - first) value (by simp; omega) (by omega)
    (by
      intro i hi1 hi2 _ _ x y hx hy
      rw [List.getElem?_set_ne (by omega)] at hx hy
      exact hh i hi1 hi2 x y hx hy)
  refine ⟨out, ho, by simpa using hol, fun i hi1 hi2 => hoe i hi1 hi2 (inSubtree_zero _), ?_,
    ?_, by simpa using hop⟩
  · rw [hof result (fun x _ hx => by omega), List.getElem?_set_self hra]
  · intro j hj hjr
    rw [hof j (fun x _ hx => by omega), List.getElem?_set_ne (by omega)]

theorem make_heap_spec {comp : α → α → Bool} (hc : StrictWeakOrder comp) (a : List α)
    (first last : Nat) (hfl : first ≤ last) (hl : last ≤ a.length) :
    ∃ out, make_heap comp a first last = some out ∧ out.length = a.length ∧
      (∀ j, j < first ∨ last ≤ j → out[j]? = a[j]?) ∧
      out.Perm a ∧ IsHeap comp out first (last - first) := by
  unfold make_heap
  by_cases h2 : last - first < 2
  · rw [if_pos h2]
    exact ⟨a, rfl, rfl, fun _ _ => rfl, List.Perm.refl _, fun i h1 h3 => by omega⟩
  · rw [if_neg h2]
    obtain ⟨out, ho, hol, hoh, hof, hop⟩ := make_heap_loop_spec hc first (last - first)
      ((last - first - 2) / 2 + 1) a ((last - first - 2) / 2) (by omega) (by omega) (by omega)
      (by intro i h1 h3 h4; omega)
    have hframe : ∀ j, j < first ∨ last ≤ j → out[j]? = a[j]? :=
      fun j hj => hof j (by omega)
    exact ⟨out, ho, hol, hframe, hop, hoh⟩

theorem push_heap_spec {comp : α → α → Bool} (hc : StrictWeakOrder comp) (a : List α)
    (first last : Nat) (hfl : first < last) (hl : last ≤ a.length)
    (hh : IsHeap comp a first (last - 1 - first)) :
    ∃ out, push_heap comp a first last = some out ∧ out.length = a.length ∧
      (∀ j, j < first ∨ last ≤ j → out[j]? = a[j]?) ∧
      out.Perm a ∧ IsHeap comp out first (last - first) := by
  obtain ⟨v, hv⟩ := exists_rd (a := a) (i := last - 1) (by omega)
  unfold push_heap
  rw [if_neg (by omega)]
  simp only [rd, hv, Option.some_bind, push_heap_aux]
  obtain ⟨out, ho, hol, hoe, hof, hop⟩ := push_heap_loop_spec hc first 0 (last - first) v
    (last - first - 1 + 1) a (last - first - 1) (by omega) (by omega) (by omega)
    (inSubtree_zero _)
    (fun i hi1 hi2 _ hih _ => hh i hi1 (by omega))
    (by intro _ c h1 h2 h3; omega)
    (by intro c h1 h2 h3; omega)
  have e : first + (last - first - 1) = last - 1 := by omega
  rw [e, set_self_of_getElem? hv] at hop
  have hframe : ∀ j, j < first ∨ last ≤ j → out[j]? = a[j]? :=
    fun j hj => hof j (fun x _ hx => by omega)
  exact ⟨out, ho, hol, hframe, hop, fun i hi1 hi2 => hoe i hi1 hi2 (inSubtree_zero _)⟩

theorem pop_heap_spec {comp : α → α → Bool} (hc : StrictWeakOrder comp) (a : List α)
    (first last : Nat) (hfl : first < last) (hl : last ≤ a.length)
    (hh : IsHeap comp a first (last - first)) :
    ∃ out, pop_heap comp a first last = some out ∧ out.length = a.length ∧
      (∀ j, j < first ∨ last ≤ j → out[j]? = a[j]?) ∧
      out[last - 1]? = a[first]? ∧
      (∀ j, first ≤ j → j < last → NotLess comp a first j) ∧
      IsHeap comp out first (last - 1 - first) ∧ out.Perm a := by
  have hmax : ∀ j, first ≤ j → j < last → NotLess comp a first j := by
    intro j h1 h2
    have := hh.root_max hc (by omega) (j - first) (by omega)
    rwa [show first + (j - first) = j by omega] at this
  obtain ⟨v, hv⟩ := exists_rd (a := a) (i := last - 1) (by omega)
  obtain ⟨top, htop⟩ := exists_rd (a := a) (i := first) (by omega)
  unfold pop_heap
  rw [if_neg (by omega)]
  simp only [rd, hv, Option.some_bind]
  by_cases h1 : last - 1 = first
  · -- a single element: `adjust_heap` with `len = 0` stores `value` back
    have hwr : wr a first top = some a := by
      simp only [wr]; rw [if_pos (by omega), set_self_of_getElem? htop]
    have hwr2 : wr a first v = some a := by
      simp only [wr]; rw [if_pos (by omega)]
      rw [h1] at hv
      rw [set_self_of_getElem? hv]
    unfold pop_heap_aux
    simp only [rd, htop, hwr, Option.some_bind, h1, Nat.sub_self, adjust_heap_len_zero, hwr2]
    exact ⟨a, rfl, rfl, fun _ _ => rfl, htop.symm ▸ htop, hmax, fun i h1 h2 => by omega,
      List.Perm.refl _⟩
  · obtain ⟨out, ho, hol, hoh, hor, hof, hop⟩ := pop_heap_aux_spec hc a first (last - 1)
      (last - 1) v (by omega) (by omega) (Nat.le_refl _) (by omega)
      (fun i hi1 hi2 => hh i hi1 (by omega))
    rw [htop, Option.getD_some] at hop
    have hframe : ∀ j, j < first ∨ last ≤ j → out[j]? = a[j]? :=
      fun j hj => hof j (by omega) (by omega)
    exact ⟨out, ho, hol, hframe, hor, hmax, hoh, hop.trans (perm_set_swap hv htop)⟩

end mystl

namespace mystl
variable {α : Type}

theorem sort_heap_loop_spec {comp : α → α → Bool} (hc : StrictWeakOrder comp)
    (first last : Nat) :
    ∀ (fuel : Nat) (a : List α) (cur : Nat),
      cur - first < fuel → first ≤ cur → cur ≤ last → last ≤ a.length →
      IsHeap comp a first (cur - first) → SortedOn comp a cur last →
      (cur < last → ∀ j, first ≤ j → j < cur → NotLess comp a cur j) →
      ∃ out, sort_heap_loop comp first fuel a cur = some out ∧ out.length = a.length ∧
        (∀ j, j < first ∨ cur ≤ j → out[j]? = a[j]?) ∧
        SortedOn comp out first last ∧ out.Perm a := by
  intro fuel
  induction fuel with
  | zero => intro a cur hf; omega
  | succ fuel ih =>
    intro a cur hf hfc hcl hl hh hs hb
    unfold sort_heap_loop
    by_cases h1 : cur - first > 1
    · rw [if_pos h1]
      obtain ⟨a1, ho, hol, hof, hor, hmax, hoh, hop⟩ :=
        pop_heap_spec hc a first cur (by omega) (by omega) hh
      simp only [ho, Option.some_bind]
      obtain ⟨top, htop⟩ := exists_rd (a := a) (i := first) (by omega)
      obtain ⟨out, ho2, hol2, hof2, hos2, hop2⟩ := ih a1 (cur - 1) (by omega) (by omega)
        (by omega) (by omega) hoh
        (by
          intro i hi1 hi2 x y hx hy
          by_cases hic : i = cur - 1
          · subst hic
            rw [show cur - 1 + 1 = cur by omega, hof cur (by omega)] at hx
            rw [hor, htop] at hy
            cases hy
            exact hb (by omega) first (by omega) (by omega) x _ hx htop
          · rw [hof _ (by omega)] at hx hy
            exact hs i (by omega) hi2 x y hx hy)
        (by
          intro _ j hj1 hj2 x y hx hy
          rw [hor, htop] at hx
          cases hx
          have hy' : y ∈ range a1 first cur := mem_range_iff.mpr ⟨j, hj1, by omega, hy⟩
          obtain ⟨j', hj1', hj2', hj3'⟩ :=
            mem_range_iff.mp ((range_perm_of_perm hfc hof hop).subset hy')
          exact hmax j' hj1' hj2' _ _ htop hj3')
      refine ⟨out, ho2, by rw [hol2, hol], ?_, hos2, hop2.trans hop⟩
      intro j hj
      rw [hof2 j (by omega), hof j hj]
    · rw [if_neg h1]
      refine ⟨a, rfl, rfl, fun _ _ => rfl, ?_, List.Perm.refl _⟩
      intro i hi1 hi2
      by_cases hic : cur ≤ i
      · exact hs i hic hi2
      · have e1 : i = first := by omega
        have e2 : cur = first + 1 := by omega
        subst e1
        rw [← e2]
        exact hb (by omega) i (Nat.le_refl _) (by omega)

/-- `sort_heap(first, last)` on a heap: the range becomes sorted ascending, a permutation
of its input, and nothing else changes. -/
theorem sort_heap_spec {comp : α → α → Bool} (hc : StrictWeakOrder comp) (a : List α)
    (first last : Nat) (hfl : first ≤ last) (hl : last ≤ a.length)
    (hh : IsHeap comp a first (last - first)) :
    ∃ out, sort_heap comp a first last = some out ∧ out.length = a.length ∧
      (∀ j, j < first ∨ last ≤ j → out[j]? = a[j]?) ∧
      SortedOn comp out first last ∧ out.Perm a := by
  unfold sort_heap
  exact sort_heap_loop_spec hc first last (last - first + 1) a last (by omega) hfl
    (Nat.le_refl _) hl hh (fun i _ h => by omega) (fun h => by omega)

/-- A whole-storage permutation from a permutation of a range and a frame. -/
theorem perm_of_range_perm {a out : List α} {first last : Nat} (hfl : first ≤ last)
    (hframe : ∀ j, j < first ∨ last ≤ j → out[j]? = a[j]?)
    (hp : (range out first last).Perm (range a first last)) : out.Perm a := by
  have h1 := split_range a first last hfl
  have h2 := split_range out first last hfl
  rw [take_eq_of_frame (fun j hj => hframe j (Or.inl hj)),
    drop_eq_of_frame (fun j hj => hframe j (Or.inr hj))] at h2
  rw [h1, h2]
  exact (List.perm_append_left_iff _).mpr ((List.perm_append_right_iff _).mpr hp)

end mystl

namespace mystl
variable {α : Type}

theorem pop_heap_aux_empty (comp : α → α → Bool) (a : List α) (first result : Nat)
    (top value : α) (htop : a[first]? = some top) (hr : result < a.length) :
    pop_heap_aux comp a first first result value =
      some ((a.set result top).set first value) := by
  have hf := lt_length_of_getElem? htop
  unfold pop_heap_aux
  simp only [rd, htop, wr, if_pos hr, Option.some_bind, Nat.sub_self, adjust_heap_len_zero,
    List.length_set, if_pos hf]

theorem partial_sort_loop_spec {comp : α → α → Bool} (hc : StrictWeakOrder comp)
    (first middle last : Nat) (hfm : first ≤ middle) :
    ∀ (n : Nat) (a : List α) (i : Nat),
      i + n = last → middle ≤ i → last ≤ a.length →
      IsHeap comp a first (middle - first) →
      (first < middle → ∀ j, middle ≤ j → j < i → NotLess comp a j first) →
      ∃ out, partial_sort_loop comp first middle n a i = some out ∧ out.length = a.length ∧
        (∀ j, j < first ∨ last ≤ j → out[j]? = a[j]?) ∧ out.Perm a ∧
        IsHeap comp out first (middle - first) ∧
        (first < middle → ∀ j, middle ≤ j → j < last → NotLess comp out j first) := by
  intro n
  induction n with
  | zero =>
    intro a i hin hmi hl hh hb
    exact ⟨a, rfl, rfl, fun _ _ => rfl, List.Perm.refl _, hh,
      fun hk j h1 h2 => hb hk j h1 (by omega)⟩
  | succ n ih =>
    intro a i hin hmi hl hh hb
    obtain ⟨x, hx⟩ := exists_rd (a := a) (i := i) (by omega)
    obtain ⟨top, htop⟩ := exists_rd (a := a) (i := first) (by omega)
    unfold partial_sort_loop
    simp only [rd, hx, htop, Option.some_bind]
    cases hcmp : comp x top with
    | false =>
      simp only [Bool.false_eq_true, if_false]
      apply ih a (i + 1) (by omega) (by omega) hl hh
      intro hk j hj1 hj2
      by_cases hji : j = i
      · subst hji
        intro x' t' hx' ht'
        rw [hx] at hx'; rw [htop] at ht'; cases hx'; cases ht'
        exact hcmp
      · exact hb hk j hj1 (by omega)
    | true =>
      simp only [if_true]
      by_cases hk : first < middle
      · obtain ⟨a1, ho, hol, hoh, hor, hof, hop⟩ := pop_heap_aux_spec hc a first middle i x
          hk (by omega) hmi (by omega) hh
        rw [htop, Option.getD_some] at hop
        simp only [ho, Option.some_bind]
        have hperm : a1.Perm a := hop.trans (perm_set_swap hx htop)
        obtain ⟨top1, htop1⟩ := exists_rd (a := a1) (i := first) (by omega)
        -- the new top is not greater than the old one
        have hle : comp top top1 = false := by
          have hframe : ∀ j, j < first ∨ middle ≤ j →
              a1[j]? = ((a.set i top).set first x)[j]? := by
            intro j hj
            by_cases hji : j = i
            · subst hji
              rw [hor, htop, List.getElem?_set_ne (by omega),
                List.getElem?_set_self (by omega)]
            · rw [hof j hj hji, List.getElem?_set_ne (by omega),
                List.getElem?_set_ne (by omega)]
          have hm : top1 ∈ range a1 first middle :=
            mem_range_iff.mpr ⟨first, Nat.le_refl _, hk, htop1⟩
          obtain ⟨j, hj1, hj2, hj3⟩ :=
            mem_range_iff.mp ((range_perm_of_perm hfm hframe hop).subset hm)
          by_cases hjf : j = first
          · subst hjf
            rw [List.getElem?_set_self (by simp; omega)] at hj3
            cases hj3
            exact hc.asymm hcmp
          · rw [List.getElem?_set_ne (by omega), List.getElem?_set_ne (by omega)] at hj3
            have := hh.root_max hc (by omega) (j - first) (by omega)
            rw [show first + (j - first) = j by omega] at this
            exact this _ _ htop hj3
        obtain ⟨out, ho2, hol2, hof2, hop2, hoh2, hob2⟩ := ih a1 (i + 1) (by omega) (by omega)
          (by omega) hoh
          (by
            intro _ j hj1 hj2 y t hy ht
            rw [htop1] at ht; cases ht
            by_cases hji : j = i
            · subst hji
              rw [hor, htop] at hy; cases hy
              exact hle
            · rw [hof j (by omega) hji] at hy
              exact hc.incomp_trans _ _ _ (hb hk j hj1 (by omega) _ _ hy htop) hle)
        refine ⟨out, ho2, by rw [hol2, hol], ?_, hop2.trans hperm, hoh2, hob2⟩
        intro j hj
        rw [hof2 j hj, hof j (by omega) (by omega)]
      · have hmf : middle = first := by omega
        subst hmf
        rw [pop_heap_aux_empty comp a middle i top x htop (by omega)]
        simp only [Option.some_bind]
        obtain ⟨out, ho2, hol2, hof2, hop2, hoh2, hob2⟩ :=
          ih ((a.set i top).set middle x) (i + 1) (by omega) (by omega) (by simpa using hl)
            (fun j h1 h2 => by omega) (fun h => by omega)
        refine ⟨out, ho2, by simpa using hol2, ?_, hop2.trans (perm_set_swap hx htop), hoh2,
          hob2⟩
        intro j hj
        rw [hof2 j hj, List.getElem?_set_ne (by omega), List.getElem?_set_ne (by omega)]

/-- `partial_sort(first, middle, last)`: the result exists, is a permutation of the
storage that leaves everything outside `[first, last)` alone, has `[first, middle)` sorted,
and no element left in `[middle, last)` compares less than one of `[first, middle)`. -/
theorem partial_sort_spec {comp : α → α → Bool} (hc : StrictWeakOrder comp) (a : List α)
    (first middle last : Nat) (hfm : first ≤ middle) (hml : middle ≤ last)
    (hl : last ≤ a.length) :
    ∃ out, partial_sort comp a first middle last = some out ∧ out.length = a.length ∧
      (∀ j, j < first ∨ last ≤ j → out[j]? = a[j]?) ∧ out.Perm a ∧
      SortedOn comp out first middle ∧
      (∀ i j, first ≤ i → i < middle → middle ≤ j → j < last → NotLess comp out j i) := by
  obtain ⟨a1, ho1, hol1, hof1, hop1, hoh1⟩ := make_heap_spec hc a first middle hfm (by omega)
  obtain ⟨a2, ho2, hol2, hof2, hop2, hoh2, hob2⟩ :=
    partial_sort_loop_spec hc first middle last hfm (last - middle) a1 middle (by omega)
      (Nat.le_refl _) (by omega) hoh1 (fun _ j h1 h2 => by omega)
  obtain ⟨out, ho3, hol3, hof3, hos3, hop3⟩ :=
    sort_heap_spec hc a2 first middle hfm (by omega) hoh2
  unfold partial_sort
  simp only [ho1, ho2, ho3, Option.some_bind]
  refine ⟨out, rfl, by rw [hol3, hol2, hol1], ?_, (hop3.trans hop2).trans hop1, hos3, ?_⟩
  · intro j hj
    rw [hof3 j (by omega), hof2 j hj, hof1 j (by omega)]
  · intro i j hi1 hi2 hj1 hj2 y x hy hx
    rw [hof3 j (by omega)] at hy
    have hm : x ∈ range out first middle := mem_range_iff.mpr ⟨i, hi1, hi2, hx⟩
    obtain ⟨i', hi1', hi2', hi3'⟩ :=
      mem_range_iff.mp ((range_perm_of_perm hfm hof3 hop3).subset hm)
    obtain ⟨top, htop⟩ := exists_rd (a := a2) (i := first) (by omega)
    have h1 := hob2 (by omega) j hj1 hj2 y top hy htop
    have h2 := hoh2.root_max hc (by omega) (i' - first) (by omega)
    rw [show first + (i' - first) = i' by omega] at h2
    exact hc.incomp_trans _ _ _ h1 (h2 _ _ htop hi3')

end mystl

namespace mystl
variable {α : Type}

theorem perm_cons_set {l : List α} {i : Nat} {t : α} (h : l[i]? = some t) (v : α) :
    (t :: l.set i v).Perm (v :: l) := by
  classical
  rw [List.perm_iff_count]
  intro b
  have := count_set_add l i t v b h
  rw [List.count_cons, List.count_cons]
  simp only [beq_iff_eq]
  omega

theorem range_set {a : List α} {first last k : Nat} (v : α) (hk : first ≤ k) :
    range (a.set k v) first last = (range a first last).set (k - first) v := by
  apply List.ext_getElem?
  intro i
  rw [getElem?_range, List.getElem?_set', List.getElem?_set', getElem?_range]
  by_cases hi : i < last - first
  · simp only [hi, if_true]
    by_cases hki : k - first = i
    · rw [if_pos hki, if_pos (by omega)]
    · rw [if_neg hki, if_neg (by omega)]
  · simp only [hi, if_false]
    split <;> rfl

theorem range_succ_right {a : List α} {first i : Nat} {x : α} (hfi : first ≤ i)
    (hx : a[i]? = some x) : range a first (i + 1) = range a first i ++ [x] := by
  have hi := lt_length_of_getElem? hx
  apply List.ext_getElem?
  intro t
  rw [getElem?_range, List.getElem?_append]
  rw [length_range (by omega), getElem?_range]
  by_cases h1 : t < i - first
  · rw [if_pos (by omega), if_pos h1, if_pos h1]
  · rw [if_neg h1]
    by_cases h2 : t = i - first
    · rw [if_pos (by omega), h2, show first + (i - first) = i by omega, hx]
      simp
    · rw [if_neg (by omega)]
      have : t - (i - first) = (t - (i - first) - 1) + 1 := by omega
      rw [this]; rfl

theorem psort_copy_fill_spec (last result_last : Nat) :
    ∀ (fuel : Nat) (a : List α) (f r : Nat),
      last - f < fuel → f ≤ last → r ≤ result_last → last ≤ a.length →
      result_last ≤ a.length → (last ≤ r ∨ result_last ≤ f) →
      ∃ out c, psort_copy_fill last result_last fuel a f r = some (out, f + c, r + c) ∧
        f + c ≤ last ∧ r + c ≤ result_last ∧ (f + c = last ∨ r + c = result_last) ∧
        out.length = a.length ∧
        (∀ j, j < r ∨ r + c ≤ j → out[j]? = a[j]?) ∧
        (∀ t, t < c → out[r + t]? = a[f + t]?) := by
  intro fuel
  induction fuel with
  | zero => intro a f r hf; omega
  | succ fuel ih =>
    intro a f r hf hfl hrl hl hrla hd
    unfold psort_copy_fill
    by_cases hc : f ≠ last ∧ r ≠ result_last
    · rw [if_pos hc]
      obtain ⟨x, hx⟩ := exists_rd (a := a) (i := f) (by omega)
      simp only [rd, hx, wr, if_pos (show r < a.length by omega), Option.some_bind]
      obtain ⟨out, c, ho, hc1, hc2, hc3, hol, hof, hoc⟩ := ih (a.set r x) (f + 1) (r + 1) (by omega)
        (by omega) (by omega) (by simpa using hl) (by simpa using hrla) (by omega)
      refine ⟨out, c + 1, ?_, by omega, by omega, by omega, by simpa using hol, ?_, ?_⟩
      · rw [ho, show f + 1 + c = f + (c + 1) by omega,
          show r + 1 + c = r + (c + 1) by omega]
      · intro j hj
        rw [hof j (by omega), List.getElem?_set_ne (by omega)]
      · intro t ht
        by_cases h0 : t = 0
        · subst h0
          rw [Nat.add_zero, Nat.add_zero, hof r (by omega),
            List.getElem?_set_self (by omega), hx]
        · have := hoc (t - 1) (by omega)
          rw [show r + 1 + (t - 1) = r + t by omega,
            show f + 1 + (t - 1) = f + t by omega] at this
          rw [this, List.getElem?_set_ne (by omega)]
    · rw [if_neg hc]
      refine ⟨a, 0, rfl, by omega, by omega, by omega, rfl, fun _ _ => rfl,
        fun t ht => by omega⟩

end mystl

namespace mystl
variable {α : Type}

theorem psort_copy_select_spec {comp : α → α → Bool} (hc : StrictWeakOrder comp)
    (a0 : List α) (first last rf ri : Nat) (hri : rf < ri)
    (hd : last ≤ rf ∨ ri ≤ first) :
    ∀ (n : Nat) (a : List α) (i : Nat) (rest : List α),
      i + n = last → first ≤ i → last ≤ a.length → ri ≤ a.length →
      a.length = a0.length →
      (∀ j, j < rf ∨ ri ≤ j → a[j]? = a0[j]?) →
      IsHeap comp a rf (ri - rf) →
      (range a rf ri ++ rest).Perm (range a0 first i) →
      (∀ y ∈ rest, ∀ t, a[rf]? = some t → comp y t = false) →
      ∃ out rest', psort_copy_select comp rf ri n a i = some out ∧
        out.length = a0.length ∧
        (∀ j, j < rf ∨ ri ≤ j → out[j]? = a0[j]?) ∧
        IsHeap comp out rf (ri - rf) ∧
        (range out rf ri ++ rest').Perm (range a0 first last) ∧
        (∀ y ∈ rest', ∀ t, out[rf]? = some t → comp y t = false) := by
  intro n
  induction n with
  | zero =>
    intro a i rest hin hfi hl hr hlen hf hh hp hb
    have : i = last := by omega
    subst this
    exact ⟨a, rest, rfl, hlen, hf, hh, hp, hb⟩
  | succ n ih =>
    intro a i rest hin hfi hl hr hlen hf hh hp hb
    obtain ⟨x, hx⟩ := exists_rd (a := a) (i := i) (by omega)
    obtain ⟨top, htop⟩ := exists_rd (a := a) (i := rf) (by omega)
    have hx0 : a0[i]? = some x := by rw [← hf i (by omega)]; exact hx
    unfold psort_copy_select
    simp only [rd, hx, htop, Option.some_bind]
    cases hcmp : comp x top with
    | false =>
      simp only [Bool.false_eq_true, if_false]
      apply ih a (i + 1) (x :: rest) (by omega) (by omega) hl hr hlen hf hh
      · rw [range_succ_right hfi hx0]
        exact (List.perm_middle.trans (List.perm_append_singleton _ _).symm).trans
          (hp.append_right _)
      · intro y hy t ht
        rw [htop] at ht; cases ht
        rcases List.mem_cons.mp hy with rfl | hy'
        · exact hcmp
        · exact hb y hy' _ htop
    | true =>
      simp only [if_true]
      obtain ⟨a1, ho, hol, hoe, hof, hop⟩ := adjust_heap_spec hc a rf 0 (ri - rf) x
        (by omega) (by omega)
        (fun i' hi1 hi2 _ _ => hh i' hi1 hi2)
      simp only [ho, Option.some_bind]
      have hframe : ∀ j, j < rf ∨ ri ≤ j → a1[j]? = (a.set (rf + 0) x)[j]? := by
        intro j hj
        rw [hof j (fun z _ hz => by omega), List.getElem?_set_ne (by omega)]
      have hrp := range_perm_of_perm (Nat.le_of_lt hri) hframe hop
      rw [Nat.add_zero, range_set x (Nat.le_refl _), Nat.sub_self] at hrp
      have htop' : (range a rf ri)[0]? = some top := by
        rw [getElem?_range, if_pos (by omega)]; exact htop
      -- the new top is not greater than the old one
      have hmem : ∀ y ∈ range a1 rf ri, comp top y = false := by
        intro y hy
        have hy' := hrp.subset hy
        rcases List.mem_or_eq_of_mem_set hy' with hy'' | rfl
        · obtain ⟨j, hj1, hj2, hj3⟩ := mem_range_iff.mp hy''
          have := hh.root_max hc (by omega) (j - rf) (by omega)
          rw [show rf + (j - rf) = j by omega] at this
          exact this _ _ htop hj3
        · exact hc.asymm hcmp
      apply ih a1 (i + 1) (top :: rest) (by omega) (by omega) (by omega) (by omega)
        (by rw [hol, hlen])
        (fun j hj => by rw [hof j (fun z _ hz => by omega), hf j hj])
        (fun i' hi1 hi2 => hoe i' hi1 hi2 (inSubtree_zero _))
      · rw [range_succ_right hfi hx0]
        have h1 : (range a1 rf ri ++ top :: rest).Perm
            (top :: (range a rf ri).set 0 x ++ rest) :=
          List.perm_middle.trans ((hrp.append_right rest).cons top)
        have h2 : (top :: (range a rf ri).set 0 x ++ rest).Perm
            (x :: range a rf ri ++ rest) := (perm_cons_set htop' x).append_right rest
        exact (h1.trans h2).trans
          (((hp.cons x)).trans (List.perm_append_singleton _ _).symm)
      · intro y hy t ht
        have hle := hmem t (mem_range_iff.mpr ⟨rf, Nat.le_refl _, hri, ht⟩)
        rcases List.mem_cons.mp hy with rfl | hy'
        · exact hle
        · exact hc.incomp_trans _ _ _ (hb y hy' _ htop) hle

end mystl

namespace mystl
variable {α : Type}

/-- What `psort_copy_aux` has done when the destination is not empty. -/
theorem psort_copy_spec {comp : α → α → Bool} (hc : StrictWeakOrder comp) (a : List α)
    (first last rf rl : Nat) (h1 : first ≤ last) (h2 : last ≤ a.length) (h3 : rf < rl)
    (h4 : rl ≤ a.length) (hd : last ≤ rf ∨ rl ≤ first) :
    ∃ out c, partial_sort_copy comp a first last rf rl = some (out, rf + c) ∧
      first + c ≤ last ∧ rf + c ≤ rl ∧ (first + c = last ∨ rf + c = rl) ∧
      out.length = a.length ∧
      (∀ j, j < rf ∨ rf + c ≤ j → out[j]? = a[j]?) ∧
      SortedOn comp out rf (rf + c) ∧
      ∃ rest, (range out rf (rf + c) ++ rest).Perm (range a first last) ∧
        ∀ x ∈ range out rf (rf + c), ∀ y ∈ rest, comp y x = false := by
  obtain ⟨a1, c, ho1, hc1, hc2, hc3, hol1, hof1, hoc1⟩ :=
    psort_copy_fill_spec last rl (last - first + 1) a first rf (by omega) h1 (by omega) h2 h4 hd
  obtain ⟨a2, ho2, hol2, hof2, hop2, hoh2⟩ :=
    make_heap_spec hc a1 rf (rf + c) (by omega) (by omega)
  have hframe2 : ∀ j, j < rf ∨ rf + c ≤ j → a2[j]? = a[j]? :=
    fun j hj => by rw [hof2 j hj, hof1 j hj]
  have hcopy : range a1 rf (rf + c) = range a first (first + c) := by
    apply List.ext_getElem?
    intro t
    rw [getElem?_range, getElem?_range]
    by_cases ht : t < c
    · rw [if_pos (by omega), if_pos (by omega)]
      exact hoc1 t ht
    · rw [if_neg (by omega), if_neg (by omega)]
  have hsel : ∃ a3 rest, psort_copy_select comp rf (rf + c) (last - (first + c)) a2
        (first + c) = some a3 ∧ a3.length = a.length ∧
      (∀ j, j < rf ∨ rf + c ≤ j → a3[j]? = a[j]?) ∧
      IsHeap comp a3 rf (rf + c - rf) ∧
      (range a3 rf (rf + c) ++ rest).Perm (range a first last) ∧
      (∀ y ∈ rest, ∀ t, a3[rf]? = some t → comp y t = false) := by
    by_cases hc0 : c = 0
    · subst hc0
      have hfl : first = last := by omega
      subst hfl
      refine ⟨a2, [], ?_, by rw [hol2, hol1], hframe2, hoh2, ?_, ?_⟩
      · simp [psort_copy_select]
      · simp [range]
      · intro y hy; cases hy
    · exact psort_copy_select_spec hc a first last rf (rf + c) (by omega) (by omega)
        (last - (first + c)) a2 (first + c) [] (by omega) (by omega) (by omega) (by omega)
        (by rw [hol2, hol1]) hframe2 hoh2
        (by
          rw [List.append_nil, ← hcopy]
          exact range_perm_of_perm (by omega) hof2 hop2)
        (by intro y hy; cases hy)
  obtain ⟨a3, rest, ho3, hol3, hof3, hoh3, hop3, hob3⟩ := hsel
  obtain ⟨out, ho4, hol4, hof4, hos4, hop4⟩ :=
    sort_heap_spec hc a3 rf (rf + c) (by omega) (by omega) hoh3
  have hrp := range_perm_of_perm (show rf ≤ rf + c by omega) hof4 hop4
  refine ⟨out, c, ?_, hc1, hc2, hc3, by rw [hol4, hol3],
    fun j hj => by rw [hof4 j hj, hof3 j hj], hos4, rest,
    (hrp.append_right rest).trans hop3, ?_⟩
  · unfold partial_sort_copy
    rw [if_neg (by omega)]
    simp only [ho1, ho2, ho3, ho4, Option.some_bind, Option.map_some']
  · intro x hx y hy
    obtain ⟨j, hj1, hj2, hj3⟩ := mem_range_iff.mp (hrp.subset hx)
    obtain ⟨top, htop⟩ := exists_rd (a := a3) (i := rf) (by omega)
    have hm := hoh3.root_max hc (by omega) (j - rf) (by omega)
    rw [show rf + (j - rf) = j by omega] at hm
    exact hc.incomp_trans _ _ _ (hob3 y hy top htop) (hm _ _ htop hj3)

end mystl

/-! ## Insertion sort -/

namespace mystl
variable {α : Type}

/-- `copy_backward` of the `n` elements before `last` to the `n` positions before `result`,
the destination lying to the right of the source or clear of it on the left. -/
theorem copy_backward_spec :
    ∀ (n : Nat) (a : List α) (last result : Nat),
      n ≤ last → n ≤ result → last ≤ a.length → result ≤ a.length →
      (last ≤ result ∨ result + n ≤ last) →
      ∃ out, copy_backward last result n a = some out ∧ out.length = a.length ∧
        (∀ j, j + n < result ∨ result ≤ j → out[j]? = a[j]?) ∧
        (∀ t, 1 ≤ t → t ≤ n → out[result - t]? = a[last - t]?) := by
  intro n
  induction n with
  | zero =>
    intro a last result _ _ _ _ _
    exact ⟨a, rfl, rfl, fun _ _ => rfl, fun t h1 h2 => by omega⟩
  | succ n ih =>
    intro a last result h1 h2 h3 h4 h5
    obtain ⟨x, hx⟩ := exists_rd (a := a) (i := last - 1) (by omega)
    unfold copy_backward
    rw [if_neg (by omega)]
    simp only [rd, hx, wr, if_pos (show result - 1 < a.length by omega), Option.some_bind]
    obtain ⟨out, ho, hol, hof, hoc⟩ := ih (a.set (result - 1) x) (last - 1) (result - 1)
      (by omega) (by omega) (by simp; omega) (by simp; omega) (by omega)
    refine ⟨out, ho, by simpa using hol, ?_, ?_⟩
    · intro j hj
      rw [hof j (by omega), List.getElem?_set_ne (by omega)]
    · intro t ht1 ht2
      by_cases ht : t = 1
      · subst ht
        rw [hof (result - 1) (by omega), List.getElem?_set_self (by omega), hx]
      · have := hoc (t - 1) (by omega) (by omega)
        rw [show result - 1 - (t - 1) = result - t by omega,
          show last - 1 - (t - 1) = last - t by omega] at this
        rw [this, List.getElem?_set_ne (by omega)]

/-- `copy` of `n` elements from `first` to `result`, the destination lying to the left of
the source or clear of it on the right. -/
theorem copy_spec :
    ∀ (n : Nat) (a : List α) (first result : Nat),
      first + n ≤ a.length → result + n ≤ a.length →
      (result ≤ first ∨ first + n ≤ result) →
      ∃ out, copy first result n a = some out ∧ out.length = a.length ∧
        (∀ j, j < result ∨ result + n ≤ j → out[j]? = a[j]?) ∧
        (∀ t, t < n → out[result + t]? = a[first + t]?) := by
  intro n
  induction n with
  | zero =>
    intro a first result _ _ _
    exact ⟨a, rfl, rfl, fun _ _ => rfl, fun t h1 => by omega⟩
  | succ n ih =>
    intro a first result h1 h2 h3
    obtain ⟨x, hx⟩ := exists_rd (a := a) (i := first) (by omega)
    unfold copy
    simp only [rd, hx, wr, if_pos (show result < a.length by omega), Option.some_bind]
    obtain ⟨out, ho, hol, hof, hoc⟩ := ih (a.set result x) (first + 1) (result + 1)
      (by simp; omega) (by simp; omega) (by omega)
    refine ⟨out, ho, by simpa using hol, ?_, ?_⟩
    · intro j hj
      rw [hof j (by omega), List.getElem?_set_ne (by omega)]
    · intro t ht
      by_cases ht0 : t = 0
      · subst ht0
        rw [Nat.add_zero, Nat.add_zero, hof result (by omega),
          List.getElem?_set_self (by omega), hx]
      · have := hoc (t - 1) (by omega)
        rw [show result + 1 + (t - 1) = result + t by omega,
          show first + 1 + (t - 1) = first + t by omega] at this
        rw [this, List.getElem?_set_ne (by omega)]

theorem unchecked_linear_insert_loop_val (comp : α → α → Bool) (v : α) (i : Nat) :
    ∀ (fuel : Nat) (a : List α) (q s : Nat),
      q < fuel → q ≤ i → i < a.length → s < q →
      (∀ y, a[s]? = some y → comp v y = false) →
      ∃ out p, unchecked_linear_insert_loop comp (Ref.val v) fuel a q = some out ∧
        s < p ∧ p ≤ q ∧ out.length = a.length ∧
        (∀ j, j < p ∨ q < j → out[j]? = a[j]?) ∧ out[p]? = some v ∧
        (∀ j, p < j → j ≤ q → out[j]? = a[j - 1]?) ∧
        (∀ j, p ≤ j → j < q → ∀ y, a[j]? = some y → comp v y = true) ∧
        (∀ y, a[p - 1]? = some y → comp v y = false) := by
  intro fuel
  induction fuel with
  | zero => intro a q s hf; omega
  | succ fuel ih =>
    intro a q s hf hqi hi hs hsent
    obtain ⟨x, hx⟩ := exists_rd (a := a) (i := q - 1) (by omega)
    unfold unchecked_linear_insert_loop
    rw [if_neg (by omega)]
    simp only [deref, rd, hx, Option.some_bind, wr, if_pos (show q < a.length by omega)]
    cases hcmp : comp v x with
    | false =>
      simp only [Bool.false_eq_true, if_false]
      refine ⟨a.set q v, q, rfl, by omega, Nat.le_refl _, by simp, ?_, ?_, ?_, ?_, ?_⟩
      · intro j hj
        rw [List.getElem?_set_ne (by omega)]
      · rw [List.getElem?_set_self (by omega)]
      · intro j h1 h2; omega
      · intro j h1 h2; omega
      · intro y hy
        rw [hx] at hy; cases hy; exact hcmp
    | true =>
      simp only [if_true]
      have hsq : s ≠ q - 1 := by
        intro e
        rw [e] at hsent
        rw [hsent x hx] at hcmp
        cases hcmp
      obtain ⟨out, p, ho, hsp, hpq, hol, hof, hov, hosh, hogt, hole⟩ :=
        ih (a.set q x) (q - 1) s (by omega) (by omega) (by simpa using hi) (by omega)
          (by intro y hy; rw [List.getElem?_set_ne (by omega)] at hy; exact hsent y hy)
      refine ⟨out, p, ho, hsp, by omega, by simpa using hol, ?_, hov, ?_, ?_, ?_⟩
      · intro j hj
        rw [hof j (by omega), List.getElem?_set_ne (by omega)]
      · intro j h1 h2
        by_cases hjq : j = q
        · subst hjq
          rw [hof j (by omega), List.getElem?_set_self (by omega), hx]
        · rw [hosh j h1 (by omega), List.getElem?_set_ne (by omega)]
      · intro j h1 h2 y hy
        by_cases hjq : j = q - 1
        · subst hjq
          rw [hx] at hy; cases hy; exact hcmp
        · exact hogt j h1 (by omega) y (by rw [List.getElem?_set_ne (by omega)]; exact hy)
      · intro y hy
        exact hole y (by rw [List.getElem?_set_ne (by omega)]; exact hy)

/-- Inserting into a sorted range keeps it sorted. -/
theorem sortedOn_of_insertedAt {comp : α → α → Bool} (hc : StrictWeakOrder comp)
    {a out : List α} {first p i : Nat} {v : α} (hfp : first ≤ p) (hpi : p ≤ i)
    (hs : SortedOn comp a first i) (hins : InsertedAt a out p i v)
    (hgt : p < i → ∀ y, a[p]? = some y → comp v y = true)
    (hle : first < p → ∀ y, a[p - 1]? = some y → comp v y = false) :
    SortedOn comp out first (i + 1) := by
  obtain ⟨hol, hof, hov, hosh⟩ := hins
  intro j hj1 hj2 y x hy hx
  by_cases h1 : j + 1 < p
  · rw [hof _ (by omega)] at hy hx
    exact hs j hj1 (by omega) y x hy hx
  · by_cases h2 : j + 1 = p
    · rw [← h2] at hov
      rw [hov] at hy; cases hy
      rw [hof _ (by omega)] at hx
      exact hle (by omega) x (by rw [← h2]; exact hx)
    · by_cases h3 : j = p
      · subst h3
        rw [hov] at hx; cases hx
        rw [hosh _ (by omega) (by omega)] at hy
        exact hc.asymm (hgt (by omega) y hy)
      · rw [hosh _ (by omega) (by omega)] at hy hx
        have := hs (j - 1) (by omega) (by omega) y x
        rw [show j - 1 + 1 = j by omega] at this
        exact this hy hx

end mystl

namespace mystl
variable {α : Type}

/-- One round of `insertion_sort`: both branches insert `value`, the content of slot
`i`, somewhere into `[first, i]`. -/
theorem insertion_step_spec (comp : α → α → Bool) (a : List α) (first i : Nat)
    (value x : α) (hfi : first < i) (hi : i < a.length) (hx : a[first]? = some x) :
    ∃ a1 p, (if comp value x = true then
        (copy_backward i (i + 1) (i - first) a).bind fun a1 => wr a1 first value
      else unchecked_linear_insert comp a i (Ref.val value)) = some a1 ∧
      first ≤ p ∧ p ≤ i ∧ InsertedAt a a1 p i value ∧
      (p < i → ∀ y, a[p]? = some y → comp value y = true) ∧
      (first < p → ∀ y, a[p - 1]? = some y → comp value y = false) := by
  cases hcmp : comp value x with
  | true =>
    simp only [if_true]
    obtain ⟨a1, ho, hol, hof, hoc⟩ := copy_backward_spec (i - first) a i (i + 1)
      (by omega) (by omega) (by omega) (by omega) (by omega)
    simp only [ho, Option.some_bind, wr, if_pos (show first < a1.length by omega)]
    refine ⟨a1.set first value, first, rfl, Nat.le_refl _, by omega,
      ⟨by simpa using hol, ?_, ?_, ?_⟩, ?_, fun h => by omega⟩
    · intro j hj
      rw [List.getElem?_set_ne (by omega), hof j (by omega)]
    · rw [List.getElem?_set_self (by omega)]
    · intro j h1 h2
      have := hoc (i + 1 - j) (by omega) (by omega)
      rw [show i + 1 - (i + 1 - j) = j by omega, show i - (i + 1 - j) = j - 1 by omega]
        at this
      rw [List.getElem?_set_ne (by omega), this]
    · intro _ y hy
      rw [hx] at hy; cases hy; exact hcmp
  | false =>
    simp only [Bool.false_eq_true, if_false, unchecked_linear_insert]
    obtain ⟨out, p, ho, hsp, hpq, hol, hof, hov, hosh, hogt, hole⟩ :=
      unchecked_linear_insert_loop_val comp value i (i + 1) a i first
        (by omega) (Nat.le_refl _) (by omega) hfi
        (by intro y hy; rw [hx] at hy; cases hy; exact hcmp)
    exact ⟨out, p, ho, by omega, hpq, ⟨hol, hof, hov, hosh⟩,
      fun h y hy => hogt p (Nat.le_refl _) h y hy, fun _ => hole⟩

theorem insertion_sort_loop_spec {comp : α → α → Bool} (hc : StrictWeakOrder comp)
    (first last : Nat) :
    ∀ (n : Nat) (a : List α) (i : Nat),
      i + n = last → first < i → last ≤ a.length → SortedOn comp a first i →
      ∃ out, insertion_sort_loop comp first n a i = some out ∧ out.length = a.length ∧
        (∀ j, j < first ∨ last ≤ j → out[j]? = a[j]?) ∧ SortedOn comp out first last := by
  intro n
  induction n with
  | zero =>
    intro a i hin hfi hl hs
    have : i = last := by omega
    subst this
    exact ⟨a, rfl, rfl, fun _ _ => rfl, hs⟩
  | succ n ih =>
    intro a i hin hfi hl hs
    obtain ⟨value, hv⟩ := exists_rd (a := a) (i := i) (by omega)
    obtain ⟨x, hx⟩ := exists_rd (a := a) (i := first) (by omega)
    have hstep := insertion_step_spec comp a first i value x hfi (by omega) hx
    obtain ⟨a1, p, ho, hfp, hpi, hins, hgt, hle⟩ := hstep
    have hsorted := sortedOn_of_insertedAt hc hfp hpi hs hins hgt hle
    obtain ⟨out, ho2, hol2, hof2, hos2⟩ := ih a1 (i + 1) (by omega) (by omega)
      (by rw [hins.1]; exact hl) hsorted
    refine ⟨out, ?_, by rw [hol2, hins.1], ?_, hos2⟩
    · unfold insertion_sort_loop
      simp only [rd, hv, hx, Option.some_bind]
      cases hcmp : comp value x with
      | true =>
        rw [hcmp] at ho
        simp only [if_true] at ho ⊢
        obtain ⟨a0, h0, h0'⟩ := Option.bind_eq_some.mp ho
        simp only [h0, Option.some_bind]
        obtain ⟨a0', h1, h1'⟩ : ∃ z, wr a0 first value = some z ∧ z = a1 := ⟨a1, h0', rfl⟩
        subst h1'
        simp only [h1, Option.some_bind]
        exact ho2
      | false =>
        rw [hcmp] at ho
        simp only [Bool.false_eq_true, if_false] at ho ⊢
        simp only [ho, Option.some_bind]
        exact ho2
    · intro j hj
      rw [hof2 j hj, hins.2.1 j (by omega)]

/-- `insertion_sort(first, last)` returns with `[first, last)` sorted ascending, whatever
the range held, and touches nothing else. -/
theorem insertion_sort_spec {comp : α → α → Bool} (hc : StrictWeakOrder comp) (a : List α)
    (first last : Nat) (hfl : first ≤ last) (hl : last ≤ a.length) :
    ∃ out, insertion_sort comp a first last = some out ∧ out.length = a.length ∧
      (∀ j, j < first ∨ last ≤ j → out[j]? = a[j]?) ∧ SortedOn comp out first last := by
  unfold insertion_sort
  by_cases h : first = last
  · rw [if_pos h]
    exact ⟨a, rfl, rfl, fun _ _ => rfl, fun i h1 h2 => by omega⟩
  · rw [if_neg h]
    exact insertion_sort_loop_spec hc first last (last - (first + 1)) a (first + 1)
      (by omega) (by omega) hl (fun i h1 h2 => by omega)

end mystl

namespace mystl
variable {α : Type}

/-- One call `unchecked_linear_insert(i, *i)`, `value` being bound to the slot `*i`, after
a sorted prefix: the first move overwrites the slot `value` refers to, the scan stops at
once, and the slot ends up holding a copy of its left neighbour. -/
theorem unchecked_linear_insert_slot {comp : α → α → Bool} (a : List α) (i : Nat)
    (v x w : α) (hi2 : 2 ≤ i) (hv : a[i]? = some v) (hx : a[i - 1]? = some x)
    (hw : a[i - 2]? = some w) (hxw : comp x w = false) :
    unchecked_linear_insert comp a i (Ref.slot i) =
      some (if comp v x = true then a.set i x else a) := by
  have hi := lt_length_of_getElem? hv
  unfold unchecked_linear_insert unchecked_linear_insert_loop
  rw [if_neg (by omega)]
  simp only [deref, rd, hv, hx, Option.some_bind, wr, if_pos hi]
  cases hcmp : comp v x with
  | false =>
    simp only [Bool.false_eq_true, if_false]
    rw [set_self_of_getElem? hv]
  | true =>
    simp only [if_true]
    obtain ⟨k, hk⟩ : ∃ k, i = k + 2 := ⟨i - 2, by omega⟩
    subst hk
    unfold unchecked_linear_insert_loop
    rw [if_neg (by omega)]
    have h1 : (a.set (k + 2) x)[k + 2]? = some x := List.getElem?_set_self hi
    have h2 : (a.set (k + 2) x)[k + 2 - 1 - 1]? = some w := by
      rw [List.getElem?_set_ne (by omega)]; exact hw
    have h3 : (a.set (k + 2) x)[k + 2 - 1]? = some x := by
      rw [List.getElem?_set_ne (by omega)]; exact hx
    simp only [deref, rd, h1, h2, Option.some_bind, hxw, Bool.false_eq_true, if_false, wr,
      List.length_set, if_pos (show k + 2 - 1 < a.length by omega)]
    rw [set_self_of_getElem? h3]

theorem unchecked_insertion_sort_spec {comp : α → α → Bool} (hc : StrictWeakOrder comp)
    (first : Nat) :
    ∀ (n : Nat) (a : List α) (i : Nat),
      first + 2 ≤ i → i + n ≤ a.length → SortedOn comp a first i →
      ∃ out, unchecked_insertion_sort comp n a i = some out ∧ out.length = a.length ∧
        (∀ j, j < i ∨ i + n ≤ j → out[j]? = a[j]?) ∧ SortedOn comp out first (i + n) := by
  intro n
  induction n with
  | zero =>
    intro a i h1 h2 hs
    exact ⟨a, rfl, rfl, fun _ _ => rfl, hs⟩
  | succ n ih =>
    intro a i h1 h2 hs
    obtain ⟨v, hv⟩ := exists_rd (a := a) (i := i) (by omega)
    obtain ⟨x, hx⟩ := exists_rd (a := a) (i := i - 1) (by omega)
    obtain ⟨w, hw⟩ := exists_rd (a := a) (i := i - 2) (by omega)
    have hxw : comp x w = false := by
      have := hs (i - 2) (by omega) (by omega) x w
      rw [show i - 2 + 1 = i - 1 by omega] at this
      exact this hx hw
    unfold unchecked_insertion_sort
    rw [unchecked_linear_insert_slot a i v x w (by omega) hv hx hw hxw]
    simp only [Option.some_bind]
    have hstep : ∃ a1, (if comp v x = true then a.set i x else a) = a1 ∧
        a1.length = a.length ∧ (∀ j, j ≠ i → a1[j]? = a[j]?) ∧
        SortedOn comp a1 first (i + 1) := by
      cases hcmp : comp v x with
      | false =>
        refine ⟨a, by simp, rfl, fun _ _ => rfl, ?_⟩
        intro j hj1 hj2
        by_cases hji : j + 1 = i
        · intro y z hy hz
          rw [hji, hv] at hy; cases hy
          rw [show j = i - 1 by omega, hx] at hz; cases hz
          exact hcmp
        · exact hs j hj1 (by omega)
      | true =>
        refine ⟨a.set i x, by simp, by simp, fun j hj => List.getElem?_set_ne (Ne.symm hj), ?_⟩
        intro j hj1 hj2
        by_cases hji : j + 1 = i
        · intro y z hy hz
          rw [hji, List.getElem?_set_self (by omega)] at hy; cases hy
          rw [List.getElem?_set_ne (by omega), show j = i - 1 by omega, hx] at hz; cases hz
          exact hc.irrefl _
        · intro y z hy hz
          rw [List.getElem?_set_ne (by omega)] at hy hz
          exact hs j hj1 (by omega) y z hy hz
    obtain ⟨a1, he, hl1, hf1, hs1⟩ := hstep
    rw [he]
    obtain ⟨out, ho, hol, hof, hos⟩ := ih a1 (i + 1) (by omega) (by omega) hs1
    refine ⟨out, ho, by rw [hol, hl1], ?_, by rw [show i + (n + 1) = i + 1 + n by omega]; exact hos⟩
    intro j hj
    rw [hof j (by omega), hf1 j (by omega)]

end mystl

namespace mystl
variable {α : Type}

theorem scan_up_val (comp : α → α → Bool) (p : α) (a : List α) (j : Nat)
    (hj : j < a.length) (hsent : ∀ y, a[j]? = some y → comp y p = false) :
    ∀ (fuel f : Nat), f ≤ j → j < fuel + f →
      ∃ f', scan_up comp (Ref.val p) fuel a f = some f' ∧ f ≤ f' ∧ f' ≤ j ∧
        (∀ y, a[f']? = some y → comp y p = false) := by
  intro fuel
  induction fuel with
  | zero => intro f h1 h2; omega
  | succ fuel ih =>
    intro f h1 h2
    obtain ⟨x, hx⟩ := exists_rd (a := a) (i := f) (by omega)
    unfold scan_up
    simp only [rd, hx, deref, Option.some_bind]
    cases hcmp : comp x p with
    | false =>
      simp only [Bool.false_eq_true, if_false]
      exact ⟨f, rfl, Nat.le_refl _, h1, fun y hy => by rw [hx] at hy; cases hy; exact hcmp⟩
    | true =>
      simp only [if_true]
      have hne : f ≠ j := by
        intro e; subst e
        rw [hsent x hx] at hcmp; cases hcmp
      obtain ⟨f', ho, h3, h4, h5⟩ := ih (f + 1) (by omega) (by omega)
      exact ⟨f', ho, by omega, h4, h5⟩

theorem scan_down_val (comp : α → α → Bool) (p : α) (a : List α) (j : Nat)
    (hsent : ∀ y, a[j]? = some y → comp p y = false) :
    ∀ (fuel l : Nat), j ≤ l → l < a.length → l < fuel + j →
      ∃ l', scan_down comp (Ref.val p) fuel a l = some l' ∧ j ≤ l' ∧ l' ≤ l ∧
        (∀ y, a[l']? = some y → comp p y = false) := by
  intro fuel
  induction fuel with
  | zero => intro l h1 h2 h3; omega
  | succ fuel ih =>
    intro l h1 h2 h3
    obtain ⟨x, hx⟩ := exists_rd (a := a) (i := l) h2
    unfold scan_down
    simp only [rd, hx, deref, Option.some_bind]
    cases hcmp : comp p x with
    | false =>
      simp only [Bool.false_eq_true, if_false]
      exact ⟨l, rfl, h1, Nat.le_refl _, fun y hy => by rw [hx] at hy; cases hy; exact hcmp⟩
    | true =>
      simp only [if_true]
      have hne : l ≠ j := by
        intro e; subst e
        rw [hsent x hx] at hcmp; cases hcmp
      rw [if_neg (by omega)]
      obtain ⟨l', ho, h4, h5, h6⟩ := ih (l - 1) (by omega) (by omega) (by omega)
      exact ⟨l', ho, h4, by omega, h6⟩

/-- `unchecked_partition` with a pivot held outside the range: as long as some element at
or after `first` is not less than the pivot and some element before `last` is not greater,
the scans stay between them, and the call returns a cut in `[first, last)` and a
permutation of the storage that leaves everything outside `[first, last)` alone. -/
theorem unchecked_partition_loop_val (comp : α → α → Bool) (p : α) (F L : Nat) :
    ∀ (fuel : Nat) (a : List α) (f l : Nat),
      0 < fuel → l < fuel + f → F ≤ f → l ≤ L → L ≤ a.length →
      (∃ j, f ≤ j ∧ j < L ∧ ∀ y, a[j]? = some y → comp y p = false) →
      (∃ j, F ≤ j ∧ j + 1 ≤ l ∧ ∀ y, a[j]? = some y → comp p y = false) →
      ∃ out cut, unchecked_partition_loop comp (Ref.val p) fuel a f l = some (out, cut) ∧
        out.length = a.length ∧ f ≤ cut ∧ cut < L ∧
        (∀ j, j < F ∨ L ≤ j → out[j]? = a[j]?) ∧ out.Perm a := by
  intro fuel
  induction fuel with
  | zero => intro a f l h0; omega
  | succ fuel ih =>
    intro a f l _ hfuel hFf hlL hL ⟨ju, hju1, hju2, hju3⟩ ⟨jd, hjd1, hjd2, hjd3⟩
    obtain ⟨f1, hf1, hf2, hf3, hf4⟩ := scan_up_val comp p a ju (by omega) hju3
      (a.length + 1) f hju1 (by omega)
    obtain ⟨l1, hl1, hl2, hl3, hl4⟩ := scan_down_val comp p a jd hjd3
      (a.length + 1) (l - 1) (by omega) (by omega) (by omega)
    unfold unchecked_partition_loop
    simp only [hf1, Option.some_bind]
    rw [if_neg (by omega)]
    simp only [hl1, Option.some_bind]
    by_cases hlt : f1 < l1
    · rw [if_neg (by simpa using hlt)]
      obtain ⟨x, hx⟩ := exists_rd (a := a) (i := f1) (by omega)
      obtain ⟨y, hy⟩ := exists_rd (a := a) (i := l1) (by omega)
      have hsw : iter_swap a f1 l1 = some ((a.set f1 y).set l1 x) := by
        unfold iter_swap
        simp only [rd, hx, hy, Option.some_bind, wr, if_pos (show f1 < a.length by omega),
          List.length_set, if_pos (show l1 < a.length by omega)]
      simp only [hsw, Option.some_bind]
      obtain ⟨out, cut, ho, hol, hc1, hc2, hof, hop⟩ := ih ((a.set f1 y).set l1 x) (f1 + 1) l1
        (by omega) (by omega) (by omega) (by omega) (by simpa using hL)
        ⟨l1, by omega, by omega, by
          intro z hz
          rw [List.getElem?_set_self (by simp; omega)] at hz
          cases hz
          exact hf4 x hx⟩
        ⟨f1, by omega, by omega, by
          intro z hz
          rw [List.getElem?_set_ne (by omega), List.getElem?_set_self (by omega)] at hz
          cases hz
          exact hl4 y hy⟩
      refine ⟨out, cut, ho, by simpa using hol, by omega, hc2, ?_,
        hop.trans (perm_set_swap hx hy)⟩
      intro j hj
      rw [hof j hj, List.getElem?_set_ne (by omega), List.getElem?_set_ne (by omega)]
    · rw [if_pos (by simpa using hlt)]
      exact ⟨a, f1, rfl, rfl, hf2, by omega, fun _ _ => rfl, List.Perm.refl _⟩

theorem median_mem {β : Type} (c : β → β → Bool) (l m r : β) :
    median c l m r = l ∨ median c l m r = m ∨ median c l m r = r := by
  unfold median
  split
  · split
    · exact Or.inr (Or.inl rfl)
    · split
      · exact Or.inr (Or.inr rfl)
      · exact Or.inl rfl
  · split
    · exact Or.inl rfl
    · split
      · exact Or.inr (Or.inr rfl)
      · exact Or.inr (Or.inl rfl)

theorem size_cast_of_le {first last : Nat} (h : first ≤ last) :
    size_cast first last = last - first := by
  unfold size_cast; rw [if_pos h]

/-- `intro_sort` returns on every range, whatever comparison picks the median: the pivot
is an element of the range, so no scan leaves the range, and every level of the recursion
has a smaller depth budget; the result is a permutation of the storage that leaves
everything outside `[first, last)` alone. -/
theorem intro_sort_spec {comp : α → α → Bool} (lt : α → α → Bool)
    (hc : StrictWeakOrder comp) :
    ∀ (depth : Nat) (a : List α) (first last : Nat), first ≤ last → last ≤ a.length →
      ∃ out, intro_sort lt comp depth a first last = some out ∧ out.length = a.length ∧
        (∀ j, j < first ∨ last ≤ j → out[j]? = a[j]?) ∧ out.Perm a := by
  intro depth
  induction depth with
  | zero =>
    intro a first last hfl hl
    unfold intro_sort
    rw [size_cast_of_le hfl]
    by_cases hs : last - first > kSmallSectionSize
    · rw [if_pos hs]
      obtain ⟨out, ho, hol, hof, hop, _, _⟩ :=
        partial_sort_spec hc a first last last hfl (Nat.le_refl _) hl
      exact ⟨out, ho, hol, hof, hop⟩
    · rw [if_neg hs]
      exact ⟨a, rfl, rfl, fun _ _ => rfl, List.Perm.refl _⟩
  | succ depth ih =>
    intro a first last hfl hl
    unfold intro_sort
    rw [size_cast_of_le hfl]
    by_cases hs : last - first > kSmallSectionSize
    · rw [if_pos hs]
      have hk : last - first > 128 := hs
      obtain ⟨x, hx⟩ := exists_rd (a := a) (i := first) (by omega)
      obtain ⟨y, hy⟩ := exists_rd (a := a) (i := first + (last - first) / 2) (by omega)
      obtain ⟨z, hz⟩ := exists_rd (a := a) (i := last - 1) (by omega)
      rw [if_neg (by omega)]
      simp only [rd, hx, hy, hz, Option.some_bind]
      -- the pivot is the content of a position of the range
      obtain ⟨k, hk1, hk2, hk3⟩ : ∃ k, first ≤ k ∧ k < last ∧
          a[k]? = some (median lt x y z) := by
        rcases median_mem lt x y z with h | h | h
        · exact ⟨first, Nat.le_refl _, by omega, by rw [h]; exact hx⟩
        · exact ⟨first + (last - first) / 2, by omega, by omega, by rw [h]; exact hy⟩
        · exact ⟨last - 1, by omega, by omega, by rw [h]; exact hz⟩
      obtain ⟨a1, cut, ho1, hol1, hc1, hc2, hof1, hop1⟩ :=
        unchecked_partition_loop_val comp (median lt x y z) first last
          (a.length + 1) a first last (by omega) (by omega) (Nat.le_refl _) (Nat.le_refl _) hl
          ⟨k, hk1, hk2, fun w hw => by rw [hk3] at hw; cases hw; exact hc.irrefl _⟩
          ⟨k, hk1, by omega, fun w hw => by rw [hk3] at hw; cases hw; exact hc.irrefl _⟩
      unfold unchecked_partition
      simp only [ho1, Option.some_bind]
      obtain ⟨a2, ho2, hol2, hof2, hop2⟩ := ih a1 cut last (by omega) (by omega)
      obtain ⟨a3, ho3, hol3, hof3, hop3⟩ := ih a2 first cut hc1 (by omega)
      simp only [ho2, ho3, Option.some_bind]
      refine ⟨a3, rfl, by rw [hol3, hol2, hol1], ?_, (hop3.trans hop2).trans hop1⟩
      intro j hj
      rw [hof3 j (by omega), hof2 j (by omega), hof1 j hj]
    · rw [if_neg hs]
      exact ⟨a, rfl, rfl, fun _ _ => rfl, List.Perm.refl _⟩

theorem slg2_loop_some : ∀ (fuel n k : Nat), n < fuel → ∃ r, slg2_loop fuel n k = some r := by
  intro fuel
  induction fuel with
  | zero => intro n k h; omega
  | succ fuel ih =>
    intro n k h
    unfold slg2_loop
    by_cases h1 : n > 1
    · rw [if_pos h1]
      exact ih (n >>> 1) (k + 1) (by rw [Nat.shiftRight_eq_div_pow]; simp; omega)
    · rw [if_neg h1]
      exact ⟨k, rfl⟩

end mystl

namespace mystl
variable {α : Type}

/-- `final_insertion_sort(first, last)` returns with `[first, last)` sorted ascending,
whatever the range held. -/
theorem final_insertion_sort_spec {comp : α → α → Bool} (hc : StrictWeakOrder comp)
    (a : List α) (first last : Nat) (hfl : first ≤ last) (hl : last ≤ a.length) :
    ∃ out, final_insertion_sort comp a first last = some out ∧ out.length = a.length ∧
      (∀ j, j < first ∨ last ≤ j → out[j]? = a[j]?) ∧ SortedOn comp out first last := by
  unfold final_insertion_sort
  rw [size_cast_of_le hfl]
  by_cases hs : last - first > kSmallSectionSize
  · rw [if_pos hs]
    have hk : last - first > 128 := hs
    have hks : kSmallSectionSize = 128 := rfl
    obtain ⟨a1, ho1, hol1, hof1, hos1⟩ :=
      insertion_sort_spec hc a first (first + kSmallSectionSize) (by omega) (by omega)
    obtain ⟨out, ho2, hol2, hof2, hos2⟩ :=
      unchecked_insertion_sort_spec hc first (last - (first + kSmallSectionSize)) a1
        (first + kSmallSectionSize) (by omega) (by omega) hos1
    simp only [ho1, ho2, Option.some_bind]
    rw [show first + kSmallSectionSize + (last - (first + kSmallSectionSize)) = last by omega]
      at hos2 hof2
    refine ⟨out, rfl, by rw [hol2, hol1], ?_, hos2⟩
    intro j hj
    rw [hof2 j (by omega), hof1 j (by omega)]
  · rw [if_neg hs]
    exact insertion_sort_spec hc a first last hfl hl

theorem sort_comp_spec {comp : α → α → Bool} (lt : α → α → Bool)
    (hc : StrictWeakOrder comp) (a : List α) (first last : Nat) (hfl : first ≤ last)
    (hl : last ≤ a.length) :
    ∃ out, sort_comp lt comp a first last = some out ∧ out.length = a.length ∧
      (∀ j, j < first ∨ last ≤ j → out[j]? = a[j]?) ∧ SortedOn comp out first last := by
  unfold sort_comp
  by_cases h : first = last
  · rw [if_neg (by simpa using h)]
    exact ⟨a, rfl, rfl, fun _ _ => rfl, fun i h1 h2 => by omega⟩
  · rw [if_pos h]
    obtain ⟨k, hk⟩ := slg2_loop_some (last - first + 1) (last - first) 0 (by omega)
    obtain ⟨a1, ho1, hol1, hof1, _⟩ := intro_sort_spec lt hc (k * 2) a first last hfl hl
    obtain ⟨out, ho2, hol2, hof2, hos2⟩ :=
      final_insertion_sort_spec hc a1 first last hfl (by omega)
    simp only [slg2, hk, ho1, ho2, Option.some_bind]
    exact ⟨out, rfl, by rw [hol2, hol1], fun j hj => by rw [hof2 j hj, hof1 j hj], hos2⟩

end mystl

/-! ## The stable merge -/

namespace mystl
variable {α : Type}

theorem stable_merge_nil_right (comp : α → α → Bool) (l : List α) :
    stable_merge comp l [] = l := by
  cases l <;> simp [stable_merge]

theorem stable_merge_nil_left (comp : α → α → Bool) (l : List α) :
    stable_merge comp [] l = l := by
  simp [stable_merge]

theorem stable_merge_cons_cons (comp : α → α → Bool) (x y : α) (xs ys : List α) :
    stable_merge comp (x :: xs) (y :: ys) =
      if comp y x then y :: stable_merge comp (x :: xs) ys
      else x :: stable_merge comp xs (y :: ys) := by
  rw [stable_merge]

/-- Merging splits at matching cuts: when nothing of `D` is less than anything of `A` and
everything of `C` is less than everything of `B`. -/
theorem stable_merge_append (comp : α → α → Bool) :
    ∀ (n : Nat) (A B C D : List α), A.length + C.length ≤ n →
      (∀ a ∈ A, ∀ d ∈ D, comp d a = false) → (∀ b ∈ B, ∀ c ∈ C, comp c b = true) →
      stable_merge comp (A ++ B) (C ++ D) = stable_merge comp A C ++ stable_merge comp B D := by
  intro n
  induction n with
  | zero =>
    intro A B C D hn _ _
    have hA : A = [] := List.length_eq_zero.mp (by omega)
    have hC : C = [] := List.length_eq_zero.mp (by omega)
    subst hA; subst hC
    simp [stable_merge_nil_left]
  | succ n ih =>
    intro A B C D hn h1 h2
    cases A with
    | nil =>
      cases C with
      | nil => simp [stable_merge_nil_left]
      | cons c C' =>
        cases B with
        | nil => simp [stable_merge_nil_left]
        | cons b B' =>
          have hcb : comp c b = true := h2 b (List.mem_cons_self _ _) c (List.mem_cons_self _ _)
          have := ih [] (b :: B') C' D (by simp at hn ⊢; omega) (by intro a ha; cases ha)
            (fun b' hb' c' hc' => h2 b' hb' c' (List.mem_cons_of_mem _ hc'))
          simp only [List.nil_append, stable_merge_nil_left, List.cons_append] at this ⊢
          rw [stable_merge_cons_cons, hcb, if_pos rfl, this]
    | cons a A' =>
      cases C with
      | nil =>
        cases D with
        | nil => simp [stable_merge_nil_right]
        | cons d D' =>
          have hda : comp d a = false := h1 a (List.mem_cons_self _ _) d (List.mem_cons_self _ _)
          have := ih A' B [] (d :: D') (by simp at hn ⊢; omega)
            (fun a' ha' d' hd' => h1 a' (List.mem_cons_of_mem _ ha') d' hd')
            (by intro b hb c hc; cases hc)
          simp only [List.nil_append, stable_merge_nil_right, List.cons_append] at this ⊢
          rw [stable_merge_cons_cons, hda]
          simp only [Bool.false_eq_true, if_false]
          rw [this]
      | cons c C' =>
        simp only [List.cons_append]
        rw [stable_merge_cons_cons, stable_merge_cons_cons]
        cases hca : comp c a with
        | true =>
          simp only [if_true]
          have := ih (a :: A') B C' D (by simp at hn ⊢; omega) h1
            (fun b' hb' c' hc' => h2 b' hb' c' (List.mem_cons_of_mem _ hc'))
          simp only [List.cons_append] at this ⊢
          rw [this]
        | false =>
          simp only [Bool.false_eq_true, if_false]
          have := ih A' B (c :: C') D (by simp at hn ⊢; omega)
            (fun a' ha' d' hd' => h1 a' (List.mem_cons_of_mem _ ha') d' hd') h2
          simp only [List.cons_append] at this ⊢
          rw [this]

theorem stable_merge_perm (comp : α → α → Bool) :
    ∀ (n : Nat) (l1 l2 : List α), l1.length + l2.length ≤ n →
      (stable_merge comp l1 l2).Perm (l1 ++ l2) := by
  intro n
  induction n with
  | zero =>
    intro l1 l2 hn
    have h1 : l1 = [] := List.length_eq_zero.mp (by omega)
    have h2 : l2 = [] := List.length_eq_zero.mp (by omega)
    subst h1; subst h2
    simp [stable_merge_nil_left]
  | succ n ih =>
    intro l1 l2 hn
    cases l1 with
    | nil => simp [stable_merge_nil_left]
    | cons x xs =>
      cases l2 with
      | nil => simp [stable_merge_nil_right]
      | cons y ys =>
        rw [stable_merge_cons_cons]
        split
        · have := ih (x :: xs) ys (by simp at hn ⊢; omega)
          exact (this.cons y).trans (List.perm_middle.symm)
        · have := ih xs (y :: ys) (by simp at hn ⊢; omega)
          exact this.cons x

theorem stable_merge_length (comp : α → α → Bool) (l1 l2 : List α) :
    (stable_merge comp l1 l2).length = l1.length + l2.length := by
  have := (stable_merge_perm comp _ l1 l2 (Nat.le_refl _)).length_eq
  simpa using this

theorem stable_merge_sorted {comp : α → α → Bool} (hc : StrictWeakOrder comp) :
    ∀ (n : Nat) (l1 l2 : List α), l1.length + l2.length ≤ n →
      SortedList comp l1 → SortedList comp l2 → SortedList comp (stable_merge comp l1 l2) := by
  intro n
  induction n with
  | zero =>
    intro l1 l2 hn _ hs2
    have h1 : l1 = [] := List.length_eq_zero.mp (by omega)
    subst h1
    rw [stable_merge_nil_left]; exact hs2
  | succ n ih =>
    intro l1 l2 hn hs1 hs2
    cases l1 with
    | nil => rw [stable_merge_nil_left]; exact hs2
    | cons x xs =>
      cases l2 with
      | nil => rw [stable_merge_nil_right]; exact hs1
      | cons y ys =>
        rw [stable_merge_cons_cons]
        have hx := List.pairwise_cons.mp hs1
        have hy := List.pairwise_cons.mp hs2
        cases hyx : comp y x with
        | true =>
          simp only [if_true]
          refine List.pairwise_cons.mpr ⟨?_, ih (x :: xs) ys (by simp at hn ⊢; omega) hs1 hy.2⟩
          intro z hz
          rcases List.mem_append.mp ((stable_merge_perm comp _ _ _ (Nat.le_refl _)).subset hz)
            with h | h
          · rcases List.mem_cons.mp h with rfl | h'
            · exact hc.asymm hyx
            · exact hc.incomp_trans _ _ _ (hx.1 z h') (hc.asymm hyx)
          · exact hy.1 z h
        | false =>
          simp only [Bool.false_eq_true, if_false]
          refine List.pairwise_cons.mpr ⟨?_, ih xs (y :: ys) (by simp at hn ⊢; omega) hx.2 hs2⟩
          intro z hz
          rcases List.mem_append.mp ((stable_merge_perm comp _ _ _ (Nat.le_refl _)).subset hz)
            with h | h
          · exact hx.1 z h
          · rcases List.mem_cons.mp h with rfl | h'
            · exact hyx
            · exact hc.incomp_trans _ _ _ (hy.1 z h') hyx

theorem stableInterleave_left (comp : α → α → Bool) (l : List α) :
    StableInterleave comp l [] l := by
  induction l with
  | nil => exact StableInterleave.nil
  | cons x xs ih => exact StableInterleave.first x ih

theorem stableInterleave_right (comp : α → α → Bool) (l : List α) :
    StableInterleave comp [] l l := by
  induction l with
  | nil => exact StableInterleave.nil
  | cons x xs ih => exact StableInterleave.second x (by intro z hz; cases hz) ih

theorem stable_merge_interleave {comp : α → α → Bool} (hc : StrictWeakOrder comp) :
    ∀ (n : Nat) (l1 l2 : List α), l1.length + l2.length ≤ n → SortedList comp l1 →
      StableInterleave comp l1 l2 (stable_merge comp l1 l2) := by
  intro n
  induction n with
  | zero =>
    intro l1 l2 hn _
    have h1 : l1 = [] := List.length_eq_zero.mp (by omega)
    have h2 : l2 = [] := List.length_eq_zero.mp (by omega)
    subst h1; subst h2
    rw [stable_merge_nil_left]; exact StableInterleave.nil
  | succ n ih =>
    intro l1 l2 hn hs1
    cases l1 with
    | nil => rw [stable_merge_nil_left]; exact stableInterleave_right comp l2
    | cons x xs =>
      cases l2 with
      | nil => rw [stable_merge_nil_right]; exact stableInterleave_left comp _
      | cons y ys =>
        rw [stable_merge_cons_cons]
        have hx := List.pairwise_cons.mp hs1
        cases hyx : comp y x with
        | true =>
          simp only [if_true]
          refine StableInterleave.second y ?_ (ih (x :: xs) ys (by simp at hn ⊢; omega) hs1)
          intro z hz
          rcases List.mem_cons.mp hz with rfl | h'
          · exact hyx
          · cases hyz : comp y z with
            | true => rfl
            | false =>
              have := hc.incomp_trans _ _ _ hyz (hx.1 z h')
              rw [hyx] at this; cases this
        | false =>
          simp only [Bool.false_eq_true, if_false]
          exact StableInterleave.first x (ih xs (y :: ys) (by simp at hn ⊢; omega) hx.2)

end mystl

namespace mystl
variable {α : Type}

theorem range_append (a : List α) {f m l : Nat} (hfm : f ≤ m) (hml : m ≤ l) :
    range a f m ++ range a m l = range a f l := by
  apply List.ext_getElem?
  intro t
  by_cases hla : l ≤ a.length
  · rw [List.getElem?_append, length_range (by omega), getElem?_range, getElem?_range,
      getElem?_range]
    by_cases h1 : t < m - f
    · rw [if_pos h1, if_pos h1, if_pos (by omega)]
    · rw [if_neg h1]
      by_cases h2 : t < l - f
      · rw [if_pos (by omega), if_pos h2, show m + (t - (m - f)) = f + t by omega]
      · rw [if_neg (by omega), if_neg h2]
  · -- the range runs past the storage: compare through the elements
    rw [List.getElem?_append, getElem?_range, getElem?_range, getElem?_range]
    have hlen : (range a f m).length = min (m - f) (a.length - f) := by
      unfold range; rw [List.length_take, List.length_drop]
    by_cases h1 : t < (range a f m).length
    · rw [if_pos h1, if_pos (by rw [hlen] at h1; omega), if_pos (by rw [hlen] at h1; omega)]
    · rw [if_neg h1]
      rw [hlen] at h1 ⊢
      by_cases h3 : m ≤ a.length
      · rw [show min (m - f) (a.length - f) = m - f by omega] at h1 ⊢
        by_cases h2 : t < l - f
        · rw [if_pos (by omega), if_pos h2, show m + (t - (m - f)) = f + t by omega]
        · rw [if_neg (by omega), if_neg h2]
      · have e1 : a[m + (t - min (m - f) (a.length - f))]? = none :=
          List.getElem?_eq_none (by omega)
        have e2 : a[f + t]? = none := List.getElem?_eq_none (by omega)
        rw [e1, e2]; simp

theorem range_eq_of_frame {a out : List α} {f l : Nat}
    (h : ∀ j, f ≤ j → j < l → out[j]? = a[j]?) : range out f l = range a f l := by
  apply List.ext_getElem?
  intro t
  rw [getElem?_range, getElem?_range]
  split
  · exact h _ (by omega) (by omega)
  · rfl

theorem range_eq_of_getElem? {out X : List α} {f l : Nat}
    (hX : X.length = l - f) (h : ∀ t, t < l - f → out[f + t]? = X[t]?) :
    range out f l = X := by
  apply List.ext_getElem?
  intro t
  rw [getElem?_range]
  split
  · exact h t (by assumption)
  · rw [List.getElem?_eq_none (by omega)]

theorem getElem?_of_range_eq {out X : List α} {f l : Nat} (h : range out f l = X)
    {t : Nat} (ht : t < l - f) : out[f + t]? = X[t]? := by
  rw [← h, getElem?_range, if_pos ht]

theorem sortedOn_pairwise {comp : α → α → Bool} (hc : StrictWeakOrder comp) {a : List α}
    {f l : Nat} (hl : l ≤ a.length) (hs : SortedOn comp a f l) :
    ∀ d i, f ≤ i → i + d < l → NotLess comp a (i + d) i := by
  intro d
  induction d with
  | zero =>
    intro i _ _ x y hx hy
    rw [Nat.add_zero, hy] at hx; cases hx
    exact hc.irrefl _
  | succ d ih =>
    intro i h1 h2 x y hx hy
    obtain ⟨z, hz⟩ := exists_rd (a := a) (i := i + d) (by omega)
    exact hc.incomp_trans _ _ _ (hs (i + d) (by omega) (by omega) x z hx hz)
      (ih i h1 (by omega) z y hz hy)

theorem sortedList_range {comp : α → α → Bool} (hc : StrictWeakOrder comp) {a : List α}
    {f l : Nat} (hl : l ≤ a.length) (hs : SortedOn comp a f l) :
    SortedList comp (range a f l) := by
  unfold SortedList
  rw [List.pairwise_iff_getElem]
  intro i j hi hj hij
  rw [length_range hl] at hi hj
  have h1 : a[f + i]? = some (range a f l)[i] := by
    rw [← List.getElem?_eq_getElem, getElem?_range, if_pos hi]
  have h2 : a[f + j]? = some (range a f l)[j] := by
    rw [← List.getElem?_eq_getElem, getElem?_range, if_pos hj]
  have := sortedOn_pairwise hc hl hs (j - i) (f + i) (by omega) (by omega)
  rw [show f + i + (j - i) = f + j by omega] at this
  exact this _ _ h2 h1

theorem sortedOn_of_sortedList_range {comp : α → α → Bool} {a : List α} {f l : Nat}
    (hfl : f ≤ l) (hs : SortedList comp (range a f l)) : SortedOn comp a f l := by
  intro i h1 h2 y x hy hx
  unfold SortedList at hs
  rw [List.pairwise_iff_getElem] at hs
  have hx' : (range a f l)[i - f]? = some x := by
    rw [getElem?_range, if_pos (by omega), show f + (i - f) = i by omega]; exact hx
  have hy' : (range a f l)[i - f + 1]? = some y := by
    rw [getElem?_range, if_pos (by omega), show f + (i - f + 1) = i + 1 by omega]; exact hy
  obtain ⟨hxl, hxe⟩ := List.getElem?_eq_some.mp hx'
  obtain ⟨hyl, hye⟩ := List.getElem?_eq_some.mp hy'
  have := hs (i - f) (i - f + 1) hxl hyl (by omega)
  rw [hxe, hye] at this
  exact this

end mystl

namespace mystl
variable {α : Type}

theorem lbound_loop_spec (comp : α → α → Bool) (a : List α) (value : α) (F L : Nat)
    (hL : L ≤ a.length)
    (hmono : ∀ i j x y, F ≤ i → i ≤ j → j < L → a[i]? = some x → a[j]? = some y →
      comp y value = true → comp x value = true) :
    ∀ (fuel first len : Nat), len < fuel → F ≤ first → first + len ≤ L →
      (∀ j x, F ≤ j → j < first → a[j]? = some x → comp x value = true) →
      (∀ j x, first + len ≤ j → j < L → a[j]? = some x → comp x value = false) →
      ∃ q, lbound_loop comp a value fuel first len = some q ∧ first ≤ q ∧ q ≤ first + len ∧
        (∀ j x, F ≤ j → j < q → a[j]? = some x → comp x value = true) ∧
        (∀ j x, q ≤ j → j < L → a[j]? = some x → comp x value = false) := by
  intro fuel
  induction fuel with
  | zero => intro first len h; omega
  | succ fuel ih =>
    intro first len hf hF hlen hlo hhi
    unfold lbound_loop
    by_cases h0 : len > 0
    · rw [if_pos h0]
      have hhalf : len >>> 1 = len / 2 := by rw [Nat.shiftRight_eq_div_pow, Nat.pow_one]
      simp only [hhalf]
      obtain ⟨x, hx⟩ := exists_rd (a := a) (i := first + len / 2) (by omega)
      simp only [rd, hx, Option.some_bind]
      cases hcmp : comp x value with
      | true =>
        simp only [if_true]
        obtain ⟨q, hq, h1, h2, h3, h4⟩ := ih (first + len / 2 + 1) (len - len / 2 - 1)
          (by omega) (by omega) (by omega)
          (fun j y hj1 hj2 hy =>
            hmono j (first + len / 2) y x hj1 (by omega) (by omega) hy hx hcmp)
          (fun j y hj1 hj2 hy => hhi j y (by omega) hj2 hy)
        exact ⟨q, hq, by omega, by omega, h3, h4⟩
      | false =>
        simp only [Bool.false_eq_true, if_false]
        obtain ⟨q, hq, h1, h2, h3, h4⟩ := ih first (len / 2) (by omega) hF (by omega) hlo
          (fun j y hj1 hj2 hy => by
            cases hyv : comp y value with
            | false => rfl
            | true =>
              have := hmono (first + len / 2) j x y (by omega) (by omega) hj2 hx hy hyv
              rw [hcmp] at this; cases this)
        exact ⟨q, hq, h1, by omega, h3, h4⟩
    · rw [if_neg h0]
      exact ⟨first, rfl, Nat.le_refl _, by omega, hlo, fun j x h1 h2 hx => hhi j x (by omega) h2 hx⟩

/-- `lower_bound(first, last, value)` on a sorted range: the first position whose element
is not less than `value`. -/
theorem lower_bound_spec {comp : α → α → Bool} (hc : StrictWeakOrder comp) (a : List α)
    (first last : Nat) (value : α) (hfl : first ≤ last) (hl : last ≤ a.length)
    (hs : SortedOn comp a first last) :
    ∃ q, lower_bound comp a first last value = some q ∧ first ≤ q ∧ q ≤ last ∧
      (∀ j x, first ≤ j → j < q → a[j]? = some x → comp x value = true) ∧
      (∀ j x, q ≤ j → j < last → a[j]? = some x → comp x value = false) := by
  unfold lower_bound
  obtain ⟨q, hq, h1, h2, h3, h4⟩ := lbound_loop_spec comp a value first last hl
    (by
      intro i j x y hi hij hj hx hy hyv
      cases hxv : comp x value with
      | true => rfl
      | false =>
        have h := sortedOn_pairwise hc hl hs (j - i) i hi (by omega)
        rw [show i + (j - i) = j by omega] at h
        have := hc.incomp_trans _ _ _ (h y x hy hx) hxv
        rw [hyv] at this; cases this)
    (last - first + 1) first (last - first) (by omega) (Nat.le_refl _) (by omega)
    (fun j x h1 h2 => by omega) (fun j x h1 h2 => by omega)
  exact ⟨q, hq, h1, by omega, h3, h4⟩

theorem ubound_loop_spec (comp : α → α → Bool) (a : List α) (value : α) (F L : Nat)
    (hL : L ≤ a.length)
    (hmono : ∀ i j x y, F ≤ i → i ≤ j → j < L → a[i]? = some x → a[j]? = some y →
      comp value x = true → comp value y = true) :
    ∀ (fuel first len : Nat), len < fuel → F ≤ first → first + len ≤ L →
      (∀ j x, F ≤ j → j < first → a[j]? = some x → comp value x = false) →
      (∀ j x, first + len ≤ j → j < L → a[j]? = some x → comp value x = true) →
      ∃ q, ubound_loop comp a value fuel first len = some q ∧ first ≤ q ∧ q ≤ first + len ∧
        (∀ j x, F ≤ j → j < q → a[j]? = some x → comp value x = false) ∧
        (∀ j x, q ≤ j → j < L → a[j]? = some x → comp value x = true) := by
  intro fuel
  induction fuel with
  | zero => intro first len h; omega
  | succ fuel ih =>
    intro first len hf hF hlen hlo hhi
    unfold ubound_loop
    by_cases h0 : len > 0
    · rw [if_pos h0]
      have hhalf : len >>> 1 = len / 2 := by rw [Nat.shiftRight_eq_div_pow, Nat.pow_one]
      simp only [hhalf]
      obtain ⟨x, hx⟩ := exists_rd (a := a) (i := first + len / 2) (by omega)
      simp only [rd, hx, Option.some_bind]
      cases hcmp : comp value x with
      | true =>
        simp only [if_true]
        obtain ⟨q, hq, h1, h2, h3, h4⟩ := ih first (len / 2) (by omega) hF (by omega) hlo
          (fun j y hj1 hj2 hy =>
            hmono (first + len / 2) j x y (by omega) (by omega) hj2 hx hy hcmp)
        exact ⟨q, hq, h1, by omega, h3, h4⟩
      | false =>
        simp only [Bool.false_eq_true, if_false]
        obtain ⟨q, hq, h1, h2, h3, h4⟩ := ih (first + len / 2 + 1) (len - len / 2 - 1)
          (by omega) (by omega) (by omega)
          (fun j y hj1 hj2 hy => by
            cases hyv : comp value y with
            | false => rfl
            | true =>
              have := hmono j (first + len / 2) y x hj1 (by omega) (by omega) hy hx hyv
              rw [hcmp] at this; cases this)
          (fun j y hj1 hj2 hy => hhi j y (by omega) hj2 hy)
        exact ⟨q, hq, by omega, by omega, h3, h4⟩
    · rw [if_neg h0]
      exact ⟨first, rfl, Nat.le_refl _, by omega, hlo, fun j x h1 h2 hx => hhi j x (by omega) h2 hx⟩

/-- `upper_bound(first, last, value)` on a sorted range: the first position whose element
is greater than `value`. -/
theorem upper_bound_spec {comp : α → α → Bool} (hc : StrictWeakOrder comp) (a : List α)
    (first last : Nat) (value : α) (hfl : first ≤ last) (hl : last ≤ a.length)
    (hs : SortedOn comp a first last) :
    ∃ q, upper_bound comp a first last value = some q ∧ first ≤ q ∧ q ≤ last ∧
      (∀ j x, first ≤ j → j < q → a[j]? = some x → comp value x = false) ∧
      (∀ j x, q ≤ j → j < last → a[j]? = some x → comp value x = true) := by
  unfold upper_bound
  obtain ⟨q, hq, h1, h2, h3, h4⟩ := ubound_loop_spec comp a value first last hl
    (by
      intro i j x y hi hij hj hx hy hvx
      cases hvy : comp value y with
      | true => rfl
      | false =>
        have h := sortedOn_pairwise hc hl hs (j - i) i hi (by omega)
        rw [show i + (j - i) = j by omega] at h
        have := hc.incomp_trans _ _ _ hvy (h y x hy hx)
        rw [hvx] at this; cases this)
    (last - first + 1) first (last - first) (by omega) (Nat.le_refl _) (by omega)
    (fun j x h1 h2 => by omega) (fun j x h1 h2 => by omega)
  exact ⟨q, hq, h1, by omega, h3, h4⟩

end mystl

namespace mystl
variable {α : Type}

theorem range_cons {a : List α} {f l : Nat} {x : α} (hfl : f < l) (hx : a[f]? = some x) :
    range a f l = x :: range a (f + 1) l := by
  apply List.ext_getElem?
  intro t
  rw [getElem?_range]
  cases t with
  | zero =>
    rw [if_pos (by omega), Nat.add_zero, hx, List.getElem?_cons_zero]
  | succ t =>
    rw [List.getElem?_cons_succ, getElem?_range]
    by_cases h : t + 1 < l - f
    · rw [if_pos h, if_pos (by omega), show f + (t + 1) = f + 1 + t by omega]
    · rw [if_neg h, if_neg (by omega)]

theorem range_empty (a : List α) {f l : Nat} (h : l ≤ f) : range a f l = [] := by
  unfold range
  rw [show l - f = 0 by omega, List.take_zero]

theorem range_set_outside {a : List α} {f l k : Nat} (v : α) (hk : k < f ∨ l ≤ k) :
    range (a.set k v) f l = range a f l :=
  range_eq_of_frame (fun j h1 h2 => List.getElem?_set_ne (by omega))

/-- `merge` of a range and the range that follows its destination, into that destination:
the stable merge of the two, everything else untouched. -/
theorem merge_loop_spec (comp : α → α → Bool) (l1 l2 : Nat) :
    ∀ (fuel : Nat) (a : List α) (c1 c2 r : Nat),
      (l1 - c1) + (l2 - c2) < fuel → c1 ≤ l1 → c2 ≤ l2 → l1 ≤ a.length → l2 ≤ a.length →
      c2 = r + (l1 - c1) → (l1 ≤ r ∨ l2 ≤ c1) →
      ∃ out, ((merge_loop comp l1 l2 fuel a c1 c2 r).bind fun (a1, f1, f2, res) =>
          (copy f1 res (l1 - f1) a1).bind fun a2 =>
            copy f2 (res + (l1 - f1)) (l2 - f2) a2) = some out ∧
        out.length = a.length ∧ (∀ j, j < r ∨ l2 ≤ j → out[j]? = a[j]?) ∧
        range out r l2 = stable_merge comp (range a c1 l1) (range a c2 l2) := by
  intro fuel
  induction fuel with
  | zero => intro a c1 c2 r h; omega
  | succ fuel ih =>
    intro a c1 c2 r hf h1 h2 hl1 hl2 hd hdisj
    unfold merge_loop
    by_cases hcond : c1 ≠ l1 ∧ c2 ≠ l2
    · rw [if_pos hcond]
      obtain ⟨y, hy⟩ := exists_rd (a := a) (i := c2) (by omega)
      obtain ⟨x, hx⟩ := exists_rd (a := a) (i := c1) (by omega)
      simp only [rd, hx, hy, Option.some_bind, wr, if_pos (show r < a.length by omega)]
      rw [range_cons (by omega) hx, range_cons (by omega) hy, stable_merge_cons_cons]
      cases hcmp : comp y x with
      | true =>
        simp only [if_true]
        obtain ⟨out, ho, hol, hof, hor⟩ := ih (a.set r y) c1 (c2 + 1) (r + 1) (by omega) h1
          (by omega) (by simpa using hl1) (by simpa using hl2) (by omega) (by omega)
        rw [range_set_outside y (by omega), range_set_outside y (by omega)] at hor
        refine ⟨out, ho, by simpa using hol, ?_, ?_⟩
        · intro j hj
          rw [hof j (by omega), List.getElem?_set_ne (by omega)]
        · have hr : out[r]? = some y := by
            rw [hof r (by omega), List.getElem?_set_self (by omega)]
          rw [range_cons (by omega) hr, hor, ← range_cons (by omega) hx]
      | false =>
        simp only [Bool.false_eq_true, if_false]
        obtain ⟨out, ho, hol, hof, hor⟩ := ih (a.set r x) (c1 + 1) c2 (r + 1) (by omega)
          (by omega) h2 (by simpa using hl1) (by simpa using hl2) (by omega) (by omega)
        rw [range_set_outside x (by omega), range_set_outside x (by omega)] at hor
        refine ⟨out, ho, by simpa using hol, ?_, ?_⟩
        · intro j hj
          rw [hof j (by omega), List.getElem?_set_ne (by omega)]
        · have hr : out[r]? = some x := by
            rw [hof r (by omega), List.getElem?_set_self (by omega)]
          rw [range_cons (by omega) hr, hor, ← range_cons (by omega) hy]
    · rw [if_neg hcond]
      simp only [Option.some_bind]
      by_cases hc1 : c1 = l1
      · subst hc1
        simp only [Nat.sub_self, copy, Option.some_bind, Nat.add_zero]
        obtain ⟨out, ho, hol, hof, hoc⟩ := copy_spec (l2 - c2) a c2 r (by omega) (by omega)
          (by omega)
        refine ⟨out, ho, hol, fun j hj => hof j (by omega), ?_⟩
        rw [range_empty a (Nat.le_refl _), stable_merge_nil_left]
        have : r = c2 := by omega
        subst this
        apply range_eq_of_frame
        intro j hj1 hj2
        have := hoc (j - r) (by omega)
        rw [show r + (j - r) = j by omega] at this
        exact this
      · have hc2 : c2 = l2 := by
          by_cases h : c2 = l2
          · exact h
          · exact absurd ⟨hc1, h⟩ hcond
        subst hc2
        obtain ⟨out, ho, hol, hof, hoc⟩ := copy_spec (l1 - c1) a c1 r (by omega) (by omega)
          (by omega)
        simp only [ho, Option.some_bind, Nat.sub_self, copy]
        refine ⟨out, rfl, hol, fun j hj => hof j (by omega), ?_⟩
        rw [range_empty a (Nat.le_refl _), stable_merge_nil_right]
        apply range_eq_of_getElem?
        · rw [length_range hl1]; omega
        · intro t ht
          rw [hoc t (by omega), getElem?_range, if_pos (by omega)]

end mystl

namespace mystl
variable {α : Type}

theorem sortedList_snoc {comp : α → α → Bool} {X : List α} {x : α}
    (h : SortedList comp (X ++ [x])) : ∀ a ∈ X, comp x a = false := by
  intro a ha
  unfold SortedList at h
  rw [List.pairwise_append] at h
  exact h.2.2 a ha x (List.mem_singleton.mpr rfl)

/-- Merging from the back: the greater of the two last elements comes last, the one of the
second list when neither is less than the other. -/
theorem stable_merge_snoc {comp : α → α → Bool} (hc : StrictWeakOrder comp)
    {X Y : List α} {x y : α} (hX : SortedList comp (X ++ [x]))
    (hY : SortedList comp (Y ++ [y])) :
    stable_merge comp (X ++ [x]) (Y ++ [y]) =
      if comp y x then stable_merge comp X (Y ++ [y]) ++ [x]
      else stable_merge comp (X ++ [x]) Y ++ [y] := by
  cases hcmp : comp y x with
  | true =>
    simp only [if_true]
    have := stable_merge_append comp _ X [x] (Y ++ [y]) [] (Nat.le_refl _)
      (by intro a _ d hd; cases hd)
      (by
        intro b hb c hcm
        rw [List.mem_singleton.mp hb]
        rcases List.mem_append.mp hcm with h | h
        · cases hcx : comp c x with
          | true => rfl
          | false =>
            have := hc.incomp_trans _ _ _ (sortedList_snoc hY c h) hcx
            rw [hcmp] at this; cases this
        · rw [List.mem_singleton.mp h]; exact hcmp)
    rw [List.append_nil, stable_merge_nil_right] at this
    exact this
  | false =>
    simp only [Bool.false_eq_true, if_false]
    have := stable_merge_append comp _ (X ++ [x]) [] Y [y] (Nat.le_refl _)
      (by
        intro a ha d hd
        rw [List.mem_singleton.mp hd]
        rcases List.mem_append.mp ha with h | h
        · exact hc.incomp_trans _ _ _ hcmp (sortedList_snoc hX a h)
        · rw [List.mem_singleton.mp h]; exact hcmp)
      (by intro b hb; cases hb)
    rw [List.append_nil, stable_merge_nil_left] at this
    exact this

theorem sortedList_of_append_left {comp : α → α → Bool} {X Y : List α}
    (h : SortedList comp (X ++ Y)) : SortedList comp X := by
  unfold SortedList at h ⊢
  exact (List.pairwise_append.mp h).1

theorem range_snoc {a : List α} {f e : Nat} {x : α} (hfe : f < e) (hx : a[e - 1]? = some x) :
    range a f e = range a f (e - 1) ++ [x] := by
  have := @range_succ_right α a f (e - 1) x (by omega) hx
  rwa [show e - 1 + 1 = e by omega] at this

theorem merge_backward_loop_spec {comp : α → α → Bool} (hc : StrictWeakOrder comp)
    (first1 first2 : Nat) :
    ∀ (fuel : Nat) (a : List α) (e1 e2 r : Nat),
      (e1 - first1) + (e2 - first2) ≤ fuel → first1 < e1 → first2 < e2 →
      r ≤ a.length → e2 ≤ a.length → r = e1 + (e2 - first2) →
      (e2 ≤ first1 ∨ r ≤ first2) →
      SortedList comp (range a first1 e1) → SortedList comp (range a first2 e2) →
      ∃ out, merge_backward_loop comp first1 first2 fuel a (e1 - 1) (e2 - 1) r = some out ∧
        out.length = a.length ∧ (∀ j, j < first1 ∨ r ≤ j → out[j]? = a[j]?) ∧
        range out first1 r = stable_merge comp (range a first1 e1) (range a first2 e2) := by
  intro fuel
  induction fuel with
  | zero => intro a e1 e2 r h h1 h2; omega
  | succ fuel ih =>
    intro a e1 e2 r hf h1 h2 hr he2 hre hdisj hs1 hs2
    obtain ⟨y, hy⟩ := exists_rd (a := a) (i := e2 - 1) (by omega)
    obtain ⟨x, hx⟩ := exists_rd (a := a) (i := e1 - 1) (by omega)
    unfold merge_backward_loop
    simp only [rd, hx, hy, Option.some_bind]
    rw [if_neg (by omega)]
    rw [range_snoc h1 hx] at hs1
    rw [range_snoc h2 hy] at hs2
    rw [range_snoc h1 hx, range_snoc h2 hy]
    rw [stable_merge_snoc hc hs1 hs2]
    cases hcmp : comp y x with
    | true =>
      simp only [if_true, wr, if_pos (show r - 1 < a.length by omega), Option.some_bind]
      by_cases hex : first1 = e1 - 1
      · rw [if_pos hex]
        obtain ⟨out, ho, hol, hof, hoc⟩ := copy_backward_spec (e2 - 1 + 1 - first2)
          (a.set (r - 1) x) (e2 - 1 + 1) (r - 1) (by omega) (by omega) (by simp; omega)
          (by simp; omega) (by omega)
        refine ⟨out, ho, by simpa using hol, ?_, ?_⟩
        · intro j hj
          rw [hof j (by omega), List.getElem?_set_ne (by omega)]
        · rw [range_empty a (show e1 - 1 ≤ first1 by omega), stable_merge_nil_left,
            ← range_snoc h2 hy]
          have hrx : out[r - 1]? = some x := by
            rw [hof (r - 1) (by omega), List.getElem?_set_self (by omega)]
          rw [range_snoc (by omega) hrx]
          congr 1
          apply range_eq_of_getElem?
          · rw [length_range he2]; omega
          · intro t ht
            have := hoc (r - 1 - (first1 + t)) (by omega) (by omega)
            rw [show r - 1 - (r - 1 - (first1 + t)) = first1 + t by omega,
              show e2 - 1 + 1 - (r - 1 - (first1 + t)) = first2 + t by omega] at this
            rw [this, List.getElem?_set_ne (by omega), getElem?_range, if_pos (by omega)]
      · rw [if_neg hex, if_neg (by omega)]
        obtain ⟨out, ho, hol, hof, hor⟩ := ih (a.set (r - 1) x) (e1 - 1) e2 (r - 1)
          (by omega) (by omega) h2 (by simp; omega) (by simpa using he2) (by omega) (by omega)
          (by rw [range_set_outside x (by omega)]; exact sortedList_of_append_left hs1)
          (by rw [range_set_outside x (by omega), range_snoc h2 hy]; exact hs2)
        rw [range_set_outside x (by omega), range_set_outside x (by omega),
          range_snoc h2 hy] at hor
        refine ⟨out, ho, by simpa using hol, ?_, ?_⟩
        · intro j hj
          rw [hof j (by omega), List.getElem?_set_ne (by omega)]
        · have hrx : out[r - 1]? = some x := by
            rw [hof (r - 1) (by omega), List.getElem?_set_self (by omega)]
          rw [range_snoc (by omega) hrx, hor]
    | false =>
      simp only [Bool.false_eq_true, if_false, wr, if_pos (show r - 1 < a.length by omega),
        Option.some_bind]
      by_cases hex : first2 = e2 - 1
      · rw [if_pos hex]
        obtain ⟨out, ho, hol, hof, hoc⟩ := copy_backward_spec (e1 - 1 + 1 - first1)
          (a.set (r - 1) y) (e1 - 1 + 1) (r - 1) (by omega) (by omega) (by simp; omega)
          (by simp; omega) (by omega)
        refine ⟨out, ho, by simpa using hol, ?_, ?_⟩
        · intro j hj
          rw [hof j (by omega), List.getElem?_set_ne (by omega)]
        · rw [range_empty a (show e2 - 1 ≤ first2 by omega), stable_merge_nil_right,
            ← range_snoc h1 hx]
          have hry : out[r - 1]? = some y := by
            rw [hof (r - 1) (by omega), List.getElem?_set_self (by omega)]
          rw [range_snoc (by omega) hry]
          congr 1
          apply range_eq_of_getElem?
          · rw [length_range (by omega)]; omega
          · intro t ht
            have := hoc (r - 1 - (first1 + t)) (by omega) (by omega)
            rw [show r - 1 - (r - 1 - (first1 + t)) = first1 + t by omega,
              show e1 - 1 + 1 - (r - 1 - (first1 + t)) = first1 + t by omega] at this
            rw [this, List.getElem?_set_ne (by omega), getElem?_range, if_pos (by omega)]
      · rw [if_neg hex, if_neg (by omega)]
        obtain ⟨out, ho, hol, hof, hor⟩ := ih (a.set (r - 1) y) e1 (e2 - 1) (r - 1)
          (by omega) h1 (by omega) (by simp; omega) (by simp; omega) (by omega) (by omega)
          (by rw [range_set_outside y (by omega), range_snoc h1 hx]; exact hs1)
          (by rw [range_set_outside y (by omega)]; exact sortedList_of_append_left hs2)
        rw [range_set_outside y (by omega), range_set_outside y (by omega),
          range_snoc h1 hx] at hor
        refine ⟨out, ho, by simpa using hol, ?_, ?_⟩
        · intro j hj
          rw [hof j (by omega), List.getElem?_set_ne (by omega)]
        · have hry : out[r - 1]? = some y := by
            rw [hof (r - 1) (by omega), List.getElem?_set_self (by omega)]
          rw [range_snoc (by omega) hry, hor]

end mystl

namespace mystl
variable {α : Type}

theorem merge_spec (comp : α → α → Bool) (a : List α) (first1 last1 first2 last2 result : Nat)
    (h1 : first1 ≤ last1) (h2 : first2 ≤ last2) (hl1 : last1 ≤ a.length)
    (hl2 : last2 ≤ a.length) (hd : first2 = result + (last1 - first1))
    (hdisj : last1 ≤ result ∨ last2 ≤ first1) :
    ∃ out, merge comp a first1 last1 first2 last2 result = some out ∧
      out.length = a.length ∧ (∀ j, j < result ∨ last2 ≤ j → out[j]? = a[j]?) ∧
      range out result last2 =
        stable_merge comp (range a first1 last1) (range a first2 last2) := by
  unfold merge
  exact merge_loop_spec comp last1 last2 _ a first1 first2 result (by omega) h1 h2 hl1 hl2 hd
    hdisj

theorem merge_backward_spec {comp : α → α → Bool} (hc : StrictWeakOrder comp) (a : List α)
    (first1 last1 first2 last2 result : Nat)
    (h1 : first1 ≤ last1) (h2 : first2 ≤ last2) (hr : result ≤ a.length)
    (hl2 : last2 ≤ a.length) (hd : result = last1 + (last2 - first2))
    (hdisj : last2 ≤ first1 ∨ result ≤ first2)
    (hs1 : SortedList comp (range a first1 last1))
    (hs2 : SortedList comp (range a first2 last2)) :
    ∃ out, merge_backward comp a first1 last1 first2 last2 result = some out ∧
      out.length = a.length ∧ (∀ j, j < first1 ∨ result ≤ j → out[j]? = a[j]?) ∧
      range out first1 result =
        stable_merge comp (range a first1 last1) (range a first2 last2) := by
  unfold merge_backward
  by_cases he1 : first1 = last1
  · rw [if_pos he1]
    subst he1
    obtain ⟨out, ho, hol, hof, hoc⟩ := copy_backward_spec (last2 - first2) a last2 result
      (by omega) (by omega) hl2 hr (by omega)
    refine ⟨out, ho, hol, fun j hj => hof j (by omega), ?_⟩
    rw [range_empty a (Nat.le_refl _), stable_merge_nil_left]
    apply range_eq_of_getElem?
    · rw [length_range hl2]; omega
    · intro t ht
      have := hoc (result - (first1 + t)) (by omega) (by omega)
      rw [show result - (result - (first1 + t)) = first1 + t by omega,
        show last2 - (result - (first1 + t)) = first2 + t by omega] at this
      rw [this, getElem?_range, if_pos (by omega)]
  · rw [if_neg he1]
    by_cases he2 : first2 = last2
    · rw [if_pos he2]
      subst he2
      obtain ⟨out, ho, hol, hof, hoc⟩ := copy_backward_spec (last1 - first1) a last1 result
        (by omega) (by omega) (by omega) hr (by omega)
      refine ⟨out, ho, hol, fun j hj => hof j (by omega), ?_⟩
      rw [range_empty a (Nat.le_refl _), stable_merge_nil_right]
      have hrl : result = last1 := by omega
      subst hrl
      apply range_eq_of_frame
      intro j hj1 hj2
      have := hoc (result - j) (by omega) (by omega)
      rwa [show result - (result - j) = j by omega] at this
    · rw [if_neg he2, if_neg (by omega)]
      have := merge_backward_loop_spec hc first1 first2 (last1 - first1 + (last2 - first2) + 1)
        a last1 last2 result (by omega) (by omega) (by omega) hr hl2 hd hdisj hs1 hs2
      exact this

end mystl
/-! ## The cycles of the random-access rotate -/

namespace mystl
variable {α : Type}

theorem rgcd_loop_eq : ∀ (fuel m n : Nat), n < fuel → rgcd_loop fuel m n = some (Nat.gcd m n) := by
  intro fuel
  induction fuel with
  | zero => intro m n h; omega
  | succ fuel ih =>
    intro m n h
    unfold rgcd_loop
    by_cases hn : n = 0
    · subst hn
      simp
    · rw [if_pos hn, ih n (m % n) (by have := Nat.mod_lt m (Nat.pos_of_ne_zero hn); omega)]
      congr 1
      rw [Nat.gcd_comm m n, Nat.gcd_rec n m, Nat.gcd_comm]

theorem rgcd_eq (m n : Nat) : rgcd m n = some (Nat.gcd m n) :=
  rgcd_loop_eq (n + 2) m n (by omega)

theorem orbit_lt {l N : Nat} (hN : 0 < N) (s : Nat) : orbit l N s < N := Nat.mod_lt _ hN

theorem orbit_inj {l N : Nat} (hco : Nat.Coprime l N) {s t : Nat} (hs : s < N) (ht : t < N)
    (h : orbit l N s = orbit l N t) : s = t := by
  wlog hst : s ≤ t with H
  · exact (H hco ht hs h.symm (by omega)).symm
  unfold orbit at h
  have h1 : (s * l) ≡ (t * l) [MOD N] := h
  have h2 : N ∣ t * l - s * l := (Nat.modEq_iff_dvd' (Nat.mul_le_mul_right l hst)).mp h1
  rw [← Nat.sub_mul] at h2
  have h3 : N ∣ t - s := (Nat.Coprime.dvd_mul_right hco.symm).mp h2
  have h4 : t - s = 0 := Nat.eq_zero_of_dvd_of_lt h3 (by omega)
  omega

theorem orbit_surj {l N : Nat} (hco : Nat.Coprime l N) (hN : 0 < N) (u : Nat) (hu : u < N) :
    ∃ s, s < N ∧ orbit l N s = u := by
  let f : Fin N → Fin N := fun s => ⟨orbit l N s.1, orbit_lt hN _⟩
  have hinj : Function.Injective f := by
    intro s t hst
    apply Fin.ext
    exact orbit_inj hco s.2 t.2 (Fin.mk.inj hst)
  have hsurj : Function.Surjective f := Finite.injective_iff_surjective.mp hinj
  obtain ⟨s, hs⟩ := hsurj ⟨u, hu⟩
  exact ⟨s.1, s.2, Fin.mk.inj hs⟩

theorem orbit_of_eq {l r u j w : Nat} (h : u + w * r = j * l) (hu : u < l + r) :
    orbit l (l + r) (j + w) = u := by
  unfold orbit
  have : (j + w) * l = u + (l + r) * w := by
    rw [Nat.add_mul, ← h]
    ring
  rw [this, Nat.add_mul_mod_self_left, Nat.mod_eq_of_lt hu]

end mystl

namespace mystl
variable {α : Type}

/-- One move of a cycle: the place reached after `t` moves receives the content of its
successor, which no earlier move has overwritten. -/
theorem cycleInv_step {base d l N : Nat} {cur0 cur : List α} {t : Nat} (hd : 0 < d)
    (hco : Nat.Coprime l N) (ht : t + 1 < N) (hinv : CycleInv base d l N cur0 cur t)
    (hb : ∀ u, u < N → base + d * u < cur0.length) :
    ∃ v, cur[base + d * orbit l N (t + 1)]? = some v ∧
      CycleInv base d l N cur0 (cur.set (base + d * orbit l N t) v) (t + 1) := by
  obtain ⟨hlen, hA, hB⟩ := hinv
  have hN : 0 < N := by omega
  have hpos : ∀ s, base + d * orbit l N s < cur0.length :=
    fun s => hb _ (orbit_lt hN s)
  have hne : ∀ s s', s < N → s' < N → s ≠ s' →
      base + d * orbit l N s ≠ base + d * orbit l N s' := by
    intro s s' hs hs' hss h
    have h1 : d * orbit l N s = d * orbit l N s' := by omega
    exact hss (orbit_inj hco hs hs' (Nat.eq_of_mul_eq_mul_left hd h1))
  obtain ⟨v, hv⟩ := exists_rd (a := cur0) (i := base + d * orbit l N (t + 1)) (hpos _)
  have hsrc : cur[base + d * orbit l N (t + 1)]? = some v := by
    rw [hB _ (fun s hs => hne (t + 1) s ht (by omega) (by omega))]
    exact hv
  refine ⟨v, hsrc, by simpa using hlen, ?_, ?_⟩
  · intro s hs
    by_cases hst : s = t
    · subst hst
      rw [List.getElem?_set_self (by rw [hlen]; exact hpos _), hv]
    · rw [List.getElem?_set_ne (hne t s (by omega) (by omega) (by omega))]
      exact hA s (by omega)
  · intro y hy
    rw [List.getElem?_set_ne (fun e => hy t (by omega) e.symm)]
    exact hB y (fun s hs => hy s (by omega))

end mystl

/-! ## The inner loop of rotate, first form -/

namespace mystl
variable {α : Type}

theorem coprime_orbit {l r : Nat} (hco : Nat.Coprime l r) : Nat.Coprime l (l + r) := by
  rw [Nat.add_comm]
  exact Nat.coprime_add_self_right.mpr hco

/-- The inner loop of the random-access `rotate` for `l < r`, in one cycle: `j` steps by
`+l` and `w` steps by `-r` have been made, the cycle is at place `u`. -/
theorem rotate_cycle_lt_spec {base d l r : Nat} (hd : 0 < d) (hl : 0 < l) (hlr : l < r)
    (hco : Nat.Coprime l r) (cur0 : List α)
    (hb : ∀ u, u < l + r → base + d * u < cur0.length) :
    ∀ (n : Nat) (cur : List α) (u j w : Nat),
      j + n = r → u + w * r = j * l → u < l + r → ((j = 0 ∧ u = 0 ∧ w = 0) ∨ l ≤ u) →
      CycleInv base d l (l + r) cur0 cur (j + w) →
      ∃ out, rotate_cycle_lt base (d * l) (d * r) n cur (base + d * u) =
          some (out, base + d * r) ∧
        CycleInv base d l (l + r) cur0 out (l + r - 1) := by
  intro n
  induction n with
  | zero =>
    intro cur u j w hjn hI hu hst hinv
    have hj : j = r := by omega
    subst hj
    have hul : l ≤ u := by
      rcases hst with ⟨h0, _, _⟩ | h
      · omega
      · exact h
    have h1 : w * j < l * j := by
      rw [Nat.mul_comm l j]
      omega
    have hw : w < l := Nat.lt_of_mul_lt_mul_right h1
    obtain ⟨k, hk⟩ : ∃ k, l = w + k + 1 := ⟨l - w - 1, by omega⟩
    have h2 : u = (k + 1) * j := by
      have : j * l = w * j + (k + 1) * j := by rw [hk]; ring
      omega
    have hk0 : k = 0 := by
      by_contra hne
      have : 2 * j ≤ (k + 1) * j := Nat.mul_le_mul_right j (by omega)
      omega
    subst hk0
    have hu' : u = j := by simpa using h2
    subst hu'
    rw [show u + w = l + u - 1 by omega] at hinv
    exact ⟨cur, rfl, hinv⟩
  | succ n ih =>
    intro cur u j w hjn hI hu hst hinv
    have hjr : j < r := by omega
    have hmul : (j + 1) * l ≤ r * l := Nat.mul_le_mul_right l (by omega)
    have hsucc : (j + 1) * l = j * l + l := Nat.succ_mul j l
    have hlen := hinv.1
    -- the optional step back by `r`
    have hback : ∃ cur1 u1 w1,
        (if base + d * u > base + d * r then
            (rd cur (base + d * u - d * r)).bind fun x =>
              (wr cur (base + d * u) x).map fun a1 => (a1, base + d * u - d * r)
          else some (cur, base + d * u)) = some (cur1, base + d * u1) ∧
        u1 < r ∧ u1 + w1 * r = j * l ∧
        CycleInv base d l (l + r) cur0 cur1 (j + w1) := by
      by_cases hur : r < u
      · have hdu : d * r < d * u := Nat.mul_lt_mul_of_pos_left hur hd
        rw [if_pos (by omega)]
        have e1 : (w + 1) * r = w * r + r := Nat.succ_mul w r
        have e3 : (w + 1) * r < l * r := by rw [e1, Nat.mul_comm l r]; omega
        have e4 : w + 1 < l := Nat.lt_of_mul_lt_mul_right e3
        have horb : orbit l (l + r) (j + w + 1) = u - r := by
          rw [Nat.add_assoc]
          exact orbit_of_eq (by rw [e1]; omega) (by omega)
        have horb0 : orbit l (l + r) (j + w) = u := orbit_of_eq hI hu
        obtain ⟨v, hv, hinv1⟩ := cycleInv_step hd (coprime_orbit hco)
          (show j + w + 1 < l + r by omega) hinv hb
        rw [horb] at hv
        rw [horb0] at hinv1
        have hp : base + d * u - d * r = base + d * (u - r) := by
          rw [Nat.mul_sub_left_distrib]; omega
        have hdN := hb u hu
        simp only [rd, hp, hv, Option.some_bind, wr,
          if_pos (show base + d * u < cur.length by omega), Option.map_some']
        exact ⟨_, u - r, w + 1, rfl, by omega, by rw [e1]; omega, hinv1⟩
      · have hdu : d * u ≤ d * r := Nat.mul_le_mul_left d (by omega)
        rw [if_neg (by omega)]
        have hne : u ≠ r := by
          intro e
          subst e
          have e1 : (w + 1) * u = j * l := by rw [Nat.succ_mul]; omega
          have hdvd : u ∣ j * l := ⟨w + 1, by rw [← e1, Nat.mul_comm]⟩
          have hdj : u ∣ j := (Nat.Coprime.dvd_of_dvd_mul_right hco.symm hdvd)
          rcases Nat.eq_zero_or_pos j with h0 | hpos
          · subst h0
            rcases hst with ⟨_, h, _⟩ | h <;> omega
          · have := Nat.le_of_dvd hpos hdj
            omega
        exact ⟨cur, u, w, rfl, by omega, hI, hinv⟩
    obtain ⟨cur1, u1, w1, hb1, hu1, hI1, hinv1⟩ := hback
    unfold rotate_cycle_lt
    simp only [hb1, Option.some_bind]
    -- the step forward by `l`
    have f1 : w1 * r < l * r := by rw [Nat.mul_comm l r]; omega
    have f2 : w1 < l := Nat.lt_of_mul_lt_mul_right f1
    have horb : orbit l (l + r) (j + w1 + 1) = u1 + l := by
      rw [show j + w1 + 1 = j + 1 + w1 by omega]
      exact orbit_of_eq (by rw [hsucc]; omega) (by omega)
    have horb0 : orbit l (l + r) (j + w1) = u1 := orbit_of_eq hI1 (by omega)
    obtain ⟨v, hv, hinv2⟩ := cycleInv_step hd (coprime_orbit hco)
      (show j + w1 + 1 < l + r by omega) hinv1 hb
    rw [horb] at hv
    rw [horb0] at hinv2
    have hp : base + d * u1 + d * l = base + d * (u1 + l) := by
      rw [Nat.mul_add]; omega
    have hdN := hb u1 (by omega)
    have hlen1 := hinv1.1
    simp only [rd, hp, hv, Option.some_bind, wr,
      if_pos (show base + d * u1 < cur1.length by omega)]
    exact ih _ (u1 + l) (j + 1) w1 (by omega) (by rw [hsucc]; omega) (by omega)
      (Or.inr (by omega))
      (by rw [show j + 1 + w1 = j + w1 + 1 by omega]; exact hinv2)

end mystl

/-! ## The inner loop of rotate, second form -/

namespace mystl
variable {α : Type}

/-- The inner loop of the random-access `rotate` for `l > r`, in one cycle: `f` steps by
`+l` and `w` steps by `-r` have been made, the cycle is at place `u`. -/
theorem rotate_cycle_ge_spec {base d l r last i : Nat} (hd : 0 < d) (hr : 0 < r)
    (hlr : r < l) (hco : Nat.Coprime l r) (hi : i < d) (hlast : last + i = base + d * (l + r))
    (cur0 : List α) (hb : ∀ u, u < l + r → base + d * u < cur0.length) :
    ∀ (n : Nat) (cur : List α) (u f w : Nat),
      w + n = l - 1 → u + w * r = f * l → u < l →
      CycleInv base d l (l + r) cur0 cur (f + w) →
      ∃ out, rotate_cycle_ge last (d * l) (d * r) n cur (base + d * u) =
          some (out, base + d * r) ∧
        CycleInv base d l (l + r) cur0 out (l + r - 1) := by
  intro n
  induction n with
  | zero =>
    intro cur u f w hwn hI hu hinv
    obtain ⟨k, hk⟩ : ∃ k, l = k + 1 := ⟨l - 1, by omega⟩
    subst hk
    have hw : w = k := by omega
    subst hw
    have e0 : w * r = r * w := Nat.mul_comm w r
    have hfr : f = r := by
      rcases Nat.lt_trichotomy f r with h | h | h
      · have h1 : (f + 1) * (w + 1) ≤ r * (w + 1) := Nat.mul_le_mul_right _ (by omega)
        have h2 : (f + 1) * (w + 1) = f * (w + 1) + (w + 1) := Nat.succ_mul _ _
        have h3 : r * (w + 1) = r * w + r := Nat.mul_succ _ _
        omega
      · exact h
      · have h1 : (r + 1) * (w + 1) ≤ f * (w + 1) := Nat.mul_le_mul_right _ (by omega)
        have h2 : (r + 1) * (w + 1) = r * (w + 1) + (w + 1) := Nat.succ_mul _ _
        have h3 : r * (w + 1) = r * w + r := Nat.mul_succ _ _
        omega
    subst hfr
    have hu' : u = f := by
      have h3 : f * (w + 1) = f * w + f := Nat.mul_succ _ _
      omega
    subst hu'
    rw [show u + w = w + 1 + u - 1 by omega] at hinv
    exact ⟨cur, rfl, hinv⟩
  | succ n ih =>
    intro cur u f w hwn hI hu hinv
    have hw2 : w + 2 ≤ l := by omega
    have hlen := hinv.1
    have hw1 : (w + 1) * r = w * r + r := Nat.succ_mul w r
    have hw2' : (w + 2) * r ≤ l * r := Nat.mul_le_mul_right r hw2
    have hw3 : (w + 2) * r = (w + 1) * r + r := Nat.succ_mul (w + 1) r
    -- the optional step forward by `l`
    have hfwd : ∃ cur1 u1 f1,
        (if base + d * u + d * l < last then
            (rd cur (base + d * u + d * l)).bind fun x =>
              (wr cur (base + d * u) x).map fun a1 => (a1, base + d * u + d * l)
          else some (cur, base + d * u)) = some (cur1, base + d * u1) ∧
        r ≤ u1 ∧ u1 < l + r ∧ u1 + w * r = f1 * l ∧
        CycleInv base d l (l + r) cur0 cur1 (f1 + w) := by
      have hmul : d * (l + r) = d * l + d * r := Nat.mul_add d l r
      by_cases hur : u < r
      · have hdu : d * (u + 1) ≤ d * r := Nat.mul_le_mul_left d hur
        have hdu' : d * (u + 1) = d * u + d := Nat.mul_succ d u
        rw [if_pos (by omega)]
        have e3 : f * l < r * l := by rw [Nat.mul_comm r l]; omega
        have e4 : f < r := Nat.lt_of_mul_lt_mul_right e3
        have hsucc : (f + 1) * l = f * l + l := Nat.succ_mul f l
        have horb : orbit l (l + r) (f + w + 1) = u + l := by
          rw [show f + w + 1 = f + 1 + w by omega]
          exact orbit_of_eq (by rw [hsucc]; omega) (by omega)
        have horb0 : orbit l (l + r) (f + w) = u := orbit_of_eq hI (by omega)
        obtain ⟨v, hv, hinv1⟩ := cycleInv_step hd (coprime_orbit hco)
          (show f + w + 1 < l + r by omega) hinv hb
        rw [horb] at hv
        rw [horb0] at hinv1
        have hp : base + d * u + d * l = base + d * (u + l) := by
          rw [Nat.mul_add]; omega
        have hdN := hb u (by omega)
        simp only [rd, hp, hv, Option.some_bind, wr,
          if_pos (show base + d * u < cur.length by omega), Option.map_some']
        exact ⟨_, u + l, f + 1, rfl, by omega, by omega, by rw [hsucc]; omega,
          by rw [show f + 1 + w = f + w + 1 by omega]; exact hinv1⟩
      · have hdu : d * r ≤ d * u := Nat.mul_le_mul_left d (by omega)
        rw [if_neg (by omega)]
        exact ⟨cur, u, f, rfl, by omega, by omega, hI, hinv⟩
    obtain ⟨cur1, u1, f1, hf1, hru1, hu1, hI1, hinv1⟩ := hfwd
    unfold rotate_cycle_ge
    simp only [hf1, Option.some_bind]
    have hdu1 : d * r ≤ d * u1 := Nat.mul_le_mul_left d hru1
    rw [if_neg (by omega)]
    -- the step back by `r`
    have g1 : f1 * l < (r + 1) * l := by
      rw [Nat.succ_mul, Nat.mul_comm r l]; omega
    have g2 : f1 < r + 1 := Nat.lt_of_mul_lt_mul_right g1
    have horb : orbit l (l + r) (f1 + w + 1) = u1 - r := by
      rw [Nat.add_assoc]
      exact orbit_of_eq (by rw [hw1]; omega) (by omega)
    have horb0 : orbit l (l + r) (f1 + w) = u1 := orbit_of_eq hI1 hu1
    obtain ⟨v, hv, hinv2⟩ := cycleInv_step hd (coprime_orbit hco)
      (show f1 + w + 1 < l + r by omega) hinv1 hb
    rw [horb] at hv
    rw [horb0] at hinv2
    have hp : base + d * u1 - d * r = base + d * (u1 - r) := by
      rw [Nat.mul_sub_left_distrib]; omega
    have hdN := hb u1 hu1
    have hlen1 := hinv1.1
    simp only [rd, hp, hv, Option.some_bind, wr,
      if_pos (show base + d * u1 < cur1.length by omega)]
    exact ih _ (u1 - r) f1 (w + 1) (by omega) (by rw [hw1]; omega) (by omega)
      (by rw [show f1 + (w + 1) = f1 + w + 1 by omega]; exact hinv2)

end mystl

/-! ## The outer loop of rotate -/

namespace mystl
variable {α : Type}

theorem orbit_succ_eq {l r s : Nat} (hr : 0 < r) :
    orbit l (l + r) (s + 1) =
      if orbit l (l + r) s < r then orbit l (l + r) s + l else orbit l (l + r) s - r := by
  have hu : orbit l (l + r) s < l + r := orbit_lt (by omega) s
  have h1 : orbit l (l + r) (s + 1) = (orbit l (l + r) s + l) % (l + r) := by
    unfold orbit
    rw [Nat.succ_mul, Nat.add_mod, Nat.mod_eq_of_lt (show l < l + r by omega)]
  rw [h1]
  split
  · exact Nat.mod_eq_of_lt (by omega)
  · rw [Nat.mod_eq_sub_mod (by omega), Nat.mod_eq_of_lt (by omega)]
    omega

theorem orbit_last {l r : Nat} (hl : 0 < l) (hr : 0 < r) : orbit l (l + r) (l + r - 1) = r := by
  have h : r + (l - 1) * r = r * l := by
    obtain ⟨k, hk⟩ : ∃ k, l = k + 1 := ⟨l - 1, by omega⟩
    subst hk
    rw [Nat.add_sub_cancel, Nat.mul_succ, Nat.mul_comm k r]
    omega
  have := orbit_of_eq (l := l) (r := r) (u := r) (j := r) (w := l - 1) h (by omega)
  rwa [show r + (l - 1) = l + r - 1 by omega] at this

/-- The outer loop of the random-access `rotate`, `d` cycles of `l + r` places each: after
`i` cycles the places with a residue below `i` hold their final content. -/
theorem rotate_outer_spec {F d l r : Nat} (hd : 0 < d) (hl : 0 < l) (hr : 0 < r)
    (hlr : l ≠ r) (hco : Nat.Coprime l r) (a0 : List α)
    (hlast : F + d * (l + r) ≤ a0.length) :
    ∀ (n : Nat) (cur : List α) (i : Nat), i + n = d → cur.length = a0.length →
      (∀ x, x < d * (l + r) → x % d < i →
        cur[F + x]? = a0[F + rotSource (d * l) (d * r) x]?) →
      (∀ y, (∀ x, x < d * (l + r) → x % d < i → y ≠ F + x) → cur[y]? = a0[y]?) →
      ∃ out, rotate_outer (F + d * (l + r)) (d * l) (d * r) d n cur (F + i) = some out ∧
        out.length = a0.length ∧
        (∀ x, x < d * (l + r) → out[F + x]? = a0[F + rotSource (d * l) (d * r) x]?) ∧
        (∀ y, (∀ x, x < d * (l + r) → y ≠ F + x) → out[y]? = a0[y]?) := by
  intro n
  induction n with
  | zero =>
    intro cur i hin hlen h1 h2
    have hid : i = d := by omega
    subst hid
    exact ⟨cur, rfl, hlen, fun x hx => h1 x hx (Nat.mod_lt _ hd),
      fun y hy => h2 y (fun x hx _ => hy x hx)⟩
  | succ n ih =>
    intro cur i hin hlen h1 h2
    have hid : i < d := by omega
    have hres : ∀ u, (i + d * u) % d = i := by
      intro u
      rw [Nat.add_mul_mod_self_left, Nat.mod_eq_of_lt hid]
    have hmulN : ∀ u, u < l + r → i + d * u < d * (l + r) := by
      intro u hu
      have h3 : d * (u + 1) ≤ d * (l + r) := Nat.mul_le_mul_left d hu
      have h4 : d * (u + 1) = d * u + d := Nat.mul_succ d u
      omega
    have hpos : ∀ u, u < l + r → F + i + d * u < cur.length := by
      intro u hu
      have := hmulN u hu
      omega
    have hunch : ∀ u, u < l + r → cur[F + i + d * u]? = a0[F + i + d * u]? := by
      intro u hu
      apply h2
      intro x hx hxi e
      have : x = i + d * u := by omega
      rw [this, hres] at hxi
      omega
    obtain ⟨tmp, htmp⟩ := exists_rd (a := cur) (i := F + i) (by
      have := hpos 0 (by omega); simpa using this)
    have hinv0 : CycleInv (F + i) d l (l + r) cur cur 0 :=
      ⟨rfl, fun s hs => by omega, fun _ _ => rfl⟩
    have hcyc : ∃ out1, (if d * l < d * r then
          rotate_cycle_lt (F + i) (d * l) (d * r) (d * r / d) cur (F + i)
        else rotate_cycle_ge (F + d * (l + r)) (d * l) (d * r) (d * l / d - 1) cur (F + i)) =
          some (out1, F + i + d * r) ∧
        CycleInv (F + i) d l (l + r) cur out1 (l + r - 1) := by
      rw [Nat.mul_div_cancel_left _ hd, Nat.mul_div_cancel_left _ hd]
      by_cases hlt : l < r
      · rw [if_pos (Nat.mul_lt_mul_of_pos_left hlt hd)]
        have := rotate_cycle_lt_spec hd hl hlt hco cur hpos r cur 0 0 0 (by omega) (by simp)
          (by omega) (Or.inl ⟨rfl, rfl, rfl⟩) hinv0
        simpa using this
      · have hgt : r < l := by omega
        have hnl : ¬ d * l < d * r := by
          have := Nat.mul_le_mul_left d (Nat.le_of_lt hgt)
          omega
        rw [if_neg hnl]
        have := @rotate_cycle_ge_spec α _ d l r (F + d * (l + r)) i hd hr hgt hco hid
          (by omega) cur hpos (l - 1) cur 0 0 0 (by omega) (by simp) (by omega) hinv0
        simpa using this
    obtain ⟨out1, hc1, hlen1, hA, hB⟩ := hcyc
    have hwr : wr out1 (F + i + d * r) tmp = some (out1.set (F + i + d * r) tmp) := by
      simp only [wr]
      rw [if_pos (by rw [hlen1]; exact hpos r (by omega))]
    unfold rotate_outer
    simp only [rd, htmp, hc1, Option.some_bind, hwr]
    have hco' := coprime_orbit hco
    have hNpos : 0 < l + r := by omega
    apply ih _ (i + 1) (by omega) (by rw [List.length_set, hlen1, hlen])
    · intro x hx hxi
      by_cases hxlt : x % d < i
      · have hne : ∀ u, F + x ≠ F + i + d * u := by
          intro u e
          have : x = i + d * u := by omega
          rw [this, hres] at hxlt
          omega
        rw [List.getElem?_set_ne (fun e => hne r e.symm), hB _ (fun s _ => hne _)]
        exact h1 x hx hxlt
      · have hxe : x % d = i := by omega
        have hxu : x = i + d * (x / d) := by
          have := Nat.mod_add_div x d
          omega
        have hu : x / d < l + r := Nat.div_lt_of_lt_mul hx
        obtain ⟨s, hs, hso⟩ := orbit_surj hco' hNpos (x / d) hu
        have hsrc : F + rotSource (d * l) (d * r) x =
            F + i + d * (if x / d < r then x / d + l else x / d - r) := by
          unfold rotSource
          by_cases hur : x / d < r
          · have h3 : d * (x / d + 1) ≤ d * r := Nat.mul_le_mul_left d hur
            have h4 : d * (x / d + 1) = d * (x / d) + d := Nat.mul_succ d _
            rw [if_pos (by omega), if_pos hur, Nat.mul_add]
            omega
          · have h3 : d * r ≤ d * (x / d) := Nat.mul_le_mul_left d (by omega)
            rw [if_neg (by omega), if_neg hur, Nat.mul_sub_left_distrib]
            omega
        rw [hsrc, show F + x = F + i + d * (x / d) by omega]
        by_cases hsl : s = l + r - 1
        · have hur : x / d = r := by rw [← hso, hsl, orbit_last hl hr]
          rw [hur, List.getElem?_set_self (by rw [hlen1]; exact hpos r (by omega)),
            if_neg (by omega), Nat.sub_self, Nat.mul_zero, Nat.add_zero, ← htmp]
          have := hunch 0 (by omega)
          simpa using this
        · have hne : F + i + d * r ≠ F + i + d * (x / d) := by
            intro e
            have e1 : d * r = d * (x / d) := by omega
            have e2 := Nat.eq_of_mul_eq_mul_left hd e1
            have e3 : orbit l (l + r) (l + r - 1) = orbit l (l + r) s := by
              rw [orbit_last hl hr, hso]; exact e2
            exact hsl (orbit_inj hco' (by omega) hs e3).symm
          rw [List.getElem?_set_ne hne]
          have hA' := hA s (by omega)
          rw [hso, orbit_succ_eq hr, hso] at hA'
          rw [hA']
          apply hunch
          split <;> omega
    · intro y hy
      have hne : ∀ u, u < l + r → y ≠ F + i + d * u := by
        intro u hu e
        exact hy (i + d * u) (hmulN u hu) (by rw [hres]; omega) (by omega)
      rw [List.getElem?_set_ne (fun e => hne r (by omega) e.symm),
        hB y (fun s _ => hne _ (orbit_lt hNpos s))]
      exact h2 y (fun x hx hxi => hy x hx (by omega))

end mystl

/-! ## rotate -/

namespace mystl
variable {α : Type}

theorem swap_ranges_spec :
    ∀ (n : Nat) (a : List α) (f1 f2 : Nat), f1 + n ≤ f2 → f2 + n ≤ a.length →
      ∃ out, swap_ranges n a f1 f2 = some out ∧ out.length = a.length ∧
        (∀ t, t < n → out[f1 + t]? = a[f2 + t]?) ∧ (∀ t, t < n → out[f2 + t]? = a[f1 + t]?) ∧
        (∀ j, (j < f1 ∨ f1 + n ≤ j) → (j < f2 ∨ f2 + n ≤ j) → out[j]? = a[j]?) := by
  intro n
  induction n with
  | zero =>
    intro a f1 f2 _ _
    exact ⟨a, rfl, rfl, fun t h => by omega, fun t h => by omega, fun _ _ _ => rfl⟩
  | succ n ih =>
    intro a f1 f2 h1 h2
    obtain ⟨x, hx⟩ := exists_rd (a := a) (i := f1) (by omega)
    obtain ⟨y, hy⟩ := exists_rd (a := a) (i := f2) (by omega)
    have hsw : iter_swap a f1 f2 = some ((a.set f1 y).set f2 x) := by
      unfold iter_swap
      simp only [rd, hx, hy, Option.some_bind, wr, if_pos (show f1 < a.length by omega),
        List.length_set, if_pos (show f2 < a.length by omega)]
    unfold swap_ranges
    simp only [hsw, Option.some_bind]
    obtain ⟨out, ho, hol, ho1, ho2, hof⟩ := ih ((a.set f1 y).set f2 x) (f1 + 1) (f2 + 1)
      (by omega) (by simp; omega)
    refine ⟨out, ho, by simpa using hol, ?_, ?_, ?_⟩
    · intro t ht
      by_cases h0 : t = 0
      · subst h0
        rw [Nat.add_zero, Nat.add_zero, hof f1 (by omega) (by omega),
          List.getElem?_set_ne (by omega), List.getElem?_set_self (by omega), hy]
      · have := ho1 (t - 1) (by omega)
        rw [show f1 + 1 + (t - 1) = f1 + t by omega,
          show f2 + 1 + (t - 1) = f2 + t by omega] at this
        rw [this, List.getElem?_set_ne (by omega), List.getElem?_set_ne (by omega)]
    · intro t ht
      by_cases h0 : t = 0
      · subst h0
        rw [Nat.add_zero, Nat.add_zero, hof f2 (by omega) (by omega),
          List.getElem?_set_self (by simp; omega), hx]
      · have := ho2 (t - 1) (by omega)
        rw [show f1 + 1 + (t - 1) = f1 + t by omega,
          show f2 + 1 + (t - 1) = f2 + t by omega] at this
        rw [this, List.getElem?_set_ne (by omega), List.getElem?_set_ne (by omega)]
    · intro j hj1 hj2
      rw [hof j (by omega) (by omega), List.getElem?_set_ne (by omega),
        List.getElem?_set_ne (by omega)]

theorem getElem?_append_range (a : List α) {first middle last t : Nat}
    (h1 : first ≤ middle) (h2 : middle ≤ last) (h3 : last ≤ a.length) (ht : t < last - first) :
    (range a middle last ++ range a first middle)[t]? =
      a[first + rotSource (middle - first) (last - middle) t]? := by
  rw [List.getElem?_append, length_range h3, getElem?_range, getElem?_range]
  unfold rotSource
  by_cases htr : t < last - middle
  · rw [if_pos htr, if_pos htr, if_pos htr, show middle + t = first + (t + (middle - first)) by omega]
  · rw [if_neg htr, if_neg htr, if_pos (by omega)]

/-- `rotate(first, middle, last)`, random-access version: the range then holds the old
`[middle, last)` followed by the old `[first, middle)`, the returned position is
`first + (last - middle)`, and nothing else changes. -/
theorem rotate_spec (a : List α) (first middle last : Nat) (h1 : first ≤ middle)
    (h2 : middle ≤ last) (h3 : last ≤ a.length) :
    ∃ out, rotate a first middle last = some (out, first + (last - middle)) ∧
      out.length = a.length ∧ (∀ j, j < first ∨ last ≤ j → out[j]? = a[j]?) ∧
      range out first last = range a middle last ++ range a first middle := by
  unfold rotate
  by_cases hfm : first = middle
  · rw [if_pos hfm]
    subst hfm
    refine ⟨a, by rw [show first + (last - first) = last by omega], rfl, fun _ _ => rfl, ?_⟩
    rw [range_empty a (Nat.le_refl _), List.append_nil]
  · rw [if_neg hfm]
    by_cases hml : middle = last
    · rw [if_pos hml]
      subst hml
      refine ⟨a, by simp, rfl, fun _ _ => rfl, ?_⟩
      rw [range_empty a (Nat.le_refl _), List.nil_append]
    · rw [if_neg hml]
      unfold rotate_dispatch
      simp only [show last - first - (middle - first) = last - middle by omega]
      by_cases hlr : middle - first = last - middle
      · rw [if_pos hlr]
        obtain ⟨out, ho, hol, ho1, ho2, hof⟩ := swap_ranges_spec (middle - first) a first middle
          (by omega) (by omega)
        simp only [ho, Option.map_some']
        refine ⟨out, rfl, hol, fun j hj => hof j (by omega) (by omega), ?_⟩
        apply range_eq_of_getElem?
        · rw [List.length_append, length_range h3, length_range (by omega)]; omega
        · intro t ht
          rw [getElem?_append_range a h1 h2 h3 ht]
          unfold rotSource
          by_cases htr : t < last - middle
          · rw [if_pos htr, ho1 t (by omega)]
            congr 1; omega
          · rw [if_neg htr]
            have := ho2 (t - (middle - first)) (by omega)
            rw [show middle + (t - (middle - first)) = first + t by omega] at this
            rw [this]
            congr 1; omega
      · rw [if_neg hlr, rgcd_eq]
        simp only [Option.some_bind]
        have hgpos : 0 < Nat.gcd (last - first) (middle - first) :=
          Nat.gcd_pos_of_pos_right _ (by omega)
        rw [if_neg (by omega)]
        obtain ⟨l', hl'⟩ := Nat.gcd_dvd_right (last - first) (middle - first)
        obtain ⟨n', hn'⟩ := Nat.gcd_dvd_left (last - first) (middle - first)
        generalize hdef : Nat.gcd (last - first) (middle - first) = d at *
        have hco0 := Nat.coprime_div_gcd_div_gcd (m := last - first) (n := middle - first)
          (by rw [hdef]; exact hgpos)
        rw [hdef] at hco0
        have hn'' : (last - first) / d = n' := by rw [hn', Nat.mul_div_cancel_left _ hgpos]
        have hl'' : (middle - first) / d = l' := by rw [hl', Nat.mul_div_cancel_left _ hgpos]
        rw [hn'', hl''] at hco0
        have hln : l' ≤ n' := by
          have : d * l' ≤ d * n' := by omega
          exact Nat.le_of_mul_le_mul_left this hgpos
        obtain ⟨r', hr'⟩ : ∃ r', n' = l' + r' := ⟨n' - l', by omega⟩
        subst hr'
        have hmul : d * (l' + r') = d * l' + d * r' := Nat.mul_add d l' r'
        have hr : last - middle = d * r' := by omega
        have hco : Nat.Coprime l' r' := (Nat.coprime_self_add_left.mp hco0).symm
        have hl'pos : 0 < l' := Nat.pos_of_ne_zero (fun e => by subst e; omega)
        have hr'pos : 0 < r' := Nat.pos_of_ne_zero (fun e => by subst e; omega)
        have hne : l' ≠ r' := fun e => by subst e; omega
        obtain ⟨out, ho, hol, ho1, ho2⟩ := rotate_outer_spec (F := first) hgpos hl'pos hr'pos
          hne hco a (by omega) d a 0 (by omega) rfl (fun x _ hx => by omega) (fun _ _ => rfl)
        rw [show first + d * (l' + r') = last by omega, Nat.add_zero] at ho
        rw [hl', hr, ho]
        simp only [Option.map_some']
        refine ⟨out, rfl, hol, fun j hj => ho2 j (fun x hx => by omega), ?_⟩
        apply range_eq_of_getElem?
        · rw [List.length_append, length_range h3, length_range (by omega)]; omega
        · intro t ht
          rw [getElem?_append_range a h1 h2 h3 ht, ho1 t (by omega), hl', hr]

end mystl

/-! ## rotate_adaptive -/

namespace mystl
variable {α : Type}

/-- `rotate_adaptive` with the scratch buffer `[buffer, buffer + buffer_size)` outside
`[first, last)`: the same outcome as `rotate`, on each of its three paths; only the range
and the buffer change. -/
theorem rotate_adaptive_spec (a : List α) (first middle last buffer bs : Nat)
    (h1 : first ≤ middle) (h2 : middle ≤ last) (h3 : last ≤ a.length)
    (hb : buffer + bs ≤ a.length) (hd : last ≤ buffer ∨ buffer + bs ≤ first) :
    ∃ out, rotate_adaptive a first middle last (middle - first) (last - middle) buffer bs =
        some (out, first + (last - middle)) ∧
      out.length = a.length ∧
      (∀ j, j < first ∨ last ≤ j → j < buffer ∨ buffer + bs ≤ j → out[j]? = a[j]?) ∧
      range out first last = range a middle last ++ range a first middle := by
  unfold rotate_adaptive
  by_cases hc1 : middle - first > last - middle ∧ last - middle ≤ bs
  · rw [if_pos hc1]
    obtain ⟨a1, e1, l1, f1, c1⟩ := copy_spec (last - middle) a middle buffer (by omega)
      (by omega) (by omega)
    obtain ⟨a2, e2, l2, f2, c2⟩ := copy_backward_spec (middle - first) a1 middle last
      (by omega) (by omega) (by omega) (by omega) (Or.inl h2)
    obtain ⟨a3, e3, l3, f3, c3⟩ := copy_spec (last - middle) a2 buffer first (by omega)
      (by omega) (by omega)
    simp only [e1, e2, e3, Option.some_bind, Option.map_some']
    refine ⟨a3, rfl, by omega, ?_, ?_⟩
    · intro j hj hjb
      rw [f3 j (by omega), f2 j (by omega), f1 j (by omega)]
    · apply range_eq_of_getElem?
      · rw [List.length_append, length_range h3, length_range (by omega)]; omega
      · intro t ht
        rw [getElem?_append_range a h1 h2 h3 ht]
        unfold rotSource
        by_cases htr : t < last - middle
        · rw [if_pos htr, c3 t htr, f2 _ (by omega), c1 t htr]
          congr 1; omega
        · rw [if_neg htr, f3 _ (by omega)]
          have := c2 (last - first - t) (by omega) (by omega)
          rw [show last - (last - first - t) = first + t by omega] at this
          rw [this, f1 _ (by omega)]
          congr 1; omega
  · rw [if_neg hc1]
    by_cases hc2 : middle - first ≤ bs
    · rw [if_pos hc2]
      obtain ⟨a1, e1, l1, f1, c1⟩ := copy_spec (middle - first) a first buffer (by omega)
        (by omega) (by omega)
      obtain ⟨a2, e2, l2, f2, c2⟩ := copy_spec (last - middle) a1 middle first (by omega)
        (by omega) (by omega)
      obtain ⟨a3, e3, l3, f3, c3⟩ := copy_backward_spec (middle - first) a2
        (buffer + (middle - first)) last (by omega) (by omega) (by omega) (by omega) (by omega)
      simp only [e1, e2, e3, Option.some_bind, Option.map_some']
      refine ⟨a3, by rw [show last - (middle - first) = first + (last - middle) by omega],
        by omega, ?_, ?_⟩
      · intro j hj hjb
        rw [f3 j (by omega), f2 j (by omega), f1 j (by omega)]
      · apply range_eq_of_getElem?
        · rw [List.length_append, length_range h3, length_range (by omega)]; omega
        · intro t ht
          rw [getElem?_append_range a h1 h2 h3 ht]
          unfold rotSource
          by_cases htr : t < last - middle
          · rw [if_pos htr, f3 _ (by omega), c2 t htr, f1 _ (by omega)]
            congr 1; omega
          · rw [if_neg htr]
            have := c3 (last - first - t) (by omega) (by omega)
            rw [show last - (last - first - t) = first + t by omega] at this
            rw [this, f2 _ (by omega)]
            have := c1 (t - (last - middle)) (by omega)
            rw [show buffer + (middle - first) - (last - first - t) =
              buffer + (t - (last - middle)) by omega, this]
    · rw [if_neg hc2]
      obtain ⟨out, ho, hol, hof, hor⟩ := rotate_spec a first middle last h1 h2 h3
      exact ⟨out, ho, hol, fun j hj _ => hof j hj, hor⟩

end mystl

/-! ## The cuts of the recursive merges -/

namespace mystl
variable {α : Type}

theorem StrictWeakOrder.lt_cases {comp : α → α → Bool} (hc : StrictWeakOrder comp) {x z : α}
    (y : α) (h : comp x z = true) : comp x y = true ∨ comp y z = true := by
  cases hxy : comp x y with
  | true => exact Or.inl rfl
  | false =>
    cases hyz : comp y z with
    | true => exact Or.inr rfl
    | false => rw [hc.incomp_trans x y z hxy hyz] at h; cases h

theorem sortedList_of_append_right {comp : α → α → Bool} {X Y : List α}
    (h : SortedList comp (X ++ Y)) : SortedList comp Y := by
  unfold SortedList at h ⊢
  exact (List.pairwise_append.mp h).2.1

/-- The choice of the two cuts in `merge_adaptive` and `merge_without_buffer`: the longer
half is cut in its middle, the other one by a binary search for the element at that cut.
Nothing behind the second cut is less than anything before the first cut, and everything
between `middle` and the second cut is less than everything between the first cut and
`middle`. -/
theorem merge_cut_spec {comp : α → α → Bool} (hc : StrictWeakOrder comp) (a : List α)
    (first middle last : Nat) (h1 : first < middle) (h2 : middle < last)
    (h3 : last ≤ a.length) (hs1 : SortedOn comp a first middle)
    (hs2 : SortedOn comp a middle last) :
    ∃ fc sc,
      (if middle - first > last - middle then
          (rd a (first + ((middle - first) >>> 1))).bind fun v =>
          (lower_bound comp a middle last v).map fun second_cut =>
            (first + ((middle - first) >>> 1), second_cut, (middle - first) >>> 1,
              second_cut - middle)
        else
          (rd a (middle + ((last - middle) >>> 1))).bind fun v =>
          (upper_bound comp a first middle v).map fun first_cut =>
            (first_cut, middle + ((last - middle) >>> 1), first_cut - first,
              (last - middle) >>> 1)) = some (fc, sc, fc - first, sc - middle) ∧
      first ≤ fc ∧ fc ≤ middle ∧ middle ≤ sc ∧ sc ≤ last ∧
      (middle - first > last - middle → fc = first + (middle - first) / 2) ∧
      (¬ (middle - first > last - middle) → sc = middle + (last - middle) / 2) ∧
      (∀ x ∈ range a first fc, ∀ d ∈ range a sc last, comp d x = false) ∧
      (∀ b ∈ range a fc middle, ∀ c ∈ range a middle sc, comp c b = true) := by
  have hp1 := sortedOn_pairwise hc (show middle ≤ a.length by omega) hs1
  have hp2 := sortedOn_pairwise hc h3 hs2
  by_cases hgt : middle - first > last - middle
  · rw [if_pos hgt]
    have hsh : (middle - first) >>> 1 = (middle - first) / 2 := by
      rw [Nat.shiftRight_eq_div_pow, Nat.pow_one]
    rw [hsh]
    obtain ⟨v, hv⟩ := exists_rd (a := a) (i := first + (middle - first) / 2) (by omega)
    obtain ⟨q, hq, q1, q2, q3, q4⟩ := lower_bound_spec hc a middle last v (by omega) h3 hs2
    refine ⟨first + (middle - first) / 2, q, ?_, by omega, by omega, q1, q2, fun _ => rfl,
      fun h => absurd hgt h, ?_, ?_⟩
    · simp only [rd, hv, hq, Option.some_bind, Option.map_some', Nat.add_sub_cancel_left]
    · intro x hx d hd
      obtain ⟨i, hi1, hi2, hix⟩ := mem_range_iff.mp hx
      obtain ⟨j, hj1, hj2, hjd⟩ := mem_range_iff.mp hd
      have hdv := q4 j d hj1 hj2 hjd
      have hvx : comp v x = false := by
        have := hp1 (first + (middle - first) / 2 - i) i hi1 (by omega)
        rw [show i + (first + (middle - first) / 2 - i) = first + (middle - first) / 2 by
          omega] at this
        exact this v x hv hix
      exact hc.incomp_trans d v x hdv hvx
    · intro b hb c hcm
      obtain ⟨i, hi1, hi2, hib⟩ := mem_range_iff.mp hb
      obtain ⟨j, hj1, hj2, hjc⟩ := mem_range_iff.mp hcm
      have hcv := q3 j c hj1 hj2 hjc
      have hbv : comp b v = false := by
        have := hp1 (i - (first + (middle - first) / 2)) (first + (middle - first) / 2)
          (by omega) (by omega)
        rw [show first + (middle - first) / 2 + (i - (first + (middle - first) / 2)) = i by
          omega] at this
        exact this b v hib hv
      rcases hc.lt_cases b hcv with h | h
      · exact h
      · rw [hbv] at h; cases h
  · rw [if_neg hgt]
    have hsh : (last - middle) >>> 1 = (last - middle) / 2 := by
      rw [Nat.shiftRight_eq_div_pow, Nat.pow_one]
    rw [hsh]
    obtain ⟨v, hv⟩ := exists_rd (a := a) (i := middle + (last - middle) / 2) (by omega)
    obtain ⟨q, hq, q1, q2, q3, q4⟩ := upper_bound_spec hc a first middle v (by omega)
      (by omega) hs1
    refine ⟨q, middle + (last - middle) / 2, ?_, q1, q2, by omega, by omega,
      fun h => absurd h hgt, fun _ => rfl, ?_, ?_⟩
    · simp only [rd, hv, hq, Option.some_bind, Option.map_some', Nat.add_sub_cancel_left]
    · intro x hx d hd
      obtain ⟨i, hi1, hi2, hix⟩ := mem_range_iff.mp hx
      obtain ⟨j, hj1, hj2, hjd⟩ := mem_range_iff.mp hd
      have hvx := q3 i x hi1 hi2 hix
      have hdv : comp d v = false := by
        have := hp2 (j - (middle + (last - middle) / 2)) (middle + (last - middle) / 2)
          (by omega) (by omega)
        rw [show middle + (last - middle) / 2 + (j - (middle + (last - middle) / 2)) = j by
          omega] at this
        exact this d v hjd hv
      exact hc.incomp_trans d v x hdv hvx
    · intro b hb c hcm
      obtain ⟨i, hi1, hi2, hib⟩ := mem_range_iff.mp hb
      obtain ⟨j, hj1, hj2, hjc⟩ := mem_range_iff.mp hcm
      have hvb := q4 i b hi1 hi2 hib
      have hvc : comp v c = false := by
        have := hp2 (middle + (last - middle) / 2 - j) j hj1 (by omega)
        rw [show j + (middle + (last - middle) / 2 - j) = middle + (last - middle) / 2 by
          omega] at this
        exact this v c hv hjc
      rcases hc.lt_cases c hvb with h | h
      · rw [hvc] at h; cases h
      · exact h

/-- The four pieces of `[first, last)` after the two middle ones have been rotated. -/
theorem rotated_ranges {a a1 : List α} {first fc middle sc last : Nat}
    (h1 : first ≤ fc) (h2 : fc ≤ middle) (h3 : middle ≤ sc) (h4 : sc ≤ last)
    (hl : last ≤ a.length) (hl1 : a1.length = a.length)
    (hr : range a1 fc sc = range a middle sc ++ range a fc middle)
    (hf : ∀ j, j < fc ∨ sc ≤ j → first ≤ j → j < last → a1[j]? = a[j]?) :
    range a1 first fc = range a first fc ∧
    range a1 fc (fc + (sc - middle)) = range a middle sc ∧
    range a1 (fc + (sc - middle)) sc = range a fc middle ∧
    range a1 sc last = range a sc last := by
  refine ⟨range_eq_of_frame fun j hj1 hj2 => hf j (Or.inl hj2) hj1 (by omega), ?_, ?_,
    range_eq_of_frame fun j hj1 hj2 => hf j (Or.inr hj1) (by omega) hj2⟩
  · rw [← range_append a1 (show fc ≤ fc + (sc - middle) by omega)
      (show fc + (sc - middle) ≤ sc by omega)] at hr
    exact (List.append_inj hr (by
      rw [length_range (by omega), length_range (by omega)]; omega)).1
  · rw [← range_append a1 (show fc ≤ fc + (sc - middle) by omega)
      (show fc + (sc - middle) ≤ sc by omega)] at hr
    exact (List.append_inj hr (by
      rw [length_range (by omega), length_range (by omega)]; omega)).2

/-- Merging the two left pieces and the two right pieces after the rotation merges the two
halves. -/
theorem merge_combine (comp : α → α → Bool) {a a1 a2 out : List α}
    {first fc middle sc last : Nat}
    (h1 : first ≤ fc) (h2 : fc ≤ middle) (h3 : middle ≤ sc) (h4 : sc ≤ last)
    (hl : last ≤ a.length) (hl1 : a1.length = a.length)
    (hAD : ∀ x ∈ range a first fc, ∀ d ∈ range a sc last, comp d x = false)
    (hBC : ∀ b ∈ range a fc middle, ∀ c ∈ range a middle sc, comp c b = true)
    (hr : range a1 fc sc = range a middle sc ++ range a fc middle)
    (hf1 : ∀ j, j < fc ∨ sc ≤ j → first ≤ j → j < last → a1[j]? = a[j]?)
    (hm2 : range a2 first (fc + (sc - middle)) =
      stable_merge comp (range a1 first fc) (range a1 fc (fc + (sc - middle))))
    (hf2 : ∀ j, fc + (sc - middle) ≤ j → j < last → a2[j]? = a1[j]?)
    (hm3 : range out (fc + (sc - middle)) last =
      stable_merge comp (range a2 (fc + (sc - middle)) sc) (range a2 sc last))
    (hf3 : ∀ j, first ≤ j → j < fc + (sc - middle) → out[j]? = a2[j]?) :
    range out first last = stable_merge comp (range a first middle) (range a middle last) := by
  obtain ⟨rA, rC, rB, rD⟩ := rotated_ranges h1 h2 h3 h4 hl hl1 hr hf1
  have e2 : range a2 (fc + (sc - middle)) sc = range a1 (fc + (sc - middle)) sc :=
    range_eq_of_frame fun j hj1 hj2 => hf2 j hj1 (by omega)
  have e3 : range a2 sc last = range a1 sc last :=
    range_eq_of_frame fun j hj1 hj2 => hf2 j (by omega) hj2
  have e4 : range out first (fc + (sc - middle)) = range a2 first (fc + (sc - middle)) :=
    range_eq_of_frame fun j hj1 hj2 => hf3 j hj1 hj2
  rw [← range_append out (show first ≤ fc + (sc - middle) by omega)
    (show fc + (sc - middle) ≤ last by omega), e4, hm2, hm3, e2, e3, rA, rC, rB, rD,
    ← range_append a h1 h2, ← range_append a h3 h4]
  exact (stable_merge_append comp _ _ _ _ _ (Nat.le_refl _) hAD hBC).symm

end mystl

/-! ## The recursive step of the two merges -/

namespace mystl
variable {α : Type}

/-- The recursive step shared by `merge_adaptive` and `merge_without_buffer`: choose the
cuts, rotate the two middle pieces with `R`, merge the left and the right part with `M`.
`P` marks the positions that the two may not change outside their range. -/
theorem merge_step {comp : α → α → Bool} (hc : StrictWeakOrder comp) (P : Nat → Prop)
    (R : List α → Nat → Nat → Nat → Nat → Nat → Option (List α × Nat))
    (M : List α → Nat → Nat → Nat → Nat → Nat → Option (List α))
    (a : List α) (first middle last : Nat)
    (h1 : first < middle) (h2 : middle < last) (h3 : last ≤ a.length)
    (hsz1 : middle - first > last - middle → 2 ≤ middle - first)
    (hsz2 : ¬ (middle - first > last - middle) → 2 ≤ last - middle)
    (hP : ∀ j, first ≤ j → j < last → P j)
    (hR : ∀ (b : List α) (f m l : Nat), first ≤ f → f ≤ m → m ≤ l → l ≤ last →
      b.length = a.length →
      ∃ out, R b f m l (m - f) (l - m) = some (out, f + (l - m)) ∧ out.length = b.length ∧
        (∀ j, j < f ∨ l ≤ j → P j → out[j]? = b[j]?) ∧
        range out f l = range b m l ++ range b f m)
    (hM : ∀ (b : List α) (f m l : Nat), first ≤ f → f ≤ m → m ≤ l → l ≤ last →
      l - f < last - first → b.length = a.length → SortedList comp (range b f m) →
      SortedList comp (range b m l) →
      ∃ out, M b f m l (m - f) (l - m) = some out ∧ out.length = b.length ∧
        (∀ j, j < f ∨ l ≤ j → P j → out[j]? = b[j]?) ∧
        range out f l = stable_merge comp (range b f m) (range b m l))
    (hs1 : SortedList comp (range a first middle))
    (hs2 : SortedList comp (range a middle last)) :
    ∃ out,
      ((if middle - first > last - middle then
          (rd a (first + ((middle - first) >>> 1))).bind fun v =>
          (lower_bound comp a middle last v).map fun second_cut =>
            (first + ((middle - first) >>> 1), second_cut, (middle - first) >>> 1,
              second_cut - middle)
        else
          (rd a (middle + ((last - middle) >>> 1))).bind fun v =>
          (upper_bound comp a first middle v).map fun first_cut =>
            (first_cut, middle + ((last - middle) >>> 1), first_cut - first,
              (last - middle) >>> 1)).bind
        fun (first_cut, second_cut, len11, len22) =>
          (R a first_cut middle second_cut (middle - first - len11) len22).bind
            fun (a1, new_middle) =>
              (M a1 first first_cut new_middle len11 len22).bind fun a2 =>
                M a2 new_middle second_cut last (middle - first - len11)
                  (last - middle - len22)) = some out ∧
      out.length = a.length ∧ (∀ j, j < first ∨ last ≤ j → P j → out[j]? = a[j]?) ∧
      range out first last =
        stable_merge comp (range a first middle) (range a middle last) := by
  have hso1 := sortedOn_of_sortedList_range (Nat.le_of_lt h1) hs1
  have hso2 := sortedOn_of_sortedList_range (Nat.le_of_lt h2) hs2
  obtain ⟨fc, sc, hcut, c1, c2, c3, c4, cgt, cle, hAD, hBC⟩ :=
    merge_cut_spec hc a first middle last h1 h2 h3 hso1 hso2
  have hm1 : fc + (sc - middle) - first < last - first ∧
      last - (fc + (sc - middle)) < last - first := by
    by_cases hgt : middle - first > last - middle
    · have := cgt hgt; have := hsz1 hgt; omega
    · have := cle hgt; have := hsz2 hgt; omega
  have k1 : fc ≤ fc + (sc - middle) := Nat.le_add_right _ _
  have k2 : fc + (sc - middle) ≤ sc := by omega
  have k3 : first ≤ fc + (sc - middle) := Nat.le_trans c1 k1
  have k4 : fc + (sc - middle) ≤ last := Nat.le_trans k2 c4
  have k5 : sc ≤ last := c4
  obtain ⟨a1, hrot, l1, f1, r1⟩ := hR a fc middle sc c1 c2 c3 c4 rfl
  have f1' : ∀ j, j < fc ∨ sc ≤ j → first ≤ j → j < last → a1[j]? = a[j]? :=
    fun j hj hj1 hj2 => f1 j hj (hP j hj1 hj2)
  obtain ⟨rA, rC, rB, rD⟩ := rotated_ranges c1 c2 c3 c4 h3 l1 r1 f1'
  rw [← range_append a c1 c2] at hs1
  rw [← range_append a c3 c4] at hs2
  have sA : SortedList comp (range a1 first fc) := by
    rw [rA]; exact sortedList_of_append_left hs1
  have sC : SortedList comp (range a1 fc (fc + (sc - middle))) := by
    rw [rC]; exact sortedList_of_append_left hs2
  obtain ⟨a2, hm2, l2, f2, r2⟩ := hM a1 first fc (fc + (sc - middle)) (Nat.le_refl _) c1 k1 k4
    hm1.1 l1 sA sC
  have f2' : ∀ j, fc + (sc - middle) ≤ j → j < last → a2[j]? = a1[j]? :=
    fun j hj1 hj2 => f2 j (Or.inr hj1) (hP j (Nat.le_trans k3 hj1) hj2)
  have sB : SortedList comp (range a2 (fc + (sc - middle)) sc) := by
    rw [range_eq_of_frame fun j hj1 hj2 => f2' j hj1 (Nat.lt_of_lt_of_le hj2 c4), rB]
    exact sortedList_of_append_right hs1
  have sD : SortedList comp (range a2 sc last) := by
    rw [range_eq_of_frame fun j hj1 hj2 => f2' j (Nat.le_trans k2 hj1) hj2, rD]
    exact sortedList_of_append_right hs2
  obtain ⟨a3, hm3, l3, f3, r3⟩ := hM a2 (fc + (sc - middle)) sc last k3 k2 c4 (Nat.le_refl _)
    hm1.2 (l2.trans l1) sB sD
  have g1 : fc + (sc - middle) - fc = sc - middle := Nat.add_sub_cancel_left _ _
  have g2 : sc - (fc + (sc - middle)) = middle - first - (fc - first) := by omega
  have g3 : last - sc = last - middle - (sc - middle) := by omega
  have g4 : middle - fc = middle - first - (fc - first) := by omega
  rw [g1] at hm2
  rw [g2, g3] at hm3
  rw [g4] at hrot
  refine ⟨a3, ?_, ?_, ?_, ?_⟩
  · simp only [hcut, hrot, hm2, hm3, Option.some_bind]
  · rw [l3, l2, l1]
  · intro j hj hjp
    have j1 : j < fc + (sc - middle) ∨ last ≤ j := by omega
    have j2 : j < first ∨ fc + (sc - middle) ≤ j := by omega
    have j3 : j < fc ∨ sc ≤ j := by omega
    rw [f3 j j1 hjp, f2 j j2 hjp, f1 j j3 hjp]
  · exact merge_combine comp c1 c2 c3 c4 h3 l1 hAD hBC r1 f1' r2 f2' r3
      (fun j hj1 hj2 => f3 j (Or.inl hj2) (hP j hj1 (Nat.lt_of_lt_of_le hj2 k4)))

end mystl

/-! ## merge_without_buffer and merge_adaptive -/

namespace mystl
variable {α : Type}

/-- The case of `merge_without_buffer` for two ranges of one element each. -/
theorem merge_without_buffer_two (comp : α → α → Bool) (a : List α) (first : Nat)
    (h3 : first + 2 ≤ a.length) :
    ∃ out, ((rd a (first + 1)).bind fun y => (rd a first).bind fun x =>
        if comp y x then iter_swap a first (first + 1) else some a) = some out ∧
      out.length = a.length ∧ (∀ j, j < first ∨ first + 2 ≤ j → out[j]? = a[j]?) ∧
      range out first (first + 2) =
        stable_merge comp (range a first (first + 1)) (range a (first + 1) (first + 2)) := by
  obtain ⟨x, hx⟩ := exists_rd (a := a) (i := first) (by omega)
  obtain ⟨y, hy⟩ := exists_rd (a := a) (i := first + 1) (by omega)
  have r1 : range a first (first + 1) = [x] := by
    rw [range_cons (by omega) hx, range_empty a (Nat.le_refl _)]
  have r2 : range a (first + 1) (first + 2) = [y] := by
    rw [range_cons (by omega) hy, range_empty a (Nat.le_refl _)]
  simp only [rd, hx, hy, Option.some_bind]
  rw [r1, r2, stable_merge_cons_cons, stable_merge_nil_right, stable_merge_nil_left]
  cases hyx : comp y x with
  | true =>
    have hsw : iter_swap a first (first + 1) = some ((a.set first y).set (first + 1) x) := by
      unfold iter_swap
      simp only [rd, hx, hy, Option.some_bind, wr, if_pos (show first < a.length by omega),
        List.length_set, if_pos (show first + 1 < a.length by omega)]
    rw [if_pos rfl, if_pos rfl, hsw]
    refine ⟨_, rfl, by simp, ?_, ?_⟩
    · intro j hj
      rw [List.getElem?_set_ne (by omega), List.getElem?_set_ne (by omega)]
    · rw [range_cons (x := y) (by omega) (by
        rw [List.getElem?_set_ne (by omega), List.getElem?_set_self (by omega)]),
        range_cons (x := x) (by omega) (by
          rw [List.getElem?_set_self (by simp; omega)]),
        range_empty _ (Nat.le_refl _)]
  | false =>
    rw [if_neg (by simp), if_neg (by simp)]
    refine ⟨a, rfl, rfl, fun _ _ => rfl, ?_⟩
    rw [← range_append a (show first ≤ first + 1 by omega)
      (show first + 1 ≤ first + 2 by omega), r1, r2]
    rfl

/-- `merge_without_buffer` on two consecutive sorted ranges: it returns, the range then
holds the stable merge of the two, and nothing else changes. -/
theorem merge_without_buffer_spec {comp : α → α → Bool} (hc : StrictWeakOrder comp) :
    ∀ (fuel : Nat) (a : List α) (first middle last : Nat), first ≤ middle → middle ≤ last →
      last ≤ a.length → last - first < fuel → SortedList comp (range a first middle) →
      SortedList comp (range a middle last) →
      ∃ out, merge_without_buffer comp fuel a first middle last (middle - first)
          (last - middle) = some out ∧
        out.length = a.length ∧ (∀ j, j < first ∨ last ≤ j → out[j]? = a[j]?) ∧
        range out first last =
          stable_merge comp (range a first middle) (range a middle last) := by
  intro fuel
  induction fuel with
  | zero => intro a first middle last _ _ _ h; omega
  | succ fuel ih =>
    intro a first middle last h1 h2 h3 hfuel hs1 hs2
    unfold merge_without_buffer
    by_cases hz : middle - first = 0 ∨ last - middle = 0
    · rw [if_pos hz]
      refine ⟨a, rfl, rfl, fun _ _ => rfl, ?_⟩
      rcases hz with hz | hz
      · have : first = middle := by omega
        subst this
        rw [range_empty a (Nat.le_refl _), stable_merge_nil_left]
      · have : middle = last := by omega
        subst this
        rw [range_empty a (Nat.le_refl _), stable_merge_nil_right]
    · rw [if_neg hz]
      by_cases h2e : middle - first + (last - middle) = 2
      · rw [if_pos h2e]
        have hm : middle = first + 1 := by omega
        have hlast : last = first + 2 := by omega
        subst hm; subst hlast
        exact merge_without_buffer_two comp a first h3
      · rw [if_neg h2e]
        have q1 : first < middle := by omega
        have q2 : middle < last := by omega
        obtain ⟨out, ho, hol, hof, hor⟩ := merge_step hc (fun _ => True)
          (fun b f m l _ _ => rotate b f m l) (merge_without_buffer comp fuel) a first middle
          last q1 q2 h3 (fun _ => by omega) (fun _ => by omega) (fun _ _ _ => trivial)
          (fun b f m l _ k2 k3 k4 kl => by
            obtain ⟨o, ho, hol, hof, hor⟩ := rotate_spec b f m l k2 k3 (by omega)
            exact ⟨o, ho, hol, fun j hj _ => hof j hj, hor⟩)
          (fun b f m l _ k2 k3 k4 km kl s1 s2 => by
            obtain ⟨o, ho, hol, hof, hor⟩ := ih b f m l k2 k3 (by omega) (by omega) s1 s2
            exact ⟨o, ho, hol, fun j hj _ => hof j hj, hor⟩)
          hs1 hs2
        exact ⟨out, ho, hol, fun j hj => hof j hj trivial, hor⟩

/-- The case of `merge_adaptive` in which the first range fits into the buffer. -/
theorem merge_adaptive_first (comp : α → α → Bool) (buffer bs : Nat) (a : List α)
    (first middle last : Nat) (h1 : first ≤ middle) (h2 : middle ≤ last)
    (h3 : last ≤ a.length) (hb : buffer + bs ≤ a.length)
    (hd : last ≤ buffer ∨ buffer + bs ≤ first) (hfit : middle - first ≤ bs) :
    ∃ out, ((copy first buffer (middle - first) a).bind fun a1 =>
        merge comp a1 buffer (buffer + (middle - first)) middle last first) = some out ∧
      out.length = a.length ∧
      (∀ j, j < first ∨ last ≤ j → j < buffer ∨ buffer + bs ≤ j → out[j]? = a[j]?) ∧
      range out first last =
        stable_merge comp (range a first middle) (range a middle last) := by
  obtain ⟨a1, e1, l1, f1, c1⟩ := copy_spec (middle - first) a first buffer (by omega)
    (by omega) (by omega)
  obtain ⟨a2, e2, l2, f2, r2⟩ := merge_spec comp a1 buffer (buffer + (middle - first))
    middle last first (by omega) h2 (by omega) (by omega) (by omega) (by omega)
  simp only [e1, e2, Option.some_bind]
  refine ⟨a2, rfl, by omega, ?_, ?_⟩
  · intro j hj hjb
    rw [f2 j hj, f1 j (by omega)]
  · rw [r2]
    congr 1
    · apply range_eq_of_getElem?
      · rw [length_range (by omega)]; omega
      · intro t ht
        rw [c1 t (by omega), getElem?_range, if_pos (by omega)]
    · exact range_eq_of_frame fun j hj1 hj2 => f1 j (by omega)

/-- The case of `merge_adaptive` in which the second range fits into the buffer. -/
theorem merge_adaptive_second {comp : α → α → Bool} (hc : StrictWeakOrder comp)
    (buffer bs : Nat) (a : List α) (first middle last : Nat) (h1 : first ≤ middle)
    (h2 : middle ≤ last) (h3 : last ≤ a.length) (hb : buffer + bs ≤ a.length)
    (hd : last ≤ buffer ∨ buffer + bs ≤ first) (hfit : last - middle ≤ bs)
    (hs1 : SortedList comp (range a first middle))
    (hs2 : SortedList comp (range a middle last)) :
    ∃ out, ((copy middle buffer (last - middle) a).bind fun a1 =>
        merge_backward comp a1 first middle buffer (buffer + (last - middle)) last) =
          some out ∧
      out.length = a.length ∧
      (∀ j, j < first ∨ last ≤ j → j < buffer ∨ buffer + bs ≤ j → out[j]? = a[j]?) ∧
      range out first last =
        stable_merge comp (range a first middle) (range a middle last) := by
  obtain ⟨a1, e1, l1, f1, c1⟩ := copy_spec (last - middle) a middle buffer (by omega)
    (by omega) (by omega)
  have q1 : range a1 first middle = range a first middle :=
    range_eq_of_frame fun j hj1 hj2 => f1 j (by omega)
  have q2 : range a1 buffer (buffer + (last - middle)) = range a middle last := by
    apply range_eq_of_getElem?
    · rw [length_range (by omega)]; omega
    · intro t ht
      rw [c1 t (by omega), getElem?_range, if_pos (by omega)]
  obtain ⟨a2, e2, l2, f2, r2⟩ := merge_backward_spec hc a1 first middle buffer
    (buffer + (last - middle)) last h1 (by omega) (by omega) (by omega) (by omega)
    (by omega) (by rw [q1]; exact hs1) (by rw [q2]; exact hs2)
  simp only [e1, e2, Option.some_bind]
  refine ⟨a2, rfl, by omega, ?_, ?_⟩
  · intro j hj hjb
    rw [f2 j hj, f1 j (by omega)]
  · rw [r2, q1, q2]

/-- `merge_adaptive` on two consecutive sorted ranges, with a scratch buffer of at least
one place outside them: it returns, the range then holds the stable merge of the two, and
only the range and the buffer change. -/
theorem merge_adaptive_spec {comp : α → α → Bool} (hc : StrictWeakOrder comp)
    (buffer bs : Nat) (hbs : 1 ≤ bs) :
    ∀ (fuel : Nat) (a : List α) (first middle last : Nat), first ≤ middle → middle ≤ last →
      last ≤ a.length → buffer + bs ≤ a.length → (last ≤ buffer ∨ buffer + bs ≤ first) →
      last - first < fuel → SortedList comp (range a first middle) →
      SortedList comp (range a middle last) →
      ∃ out, merge_adaptive comp buffer bs fuel a first middle last (middle - first)
          (last - middle) = some out ∧
        out.length = a.length ∧
        (∀ j, j < first ∨ last ≤ j → j < buffer ∨ buffer + bs ≤ j → out[j]? = a[j]?) ∧
        range out first last =
          stable_merge comp (range a first middle) (range a middle last) := by
  intro fuel
  induction fuel with
  | zero => intro a first middle last _ _ _ _ _ h; omega
  | succ fuel ih =>
    intro a first middle last h1 h2 h3 hb hd hfuel hs1 hs2
    unfold merge_adaptive
    by_cases hb1 : middle - first ≤ last - middle ∧ middle - first ≤ bs
    · rw [if_pos hb1]
      exact merge_adaptive_first comp buffer bs a first middle last h1 h2 h3 hb hd hb1.2
    · rw [if_neg hb1]
      by_cases hb2 : last - middle ≤ bs
      · rw [if_pos hb2]
        exact merge_adaptive_second hc buffer bs a first middle last h1 h2 h3 hb hd hb2 hs1 hs2
      · rw [if_neg hb2]
        have q1 : first < middle := by omega
        have q2 : middle < last := by omega
        exact merge_step hc (fun j => j < buffer ∨ buffer + bs ≤ j)
          (fun b f m l n1 n2 => rotate_adaptive b f m l n1 n2 buffer bs)
          (merge_adaptive comp buffer bs fuel) a first middle last q1 q2 h3
          (fun _ => by omega) (fun _ => by omega) (fun j _ _ => by omega)
          (fun b f m l _ k2 k3 k4 kl =>
            rotate_adaptive_spec b f m l buffer bs k2 k3 (by omega) (by omega) (by omega))
          (fun b f m l _ k2 k3 k4 km kl s1 s2 =>
            ih b f m l k2 k3 (by omega) (by omega) (by omega) (by omega) s1 s2)
          hs1 hs2

end mystl

/-! ## inplace_merge -/

namespace mystl
variable {α : Type}

/-- `inplace_merge` on two consecutive sorted ranges, without a buffer or with a buffer of
at least one place outside the range: it returns, the range then holds the stable merge of
the two, and only the range and the buffer change. -/
theorem inplace_merge_spec {comp : α → α → Bool} (hc : StrictWeakOrder comp) (a : List α)
    (first middle last : Nat) (buf : Option (Nat × Nat)) (h1 : first ≤ middle)
    (h2 : middle ≤ last) (h3 : last ≤ a.length)
    (hbuf : ∀ b s, buf = some (b, s) → 1 ≤ s ∧ b + s ≤ a.length ∧ (last ≤ b ∨ b + s ≤ first))
    (hs1 : SortedOn comp a first middle) (hs2 : SortedOn comp a middle last) :
    ∃ out, inplace_merge comp a first middle last buf = some out ∧ out.length = a.length ∧
      (∀ j, j < first ∨ last ≤ j → (∀ b s, buf = some (b, s) → j < b ∨ b + s ≤ j) →
        out[j]? = a[j]?) ∧
      range out first last =
        stable_merge comp (range a first middle) (range a middle last) := by
  have hl1 := sortedList_range hc (show middle ≤ a.length by omega) hs1
  have hl2 := sortedList_range hc h3 hs2
  unfold inplace_merge
  by_cases he : first = middle ∨ middle = last
  · rw [if_pos he]
    refine ⟨a, rfl, rfl, fun _ _ _ => rfl, ?_⟩
    rcases he with he | he
    · subst he
      rw [range_empty a (Nat.le_refl _), stable_merge_nil_left]
    · subst he
      rw [range_empty a (Nat.le_refl _), stable_merge_nil_right]
  · rw [if_neg he]
    cases buf with
    | none =>
      obtain ⟨out, ho, hol, hof, hor⟩ := merge_without_buffer_spec hc
        (middle - first + (last - middle) + 1) a first middle last h1 h2 h3 (by omega) hl1 hl2
      exact ⟨out, ho, hol, fun j hj _ => hof j hj, hor⟩
    | some p =>
      obtain ⟨b, s⟩ := p
      obtain ⟨b1, b2, b3⟩ := hbuf b s rfl
      obtain ⟨out, ho, hol, hof, hor⟩ := merge_adaptive_spec hc b s b1
        (middle - first + (last - middle) + 1) a first middle last h1 h2 h3 b2 b3 (by omega)
        hl1 hl2
      exact ⟨out, ho, hol, fun j hj hjb => hof j hj (hjb b s rfl), hor⟩

theorem sortedOn_example_halves :
    SortedOn natLt [1, 3, 5, 2, 4, 6, 0, 0] 0 3 ∧ SortedOn natLt [1, 3, 5, 2, 4, 6, 0, 0] 3 6 :=
  ⟨sortedOn_of_sortedList_range (by decide) (by unfold SortedList; decide),
    sortedOn_of_sortedList_range (by decide) (by unfold SortedList; decide)⟩

theorem tagLt_strictWeakOrder : StrictWeakOrder tagLt where
  irrefl := by intro x; simp [tagLt]
  trans := by
    intro x y z h1 h2
    simp only [tagLt, decide_eq_true_eq] at *
    omega
  incomp_trans := by
    intro x y z h1 h2
    simp only [tagLt, decide_eq_false_iff_not] at *
    omega

theorem sortedOn_tagged_halves :
    SortedOn tagLt taggedHalves 0 3 ∧ SortedOn tagLt taggedHalves 3 6 :=
  ⟨sortedOn_of_sortedList_range (by decide) (by unfold SortedList; decide),
    sortedOn_of_sortedList_range (by decide) (by unfold SortedList; decide)⟩

end mystl

/-! ## unchecked_partition with the pivot bound to a slot -/

namespace mystl
variable {α : Type}

theorem scan_up_slot_eq (comp : α → α → Bool) (p : Nat) (v : α) (a : List α)
    (hp : a[p]? = some v) :
    ∀ (fuel f : Nat), scan_up comp (Ref.slot p) fuel a f = scan_up comp (Ref.val v) fuel a f := by
  intro fuel
  induction fuel with
  | zero => intro f; rfl
  | succ fuel ih =>
    intro f
    unfold scan_up
    simp only [deref, rd, hp, ih]

theorem scan_down_slot_eq (comp : α → α → Bool) (p : Nat) (v : α) (a : List α)
    (hp : a[p]? = some v) :
    ∀ (fuel l : Nat),
      scan_down comp (Ref.slot p) fuel a l = scan_down comp (Ref.val v) fuel a l := by
  intro fuel
  induction fuel with
  | zero => intro l; rfl
  | succ fuel ih =>
    intro l
    unfold scan_down
    simp only [deref, rd, hp, ih]

/-- The loop of `unchecked_partition` with the pivot bound to the slot `p` of the range
`[F, L)`: the value in that slot may change when the slot is swapped, but at every round
some element from `f` on does not compare less than the current pivot and some element
before `l` does not compare greater than it, so no scan leaves the range.  The result is a
permutation by swaps inside the range, and the cut lies behind `f` or not before `jd`, a
position whose element did not compare greater than the pivot. -/
theorem unchecked_partition_loop_slot (comp : α → α → Bool) (hirr : ∀ x, comp x x = false)
    (p F L : Nat) :
    ∀ (fuel : Nat) (a : List α) (f l jd : Nat),
      0 < fuel → l < fuel + f → F ≤ f → l ≤ L → L ≤ a.length → p < L →
      (∃ j, f ≤ j ∧ j < L ∧ ∀ y v, a[j]? = some y → a[p]? = some v → comp y v = false) →
      F ≤ jd → jd + 1 ≤ l →
      (∀ y v, a[jd]? = some y → a[p]? = some v → comp v y = false) →
      ∃ out cut, unchecked_partition_loop comp (Ref.slot p) fuel a f l = some (out, cut) ∧
        out.length = a.length ∧ f ≤ cut ∧ cut < L ∧ (f < cut ∨ jd ≤ cut) ∧
        (∀ j, j < F ∨ L ≤ j → out[j]? = a[j]?) ∧ out.Perm a := by
  intro fuel
  induction fuel with
  | zero => intro a f l jd h0; omega
  | succ fuel ih =>
    intro a f l jd _ hfuel hFf hlL hL hpL ⟨ju, hju1, hju2, hju3⟩ hjd1 hjd2 hjd3
    obtain ⟨v, hv⟩ := exists_rd (a := a) (i := p) (by omega)
    obtain ⟨f1, hf1, hf2, hf3, hf4⟩ := scan_up_val comp v a ju (by omega)
      (fun y hy => hju3 y v hy hv) (a.length + 1) f hju1 (by omega)
    obtain ⟨l1, hl1, hl2, hl3, hl4⟩ := scan_down_val comp v a jd
      (fun y hy => hjd3 y v hy hv) (a.length + 1) (l - 1) (by omega) (by omega) (by omega)
    unfold unchecked_partition_loop
    rw [scan_up_slot_eq comp p v a hv, scan_down_slot_eq comp p v a hv]
    simp only [hf1, hl1, Option.some_bind]
    rw [if_neg (by omega)]
    by_cases hlt : f1 < l1
    · rw [if_neg (by simpa using hlt)]
      obtain ⟨x, hx⟩ := exists_rd (a := a) (i := f1) (by omega)
      obtain ⟨y, hy⟩ := exists_rd (a := a) (i := l1) (by omega)
      have hsw : iter_swap a f1 l1 = some ((a.set f1 y).set l1 x) := by
        unfold iter_swap
        simp only [rd, hx, hy, Option.some_bind, wr, if_pos (show f1 < a.length by omega),
          List.length_set, if_pos (show l1 < a.length by omega)]
      simp only [hsw, Option.some_bind]
      have hxv : comp x v = false := hf4 x hx
      have hvy : comp v y = false := hl4 y hy
      have hnew1 : ((a.set f1 y).set l1 x)[l1]? = some x :=
        List.getElem?_set_self (by simp; omega)
      have hnew2 : ((a.set f1 y).set l1 x)[f1]? = some y := by
        rw [List.getElem?_set_ne (by omega), List.getElem?_set_self (by omega)]
      have hpiv : ∀ w, ((a.set f1 y).set l1 x)[p]? = some w →
          (w = y ∧ x = v) ∨ (w = x ∧ y = v) ∨ (p ≠ f1 ∧ p ≠ l1 ∧ w = v) := by
        intro w hw
        by_cases h1 : p = f1
        · subst h1; rw [hnew2] at hw; rw [hx] at hv
          exact Or.inl ⟨(Option.some.inj hw).symm, Option.some.inj hv⟩
        · by_cases h2 : p = l1
          · subst h2; rw [hnew1] at hw; rw [hy] at hv
            exact Or.inr (Or.inl ⟨(Option.some.inj hw).symm, Option.some.inj hv⟩)
          · rw [List.getElem?_set_ne (by omega), List.getElem?_set_ne (by omega), hv] at hw
            exact Or.inr (Or.inr ⟨h1, h2, (Option.some.inj hw).symm⟩)
      obtain ⟨out, cut, ho, hol, hfc, hcL, _, hof, hop⟩ := ih ((a.set f1 y).set l1 x)
        (f1 + 1) l1 f1 (by omega) (by omega) (by omega) (by omega) (by simpa using hL) hpL
        ⟨l1, by omega, by omega, by
          intro y' w hy' hw
          rw [hnew1] at hy'; cases hy'
          rcases hpiv w hw with ⟨e1, e2⟩ | ⟨e1, _⟩ | ⟨_, _, e1⟩
          · rw [e1, e2]; exact hvy
          · rw [e1]; exact hirr _
          · rw [e1]; exact hxv⟩
        (by omega) (by omega)
        (by
          intro y' w hy' hw
          rw [hnew2] at hy'; cases hy'
          rcases hpiv w hw with ⟨e1, _⟩ | ⟨e1, e2⟩ | ⟨_, _, e1⟩
          · rw [e1]; exact hirr _
          · rw [e1, e2]; exact hxv
          · rw [e1]; exact hvy)
      refine ⟨out, cut, ho, by simpa using hol, by omega, hcL, Or.inl (by omega), ?_,
        hop.trans (perm_set_swap hx hy)⟩
      intro j hj
      rw [hof j hj, List.getElem?_set_ne (by omega), List.getElem?_set_ne (by omega)]
    · rw [if_pos (by simpa using hlt)]
      exact ⟨a, f1, rfl, rfl, hf2, by omega, Or.inr (by omega), fun _ _ => rfl,
        List.Perm.refl _⟩

end mystl

/-! ## insertion_sort permutes -/

namespace mystl
variable {α : Type}

/-- When `median` returns its first argument, one of the other two does not compare greater
than it. -/
theorem median_left {β : Type} (c : β → β → Bool) (hirr : ∀ x, c x x = false) (l m r : β)
    (h : median c l m r = l) : c l m = false ∨ c l r = false := by
  unfold median at h
  cases hlm : c l m with
  | false => exact Or.inl rfl
  | true =>
    rw [hlm, if_pos rfl] at h
    cases hlr : c l r with
    | false => exact Or.inr rfl
    | true =>
      rw [hlr] at h
      by_cases hmr : c m r = true
      · rw [if_pos hmr] at h
        rw [h, hirr] at hlm; cases hlm
      · rw [if_neg hmr, if_pos rfl] at h
        rw [h, hirr] at hlr; cases hlr

/-- Inserting the content of slot `i` at position `p ≤ i` permutes the storage. -/
theorem insertedAt_perm {a out : List α} {p i : Nat} {v : α} (hpi : p ≤ i)
    (hv : a[i]? = some v) (hins : InsertedAt a out p i v) : out.Perm a := by
  obtain ⟨hol, hof, hov, hosh⟩ := hins
  have hi := lt_length_of_getElem? hv
  have e1 := split_range a p (i + 1) (by omega)
  have e2 := split_range out p (i + 1) (by omega)
  rw [take_eq_of_frame (fun j hj => hof j (Or.inl hj)),
    drop_eq_of_frame (fun j hj => hof j (Or.inr (by omega)))] at e2
  have r1 : range a p (i + 1) = range a p i ++ [v] := range_succ_right hpi hv
  have r2 : range out p (i + 1) = v :: range a p i := by
    rw [range_cons (by omega) hov]
    congr 1
    apply range_eq_of_getElem?
    · rw [length_range (by omega)]; omega
    · intro t ht
      rw [hosh (p + 1 + t) (by omega) (by omega), getElem?_range, if_pos (by omega)]
      congr 1; omega
  have hperm : (a.take p ++ (v :: range a p i ++ a.drop (i + 1))).Perm
      (a.take p ++ (range a p i ++ [v] ++ a.drop (i + 1))) :=
    (List.perm_append_left_iff _).mpr ((List.perm_append_right_iff _).mpr
      (List.perm_append_singleton v _).symm)
  rw [← r1, ← e1, ← r2, ← e2] at hperm
  exact hperm

theorem insertion_sort_loop_succ (comp : α → α → Bool) (first n : Nat) (a : List α) (i : Nat)
    (value x : α) (hv : a[i]? = some value) (hx : a[first]? = some x) :
    insertion_sort_loop comp first (n + 1) a i =
      (if comp value x = true then
          (copy_backward i (i + 1) (i - first) a).bind fun a1 => wr a1 first value
        else unchecked_linear_insert comp a i (Ref.val value)).bind
        fun a1 => insertion_sort_loop comp first n a1 (i + 1) := by
  rw [insertion_sort_loop]
  simp only [rd, hv, hx, Option.some_bind]
  cases comp value x with
  | true => simp only [if_true, Option.bind_assoc]
  | false => simp only [Bool.false_eq_true, if_false]

/-- The loop of `insertion_sort` returns with `[first, last)` sorted, a permutation of the
storage. -/
theorem insertion_sort_loop_perm {comp : α → α → Bool} (hc : StrictWeakOrder comp)
    (first last : Nat) :
    ∀ (n : Nat) (a : List α) (i : Nat),
      i + n = last → first < i → last ≤ a.length → SortedOn comp a first i →
      ∃ out, insertion_sort_loop comp first n a i = some out ∧ out.length = a.length ∧
        (∀ j, j < first ∨ last ≤ j → out[j]? = a[j]?) ∧ SortedOn comp out first last ∧
        out.Perm a := by
  intro n
  induction n with
  | zero =>
    intro a i hin hfi hl hs
    have : i = last := by omega
    subst this
    exact ⟨a, rfl, rfl, fun _ _ => rfl, hs, List.Perm.refl _⟩
  | succ n ih =>
    intro a i hin hfi hl hs
    obtain ⟨value, hv⟩ := exists_rd (a := a) (i := i) (by omega)
    obtain ⟨x, hx⟩ := exists_rd (a := a) (i := first) (by omega)
    obtain ⟨a1, p, ho, hfp, hpi, hins, hgt, hle⟩ :=
      insertion_step_spec comp a first i value x hfi (by omega) hx
    have hsorted := sortedOn_of_insertedAt hc hfp hpi hs hins hgt hle
    obtain ⟨out, ho2, hol2, hof2, hos2, hop2⟩ := ih a1 (i + 1) (by omega) (by omega)
      (by rw [hins.1]; exact hl) hsorted
    refine ⟨out, ?_, by rw [hol2, hins.1], ?_, hos2, hop2.trans (insertedAt_perm hpi hv hins)⟩
    · rw [insertion_sort_loop_succ comp first n a i value x hv hx, ho]
      exact ho2
    · intro j hj
      rw [hof2 j hj, hins.2.1 j (by omega)]

/-- `insertion_sort(first, last)` returns with `[first, last)` sorted, a permutation of the
storage, whatever the range held. -/
theorem insertion_sort_perm_spec {comp : α → α → Bool} (hc : StrictWeakOrder comp)
    (a : List α) (first last : Nat) (hfl : first ≤ last) (hl : last ≤ a.length) :
    ∃ out, insertion_sort comp a first last = some out ∧ out.length = a.length ∧
      (∀ j, j < first ∨ last ≤ j → out[j]? = a[j]?) ∧ SortedOn comp out first last ∧
      out.Perm a := by
  unfold insertion_sort
  by_cases h : first = last
  · rw [if_pos h]
    exact ⟨a, rfl, rfl, fun _ _ => rfl, fun i h1 h2 => by omega, List.Perm.refl _⟩
  · rw [if_neg h]
    exact insertion_sort_loop_perm hc first last (last - (first + 1)) a (first + 1)
      (by omega) (by omega) hl (fun i h1 h2 => by omega)

end mystl

/-! ## nth_element -/

namespace mystl
variable {α : Type}

/-- The partition step of `nth_element` on a range of more than three elements, the pivot
being the slot that `median` chose: it returns, permutes the range by swaps, and the cut
lies strictly inside the range. -/
theorem nth_element_partition_spec (lt : α → α → Bool) (hirr : ∀ x, lt x x = false)
    (a : List α) (first last : Nat) (x y z : α) (h3 : last - first > 3)
    (hl : last ≤ a.length) (hx : a[first]? = some x)
    (hy : a[first + (last - first) / 2]? = some y) (hz : a[last - 1]? = some z) :
    ∃ out cut,
      unchecked_partition lt a first last
        (Ref.slot (median (fun (p q : Nat × α) => lt p.2 q.2)
          (first, x) (first + (last - first) / 2, y) (last - 1, z)).1) = some (out, cut) ∧
      first < cut ∧ cut < last ∧ out.length = a.length ∧
      (∀ j, j < first ∨ last ≤ j → out[j]? = a[j]?) ∧ out.Perm a := by
  have key : ∃ p jd v, (median (fun (p q : Nat × α) => lt p.2 q.2)
        (first, x) (first + (last - first) / 2, y) (last - 1, z)).1 = p ∧
      first ≤ p ∧ p < last ∧ first < jd ∧ jd < last ∧ a[p]? = some v ∧
      ∀ w, a[jd]? = some w → lt v w = false := by
    rcases median_mem (fun (p q : Nat × α) => lt p.2 q.2)
      (first, x) (first + (last - first) / 2, y) (last - 1, z) with hm | hm | hm
    · rcases median_left (fun (p q : Nat × α) => lt p.2 q.2) (fun p => hirr p.2) _ _ _ hm
        with h | h
      · exact ⟨first, first + (last - first) / 2, x, by rw [hm], Nat.le_refl _, by omega,
          by omega, by omega, hx, fun w hw => by rw [hy] at hw; cases hw; exact h⟩
      · exact ⟨first, last - 1, x, by rw [hm], Nat.le_refl _, by omega,
          by omega, by omega, hx, fun w hw => by rw [hz] at hw; cases hw; exact h⟩
    · exact ⟨first + (last - first) / 2, first + (last - first) / 2, y, by rw [hm], by omega,
        by omega, by omega, by omega, hy, fun w hw => by rw [hy] at hw; cases hw; exact hirr _⟩
    · exact ⟨last - 1, last - 1, z, by rw [hm], by omega, by omega, by omega, by omega, hz,
        fun w hw => by rw [hz] at hw; cases hw; exact hirr _⟩
  obtain ⟨p, jd, v, hp, hp1, hp2, hj1, hj2, hv, hjd⟩ := key
  rw [hp]
  unfold unchecked_partition
  obtain ⟨out, cut, ho, hol, hfc, hcl, hprog, hof, hop⟩ :=
    unchecked_partition_loop_slot lt hirr p first last (a.length + 1) a first last jd
      (by omega) (by omega) (Nat.le_refl _) (Nat.le_refl _) hl hp2
      ⟨p, hp1, hp2, fun y' v' hy' hv' => by
        rw [hv] at hy' hv'; cases hy'; cases hv'; exact hirr _⟩
      (by omega) (by omega)
      (fun y' v' hy' hv' => by rw [hv] at hv'; cases hv'; exact hjd y' hy')
  exact ⟨out, cut, ho, by omega, hcl, hol, hof, hop⟩

/-- The loop of `nth_element` returns: every round cuts the range strictly inside; what
is left is a sub-range of at most three elements, and the storage has been permuted inside
`[first, last)`. -/
theorem nth_element_loop_spec (lt : α → α → Bool) (hirr : ∀ x, lt x x = false) (nth : Nat) :
    ∀ (fuel : Nat) (a : List α) (first last : Nat), first ≤ last → last ≤ a.length →
      last - first < fuel →
      ∃ out f1 l1, nth_element_loop lt lt nth fuel a first last = some (out, f1, l1) ∧
        first ≤ f1 ∧ f1 ≤ l1 ∧ l1 ≤ last ∧ l1 - f1 ≤ 3 ∧ out.length = a.length ∧
        (∀ j, j < first ∨ last ≤ j → out[j]? = a[j]?) ∧ out.Perm a := by
  intro fuel
  induction fuel with
  | zero => intro a first last _ _ h; omega
  | succ fuel ih =>
    intro a first last hfl hl hfuel
    unfold nth_element_loop
    by_cases h3 : last - first > 3
    · rw [if_pos h3]
      obtain ⟨x, hx⟩ := exists_rd (a := a) (i := first) (by omega)
      obtain ⟨y, hy⟩ := exists_rd (a := a) (i := first + (last - first) / 2) (by omega)
      obtain ⟨z, hz⟩ := exists_rd (a := a) (i := last - 1) (by omega)
      obtain ⟨a1, cut, hpart, hc1, hc2, hol1, hof1, hop1⟩ :=
        nth_element_partition_spec lt hirr a first last x y z h3 hl hx hy hz
      simp only [rd, hx, hy, hz, Option.some_bind, hpart]
      by_cases hcn : cut ≤ nth
      · rw [if_pos hcn]
        obtain ⟨out, f1, l1, ho, k1, k2, k3, k4, hol, hof, hop⟩ :=
          ih a1 cut last (by omega) (by omega) (by omega)
        exact ⟨out, f1, l1, ho, by omega, k2, k3, k4, by omega,
          fun j hj => by rw [hof j (by omega), hof1 j hj], hop.trans hop1⟩
      · rw [if_neg hcn]
        obtain ⟨out, f1, l1, ho, k1, k2, k3, k4, hol, hof, hop⟩ :=
          ih a1 first cut (by omega) (by omega) (by omega)
        exact ⟨out, f1, l1, ho, k1, k2, by omega, k4, by omega,
          fun j hj => by rw [hof j (by omega), hof1 j hj], hop.trans hop1⟩
    · rw [if_neg h3]
      exact ⟨a, first, last, rfl, Nat.le_refl _, hfl, Nat.le_refl _, by omega, rfl,
        fun _ _ => rfl, List.Perm.refl _⟩

/-- `nth_element(first, nth, last)` returns and permutes the range, leaving everything else
alone. -/
theorem nth_element_spec {lt : α → α → Bool} (hc : StrictWeakOrder lt) (a : List α)
    (first nth last : Nat) (hfl : first ≤ last) (hl : last ≤ a.length) :
    ∃ out, nth_element lt a first nth last = some out ∧ out.length = a.length ∧
      (∀ j, j < first ∨ last ≤ j → out[j]? = a[j]?) ∧ out.Perm a ∧
      (nth = last → out = a) := by
  unfold nth_element nth_element_comp
  by_cases hn : nth = last
  · rw [if_pos hn]
    exact ⟨a, rfl, rfl, fun _ _ => rfl, List.Perm.refl _, fun _ => rfl⟩
  · rw [if_neg hn]
    obtain ⟨a1, f1, l1, ho1, k1, k2, k3, _, hol1, hof1, hop1⟩ :=
      nth_element_loop_spec lt hc.irrefl nth (last - first + 1) a first last hfl hl (by omega)
    obtain ⟨out, ho2, hol2, hof2, _, hop2⟩ :=
      insertion_sort_perm_spec hc a1 f1 l1 k2 (by omega)
    simp only [ho1, Option.some_bind, ho2]
    exact ⟨out, rfl, by omega, fun j hj => by rw [hof2 j (by omega), hof1 j hj],
      hop2.trans hop1, fun h => absurd h hn⟩

end mystl

/-! ## Position-wise equivalence -/

namespace mystl
variable {α : Type}

theorem EquivAt.refl {comp : α → α → Bool} (hc : StrictWeakOrder comp) (a : List α) :
    EquivAt comp a a := by
  refine ⟨rfl, ?_⟩
  intro j x y hx hy
  rw [hx] at hy; cases hy
  exact ⟨hc.irrefl _, hc.irrefl _⟩

theorem EquivAt.trans {comp : α → α → Bool} (hc : StrictWeakOrder comp) {a b c : List α}
    (h1 : EquivAt comp a b) (h2 : EquivAt comp b c) : EquivAt comp a c := by
  refine ⟨h1.1.trans h2.1, ?_⟩
  intro j x z hx hz
  obtain ⟨y, hy⟩ := exists_rd (a := b) (i := j) (by
    have := lt_length_of_getElem? hx; have := h1.1; omega)
  obtain ⟨e1, e2⟩ := h1.2 j x y hx hy
  obtain ⟨e3, e4⟩ := h2.2 j y z hy hz
  exact ⟨hc.incomp_trans x y z e1 e3, hc.incomp_trans z y x e4 e2⟩

/-- Position-wise equivalent storage is sorted where the original is. -/
theorem sortedOn_of_equivAt {comp : α → α → Bool} (hc : StrictWeakOrder comp)
    {a b : List α} {f l : Nat} (h : EquivAt comp b a) (hs : SortedOn comp a f l) :
    SortedOn comp b f l := by
  intro i hi1 hi2 y x hy hx
  have hl := h.1
  obtain ⟨y', hy'⟩ := exists_rd (a := a) (i := i + 1) (by
    have := lt_length_of_getElem? hy; omega)
  obtain ⟨x', hx'⟩ := exists_rd (a := a) (i := i) (by
    have := lt_length_of_getElem? hx; omega)
  obtain ⟨e1, _⟩ := h.2 (i + 1) y y' hy hy'
  obtain ⟨_, e4⟩ := h.2 i x x' hx hx'
  have e5 := hs i hi1 hi2 y' x' hy' hx'
  exact hc.incomp_trans y x' x (hc.incomp_trans y y' x' e1 e5) e4

theorem sortedOn_sub {comp : α → α → Bool} {a : List α} {f l f' l' : Nat}
    (hs : SortedOn comp a f l) (hf : f ≤ f') (hl : l' ≤ l) : SortedOn comp a f' l' :=
  fun i hi1 hi2 => hs i (by omega) (by omega)

/-- Exchanging two equivalent elements gives position-wise equivalent storage. -/
theorem equivAt_swap {comp : α → α → Bool} (hc : StrictWeakOrder comp) {a : List α}
    {i j : Nat} {x y : α} (hx : a[i]? = some x) (hy : a[j]? = some y)
    (hxy : comp x y = false) (hyx : comp y x = false) :
    EquivAt comp ((a.set i y).set j x) a := by
  have hi := lt_length_of_getElem? hx
  have hj := lt_length_of_getElem? hy
  refine ⟨by simp, ?_⟩
  intro k u w hu hw
  by_cases hkj : k = j
  · subst hkj
    rw [List.getElem?_set_self (by simp; omega)] at hu
    rw [hy] at hw; cases hu; cases hw
    exact ⟨hxy, hyx⟩
  · rw [List.getElem?_set_ne (by omega)] at hu
    by_cases hki : k = i
    · subst hki
      rw [List.getElem?_set_self hi] at hu
      rw [hx] at hw; cases hu; cases hw
      exact ⟨hyx, hxy⟩
    · rw [List.getElem?_set_ne (by omega), hw] at hu
      cases hu
      exact ⟨hc.irrefl _, hc.irrefl _⟩

/-- In a sorted list the elements that compare less than `e` are exactly those at the
first `countP` positions. -/
theorem sortedList_lt_iff {comp : α → α → Bool} (hc : StrictWeakOrder comp) (e : α) :
    ∀ (l : List α), SortedList comp l → ∀ j x, l[j]? = some x →
      (comp x e = true ↔ j < l.countP fun w => comp w e) := by
  intro l
  induction l with
  | nil => intro _ j x hx; simp at hx
  | cons h t ih =>
    intro hs j x hx
    have hst : SortedList comp t := (List.pairwise_cons.mp hs).2
    have hht : ∀ w ∈ t, comp w h = false := (List.pairwise_cons.mp hs).1
    rw [List.countP_cons]
    cases hhe : comp h e with
    | true =>
      simp only [if_true]
      cases j with
      | zero =>
        rw [List.getElem?_cons_zero] at hx; cases hx
        simp [hhe]
      | succ j =>
        rw [List.getElem?_cons_succ] at hx
        rw [ih hst j x hx]
        omega
    | false =>
      simp only [Bool.false_eq_true, if_false, Nat.add_zero]
      have hnone : ∀ w ∈ t, comp w e = false := by
        intro w hw
        cases hwe : comp w e with
        | false => rfl
        | true =>
          rcases hc.lt_cases h hwe with h1 | h1
          · rw [hht w hw] at h1; cases h1
          · rw [hhe] at h1; cases h1
      have hz : t.countP (fun w => comp w e) = 0 := by
        rw [List.countP_eq_zero]
        intro w hw
        simp [hnone w hw]
      rw [hz]
      cases j with
      | zero =>
        rw [List.getElem?_cons_zero] at hx; cases hx
        simp [hhe]
      | succ j =>
        rw [List.getElem?_cons_succ] at hx
        have := hnone x (List.mem_iff_getElem?.mpr ⟨j, hx⟩)
        simp [this]

/-- Two sorted lists with the same elements hold equivalent elements position by
position. -/
theorem equiv_of_sorted_perm {comp : α → α → Bool} (hc : StrictWeakOrder comp)
    {l1 l2 : List α} (hp : l1.Perm l2) (h1 : SortedList comp l1) (h2 : SortedList comp l2) :
    ∀ (j : Nat) (x y : α), l1[j]? = some x → l2[j]? = some y →
      comp x y = false ∧ comp y x = false := by
  intro j x y hx hy
  constructor
  · cases hxy : comp x y with
    | false => rfl
    | true =>
      have e1 := (sortedList_lt_iff hc y l1 h1 j x hx).mp hxy
      rw [hp.countP_eq] at e1
      have e2 := (sortedList_lt_iff hc y l2 h2 j y hy).mpr e1
      rw [hc.irrefl] at e2; cases e2
  · cases hyx : comp y x with
    | false => rfl
    | true =>
      have e1 := (sortedList_lt_iff hc x l2 h2 j y hy).mp hyx
      rw [← hp.countP_eq] at e1
      have e2 := (sortedList_lt_iff hc x l1 h1 j x hx).mpr e1
      rw [hc.irrefl] at e2; cases e2

/-- A sorted permutation of a sorted range that leaves the rest alone holds equivalent
elements position by position. -/
theorem equivAt_of_sorted_perm {comp : α → α → Bool} (hc : StrictWeakOrder comp)
    {a out : List α} {first last : Nat} (hfl : first ≤ last) (hl : last ≤ a.length)
    (hol : out.length = a.length) (hof : ∀ j, j < first ∨ last ≤ j → out[j]? = a[j]?)
    (hop : out.Perm a) (hs : SortedOn comp a first last) (hos : SortedOn comp out first last) :
    EquivAt comp out a := by
  refine ⟨hol, ?_⟩
  intro j x y hx hy
  by_cases hj : first ≤ j ∧ j < last
  · have hp := range_perm_of_perm hfl hof hop
    have s1 := sortedList_range hc (show last ≤ out.length by omega) hos
    have s2 := sortedList_range hc hl hs
    refine equiv_of_sorted_perm hc hp s1 s2 (j - first) x y ?_ ?_
    · rw [getElem?_range, if_pos (by omega), show first + (j - first) = j by omega]; exact hx
    · rw [getElem?_range, if_pos (by omega), show first + (j - first) = j by omega]; exact hy
  · rw [hof j (by omega), hy] at hx
    cases hx
    exact ⟨hc.irrefl _, hc.irrefl _⟩

end mystl

/-! ## Sorting a sorted range: insertion sort and partition -/

namespace mystl
variable {α : Type}

/-- `unchecked_linear_insert(i, value)` where `value` reads the content of slot `i` and the
left neighbour does not compare greater: nothing moves. -/
theorem unchecked_linear_insert_noop (comp : α → α → Bool) (a : List α) (i : Nat)
    (value : Ref α) (v x : α) (hi : 1 ≤ i) (hv : a[i]? = some v)
    (hd : deref a value = some v) (hx : a[i - 1]? = some x) (h : comp v x = false) :
    unchecked_linear_insert comp a i value = some a := by
  unfold unchecked_linear_insert unchecked_linear_insert_loop
  rw [if_neg (by omega)]
  simp only [hd, rd, hx, Option.some_bind, h, Bool.false_eq_true, if_false, wr,
    if_pos (lt_length_of_getElem? hv), set_self_of_getElem? hv]

/-- The loop of `insertion_sort` on a sorted range moves nothing. -/
theorem insertion_sort_loop_noop {comp : α → α → Bool} (hc : StrictWeakOrder comp)
    (a : List α) (first last : Nat) (hl : last ≤ a.length)
    (hs : SortedOn comp a first last) :
    ∀ (n i : Nat), i + n = last → first < i → insertion_sort_loop comp first n a i = some a := by
  intro n
  induction n with
  | zero => intro i _ _; rfl
  | succ n ih =>
    intro i hin hfi
    obtain ⟨v, hv⟩ := exists_rd (a := a) (i := i) (by omega)
    obtain ⟨x, hx⟩ := exists_rd (a := a) (i := first) (by omega)
    obtain ⟨w, hw⟩ := exists_rd (a := a) (i := i - 1) (by omega)
    have hp := sortedOn_pairwise hc hl hs
    have h1 : comp v x = false := by
      have := hp (i - first) first (Nat.le_refl _) (by omega)
      rw [show first + (i - first) = i by omega] at this
      exact this v x hv hx
    have h2 : comp v w = false := by
      have := hs (i - 1) (by omega) (by omega)
      rw [show i - 1 + 1 = i by omega] at this
      exact this v w hv hw
    rw [insertion_sort_loop_succ comp first n a i v x hv hx, h1]
    simp only [Bool.false_eq_true, if_false]
    rw [unchecked_linear_insert_noop comp a i (Ref.val v) v w (by omega) hv rfl hw h2]
    exact ih (i + 1) (by omega) (by omega)

/-- The loop of `unchecked_insertion_sort` on a sorted range moves nothing. -/
theorem unchecked_insertion_sort_noop (comp : α → α → Bool) (a : List α) (first : Nat) :
    ∀ (n i : Nat), first < i → i + n ≤ a.length → SortedOn comp a first (i + n) →
      unchecked_insertion_sort comp n a i = some a := by
  intro n
  induction n with
  | zero => intro i _ _ _; rfl
  | succ n ih =>
    intro i hfi hl hs
    obtain ⟨v, hv⟩ := exists_rd (a := a) (i := i) (by omega)
    obtain ⟨w, hw⟩ := exists_rd (a := a) (i := i - 1) (by omega)
    have h2 : comp v w = false := by
      have := hs (i - 1) (by omega) (by omega)
      rw [show i - 1 + 1 = i by omega] at this
      exact this v w hv hw
    unfold unchecked_insertion_sort
    rw [unchecked_linear_insert_noop comp a i (Ref.slot i) v w (by omega) hv hv hw h2]
    simp only [Option.some_bind]
    exact ih (i + 1) (by omega) (by omega) (by rw [show i + 1 + n = i + (n + 1) by omega]; exact hs)

/-- `final_insertion_sort` on a sorted range moves nothing. -/
theorem final_insertion_sort_noop {comp : α → α → Bool} (hc : StrictWeakOrder comp)
    (a : List α) (first last : Nat) (hfl : first ≤ last) (hl : last ≤ a.length)
    (hs : SortedOn comp a first last) : final_insertion_sort comp a first last = some a := by
  unfold final_insertion_sort
  rw [size_cast_of_le hfl]
  have hks : kSmallSectionSize = 128 := rfl
  by_cases hk : last - first > kSmallSectionSize
  · rw [if_pos hk]
    have e1 : insertion_sort comp a first (first + kSmallSectionSize) = some a := by
      unfold insertion_sort
      rw [if_neg (by omega)]
      exact insertion_sort_loop_noop hc a first (first + kSmallSectionSize) (by omega)
        (sortedOn_sub hs (Nat.le_refl _) (by omega)) _ _ (by omega) (by omega)
    rw [e1]
    simp only [Option.some_bind]
    exact unchecked_insertion_sort_noop comp a first _ _ (by omega) (by omega)
      (by rw [show first + kSmallSectionSize + (last - (first + kSmallSectionSize)) = last by
        omega]; exact hs)
  · rw [if_neg hk]
    unfold insertion_sort
    by_cases he : first = last
    · rw [if_pos he]
    · rw [if_neg he]
      exact insertion_sort_loop_noop hc a first last hl hs _ _ (by omega) (by omega)

theorem scan_up_some (comp : α → α → Bool) (p : α) (a : List α) :
    ∀ (fuel f f1 : Nat), scan_up comp (Ref.val p) fuel a f = some f1 →
      f ≤ f1 ∧ ∃ x, a[f1]? = some x ∧ comp x p = false := by
  intro fuel
  induction fuel with
  | zero => intro f f1 h; simp [scan_up] at h
  | succ fuel ih =>
    intro f f1 h
    unfold scan_up at h
    cases hx : rd a f with
    | none => rw [hx] at h; simp at h
    | some x =>
      rw [hx] at h
      simp only [deref, Option.some_bind] at h
      cases hcmp : comp x p with
      | true =>
        rw [hcmp, if_pos rfl] at h
        obtain ⟨h1, h2⟩ := ih (f + 1) f1 h
        exact ⟨by omega, h2⟩
      | false =>
        rw [hcmp, if_neg (by simp)] at h
        cases h
        exact ⟨Nat.le_refl _, x, hx, hcmp⟩

theorem scan_down_some (comp : α → α → Bool) (p : α) (a : List α) :
    ∀ (fuel l l1 : Nat), scan_down comp (Ref.val p) fuel a l = some l1 →
      l1 ≤ l ∧ ∃ y, a[l1]? = some y ∧ comp p y = false := by
  intro fuel
  induction fuel with
  | zero => intro l l1 h; simp [scan_down] at h
  | succ fuel ih =>
    intro l l1 h
    unfold scan_down at h
    simp only [deref, Option.some_bind] at h
    cases hx : rd a l with
    | none => rw [hx] at h; simp at h
    | some x =>
      rw [hx] at h
      simp only [Option.some_bind] at h
      cases hcmp : comp p x with
      | true =>
        rw [hcmp, if_pos rfl] at h
        by_cases hl0 : l = 0
        · rw [if_pos hl0] at h; cases h
        · rw [if_neg hl0] at h
          obtain ⟨h1, h2⟩ := ih (l - 1) l1 h
          exact ⟨by omega, h2⟩
      | false =>
        rw [hcmp, if_neg (by simp)] at h
        cases h
        exact ⟨Nat.le_refl _, x, hx, hcmp⟩

/-- On a sorted range `unchecked_partition` with a pivot value exchanges only equivalent
elements: whatever it returns holds, position by position, elements equivalent to the ones
before. -/
theorem unchecked_partition_loop_equiv {comp : α → α → Bool} (hc : StrictWeakOrder comp)
    (p : α) (F L : Nat) :
    ∀ (fuel : Nat) (a : List α) (f l : Nat) (out : List α) (cut : Nat),
      F ≤ f → l ≤ L → L ≤ a.length → SortedOn comp a F L →
      unchecked_partition_loop comp (Ref.val p) fuel a f l = some (out, cut) →
      EquivAt comp out a := by
  intro fuel
  induction fuel with
  | zero => intro a f l out cut _ _ _ _ h; simp [unchecked_partition_loop] at h
  | succ fuel ih =>
    intro a f l out cut hFf hlL hL hs h
    unfold unchecked_partition_loop at h
    cases hsu : scan_up comp (Ref.val p) (a.length + 1) a f with
    | none => rw [hsu] at h; simp at h
    | some f1 =>
      rw [hsu] at h
      simp only [Option.some_bind] at h
      by_cases hl0 : l = 0
      · rw [if_pos hl0] at h; cases h
      · rw [if_neg hl0] at h
        cases hsd : scan_down comp (Ref.val p) (a.length + 1) a (l - 1) with
        | none => rw [hsd] at h; simp at h
        | some l1 =>
          rw [hsd] at h
          simp only [Option.some_bind] at h
          obtain ⟨hf1, x, hx, hxp⟩ := scan_up_some comp p a _ _ _ hsu
          obtain ⟨hl1, y, hy, hpy⟩ := scan_down_some comp p a _ _ _ hsd
          by_cases hlt : f1 < l1
          · rw [if_neg (by simpa using hlt)] at h
            have hsw : iter_swap a f1 l1 = some ((a.set f1 y).set l1 x) := by
              unfold iter_swap
              simp only [rd, hx, hy, Option.some_bind, wr,
                if_pos (lt_length_of_getElem? hx), List.length_set,
                if_pos (lt_length_of_getElem? hy)]
            rw [hsw] at h
            simp only [Option.some_bind] at h
            have hyx : comp y x = false := by
              have := sortedOn_pairwise hc hL hs (l1 - f1) f1 (by omega) (by omega)
              rw [show f1 + (l1 - f1) = l1 by omega] at this
              exact this y x hy hx
            have hxy : comp x y = false := hc.incomp_trans x p y hxp hpy
            have he := equivAt_swap hc hx hy hxy hyx
            have hs1 := sortedOn_of_equivAt hc he hs
            have h2 := ih ((a.set f1 y).set l1 x) (f1 + 1) l1 out cut (by omega) (by omega)
              (by simpa using hL) hs1 h
            exact h2.trans hc he
          · rw [if_pos (by simpa using hlt)] at h
            cases h
            exact EquivAt.refl hc a

end mystl

/-! ## Sorting a sorted range: intro_sort and sort -/

namespace mystl
variable {α : Type}

/-- `intro_sort` on a sorted range: it returns, and the storage afterwards holds, position
by position, elements equivalent to the ones before (it exchanges only equivalent elements,
and the heap sort it falls back on returns a sorted permutation). -/
theorem intro_sort_sorted_spec {comp : α → α → Bool} (lt : α → α → Bool)
    (hc : StrictWeakOrder comp) :
    ∀ (depth : Nat) (a : List α) (first last : Nat), first ≤ last → last ≤ a.length →
      SortedOn comp a first last →
      ∃ out, intro_sort lt comp depth a first last = some out ∧
        (∀ j, j < first ∨ last ≤ j → out[j]? = a[j]?) ∧ out.Perm a ∧ EquivAt comp out a := by
  intro depth
  induction depth with
  | zero =>
    intro a first last hfl hl hs
    unfold intro_sort
    rw [size_cast_of_le hfl]
    by_cases hk : last - first > kSmallSectionSize
    · rw [if_pos hk]
      obtain ⟨out, ho, hol, hof, hop, hos, _⟩ :=
        partial_sort_spec hc a first last last hfl (Nat.le_refl _) hl
      exact ⟨out, ho, hof, hop, equivAt_of_sorted_perm hc hfl hl hol hof hop hs hos⟩
    · rw [if_neg hk]
      exact ⟨a, rfl, fun _ _ => rfl, List.Perm.refl _, EquivAt.refl hc a⟩
  | succ depth ih =>
    intro a first last hfl hl hs
    unfold intro_sort
    rw [size_cast_of_le hfl]
    by_cases hk : last - first > kSmallSectionSize
    · rw [if_pos hk]
      have hk' : last - first > 128 := hk
      obtain ⟨x, hx⟩ := exists_rd (a := a) (i := first) (by omega)
      obtain ⟨y, hy⟩ := exists_rd (a := a) (i := first + (last - first) / 2) (by omega)
      obtain ⟨z, hz⟩ := exists_rd (a := a) (i := last - 1) (by omega)
      rw [if_neg (by omega)]
      simp only [rd, hx, hy, hz, Option.some_bind]
      obtain ⟨k, hk1, hk2, hk3⟩ : ∃ k, first ≤ k ∧ k < last ∧
          a[k]? = some (median lt x y z) := by
        rcases median_mem lt x y z with h | h | h
        · exact ⟨first, Nat.le_refl _, by omega, by rw [h]; exact hx⟩
        · exact ⟨first + (last - first) / 2, by omega, by omega, by rw [h]; exact hy⟩
        · exact ⟨last - 1, by omega, by omega, by rw [h]; exact hz⟩
      obtain ⟨a1, cut, ho1, hol1, hc1, hc2, hof1, hop1⟩ :=
        unchecked_partition_loop_val comp (median lt x y z) first last
          (a.length + 1) a first last (by omega) (by omega) (Nat.le_refl _) (Nat.le_refl _) hl
          ⟨k, hk1, hk2, fun w hw => by rw [hk3] at hw; cases hw; exact hc.irrefl _⟩
          ⟨k, hk1, by omega, fun w hw => by rw [hk3] at hw; cases hw; exact hc.irrefl _⟩
      have he1 : EquivAt comp a1 a :=
        unchecked_partition_loop_equiv hc (median lt x y z) first last (a.length + 1) a first
          last a1 cut (Nat.le_refl _) (Nat.le_refl _) hl hs ho1
      have hs1 : SortedOn comp a1 first last := sortedOn_of_equivAt hc he1 hs
      have hcl : cut ≤ last := Nat.le_of_lt hc2
      have hl1 : last ≤ a1.length := by omega
      obtain ⟨a2, ho2, hof2, hop2, he2⟩ := ih a1 cut last hcl hl1 (sortedOn_sub hs1 hc1 (Nat.le_refl _))
      have hs2 : SortedOn comp a2 first last := sortedOn_of_equivAt hc he2 hs1
      have hl2 : cut ≤ a2.length := by have := he2.1; omega
      obtain ⟨a3, ho3, hof3, hop3, he3⟩ := ih a2 first cut hc1 hl2 (sortedOn_sub hs2 (Nat.le_refl _) hcl)
      unfold unchecked_partition
      simp only [ho1, ho2, ho3, Option.some_bind]
      refine ⟨a3, rfl, ?_, (hop3.trans hop2).trans hop1, (he3.trans hc he2).trans hc he1⟩
      intro j hj
      have j1 : j < first ∨ cut ≤ j := by omega
      have j2 : j < cut ∨ last ≤ j := by omega
      rw [hof3 j j1, hof2 j j2, hof1 j hj]
    · rw [if_neg hk]
      exact ⟨a, rfl, fun _ _ => rfl, List.Perm.refl _, EquivAt.refl hc a⟩

/-- `intro_sort` leaves a range of at most `kSmallSectionSize` elements as it is. -/
theorem intro_sort_small (lt comp : α → α → Bool) (depth : Nat) (a : List α)
    (first last : Nat) (hfl : first ≤ last) (hk : last - first ≤ kSmallSectionSize) :
    intro_sort lt comp depth a first last = some a := by
  cases depth with
  | zero => unfold intro_sort; rw [size_cast_of_le hfl, if_neg (by omega)]
  | succ d => unfold intro_sort; rw [size_cast_of_le hfl, if_neg (by omega)]

/-- `sort` on a sorted range: it returns a permutation that holds, position by position,
elements equivalent to the ones before; nothing moves when the range has at most
`kSmallSectionSize` elements, and nothing changes when equivalent elements are equal. -/
theorem sort_comp_sorted_spec {comp : α → α → Bool} (lt : α → α → Bool)
    (hc : StrictWeakOrder comp) (a : List α) (first last : Nat) (hfl : first ≤ last)
    (hl : last ≤ a.length) (hs : SortedOn comp a first last) :
    ∃ out, sort_comp lt comp a first last = some out ∧ out.length = a.length ∧
      (∀ j, j < first ∨ last ≤ j → out[j]? = a[j]?) ∧
      (range out first last).Perm (range a first last) ∧
      (∀ (j : Nat) (x y : α), out[j]? = some x → a[j]? = some y →
        comp x y = false ∧ comp y x = false) ∧
      (last - first ≤ kSmallSectionSize → out = a) ∧
      ((∀ x y, comp x y = false → comp y x = false → x = y) → out = a) := by
  unfold sort_comp
  by_cases h : first = last
  · rw [if_neg (by simpa using h)]
    exact ⟨a, rfl, rfl, fun _ _ => rfl, List.Perm.refl _, (EquivAt.refl hc a).2,
      fun _ => rfl, fun _ => rfl⟩
  · rw [if_pos h]
    obtain ⟨k, hk⟩ := slg2_loop_some (last - first + 1) (last - first) 0 (by omega)
    obtain ⟨a1, ho1, hof1, hop1, he1⟩ :=
      intro_sort_sorted_spec lt hc (k * 2) a first last hfl hl hs
    have hl1 : last ≤ a1.length := by have := he1.1; omega
    have ho2 := final_insertion_sort_noop hc a1 first last hfl hl1
      (sortedOn_of_equivAt hc he1 hs)
    simp only [slg2, hk, ho1, ho2, Option.some_bind]
    refine ⟨a1, rfl, he1.1, hof1, range_perm_of_perm hfl hof1 hop1, he1.2, ?_, ?_⟩
    · intro hsmall
      have := intro_sort_small lt comp (k * 2) a first last hfl hsmall
      rw [ho1] at this
      exact Option.some.inj this
    · intro htot
      apply List.ext_getElem?
      intro j
      by_cases hj : j < a.length
      · obtain ⟨x, hx⟩ := exists_rd (a := a1) (i := j) (by have := he1.1; omega)
        obtain ⟨y, hy⟩ := exists_rd (a := a) (i := j) hj
        obtain ⟨e1, e2⟩ := he1.2 j x y hx hy
        rw [hx, hy, htot x y e1 e2]
      · rw [List.getElem?_eq_none (by have := he1.1; omega), List.getElem?_eq_none (by omega)]

theorem sortedOn_equalKeys : SortedOn tagLt equalKeys 0 129 := by
  have hkey : ∀ (j : Nat) (x : Nat × Nat), equalKeys[j]? = some x → x.1 = 0 := by
    intro j x hx
    have hm : x ∈ equalKeys := List.mem_iff_getElem?.mpr ⟨j, hx⟩
    unfold equalKeys at hm
    obtain ⟨i, _, hi⟩ := List.mem_map.mp hm
    rw [← hi]
  intro i _ _ y x hy hx
  have h1 := hkey _ _ hy
  have h2 := hkey _ _ hx
  simp [tagLt, h1, h2]

theorem sortedOn_example_sorted : SortedOn natLt [1, 2, 2, 3, 5] 0 5 :=
  sortedOn_of_sortedList_range (by decide) (by unfold SortedList; decide)

end mystl

/-! ## slg2 and the recursion depth of intro_sort -/

namespace mystl
variable {α : Type}

/-- The loop of `slg2` started with `n ≥ 1` adds to `k` the number `r` with
`2 ^ r ≤ n < 2 ^ (r + 1)`. -/
theorem slg2_loop_spec : ∀ (fuel n k : Nat), n < fuel → 1 ≤ n →
    ∃ r, slg2_loop fuel n k = some (k + r) ∧ 2 ^ r ≤ n ∧ n < 2 ^ (r + 1) := by
  intro fuel
  induction fuel with
  | zero => intro n k h; omega
  | succ fuel ih =>
    intro n k hf hn
    unfold slg2_loop
    by_cases h1 : n > 1
    · rw [if_pos h1]
      have hsh : n >>> 1 = n / 2 := by rw [Nat.shiftRight_eq_div_pow, Nat.pow_one]
      rw [hsh]
      obtain ⟨r, hr, h2, h3⟩ := ih (n / 2) (k + 1) (by omega) (by omega)
      refine ⟨r + 1, by rw [hr]; congr 1; omega, ?_, ?_⟩
      · rw [Nat.pow_succ]; omega
      · rw [Nat.pow_succ]; omega
    · rw [if_neg h1]
      exact ⟨0, rfl, by simpa using hn, by simp; omega⟩

theorem slg2_spec (n : Nat) (hn : 1 ≤ n) :
    ∃ k, slg2 n = some k ∧ 2 ^ k ≤ n ∧ n < 2 ^ (k + 1) := by
  obtain ⟨r, hr, h2, h3⟩ := slg2_loop_spec (n + 1) n 0 (by omega) hn
  exact ⟨r, by unfold slg2; rw [hr, Nat.zero_add], h2, h3⟩

/-- Two numbers between the same consecutive powers of two have the same logarithm. -/
theorem pow_bounds_unique {n k r : Nat} (h1 : 2 ^ k ≤ n) (h2 : n < 2 ^ (k + 1))
    (h3 : 2 ^ r ≤ n) (h4 : n < 2 ^ (r + 1)) : k = r := by
  have a1 : k < r + 1 := (Nat.pow_lt_pow_iff_right (by omega)).mp (Nat.lt_of_le_of_lt h1 h4)
  have a2 : r < k + 1 := (Nat.pow_lt_pow_iff_right (by omega)).mp (Nat.lt_of_le_of_lt h3 h2)
  omega

theorem slg2_eq_log2 (n : Nat) (hn : 1 ≤ n) : slg2 n = some (Nat.log2 n) := by
  obtain ⟨k, hk, h1, h2⟩ := slg2_spec n hn
  have h3 : 2 ^ Nat.log2 n ≤ n := Nat.log2_self_le (by omega)
  have h4 : n < 2 ^ (Nat.log2 n + 1) := Nat.lt_log2_self
  rw [hk, pow_bounds_unique h1 h2 h3 h4]

/-- `sort` hands `slg2(last - first) * 2` to `intro_sort`. -/
theorem sort_comp_budget (lt comp : α → α → Bool) (a : List α) (first last k : Nat)
    (hne : first ≠ last) (hk : slg2 (last - first) = some k) :
    sort_comp lt comp a first last =
      (intro_sort lt comp (k * 2) a first last).bind fun a1 =>
        final_insertion_sort comp a1 first last := by
  unfold sort_comp
  rw [if_pos hne, hk]
  rfl

/-- Forgetting the counter of `intro_sort_nesting` gives `intro_sort`. -/
theorem intro_sort_nesting_fst (lt comp : α → α → Bool) :
    ∀ (d : Nat) (a : List α) (first last : Nat),
      (intro_sort_nesting lt comp d a first last).map Prod.fst =
        intro_sort lt comp d a first last := by
  intro d
  induction d with
  | zero =>
    intro a first last
    unfold intro_sort_nesting intro_sort
    split
    · rw [Option.map_map]
      cases partial_sort comp a first last last <;> rfl
    · rfl
  | succ d ih =>
    intro a first last
    unfold intro_sort_nesting intro_sort
    split
    · cases rd a first with
      | none => rfl
      | some x =>
        cases rd a (first + (last - first) / 2) with
        | none => rfl
        | some y =>
          cases (if last = 0 then none else rd a (last - 1)) with
          | none => rfl
          | some z =>
            simp only [Option.some_bind]
            cases unchecked_partition comp a first last (Ref.val (median lt x y z)) with
            | none => rfl
            | some r =>
              obtain ⟨a1, cut⟩ := r
              simp only [Option.some_bind]
              rw [← ih a1 cut last]
              cases intro_sort_nesting lt comp d a1 cut last with
              | none => rfl
              | some r2 =>
                obtain ⟨a2, n1⟩ := r2
                simp only [Option.some_bind, Option.map_some']
                rw [← ih a2 first cut, Option.map_map]
                cases intro_sort_nesting lt comp d a2 first cut <;> rfl
    · rfl

/-- The nesting depth of `intro_sort` does not exceed its depth budget. -/
theorem intro_sort_nesting_le (lt comp : α → α → Bool) :
    ∀ (d : Nat) (a : List α) (first last : Nat) (out : List α) (n : Nat),
      intro_sort_nesting lt comp d a first last = some (out, n) → n ≤ d := by
  intro d
  induction d with
  | zero =>
    intro a first last out n h
    unfold intro_sort_nesting at h
    split at h
    · cases hp : partial_sort comp a first last last with
      | none => rw [hp] at h; cases h
      | some a1 => rw [hp] at h; cases h; exact Nat.le_refl _
    · cases h; exact Nat.le_refl _
  | succ d ih =>
    intro a first last out n h
    unfold intro_sort_nesting at h
    split at h
    · cases hx : rd a first with
      | none => rw [hx] at h; cases h
      | some x =>
        cases hy : rd a (first + (last - first) / 2) with
        | none => rw [hx, hy] at h; cases h
        | some y =>
          cases hz : (if last = 0 then none else rd a (last - 1)) with
          | none => rw [hx, hy, hz] at h; cases h
          | some z =>
            rw [hx, hy, hz] at h
            simp only [Option.some_bind] at h
            cases hp : unchecked_partition comp a first last (Ref.val (median lt x y z)) with
            | none => rw [hp] at h; cases h
            | some r =>
              obtain ⟨a1, cut⟩ := r
              rw [hp] at h
              simp only [Option.some_bind] at h
              cases h1 : intro_sort_nesting lt comp d a1 cut last with
              | none => rw [h1] at h; cases h
              | some r1 =>
                obtain ⟨a2, n1⟩ := r1
                rw [h1] at h
                simp only [Option.some_bind] at h
                cases h2 : intro_sort_nesting lt comp d a2 first cut with
                | none => rw [h2] at h; cases h
                | some r2 =>
                  obtain ⟨a3, n2⟩ := r2
                  rw [h2] at h
                  cases h
                  have e1 := ih a1 cut last a2 n1 h1
                  have e2 := ih a2 first cut a3 n2 h2
                  omega
    · cases h; omega

/-- With no budget left `intro_sort` does not call itself: on a range of more than
`kSmallSectionSize` elements it is `partial_sort(first, last, last)`. -/
theorem intro_sort_nesting_zero (lt comp : α → α → Bool) (a : List α) (first last : Nat)
    (h : size_cast first last > kSmallSectionSize) :
    intro_sort_nesting lt comp 0 a first last =
      (partial_sort comp a first last last).map fun a1 => (a1, 0) := by
  unfold intro_sort_nesting
  rw [if_pos h]

/-- `partial_sort(first, last, last)` is `make_heap` followed by `sort_heap`. -/
theorem partial_sort_full (comp : α → α → Bool) (a : List α) (first last : Nat) :
    partial_sort comp a first last last =
      (make_heap comp a first last).bind fun a1 => sort_heap comp a1 first last := by
  unfold partial_sort
  rw [Nat.sub_self]
  rfl

/-- `sort` returns, and its `intro_sort` nests no deeper than the budget
`slg2(last - first) * 2`. -/
theorem sort_comp_nesting {comp : α → α → Bool} (lt : α → α → Bool)
    (hc : StrictWeakOrder comp) (a : List α) (first last : Nat) (hfl : first < last)
    (hl : last ≤ a.length) :
    ∃ k a1 n out, slg2 (last - first) = some k ∧ 2 ^ k ≤ last - first ∧
      last - first < 2 ^ (k + 1) ∧
      intro_sort_nesting lt comp (k * 2) a first last = some (a1, n) ∧ n ≤ k * 2 ∧
      intro_sort lt comp (k * 2) a first last = some a1 ∧
      final_insertion_sort comp a1 first last = some out ∧
      sort_comp lt comp a first last = some out := by
  obtain ⟨k, hk, hk1, hk2⟩ := slg2_spec (last - first) (by omega)
  obtain ⟨a1, ho1, hol1, _, _⟩ := intro_sort_spec lt hc (k * 2) a first last (by omega) hl
  obtain ⟨out, ho2, _, _, _⟩ := final_insertion_sort_spec hc a1 first last (by omega) (by omega)
  have hfst := intro_sort_nesting_fst lt comp (k * 2) a first last
  rw [ho1] at hfst
  cases hn : intro_sort_nesting lt comp (k * 2) a first last with
  | none => rw [hn] at hfst; cases hfst
  | some r =>
    obtain ⟨b, n⟩ := r
    rw [hn] at hfst
    have hb : b = a1 := Option.some.inj hfst
    subst hb
    refine ⟨k, b, n, out, hk, hk1, hk2, hn, intro_sort_nesting_le lt comp _ _ _ _ _ _ hn, ho1,
      ho2, ?_⟩
    rw [sort_comp_budget lt comp a first last k (by omega) hk, ho1]
    exact ho2

end mystl

/-! ## The working range of nth_element -/

namespace mystl
variable {α : Type}

/-- The loop of `nth_element` keeps `nth` inside the working range, which shrinks at every
round until it has at most three elements. -/
theorem nth_element_loop_contains (lt : α → α → Bool) (hirr : ∀ x, lt x x = false)
    (nth : Nat) :
    ∀ (fuel : Nat) (a : List α) (first last : Nat), first ≤ nth → nth < last →
      last ≤ a.length → last - first < fuel →
      ∃ out f1 l1, nth_element_loop lt lt nth fuel a first last = some (out, f1, l1) ∧
        first ≤ f1 ∧ f1 ≤ nth ∧ nth < l1 ∧ l1 ≤ last ∧ l1 - f1 ≤ 3 ∧
        out.length = a.length := by
  intro fuel
  induction fuel with
  | zero => intro a first last _ _ _ h; omega
  | succ fuel ih =>
    intro a first last hfn hnl hl hfuel
    unfold nth_element_loop
    by_cases h3 : last - first > 3
    · rw [if_pos h3]
      obtain ⟨x, hx⟩ := exists_rd (a := a) (i := first) (by omega)
      obtain ⟨y, hy⟩ := exists_rd (a := a) (i := first + (last - first) / 2) (by omega)
      obtain ⟨z, hz⟩ := exists_rd (a := a) (i := last - 1) (by omega)
      obtain ⟨a1, cut, hpart, hc1, hc2, hol1, _, _⟩ :=
        nth_element_partition_spec lt hirr a first last x y z h3 hl hx hy hz
      simp only [rd, hx, hy, hz, Option.some_bind, hpart]
      by_cases hcn : cut ≤ nth
      · rw [if_pos hcn]
        obtain ⟨out, f1, l1, ho, k1, k2, k3, k4, k5, hol⟩ :=
          ih a1 cut last hcn hnl (by omega) (by omega)
        exact ⟨out, f1, l1, ho, by omega, k2, k3, k4, k5, by omega⟩
      · rw [if_neg hcn]
        obtain ⟨out, f1, l1, ho, k1, k2, k3, k4, k5, hol⟩ :=
          ih a1 first cut hfn (by omega) (by omega) (by omega)
        exact ⟨out, f1, l1, ho, k1, k2, k3, by omega, k5, by omega⟩
    · rw [if_neg h3]
      exact ⟨a, first, last, rfl, Nat.le_refl _, hfn, hnl, Nat.le_refl _, by omega, rfl⟩

theorem sortedOn_example_bounds : SortedOn natLt [1, 3, 3, 3, 5, 8] 0 6 :=
  sortedOn_of_sortedList_range (by decide) (by unfold SortedList; decide)

end mystl


/-! ## unchecked_partition: what it returns and where it stops -/

namespace mystl
variable {α : Type}

theorem scan_up_passed (comp : α → α → Bool) (p : α) (a : List α) :
    ∀ (fuel f f1 : Nat), scan_up comp (Ref.val p) fuel a f = some f1 →
      ∀ j, f ≤ j → j < f1 → ∀ y, a[j]? = some y → comp y p = true := by
  intro fuel
  induction fuel with
  | zero => intro f f1 h; simp [scan_up] at h
  | succ fuel ih =>
    intro f f1 h
    unfold scan_up at h
    cases hx : rd a f with
    | none => rw [hx] at h; simp at h
    | some x =>
      rw [hx] at h
      simp only [deref, Option.some_bind] at h
      cases hcmp : comp x p with
      | true =>
        rw [hcmp, if_pos rfl] at h
        intro j hj1 hj2 y hy
        by_cases hjf : j = f
        · subst hjf
          rw [show a[j]? = rd a j from rfl, hx] at hy
          cases hy
          exact hcmp
        · exact ih (f + 1) f1 h j (by omega) hj2 y hy
      | false =>
        rw [hcmp, if_neg (by simp)] at h
        cases h
        intro j hj1 hj2
        omega

theorem scan_down_passed (comp : α → α → Bool) (p : α) (a : List α) :
    ∀ (fuel l l1 : Nat), scan_down comp (Ref.val p) fuel a l = some l1 →
      ∀ j, l1 < j → j ≤ l → ∀ y, a[j]? = some y → comp p y = true := by
  intro fuel
  induction fuel with
  | zero => intro l l1 h; simp [scan_down] at h
  | succ fuel ih =>
    intro l l1 h
    unfold scan_down at h
    simp only [deref, Option.some_bind] at h
    cases hx : rd a l with
    | none => rw [hx] at h; simp at h
    | some x =>
      rw [hx] at h
      simp only [Option.some_bind] at h
      cases hcmp : comp p x with
      | true =>
        rw [hcmp, if_pos rfl] at h
        by_cases hl0 : l = 0
        · rw [if_pos hl0] at h; cases h
        · rw [if_neg hl0] at h
          intro j hj1 hj2 y hy
          by_cases hjl : j = l
          · subst hjl
            rw [show a[j]? = rd a j from rfl, hx] at hy
            cases hy
            exact hcmp
          · exact ih (l - 1) l1 h j hj1 (by omega) y hy
      | false =>
        rw [hcmp, if_neg (by simp)] at h
        cases h
        intro j hj1 hj2
        omega

/-- What `unchecked_partition` with a pivot value returns is a partition: when the pivot is
not less than any element before `first` and no element from `last` on is less than the
pivot, then afterwards the pivot is not less than any element before the cut and no
element from the cut on is less than the pivot. -/
theorem unchecked_partition_loop_parts {comp : α → α → Bool}
    (hasym : ∀ x y, comp x y = true → comp y x = false) (p : α) (F L : Nat) :
    ∀ (fuel : Nat) (a : List α) (f l : Nat) (out : List α) (cut : Nat),
      (∀ j, F ≤ j → j < f → ∀ y, a[j]? = some y → comp p y = false) →
      (∀ j, l ≤ j → j < L → ∀ y, a[j]? = some y → comp y p = false) →
      unchecked_partition_loop comp (Ref.val p) fuel a f l = some (out, cut) →
      (∀ j, F ≤ j → j < cut → ∀ y, out[j]? = some y → comp p y = false) ∧
      (∀ j, cut ≤ j → j < L → ∀ y, out[j]? = some y → comp y p = false) := by
  intro fuel
  induction fuel with
  | zero => intro a f l out cut _ _ h; simp [unchecked_partition_loop] at h
  | succ fuel ih =>
    intro a f l out cut hleft hright h
    unfold unchecked_partition_loop at h
    cases hsu : scan_up comp (Ref.val p) (a.length + 1) a f with
    | none => rw [hsu] at h; simp at h
    | some f1 =>
      rw [hsu] at h
      simp only [Option.some_bind] at h
      by_cases hl0 : l = 0
      · rw [if_pos hl0] at h; cases h
      · rw [if_neg hl0] at h
        cases hsd : scan_down comp (Ref.val p) (a.length + 1) a (l - 1) with
        | none => rw [hsd] at h; simp at h
        | some l1 =>
          rw [hsd] at h
          simp only [Option.some_bind] at h
          obtain ⟨hf1, x, hx, hxp⟩ := scan_up_some comp p a _ _ _ hsu
          obtain ⟨hl1, y, hy, hpy⟩ := scan_down_some comp p a _ _ _ hsd
          have hup := scan_up_passed comp p a _ _ _ hsu
          have hdn := scan_down_passed comp p a _ _ _ hsd
          by_cases hlt : f1 < l1
          · rw [if_neg (by simpa using hlt)] at h
            have hsw : iter_swap a f1 l1 = some ((a.set f1 y).set l1 x) := by
              unfold iter_swap
              simp only [rd, hx, hy, Option.some_bind, wr,
                if_pos (lt_length_of_getElem? hx), List.length_set,
                if_pos (lt_length_of_getElem? hy)]
            rw [hsw] at h
            simp only [Option.some_bind] at h
            have hf1len := lt_length_of_getElem? hx
            have hl1len := lt_length_of_getElem? hy
            refine ih ((a.set f1 y).set l1 x) (f1 + 1) l1 out cut ?_ ?_ h
            · intro j hj1 hj2 z hz
              rw [List.getElem?_set_ne (by omega)] at hz
              by_cases hjf : j = f1
              · subst hjf
                rw [List.getElem?_set_self hf1len] at hz
                cases hz
                exact hpy
              · rw [List.getElem?_set_ne (by omega)] at hz
                by_cases hjlt : j < f
                · exact hleft j hj1 hjlt z hz
                · exact hasym _ _ (hup j (by omega) (by omega) z hz)
            · intro j hj1 hj2 z hz
              by_cases hjl : j = l1
              · subst hjl
                rw [List.getElem?_set_self (by simpa using hl1len)] at hz
                cases hz
                exact hxp
              · rw [List.getElem?_set_ne (by omega), List.getElem?_set_ne (by omega)] at hz
                by_cases hjge : l ≤ j
                · exact hright j hjge hj2 z hz
                · exact hasym _ _ (hdn j (by omega) (by omega) z hz)
          · rw [if_pos (by simpa using hlt)] at h
            cases h
            constructor
            · intro j hj1 hj2 z hz
              by_cases hjlt : j < f
              · exact hleft j hj1 hjlt z hz
              · exact hasym _ _ (hup j (by omega) hj2 z hz)
            · intro j hj1 hj2 z hz
              by_cases hjge : l ≤ j
              · exact hright j hjge hj2 z hz
              · by_cases hjl : j = l1
                · have hjf : j = cut := by omega
                  subst hjf
                  rw [hx] at hz
                  cases hz
                  exact hxp
                · exact hasym _ _ (hdn j (by omega) (by omega) z hz)

/-- The cut `unchecked_partition` returns does not lie before `first`; it lies after
`first` or not before any element of the range that is not greater than the pivot. -/
theorem unchecked_partition_loop_cut_ge (comp : α → α → Bool) (p : α) :
    ∀ (fuel : Nat) (a : List α) (f l : Nat) (out : List α) (cut : Nat),
      unchecked_partition_loop comp (Ref.val p) fuel a f l = some (out, cut) →
      f ≤ cut ∧
        ∀ jd y, jd < l → a[jd]? = some y → comp p y = false → f < cut ∨ jd ≤ cut := by
  intro fuel
  induction fuel with
  | zero => intro a f l out cut h; simp [unchecked_partition_loop] at h
  | succ fuel ih =>
    intro a f l out cut h
    unfold unchecked_partition_loop at h
    cases hsu : scan_up comp (Ref.val p) (a.length + 1) a f with
    | none => rw [hsu] at h; simp at h
    | some f1 =>
      rw [hsu] at h
      simp only [Option.some_bind] at h
      by_cases hl0 : l = 0
      · rw [if_pos hl0] at h; cases h
      · rw [if_neg hl0] at h
        cases hsd : scan_down comp (Ref.val p) (a.length + 1) a (l - 1) with
        | none => rw [hsd] at h; simp at h
        | some l1 =>
          rw [hsd] at h
          simp only [Option.some_bind] at h
          obtain ⟨hf1, x, hx, hxp⟩ := scan_up_some comp p a _ _ _ hsu
          obtain ⟨hl1, y, hy, hpy⟩ := scan_down_some comp p a _ _ _ hsd
          have hdn := scan_down_passed comp p a _ _ _ hsd
          by_cases hlt : f1 < l1
          · rw [if_neg (by simpa using hlt)] at h
            have hsw : iter_swap a f1 l1 = some ((a.set f1 y).set l1 x) := by
              unfold iter_swap
              simp only [rd, hx, hy, Option.some_bind, wr,
                if_pos (lt_length_of_getElem? hx), List.length_set,
                if_pos (lt_length_of_getElem? hy)]
            rw [hsw] at h
            simp only [Option.some_bind] at h
            obtain ⟨h1, _⟩ := ih _ _ _ _ _ h
            exact ⟨by omega, fun _ _ _ _ _ => Or.inl (by omega)⟩
          · rw [if_pos (by simpa using hlt)] at h
            cases h
            refine ⟨hf1, ?_⟩
            intro jd z hjd hz hpz
            by_cases hle : jd ≤ l1
            · exact Or.inr (by omega)
            · have := hdn jd (by omega) (by omega) z hz
              rw [hpz] at this
              cases this

theorem unchecked_partition_loop_ends_fst (comp : α → α → Bool) (pivot : Ref α) :
    ∀ (fuel : Nat) (a : List α) (f l : Nat),
      (unchecked_partition_loop_ends comp pivot fuel a f l).map (fun r => (r.1, r.2.1)) =
        unchecked_partition_loop comp pivot fuel a f l := by
  intro fuel
  induction fuel with
  | zero => intro a f l; rfl
  | succ fuel ih =>
    intro a f l
    unfold unchecked_partition_loop_ends unchecked_partition_loop
    cases scan_up comp pivot (a.length + 1) a f with
    | none => rfl
    | some f1 =>
      simp only [Option.some_bind]
      by_cases hl0 : l = 0
      · rw [if_pos hl0, if_pos hl0]; rfl
      · rw [if_neg hl0, if_neg hl0]
        cases scan_down comp pivot (a.length + 1) a (l - 1) with
        | none => rfl
        | some l1 =>
          simp only [Option.some_bind]
          by_cases hlt : f1 < l1
          · rw [if_neg (by simpa using hlt), if_neg (by simpa using hlt)]
            cases iter_swap a f1 l1 with
            | none => rfl
            | some a1 =>
              simp only [Option.some_bind]
              exact ih a1 (f1 + 1) l1
          · rw [if_pos (by simpa using hlt), if_pos (by simpa using hlt)]
            rfl

/-- The final `last` of `unchecked_partition` does not lie before an element of the range
that is not greater than the pivot, as long as one exists before `last` along with an
element not less than the pivot at or after `first`. -/
theorem unchecked_partition_loop_ends_val (comp : α → α → Bool) (p : α) (F L : Nat) :
    ∀ (fuel : Nat) (a : List α) (f l : Nat),
      0 < fuel → l < fuel + f → F ≤ f → l ≤ L → L ≤ a.length →
      (∃ j, f ≤ j ∧ j < L ∧ ∀ y, a[j]? = some y → comp y p = false) →
      (∃ j, F ≤ j ∧ j + 1 ≤ l ∧ ∀ y, a[j]? = some y → comp p y = false) →
      ∃ out cut l1, unchecked_partition_loop_ends comp (Ref.val p) fuel a f l =
          some (out, cut, l1) ∧ f ≤ cut ∧ cut < L ∧ F ≤ l1 ∧ l1 < l := by
  intro fuel
  induction fuel with
  | zero => intro a f l h0; omega
  | succ fuel ih =>
    intro a f l _ hfuel hFf hlL hL ⟨ju, hju1, hju2, hju3⟩ ⟨jd, hjd1, hjd2, hjd3⟩
    obtain ⟨f1, hf1, hf2, hf3, hf4⟩ := scan_up_val comp p a ju (by omega) hju3
      (a.length + 1) f hju1 (by omega)
    obtain ⟨l1, hl1, hl2, hl3, hl4⟩ := scan_down_val comp p a jd hjd3
      (a.length + 1) (l - 1) (by omega) (by omega) (by omega)
    unfold unchecked_partition_loop_ends
    simp only [hf1, Option.some_bind]
    rw [if_neg (by omega)]
    simp only [hl1, Option.some_bind]
    by_cases hlt : f1 < l1
    · rw [if_neg (by simpa using hlt)]
      obtain ⟨x, hx⟩ := exists_rd (a := a) (i := f1) (by omega)
      obtain ⟨y, hy⟩ := exists_rd (a := a) (i := l1) (by omega)
      have hsw : iter_swap a f1 l1 = some ((a.set f1 y).set l1 x) := by
        unfold iter_swap
        simp only [rd, hx, hy, Option.some_bind, wr, if_pos (show f1 < a.length by omega),
          List.length_set, if_pos (show l1 < a.length by omega)]
      simp only [hsw, Option.some_bind]
      obtain ⟨out, cut, l2, ho, hc1, hc2, hc3, hc4⟩ := ih ((a.set f1 y).set l1 x) (f1 + 1) l1
        (by omega) (by omega) (by omega) (by omega) (by simpa using hL)
        ⟨l1, by omega, by omega, by
          intro z hz
          rw [List.getElem?_set_self (by simp; omega)] at hz
          cases hz
          exact hf4 x hx⟩
        ⟨f1, by omega, by omega, by
          intro z hz
          rw [List.getElem?_set_ne (by omega), List.getElem?_set_self (by omega)] at hz
          cases hz
          exact hl4 y hy⟩
      exact ⟨out, cut, l2, ho, by omega, hc2, hc3, by omega⟩
    · rw [if_pos (by simpa using hlt)]
      exact ⟨a, f1, l1, rfl, hf2, by omega, by omega, by omega⟩

end mystl

/-! ## intro_sort: the coarse order it leaves -/

namespace mystl
variable {α : Type}

theorem forall_range_of_perm {P : α → Prop} {a out : List α} {f l : Nat} (hfl : f ≤ l)
    (hframe : ∀ j, j < f ∨ l ≤ j → out[j]? = a[j]?) (hp : out.Perm a)
    (h : ∀ j, f ≤ j → j < l → ∀ y, a[j]? = some y → P y) :
    ∀ j, f ≤ j → j < l → ∀ y, out[j]? = some y → P y := by
  intro j hj1 hj2 y hy
  have hmem : y ∈ range out f l := mem_range_iff.mpr ⟨j, hj1, hj2, hy⟩
  rw [(range_perm_of_perm hfl hframe hp).mem_iff] at hmem
  obtain ⟨j', h1, h2, h3⟩ := mem_range_iff.mp hmem
  exact h j' h1 h2 y h3

theorem median_not_less_other {β : Type} (c : β → β → Bool) (hirr : ∀ x, c x x = false)
    (x y z : β) : c (median c x y z) y = false ∨ c (median c x y z) z = false := by
  unfold median
  cases h1 : c x y <;> cases h2 : c y z <;> cases h3 : c x z <;>
    simp [h1, h2, h3, hirr]

/-- `intro_sort` leaves the range coarsely ordered, whatever comparison picks the median:
an element at least `kSmallSectionSize` positions behind another one does not compare less
than it.  Either the two lie on different sides of a cut, or in a part that `partial_sort`
has sorted. -/
theorem intro_sort_coarse {comp : α → α → Bool} (lt : α → α → Bool)
    (hc : StrictWeakOrder comp) :
    ∀ (depth : Nat) (a : List α) (first last : Nat), first ≤ last → last ≤ a.length →
      ∃ out, intro_sort lt comp depth a first last = some out ∧ out.length = a.length ∧
        (∀ j, j < first ∨ last ≤ j → out[j]? = a[j]?) ∧ out.Perm a ∧
        ∀ i j, first ≤ i → i + kSmallSectionSize ≤ j → j < last → NotLess comp out j i := by
  intro depth
  induction depth with
  | zero =>
    intro a first last hfl hl
    unfold intro_sort
    rw [size_cast_of_le hfl]
    by_cases hs : last - first > kSmallSectionSize
    · rw [if_pos hs]
      obtain ⟨out, ho, hol, hof, hop, hos, _⟩ :=
        partial_sort_spec hc a first last last hfl (Nat.le_refl _) hl
      refine ⟨out, ho, hol, hof, hop, ?_⟩
      intro i j hi hij hj
      have := sortedOn_pairwise hc (by omega : last ≤ out.length) hos (j - i) i hi (by omega)
      rw [show i + (j - i) = j by omega] at this
      exact this
    · rw [if_neg hs]
      exact ⟨a, rfl, rfl, fun _ _ => rfl, List.Perm.refl _, fun i j _ _ _ => by omega⟩
  | succ depth ih =>
    intro a first last hfl hl
    unfold intro_sort
    rw [size_cast_of_le hfl]
    by_cases hs : last - first > kSmallSectionSize
    · rw [if_pos hs]
      have hk : last - first > 128 := hs
      obtain ⟨x, hx⟩ := exists_rd (a := a) (i := first) (by omega)
      obtain ⟨y, hy⟩ := exists_rd (a := a) (i := first + (last - first) / 2) (by omega)
      obtain ⟨z, hz⟩ := exists_rd (a := a) (i := last - 1) (by omega)
      rw [if_neg (by omega)]
      simp only [rd, hx, hy, hz, Option.some_bind]
      obtain ⟨k, hk1, hk2, hk3⟩ : ∃ k, first ≤ k ∧ k < last ∧
          a[k]? = some (median lt x y z) := by
        rcases median_mem lt x y z with h | h | h
        · exact ⟨first, Nat.le_refl _, by omega, by rw [h]; exact hx⟩
        · exact ⟨first + (last - first) / 2, by omega, by omega, by rw [h]; exact hy⟩
        · exact ⟨last - 1, by omega, by omega, by rw [h]; exact hz⟩
      obtain ⟨a1, cut, ho1, hol1, hc1, hc2, hof1, hop1⟩ :=
        unchecked_partition_loop_val comp (median lt x y z) first last
          (a.length + 1) a first last (by omega) (by omega) (Nat.le_refl _) (Nat.le_refl _) hl
          ⟨k, hk1, hk2, fun w hw => by rw [hk3] at hw; cases hw; exact hc.irrefl _⟩
          ⟨k, hk1, by omega, fun w hw => by rw [hk3] at hw; cases hw; exact hc.irrefl _⟩
      obtain ⟨hleft, hright⟩ :=
        unchecked_partition_loop_parts (fun u v h => hc.asymm h) (median lt x y z) first last
          (a.length + 1) a first last a1 cut (fun j h1 h2 => by omega)
          (fun j h1 h2 => by omega) ho1
      unfold unchecked_partition
      simp only [ho1, Option.some_bind]
      obtain ⟨a2, ho2, hol2, hof2, hop2, hco2⟩ := ih a1 cut last (by omega) (by omega)
      obtain ⟨a3, ho3, hol3, hof3, hop3, hco3⟩ := ih a2 first cut hc1 (by omega)
      simp only [ho2, ho3, Option.some_bind]
      refine ⟨a3, rfl, by rw [hol3, hol2, hol1], ?_, (hop3.trans hop2).trans hop1, ?_⟩
      · intro j hj
        rw [hof3 j (by omega), hof2 j (by omega), hof1 j hj]
      · intro i j hi hij hj
        have hks : kSmallSectionSize = 128 := rfl
        by_cases hjc : j < cut
        · exact hco3 i j hi hij hjc
        · by_cases hic : cut ≤ i
          · intro u v hu hv
            rw [hof3 j (by omega)] at hu
            rw [hof3 i (by omega)] at hv
            exact hco2 i j hic hij hj u v hu hv
          · intro u v hu hv
            -- `v` at `i` is before the cut, `u` at `j` is behind it
            have hleft2 : ∀ t, first ≤ t → t < cut → ∀ w, a2[t]? = some w →
                comp (median lt x y z) w = false := by
              intro t ht1 ht2 w hw
              rw [hof2 t (by omega)] at hw
              exact hleft t ht1 ht2 w hw
            have hv' := forall_range_of_perm (P := fun w => comp (median lt x y z) w = false)
              hc1 hof3 hop3 hleft2 i hi (by omega) v hv
            rw [hof3 j (by omega)] at hu
            have hu' := forall_range_of_perm (P := fun w => comp w (median lt x y z) = false)
              (by omega : cut ≤ last) hof2 hop2 hright j (by omega) hj u hu
            exact hc.incomp_trans u (median lt x y z) v hu' hv'
    · rw [if_neg hs]
      exact ⟨a, rfl, rfl, fun _ _ => rfl, List.Perm.refl _, fun i j _ _ _ => by
        have hks : kSmallSectionSize = 128 := rfl
        omega⟩

end mystl

/-! ## insertion sorts: where the backward scans stop -/

namespace mystl
variable {α : Type}

theorem unchecked_linear_insert_loop_stop_fst (comp : α → α → Bool) (value : Ref α) :
    ∀ (fuel : Nat) (a : List α) (last : Nat),
      (unchecked_linear_insert_loop_stop comp value fuel a last).map Prod.fst =
        unchecked_linear_insert_loop comp value fuel a last := by
  intro fuel
  induction fuel with
  | zero => intro a last; rfl
  | succ fuel ih =>
    intro a last
    unfold unchecked_linear_insert_loop_stop unchecked_linear_insert_loop
    by_cases h0 : last = 0
    · rw [if_pos h0, if_pos h0]; rfl
    · rw [if_neg h0, if_neg h0]
      cases deref a value with
      | none => rfl
      | some v =>
        cases rd a (last - 1) with
        | none => rfl
        | some x =>
          simp only [Option.some_bind]
          cases hcmp : comp v x with
          | true =>
            simp only [if_true]
            cases wr a last x with
            | none => rfl
            | some a1 =>
              simp only [Option.some_bind]
              exact ih a1 (last - 1)
          | false =>
            simp only [Bool.false_eq_true, if_false, Option.map_map]
            cases wr a last v <;> rfl

theorem unchecked_linear_insert_stop_fst (comp : α → α → Bool) (a : List α) (last : Nat)
    (value : Ref α) :
    (unchecked_linear_insert_stop comp a last value).map Prod.fst =
      unchecked_linear_insert comp a last value :=
  unchecked_linear_insert_loop_stop_fst comp value (last + 1) a last

theorem unchecked_insertion_sort_stops_fst (comp : α → α → Bool) :
    ∀ (n : Nat) (a : List α) (i : Nat),
      (unchecked_insertion_sort_stops comp n a i).map Prod.fst =
        unchecked_insertion_sort comp n a i := by
  intro n
  induction n with
  | zero => intro a i; rfl
  | succ n ih =>
    intro a i
    unfold unchecked_insertion_sort_stops unchecked_insertion_sort
    rw [← unchecked_linear_insert_stop_fst comp a i (Ref.slot i)]
    cases unchecked_linear_insert_stop comp a i (Ref.slot i) with
    | none => rfl
    | some r =>
      obtain ⟨a1, p⟩ := r
      simp only [Option.some_bind, Option.map_some']
      rw [← ih a1 (i + 1), Option.map_map]
      cases unchecked_insertion_sort_stops comp n a1 (i + 1) <;> rfl

theorem insertion_sort_loop_stops_fst (comp : α → α → Bool) (first : Nat) :
    ∀ (n : Nat) (a : List α) (i : Nat),
      (insertion_sort_loop_stops comp first n a i).map Prod.fst =
        insertion_sort_loop comp first n a i := by
  intro n
  induction n with
  | zero => intro a i; rfl
  | succ n ih =>
    intro a i
    unfold insertion_sort_loop_stops insertion_sort_loop
    cases rd a i with
    | none => rfl
    | some value =>
      cases rd a first with
      | none => rfl
      | some x =>
        simp only [Option.some_bind]
        cases hcmp : comp value x with
        | true =>
          simp only [if_true]
          cases copy_backward i (i + 1) (i - first) a with
          | none => rfl
          | some a1 =>
            simp only [Option.some_bind]
            cases wr a1 first value with
            | none => rfl
            | some a2 =>
              simp only [Option.some_bind]
              exact ih a2 (i + 1)
        | false =>
          simp only [Bool.false_eq_true, if_false]
          rw [← unchecked_linear_insert_stop_fst comp a i (Ref.val value)]
          cases unchecked_linear_insert_stop comp a i (Ref.val value) with
          | none => rfl
          | some r =>
            obtain ⟨a1, p⟩ := r
            simp only [Option.some_bind, Option.map_some']
            rw [← ih a1 (i + 1), Option.map_map]
            cases insertion_sort_loop_stops comp first n a1 (i + 1) <;> rfl

theorem insertion_sort_stops_fst (comp : α → α → Bool) (a : List α) (first last : Nat) :
    (insertion_sort_stops comp a first last).map Prod.fst =
      insertion_sort comp a first last := by
  unfold insertion_sort_stops insertion_sort
  split
  · rfl
  · exact insertion_sort_loop_stops_fst comp first _ a _

theorem final_insertion_sort_stops_fst (comp : α → α → Bool) (a : List α)
    (first last : Nat) :
    (final_insertion_sort_stops comp a first last).map Prod.fst =
      final_insertion_sort comp a first last := by
  unfold final_insertion_sort_stops final_insertion_sort
  split
  · rw [← insertion_sort_stops_fst comp a first (first + kSmallSectionSize)]
    cases insertion_sort_stops comp a first (first + kSmallSectionSize) with
    | none => rfl
    | some r =>
      obtain ⟨a1, ps⟩ := r
      simp only [Option.some_bind, Option.map_some']
      rw [← unchecked_insertion_sort_stops_fst comp _ a1 _, Option.map_map]
      cases unchecked_insertion_sort_stops comp (last - (first + kSmallSectionSize)) a1
        (first + kSmallSectionSize) <;> rfl
  · exact insertion_sort_stops_fst comp a first last

theorem sort_stops_fst (lt comp : α → α → Bool) (a : List α) (first last : Nat) :
    (sort_stops lt comp a first last).map Prod.fst = sort_comp lt comp a first last := by
  unfold sort_stops sort_comp
  split
  · cases slg2 (last - first) with
    | none => rfl
    | some k =>
      simp only [Option.some_bind]
      cases intro_sort lt comp (k * 2) a first last with
      | none => rfl
      | some a1 =>
        simp only [Option.some_bind]
        exact final_insertion_sort_stops_fst comp a1 first last
  · rfl

/-- With a value held outside the range the scan of `unchecked_linear_insert` does not go
below a position that holds an element the value is not less than. -/
theorem unchecked_linear_insert_loop_stop_val (comp : α → α → Bool) (v : α) :
    ∀ (fuel : Nat) (a : List α) (q : Nat) (out : List α) (p s : Nat) (y : α),
      unchecked_linear_insert_loop_stop comp (Ref.val v) fuel a q = some (out, p) →
      s < q → a[s]? = some y → comp v y = false → s ≤ p ∧ p < q := by
  intro fuel
  induction fuel with
  | zero => intro a q out p s y h; simp [unchecked_linear_insert_loop_stop] at h
  | succ fuel ih =>
    intro a q out p s y h hsq hy hvy
    unfold unchecked_linear_insert_loop_stop at h
    rw [if_neg (by omega)] at h
    simp only [deref, Option.some_bind] at h
    cases hx : rd a (q - 1) with
    | none => rw [hx] at h; simp at h
    | some x =>
      rw [hx] at h
      simp only [Option.some_bind] at h
      cases hcmp : comp v x with
      | true =>
        rw [hcmp, if_pos rfl] at h
        cases hw : wr a q x with
        | none => rw [hw] at h; simp at h
        | some a1 =>
          rw [hw] at h
          simp only [Option.some_bind] at h
          have ha1 : a1 = a.set q x := by
            unfold wr at hw
            split at hw
            · exact (Option.some.inj hw).symm
            · cases hw
          have hne : s ≠ q - 1 := by
            intro e
            rw [e, show a[q - 1]? = rd a (q - 1) from rfl, hx] at hy
            cases hy
            rw [hcmp] at hvy
            cases hvy
          have hy1 : a1[s]? = some y := by
            rw [ha1, List.getElem?_set_ne (by omega)]; exact hy
          obtain ⟨h1, h2⟩ := ih a1 (q - 1) out p s y h (by omega) hy1 hvy
          exact ⟨h1, by omega⟩
      | false =>
        rw [hcmp, if_neg (by simp)] at h
        cases hw : wr a q v with
        | none => rw [hw] at h; simp at h
        | some a1 =>
          rw [hw] at h
          simp only [Option.map_some'] at h
          injection h with h
          injection h with h1 h2
          subst h2
          exact ⟨by omega, by omega⟩

/-- One call `unchecked_linear_insert(i, *i)` after a sorted prefix reads no position below
`i - 2`. -/
theorem unchecked_linear_insert_stop_slot {comp : α → α → Bool} (a : List α) (i : Nat)
    (v x w : α) (hi2 : 2 ≤ i) (hv : a[i]? = some v) (hx : a[i - 1]? = some x)
    (hw : a[i - 2]? = some w) (hxw : comp x w = false) :
    unchecked_linear_insert_stop comp a i (Ref.slot i) =
      some (if comp v x = true then (a.set i x, i - 2) else (a, i - 1)) := by
  have hi := lt_length_of_getElem? hv
  unfold unchecked_linear_insert_stop unchecked_linear_insert_loop_stop
  rw [if_neg (by omega)]
  simp only [deref, rd, hv, hx, Option.some_bind, wr, if_pos hi]
  cases hcmp : comp v x with
  | false =>
    simp only [Bool.false_eq_true, if_false, Option.map_some']
    rw [set_self_of_getElem? hv]
  | true =>
    simp only [if_true]
    obtain ⟨k, hk⟩ : ∃ k, i = k + 2 := ⟨i - 2, by omega⟩
    subst hk
    unfold unchecked_linear_insert_loop_stop
    rw [if_neg (by omega)]
    have h1 : (a.set (k + 2) x)[k + 2]? = some x := List.getElem?_set_self hi
    have h2 : (a.set (k + 2) x)[k + 2 - 1 - 1]? = some w := by
      rw [List.getElem?_set_ne (by omega)]; exact hw
    have h3 : (a.set (k + 2) x)[k + 2 - 1]? = some x := by
      rw [List.getElem?_set_ne (by omega)]; exact hx
    simp only [deref, rd, h1, h2, Option.some_bind, hxw, Bool.false_eq_true, if_false, wr,
      List.length_set, if_pos (show k + 2 - 1 < a.length by omega), Option.map_some']
    rw [set_self_of_getElem? h3]
    rfl

/-- No call of `unchecked_linear_insert` made by `insertion_sort` reads a position before
`first`: the call is made only with a value that is not less than the element at `first`.
Nothing is assumed about the content of the range. -/
theorem insertion_sort_loop_stops_ge (comp : α → α → Bool) (first : Nat) :
    ∀ (n : Nat) (a : List α) (i : Nat) (out : List α) (ps : List (Nat × Nat)),
      first < i → insertion_sort_loop_stops comp first n a i = some (out, ps) →
      ∀ c ∈ ps, first ≤ c.2 ∧ c.2 < c.1 ∧ i ≤ c.1 ∧ c.1 < i + n := by
  intro n
  induction n with
  | zero =>
    intro a i out ps _ h c hc
    simp only [insertion_sort_loop_stops, Option.some.injEq, Prod.mk.injEq] at h
    rw [← h.2] at hc
    cases hc
  | succ n ih =>
    intro a i out ps hfi h
    unfold insertion_sort_loop_stops at h
    cases hv : rd a i with
    | none => rw [hv] at h; simp at h
    | some value =>
      cases hx : rd a first with
      | none => rw [hv, hx] at h; simp at h
      | some x =>
        rw [hv, hx] at h
        simp only [Option.some_bind] at h
        cases hcmp : comp value x with
        | true =>
          rw [hcmp, if_pos rfl] at h
          cases hcb : copy_backward i (i + 1) (i - first) a with
          | none => rw [hcb] at h; simp at h
          | some a1 =>
            rw [hcb] at h
            simp only [Option.some_bind] at h
            cases hw : wr a1 first value with
            | none => rw [hw] at h; simp at h
            | some a2 =>
              rw [hw] at h
              simp only [Option.some_bind] at h
              intro c hc
              obtain ⟨k1, k2, k3, k4⟩ := ih a2 (i + 1) out ps (by omega) h c hc
              exact ⟨k1, k2, by omega, by omega⟩
        | false =>
          rw [hcmp, if_neg (by simp)] at h
          cases hs : unchecked_linear_insert_stop comp a i (Ref.val value) with
          | none => rw [hs] at h; simp at h
          | some r =>
            obtain ⟨a1, q⟩ := r
            rw [hs] at h
            simp only [Option.some_bind] at h
            cases hrec : insertion_sort_loop_stops comp first n a1 (i + 1) with
            | none => rw [hrec] at h; simp at h
            | some r2 =>
              obtain ⟨o2, qs⟩ := r2
              rw [hrec] at h
              simp only [Option.map_some'] at h
              injection h with h
              injection h with h1 h2
              subst h1
              subst h2
              obtain ⟨hq1, hq2⟩ := unchecked_linear_insert_loop_stop_val comp value (i + 1) a i
                a1 q first x hs hfi hx hcmp
              intro c hc
              rcases List.mem_cons.mp hc with e | hc'
              · subst e
                exact ⟨hq1, hq2, Nat.le_refl _, by omega⟩
              · obtain ⟨k1, k2, k3, k4⟩ := ih a1 (i + 1) o2 qs (by omega) hrec c hc'
                exact ⟨k1, k2, by omega, by omega⟩

/-- No call `unchecked_linear_insert(i, *i)` made by `unchecked_insertion_sort` behind a
sorted prefix of at least two elements reads a position before the prefix. -/
theorem unchecked_insertion_sort_stops_ge {comp : α → α → Bool} (hc : StrictWeakOrder comp)
    (first : Nat) :
    ∀ (n : Nat) (a : List α) (i : Nat) (out : List α) (ps : List (Nat × Nat)),
      first + 2 ≤ i → i + n ≤ a.length → SortedOn comp a first i →
      unchecked_insertion_sort_stops comp n a i = some (out, ps) →
      ∀ c ∈ ps, first ≤ c.2 ∧ c.2 < c.1 ∧ i ≤ c.1 ∧ c.1 < i + n := by
  intro n
  induction n with
  | zero =>
    intro a i out ps _ _ _ h c hc
    simp only [unchecked_insertion_sort_stops, Option.some.injEq, Prod.mk.injEq] at h
    rw [← h.2] at hc
    cases hc
  | succ n ih =>
    intro a i out ps h1 h2 hs h
    obtain ⟨v, hv⟩ := exists_rd (a := a) (i := i) (by omega)
    obtain ⟨x, hx⟩ := exists_rd (a := a) (i := i - 1) (by omega)
    obtain ⟨w, hw⟩ := exists_rd (a := a) (i := i - 2) (by omega)
    have hxw : comp x w = false := by
      have := hs (i - 2) (by omega) (by omega) x w
      rw [show i - 2 + 1 = i - 1 by omega] at this
      exact this hx hw
    -- the storage after this call, with its prefix sorted
    obtain ⟨a1, ho1, hol1, _, hos1⟩ := unchecked_insertion_sort_spec hc first 1 a i h1
      (by omega) hs
    have hstep : unchecked_linear_insert comp a i (Ref.slot i) = some a1 := by
      unfold unchecked_insertion_sort at ho1
      cases hu : unchecked_linear_insert comp a i (Ref.slot i) with
      | none => rw [hu] at ho1; simp at ho1
      | some b =>
        rw [hu] at ho1
        simp only [Option.some_bind, unchecked_insertion_sort] at ho1
        rw [ho1]
    have hstop := @unchecked_linear_insert_stop_slot α comp a i v x w (by omega) hv hx
      hw hxw
    have hfst := unchecked_linear_insert_stop_fst comp a i (Ref.slot i)
    rw [hstop, hstep] at hfst
    unfold unchecked_insertion_sort_stops at h
    rw [hstop] at h
    simp only [Option.some_bind] at h
    cases hrec : unchecked_insertion_sort_stops comp n
        (if comp v x = true then (a.set i x, i - 2) else (a, i - 1)).1 (i + 1) with
    | none => rw [hrec] at h; simp at h
    | some r2 =>
      obtain ⟨o2, qs⟩ := r2
      rw [hrec] at h
      simp only [Option.map_some'] at h
      injection h with h
      injection h with e1 e2
      subst e1
      subst e2
      have ha1 : (if comp v x = true then (a.set i x, i - 2) else (a, i - 1)).1 = a1 := by
        simpa using hfst
      rw [ha1] at hrec
      intro c hc
      rcases List.mem_cons.mp hc with e | hc'
      · subst e
        cases hcmp : comp v x <;> simp <;> omega
      · obtain ⟨k1, k2, k3, k4⟩ := ih a1 (i + 1) o2 qs (by omega) (by omega) hos1 hrec c hc'
        exact ⟨k1, k2, by omega, by omega⟩

theorem exists_snd_of_map_fst {β γ : Type} {o : Option (β × γ)} {x : β}
    (h : o.map Prod.fst = some x) : ∃ y, o = some (x, y) := by
  cases o with
  | none => cases h
  | some r =>
    obtain ⟨b, c⟩ := r
    simp only [Option.map_some', Option.some.injEq] at h
    subst h
    exact ⟨c, rfl⟩

theorem insertion_sort_stops_ge (comp : α → α → Bool) (a : List α) (first last : Nat)
    (out : List α) (ps : List (Nat × Nat)) (hfl : first ≤ last)
    (h : insertion_sort_stops comp a first last = some (out, ps)) :
    ∀ c ∈ ps, first ≤ c.2 ∧ c.2 < c.1 ∧ c.1 < last := by
  unfold insertion_sort_stops at h
  by_cases he : first = last
  · rw [if_pos he] at h
    simp only [Option.some.injEq, Prod.mk.injEq] at h
    intro c hc
    rw [← h.2] at hc
    cases hc
  · rw [if_neg he] at h
    intro c hc
    obtain ⟨h1, h2, _, h4⟩ := insertion_sort_loop_stops_ge comp first _ a (first + 1) out ps
      (by omega) h c hc
    exact ⟨h1, h2, by omega⟩

/-- No call of `unchecked_linear_insert` made by `final_insertion_sort` reads a position
before `first`, whatever the range holds. -/
theorem final_insertion_sort_stops_ge {comp : α → α → Bool} (hc : StrictWeakOrder comp)
    (a : List α) (first last : Nat) (out : List α) (ps : List (Nat × Nat)) (hfl : first ≤ last)
    (hl : last ≤ a.length)
    (h : final_insertion_sort_stops comp a first last = some (out, ps)) :
    ∀ c ∈ ps, first ≤ c.2 ∧ c.2 < c.1 ∧ c.1 < last := by
  have hks : kSmallSectionSize = 128 := rfl
  unfold final_insertion_sort_stops at h
  rw [size_cast_of_le hfl] at h
  by_cases hs : last - first > kSmallSectionSize
  · rw [if_pos hs] at h
    cases h1 : insertion_sort_stops comp a first (first + kSmallSectionSize) with
    | none => rw [h1] at h; simp at h
    | some r =>
      obtain ⟨a1, ps1⟩ := r
      rw [h1] at h
      simp only [Option.some_bind] at h
      cases h2 : unchecked_insertion_sort_stops comp (last - (first + kSmallSectionSize)) a1
          (first + kSmallSectionSize) with
      | none => rw [h2] at h; simp at h
      | some r2 =>
        obtain ⟨a2, ps2⟩ := r2
        rw [h2] at h
        simp only [Option.map_some'] at h
        injection h with h
        injection h with e1 e2
        subst e1
        subst e2
        have hb1 := insertion_sort_stops_ge comp a first (first + kSmallSectionSize) a1 ps1
          (by omega) h1
        obtain ⟨b, hb, hbl, _, hbs⟩ :=
          insertion_sort_spec hc a first (first + kSmallSectionSize) (by omega) (by omega)
        have hfst := insertion_sort_stops_fst comp a first (first + kSmallSectionSize)
        rw [h1, hb] at hfst
        simp only [Option.map_some', Option.some.injEq] at hfst
        subst hfst
        have hb2 := unchecked_insertion_sort_stops_ge hc first
          (last - (first + kSmallSectionSize)) a1 (first + kSmallSectionSize) a2 ps2
          (by omega) (by omega) hbs h2
        intro c hc
        rcases List.mem_append.mp hc with hc | hc
        · obtain ⟨k1, k2, k3⟩ := hb1 c hc
          exact ⟨k1, k2, by omega⟩
        · obtain ⟨k1, k2, _, k4⟩ := hb2 c hc
          exact ⟨k1, k2, by omega⟩
  · rw [if_neg hs] at h
    exact insertion_sort_stops_ge comp a first last out ps hfl h

/-- `sort` returns, and every call of `unchecked_linear_insert` it makes is at a position
of the range and reads no position before `first`. -/
theorem sort_stops_spec {comp : α → α → Bool} (lt : α → α → Bool)
    (hc : StrictWeakOrder comp) (a : List α) (first last : Nat) (hfl : first ≤ last)
    (hl : last ≤ a.length) :
    ∃ out ps, sort_stops lt comp a first last = some (out, ps) ∧
      sort_comp lt comp a first last = some out ∧
      ∀ c ∈ ps, first ≤ c.2 ∧ c.2 < c.1 ∧ c.1 < last := by
  obtain ⟨out, ho, _⟩ := sort_comp_spec lt hc a first last hfl hl
  have hfst := sort_stops_fst lt comp a first last
  rw [ho] at hfst
  obtain ⟨ps, hps⟩ := exists_snd_of_map_fst hfst
  refine ⟨out, ps, hps, ho, ?_⟩
  unfold sort_stops at hps
  by_cases he : first = last
  · rw [if_neg (by simpa using he)] at hps
    simp only [Option.some.injEq, Prod.mk.injEq] at hps
    intro c hc
    rw [← hps.2] at hc
    cases hc
  · rw [if_pos he] at hps
    cases hk : slg2 (last - first) with
    | none => rw [hk] at hps; simp at hps
    | some k =>
      rw [hk] at hps
      simp only [Option.some_bind] at hps
      obtain ⟨a1, ho1, hol1, _⟩ := intro_sort_spec lt hc (k * 2) a first last hfl hl
      rw [ho1] at hps
      simp only [Option.some_bind] at hps
      exact final_insertion_sort_stops_ge hc a1 first last out ps hfl (by omega) hps

end mystl

/-! ## the merges return on every input -/

namespace mystl
variable {α : Type}

theorem lbound_loop_bounds (comp : α → α → Bool) (a : List α) (value : α) :
    ∀ (fuel first len : Nat), len < fuel → first + len ≤ a.length →
      ∃ q, lbound_loop comp a value fuel first len = some q ∧ first ≤ q ∧ q ≤ first + len := by
  intro fuel
  induction fuel with
  | zero => intro first len h; omega
  | succ fuel ih =>
    intro first len hf hlen
    unfold lbound_loop
    by_cases h0 : len > 0
    · rw [if_pos h0]
      have hhalf : len >>> 1 = len / 2 := by rw [Nat.shiftRight_eq_div_pow, Nat.pow_one]
      simp only [hhalf]
      obtain ⟨x, hx⟩ := exists_rd (a := a) (i := first + len / 2) (by omega)
      simp only [rd, hx, Option.some_bind]
      cases hcmp : comp x value with
      | true =>
        simp only [if_true]
        obtain ⟨q, hq, h1, h2⟩ := ih (first + len / 2 + 1) (len - len / 2 - 1) (by omega)
          (by omega)
        exact ⟨q, hq, by omega, by omega⟩
      | false =>
        simp only [Bool.false_eq_true, if_false]
        obtain ⟨q, hq, h1, h2⟩ := ih first (len / 2) (by omega) (by omega)
        exact ⟨q, hq, h1, by omega⟩
    · rw [if_neg h0]
      exact ⟨first, rfl, Nat.le_refl _, by omega⟩

theorem ubound_loop_bounds (comp : α → α → Bool) (a : List α) (value : α) :
    ∀ (fuel first len : Nat), len < fuel → first + len ≤ a.length →
      ∃ q, ubound_loop comp a value fuel first len = some q ∧ first ≤ q ∧ q ≤ first + len := by
  intro fuel
  induction fuel with
  | zero => intro first len h; omega
  | succ fuel ih =>
    intro first len hf hlen
    unfold ubound_loop
    by_cases h0 : len > 0
    · rw [if_pos h0]
      have hhalf : len >>> 1 = len / 2 := by rw [Nat.shiftRight_eq_div_pow, Nat.pow_one]
      simp only [hhalf]
      obtain ⟨x, hx⟩ := exists_rd (a := a) (i := first + len / 2) (by omega)
      simp only [rd, hx, Option.some_bind]
      cases hcmp : comp value x with
      | true =>
        simp only [if_true]
        obtain ⟨q, hq, h1, h2⟩ := ih first (len / 2) (by omega) (by omega)
        exact ⟨q, hq, h1, by omega⟩
      | false =>
        simp only [Bool.false_eq_true, if_false]
        obtain ⟨q, hq, h1, h2⟩ := ih (first + len / 2 + 1) (len - len / 2 - 1) (by omega)
          (by omega)
        exact ⟨q, hq, by omega, by omega⟩
    · rw [if_neg h0]
      exact ⟨first, rfl, Nat.le_refl _, by omega⟩

/-- The cuts exist whatever the two ranges hold: the cut of the longer range is its middle
and the other cut lies in the other range. -/
theorem merge_cuts_bounds (comp : α → α → Bool) (a : List α) (first middle last : Nat)
    (h1 : first < middle) (h2 : middle < last) (h3 : last ≤ a.length) :
    ∃ fc sc, merge_cuts comp a first middle last (middle - first) (last - middle) =
        some (fc, sc, fc - first, sc - middle) ∧
      first ≤ fc ∧ fc ≤ middle ∧ middle ≤ sc ∧ sc ≤ last ∧
      (middle - first > last - middle → fc = first + (middle - first) / 2) ∧
      (¬ (middle - first > last - middle) → sc = middle + (last - middle) / 2) := by
  have hh1 : (middle - first) >>> 1 = (middle - first) / 2 := by
    rw [Nat.shiftRight_eq_div_pow, Nat.pow_one]
  have hh2 : (last - middle) >>> 1 = (last - middle) / 2 := by
    rw [Nat.shiftRight_eq_div_pow, Nat.pow_one]
  unfold merge_cuts
  by_cases hgt : middle - first > last - middle
  · rw [if_pos hgt, hh1]
    obtain ⟨v, hv⟩ := exists_rd (a := a) (i := first + (middle - first) / 2) (by omega)
    obtain ⟨q, hq, q1, q2⟩ := lbound_loop_bounds comp a v (last - middle + 1) middle
      (last - middle) (by omega) (by omega)
    simp only [rd, hv, Option.some_bind, lower_bound, hq, Option.map_some']
    refine ⟨first + (middle - first) / 2, q, ?_, by omega, by omega, q1, by omega,
      fun _ => rfl, fun h => absurd hgt h⟩
    rw [Nat.add_sub_cancel_left]
  · rw [if_neg hgt, hh2]
    obtain ⟨v, hv⟩ := exists_rd (a := a) (i := middle + (last - middle) / 2) (by omega)
    obtain ⟨q, hq, q1, q2⟩ := ubound_loop_bounds comp a v (middle - first + 1) first
      (middle - first) (by omega) (by omega)
    simp only [rd, hv, Option.some_bind, upper_bound, hq, Option.map_some']
    refine ⟨q, middle + (last - middle) / 2, ?_, q1, by omega, by omega, by omega,
      fun h => absurd h hgt, fun _ => rfl⟩
    rw [Nat.add_sub_cancel_left]

/-- The recursive step shared by `merge_adaptive` and `merge_without_buffer` returns when
the rotation `R` and the two recursive calls `M`, which are on shorter ranges, return. -/
theorem merge_step_total (comp : α → α → Bool)
    (R : List α → Nat → Nat → Nat → Nat → Nat → Option (List α × Nat))
    (M : List α → Nat → Nat → Nat → Nat → Nat → Option (List α))
    (a : List α) (first middle last : Nat)
    (h1 : first < middle) (h2 : middle < last) (h3 : last ≤ a.length)
    (hsz1 : middle - first > last - middle → 2 ≤ middle - first)
    (hsz2 : ¬ (middle - first > last - middle) → 2 ≤ last - middle)
    (hR : ∀ (b : List α) (f m l : Nat), first ≤ f → f ≤ m → m ≤ l → l ≤ last →
      b.length = a.length →
      ∃ out, R b f m l (m - f) (l - m) = some (out, f + (l - m)) ∧ out.length = b.length)
    (hM : ∀ (b : List α) (f m l : Nat), first ≤ f → f ≤ m → m ≤ l → l ≤ last →
      l - f < last - first → b.length = a.length →
      ∃ out, M b f m l (m - f) (l - m) = some out ∧ out.length = b.length) :
    ∃ out,
      ((merge_cuts comp a first middle last (middle - first) (last - middle)).bind
        fun (first_cut, second_cut, len11, len22) =>
          (R a first_cut middle second_cut (middle - first - len11) len22).bind
            fun (a1, new_middle) =>
              (M a1 first first_cut new_middle len11 len22).bind fun a2 =>
                M a2 new_middle second_cut last (middle - first - len11)
                  (last - middle - len22)) = some out ∧
      out.length = a.length := by
  obtain ⟨fc, sc, hcut, c1, c2, c3, c4, cgt, cle⟩ :=
    merge_cuts_bounds comp a first middle last h1 h2 h3
  have hm1 : fc + (sc - middle) - first < last - first ∧
      last - (fc + (sc - middle)) < last - first := by
    by_cases hgt : middle - first > last - middle
    · have := cgt hgt; have := hsz1 hgt; omega
    · have := cle hgt; have := hsz2 hgt; omega
  have k1 : fc ≤ fc + (sc - middle) := Nat.le_add_right _ _
  have k2 : fc + (sc - middle) ≤ sc := by omega
  have k3 : first ≤ fc + (sc - middle) := Nat.le_trans c1 k1
  have k4 : fc + (sc - middle) ≤ last := Nat.le_trans k2 c4
  obtain ⟨a1, hrot, l1⟩ := hR a fc middle sc c1 c2 c3 c4 rfl
  obtain ⟨a2, hm2, l2⟩ := hM a1 first fc (fc + (sc - middle)) (Nat.le_refl _) c1 k1 k4
    hm1.1 l1
  obtain ⟨a3, hm3, l3⟩ := hM a2 (fc + (sc - middle)) sc last k3 k2 c4 (Nat.le_refl _)
    hm1.2 (l2.trans l1)
  have g1 : fc + (sc - middle) - fc = sc - middle := Nat.add_sub_cancel_left _ _
  have g2 : sc - (fc + (sc - middle)) = middle - first - (fc - first) := by omega
  have g3 : last - sc = last - middle - (sc - middle) := by omega
  have g4 : middle - fc = middle - first - (fc - first) := by omega
  rw [g1] at hm2
  rw [g2, g3] at hm3
  rw [g4] at hrot
  refine ⟨a3, ?_, by rw [l3, l2, l1]⟩
  simp only [hcut, hrot, hm2, hm3, Option.some_bind]

theorem merge_without_buffer_total (comp : α → α → Bool) :
    ∀ (fuel : Nat) (a : List α) (first middle last : Nat), first ≤ middle → middle ≤ last →
      last ≤ a.length → last - first < fuel →
      ∃ out, merge_without_buffer comp fuel a first middle last (middle - first)
          (last - middle) = some out ∧ out.length = a.length := by
  intro fuel
  induction fuel with
  | zero => intro a first middle last _ _ _ h; omega
  | succ fuel ih =>
    intro a first middle last h1 h2 h3 hfuel
    unfold merge_without_buffer
    by_cases hz : middle - first = 0 ∨ last - middle = 0
    · rw [if_pos hz]
      exact ⟨a, rfl, rfl⟩
    · rw [if_neg hz]
      by_cases h2e : middle - first + (last - middle) = 2
      · rw [if_pos h2e]
        have hm : middle = first + 1 := by omega
        have hlast : last = first + 2 := by omega
        subst hm; subst hlast
        obtain ⟨out, ho, hol, _⟩ := merge_without_buffer_two comp a first h3
        exact ⟨out, ho, hol⟩
      · rw [if_neg h2e]
        exact merge_step_total comp (fun b f m l _ _ => rotate b f m l)
          (merge_without_buffer comp fuel) a first middle last (by omega) (by omega) h3
          (fun _ => by omega) (fun _ => by omega)
          (fun b f m l _ k2 k3 k4 kl => by
            obtain ⟨o, ho, hol, _⟩ := rotate_spec b f m l k2 k3 (by omega)
            exact ⟨o, ho, hol⟩)
          (fun b f m l _ k2 k3 k4 km kl => ih b f m l k2 k3 (by omega) (by omega))

theorem merge_backward_loop_total (comp : α → α → Bool) (first1 first2 : Nat) :
    ∀ (fuel : Nat) (a : List α) (e1 e2 r : Nat),
      (e1 - first1) + (e2 - first2) ≤ fuel → first1 < e1 → first2 < e2 →
      r ≤ a.length → e2 ≤ a.length → r = e1 + (e2 - first2) →
      (e2 ≤ first1 ∨ r ≤ first2) →
      ∃ out, merge_backward_loop comp first1 first2 fuel a (e1 - 1) (e2 - 1) r = some out ∧
        out.length = a.length := by
  intro fuel
  induction fuel with
  | zero => intro a e1 e2 r h h1 h2; omega
  | succ fuel ih =>
    intro a e1 e2 r hf h1 h2 hr he2 hre hdisj
    obtain ⟨y, hy⟩ := exists_rd (a := a) (i := e2 - 1) (by omega)
    obtain ⟨x, hx⟩ := exists_rd (a := a) (i := e1 - 1) (by omega)
    unfold merge_backward_loop
    simp only [rd, hx, hy, Option.some_bind]
    rw [if_neg (by omega)]
    cases hcmp : comp y x with
    | true =>
      simp only [if_true, wr, if_pos (show r - 1 < a.length by omega), Option.some_bind]
      by_cases hex : first1 = e1 - 1
      · rw [if_pos hex]
        obtain ⟨out, ho, hol, _⟩ := copy_backward_spec (e2 - 1 + 1 - first2)
          (a.set (r - 1) x) (e2 - 1 + 1) (r - 1) (by omega) (by omega) (by simp; omega)
          (by simp; omega) (by omega)
        exact ⟨out, ho, by simpa using hol⟩
      · rw [if_neg hex, if_neg (by omega)]
        obtain ⟨out, ho, hol⟩ := ih (a.set (r - 1) x) (e1 - 1) e2 (r - 1)
          (by omega) (by omega) h2 (by simp; omega) (by simpa using he2) (by omega) (by omega)
        exact ⟨out, ho, by simpa using hol⟩
    | false =>
      simp only [Bool.false_eq_true, if_false, wr, if_pos (show r - 1 < a.length by omega),
        Option.some_bind]
      by_cases hex : first2 = e2 - 1
      · rw [if_pos hex]
        obtain ⟨out, ho, hol, _⟩ := copy_backward_spec (e1 - 1 + 1 - first1)
          (a.set (r - 1) y) (e1 - 1 + 1) (r - 1) (by omega) (by omega) (by simp; omega)
          (by simp; omega) (by omega)
        exact ⟨out, ho, by simpa using hol⟩
      · rw [if_neg hex, if_neg (by omega)]
        obtain ⟨out, ho, hol⟩ := ih (a.set (r - 1) y) e1 (e2 - 1) (r - 1)
          (by omega) h1 (by omega) (by simp; omega) (by simp; omega) (by omega) (by omega)
        exact ⟨out, ho, by simpa using hol⟩

theorem merge_backward_total (comp : α → α → Bool) (a : List α)
    (first1 last1 first2 last2 result : Nat)
    (h1 : first1 ≤ last1) (h2 : first2 ≤ last2) (hr : result ≤ a.length)
    (hl2 : last2 ≤ a.length) (hd : result = last1 + (last2 - first2))
    (hdisj : last2 ≤ first1 ∨ result ≤ first2) :
    ∃ out, merge_backward comp a first1 last1 first2 last2 result = some out ∧
      out.length = a.length := by
  unfold merge_backward
  by_cases he1 : first1 = last1
  · rw [if_pos he1]
    subst he1
    obtain ⟨out, ho, hol, _⟩ := copy_backward_spec (last2 - first2) a last2 result
      (by omega) (by omega) hl2 hr (by omega)
    exact ⟨out, ho, hol⟩
  · rw [if_neg he1]
    by_cases he2 : first2 = last2
    · rw [if_pos he2]
      subst he2
      obtain ⟨out, ho, hol, _⟩ := copy_backward_spec (last1 - first1) a last1 result
        (by omega) (by omega) (by omega) hr (by omega)
      exact ⟨out, ho, hol⟩
    · rw [if_neg he2, if_neg (by omega)]
      exact merge_backward_loop_total comp first1 first2
        (last1 - first1 + (last2 - first2) + 1) a last1 last2 result (by omega) (by omega)
        (by omega) hr hl2 hd hdisj

theorem merge_adaptive_total (comp : α → α → Bool) (buffer bs : Nat) (hbs : 1 ≤ bs) :
    ∀ (fuel : Nat) (a : List α) (first middle last : Nat), first ≤ middle → middle ≤ last →
      last ≤ a.length → buffer + bs ≤ a.length → (last ≤ buffer ∨ buffer + bs ≤ first) →
      last - first < fuel →
      ∃ out, merge_adaptive comp buffer bs fuel a first middle last (middle - first)
          (last - middle) = some out ∧ out.length = a.length := by
  intro fuel
  induction fuel with
  | zero => intro a first middle last _ _ _ _ _ h; omega
  | succ fuel ih =>
    intro a first middle last h1 h2 h3 hb hd hfuel
    unfold merge_adaptive
    by_cases hb1 : middle - first ≤ last - middle ∧ middle - first ≤ bs
    · rw [if_pos hb1]
      obtain ⟨out, ho, hol, _⟩ :=
        merge_adaptive_first comp buffer bs a first middle last h1 h2 h3 hb hd hb1.2
      exact ⟨out, ho, hol⟩
    · rw [if_neg hb1]
      by_cases hb2 : last - middle ≤ bs
      · rw [if_pos hb2]
        obtain ⟨a1, e1, l1, _⟩ := copy_spec (last - middle) a middle buffer (by omega)
          (by omega) (by omega)
        obtain ⟨a2, e2, l2⟩ := merge_backward_total comp a1 first middle buffer
          (buffer + (last - middle)) last h1 (by omega) (by omega) (by omega) (by omega)
          (by omega)
        simp only [e1, e2, Option.some_bind]
        exact ⟨a2, rfl, by omega⟩
      · rw [if_neg hb2]
        exact merge_step_total comp
          (fun b f m l n1 n2 => rotate_adaptive b f m l n1 n2 buffer bs)
          (merge_adaptive comp buffer bs fuel) a first middle last (by omega) (by omega) h3
          (fun _ => by omega) (fun _ => by omega)
          (fun b f m l _ k2 k3 k4 kl => by
            obtain ⟨o, ho, hol, _⟩ := rotate_adaptive_spec b f m l buffer bs k2 k3 (by omega)
              (by omega) (by omega)
            exact ⟨o, ho, hol⟩)
          (fun b f m l _ k2 k3 k4 km kl =>
            ih b f m l k2 k3 (by omega) (by omega) (by omega) (by omega))

/-- `inplace_merge` returns whatever the two ranges hold, with or without a scratch
buffer. -/
theorem inplace_merge_total (comp : α → α → Bool) (a : List α)
    (first middle last : Nat) (buf : Option (Nat × Nat)) (h1 : first ≤ middle)
    (h2 : middle ≤ last) (h3 : last ≤ a.length)
    (hbuf : ∀ b s, buf = some (b, s) → 1 ≤ s ∧ b + s ≤ a.length ∧ (last ≤ b ∨ b + s ≤ first)) :
    ∃ out, inplace_merge comp a first middle last buf = some out ∧
      out.length = a.length := by
  unfold inplace_merge
  by_cases hz : first = middle ∨ middle = last
  · rw [if_pos hz]
    exact ⟨a, rfl, rfl⟩
  · rw [if_neg hz]
    cases buf with
    | none =>
      exact merge_without_buffer_total comp _ a first middle last h1 h2 h3 (by omega)
    | some bsz =>
      obtain ⟨b, s⟩ := bsz
      obtain ⟨k1, k2, k3⟩ := hbuf b s rfl
      exact merge_adaptive_total comp b s k1 _ a first middle last h1 h2 h3 k2 k3 (by omega)

theorem merge_without_buffer_rec (comp : α → α → Bool) (fuel : Nat) (a : List α)
    (first middle last len1 len2 : Nat) (hz1 : len1 ≠ 0) (hz2 : len2 ≠ 0)
    (h2e : len1 + len2 ≠ 2) :
    merge_without_buffer comp (fuel + 1) a first middle last len1 len2 =
      (merge_cuts comp a first middle last len1 len2).bind
        fun (first_cut, second_cut, len11, len22) =>
          (rotate a first_cut middle second_cut).bind fun (a1, new_middle) =>
          (merge_without_buffer comp fuel a1 first first_cut new_middle len11 len22).bind
            fun a2 =>
              merge_without_buffer comp fuel a2 new_middle second_cut last (len1 - len11)
                (len2 - len22) := by
  rw [merge_without_buffer, if_neg (by omega), if_neg h2e]
  rfl

theorem merge_adaptive_rec (comp : α → α → Bool) (buffer bs fuel : Nat) (a : List α)
    (first middle last len1 len2 : Nat) (hb1 : ¬ (len1 ≤ len2 ∧ len1 ≤ bs))
    (hb2 : ¬ len2 ≤ bs) :
    merge_adaptive comp buffer bs (fuel + 1) a first middle last len1 len2 =
      (merge_cuts comp a first middle last len1 len2).bind
        fun (first_cut, second_cut, len11, len22) =>
          (rotate_adaptive a first_cut middle second_cut (len1 - len11) len22 buffer
              bs).bind fun (a1, new_middle) =>
          (merge_adaptive comp buffer bs fuel a1 first first_cut new_middle len11
              len22).bind fun a2 =>
            merge_adaptive comp buffer bs fuel a2 new_middle second_cut last
              (len1 - len11) (len2 - len22) := by
  rw [merge_adaptive, if_neg hb1, if_neg hb2]
  rfl

end mystl

/-! ## the bidirectional rotate -/

namespace mystl
variable {α : Type}

theorem swap_eq {a : List α} {i j : Nat} {x y : α} (hx : a[i]? = some x)
    (hy : a[j]? = some y) : swap a i j = some ((a.set i y).set j x) := by
  unfold swap
  simp only [rd, hx, hy, Option.some_bind, wr, if_pos (lt_length_of_getElem? hx),
    List.length_set, if_pos (lt_length_of_getElem? hy)]

theorem iter_swap_eq {a : List α} {i j : Nat} {x y : α} (hx : a[i]? = some x)
    (hy : a[j]? = some y) : iter_swap a i j = some ((a.set i y).set j x) := by
  unfold iter_swap
  simp only [rd, hx, hy, Option.some_bind, wr, if_pos (lt_length_of_getElem? hx),
    List.length_set, if_pos (lt_length_of_getElem? hy)]

/-- `reverse_dispatch` returns with the range reversed and the rest of the storage as it
was. -/
theorem reverse_dispatch_spec :
    ∀ (fuel : Nat) (a : List α) (first last : Nat), first ≤ last → last ≤ a.length →
      last - first < fuel →
      ∃ out, reverse_dispatch fuel a first last = some out ∧ out.length = a.length ∧
        (∀ j, j < first ∨ last ≤ j → out[j]? = a[j]?) ∧
        (∀ j, first ≤ j → j < last → out[j]? = a[first + last - 1 - j]?) := by
  intro fuel
  induction fuel with
  | zero => intro a first last _ _ h; omega
  | succ fuel ih =>
    intro a first last hfl hl hfuel
    unfold reverse_dispatch
    by_cases h1 : first = last
    · rw [if_pos h1]
      exact ⟨a, rfl, rfl, fun _ _ => rfl, fun j k1 k2 => by omega⟩
    · rw [if_neg h1, if_neg (by omega)]
      by_cases h2 : first = last - 1
      · rw [if_pos h2]
        refine ⟨a, rfl, rfl, fun _ _ => rfl, ?_⟩
        intro j k1 k2
        rw [show first + last - 1 - j = j by omega]
      · rw [if_neg h2]
        obtain ⟨x, hx⟩ := exists_rd (a := a) (i := first) (by omega)
        obtain ⟨y, hy⟩ := exists_rd (a := a) (i := last - 1) (by omega)
        rw [iter_swap_eq hx hy]
        simp only [Option.some_bind]
        obtain ⟨out, ho, hol, hof, hor⟩ := ih ((a.set first y).set (last - 1) x) (first + 1)
          (last - 1) (by omega) (by simp; omega) (by omega)
        refine ⟨out, ho, by simpa using hol, ?_, ?_⟩
        · intro j hj
          rw [hof j (by omega), List.getElem?_set_ne (by omega), List.getElem?_set_ne (by omega)]
        · intro j k1 k2
          by_cases e1 : j = first
          · subst e1
            rw [hof j (by omega), List.getElem?_set_ne (by omega),
              List.getElem?_set_self (by omega), show j + last - 1 - j = last - 1 by omega, hy]
          · by_cases e2 : j = last - 1
            · subst e2
              rw [hof (last - 1) (by omega), List.getElem?_set_self (by simp; omega),
                show first + last - 1 - (last - 1) = first by omega, hx]
            · rw [hor j (by omega) (by omega),
                show first + 1 + (last - 1) - 1 - j = first + last - 1 - j by omega,
                List.getElem?_set_ne (by omega), List.getElem?_set_ne (by omega)]

/-- The loop of the bidirectional `rotate_dispatch` exchanges the two ends of the range
until one of them reaches `middle`. -/
theorem rotate_bidirectional_loop_spec (middle : Nat) :
    ∀ (fuel : Nat) (a : List α) (f l : Nat), f ≤ middle → middle ≤ l → l ≤ a.length →
      l - f < fuel →
      ∃ out f1 l1, rotate_bidirectional_loop middle fuel a f l = some (out, f1, l1) ∧
        out.length = a.length ∧ f1 - f = l - l1 ∧ f ≤ f1 ∧ f1 ≤ middle ∧ middle ≤ l1 ∧
        l1 ≤ l ∧ (f1 = middle ∨ middle = l1) ∧
        (∀ j, j < f ∨ (f1 ≤ j ∧ j < l1) ∨ l ≤ j → out[j]? = a[j]?) ∧
        (∀ j, (f ≤ j ∧ j < f1) ∨ (l1 ≤ j ∧ j < l) → out[j]? = a[f + l - 1 - j]?) := by
  intro fuel
  induction fuel with
  | zero => intro a f l _ _ _ h; omega
  | succ fuel ih =>
    intro a f l hfm hml hl hfuel
    unfold rotate_bidirectional_loop
    by_cases hc : f ≠ middle ∧ middle ≠ l
    · rw [if_pos hc, if_neg (by omega)]
      obtain ⟨x, hx⟩ := exists_rd (a := a) (i := f) (by omega)
      obtain ⟨y, hy⟩ := exists_rd (a := a) (i := l - 1) (by omega)
      rw [swap_eq hx hy]
      simp only [Option.some_bind]
      obtain ⟨out, f1, l1, ho, hol, e1, e2, e3, e4, e5, e6, hof, hor⟩ :=
        ih ((a.set f y).set (l - 1) x) (f + 1) (l - 1) (by omega) (by omega)
          (by simp; omega) (by omega)
      refine ⟨out, f1, l1, ho, by simpa using hol, by omega, by omega, e3, e4, by omega, e6,
        ?_, ?_⟩
      · intro j hj
        rw [hof j (by omega), List.getElem?_set_ne (by omega), List.getElem?_set_ne (by omega)]
      · intro j hj
        by_cases k1 : j = f
        · subst k1
          rw [hof j (by omega), List.getElem?_set_ne (by omega),
            List.getElem?_set_self (by omega), show j + l - 1 - j = l - 1 by omega, hy]
        · by_cases k2 : j = l - 1
          · subst k2
            rw [hof (l - 1) (by omega), List.getElem?_set_self (by simp; omega),
              show f + l - 1 - (l - 1) = f by omega, hx]
          · rw [hor j (by omega), show f + 1 + (l - 1) - 1 - j = f + l - 1 - j by omega,
              List.getElem?_set_ne (by omega), List.getElem?_set_ne (by omega)]
    · rw [if_neg hc]
      refine ⟨a, f, l, rfl, rfl, by omega, Nat.le_refl _, hfm, hml, Nat.le_refl _, ?_,
        fun _ _ => rfl, fun j hj => by omega⟩
      by_cases k : f = middle
      · exact Or.inl k
      · exact Or.inr (by
          by_contra k2
          exact hc ⟨k, k2⟩)

/-- Reversing the two blocks and then the whole range rotates it. -/
theorem rotated_of_reversed {a a2 out : List α} {first middle last : Nat}
    (h1 : first ≤ middle) (h2 : middle ≤ last) (h3 : last ≤ a.length)
    (hB1 : ∀ i, first ≤ i → i < middle → a2[i]? = a[first + middle - 1 - i]?)
    (hB2 : ∀ i, middle ≤ i → i < last → a2[i]? = a[middle + last - 1 - i]?)
    (hA : ∀ j, first ≤ j → j < last → out[j]? = a2[first + last - 1 - j]?) :
    range out first last = range a middle last ++ range a first middle := by
  apply range_eq_of_getElem?
  · rw [List.length_append, length_range h3, length_range (by omega)]
    omega
  · intro t ht
    rw [getElem?_append_range a h1 h2 h3 ht, hA (first + t) (by omega) (by omega)]
    unfold rotSource
    by_cases hlt : t < last - middle
    · rw [if_pos hlt, hB2 _ (by omega) (by omega)]
      congr 1
      omega
    · rw [if_neg hlt, hB1 _ (by omega) (by omega)]
      congr 1
      omega

/-- The last reversal of the bidirectional `rotate_dispatch`, of what the loop has left
between its two ends, completes the reversal of the whole range. -/
theorem reversed_of_ends {a2 a3 a4 : List α} {first last f1 l1 : Nat}
    (e1 : f1 - first = last - l1) (e2 : first ≤ f1) (e3 : f1 ≤ l1) (e4 : l1 ≤ last)
    (hof3 : ∀ j, j < first ∨ (f1 ≤ j ∧ j < l1) ∨ last ≤ j → a3[j]? = a2[j]?)
    (hor3 : ∀ j, (first ≤ j ∧ j < f1) ∨ (l1 ≤ j ∧ j < last) →
      a3[j]? = a2[first + last - 1 - j]?)
    (hof4 : ∀ j, j < f1 ∨ l1 ≤ j → a4[j]? = a3[j]?)
    (hor4 : ∀ j, f1 ≤ j → j < l1 → a4[j]? = a3[f1 + l1 - 1 - j]?) :
    ∀ j, first ≤ j → j < last → a4[j]? = a2[first + last - 1 - j]? := by
  intro j k1 k2
  by_cases c1 : j < f1
  · rw [hof4 j (Or.inl c1), hor3 j (Or.inl ⟨k1, c1⟩)]
  · by_cases c2 : l1 ≤ j
    · rw [hof4 j (Or.inr c2), hor3 j (Or.inr ⟨c2, k2⟩)]
    · rw [hor4 j (by omega) (by omega), hof3 _ (Or.inr (Or.inl ⟨by omega, by omega⟩))]
      congr 1
      omega

/-- The bidirectional `rotate_dispatch` returns `first + (last - middle)` and leaves the
elements of `[middle, last)` followed by those of `[first, middle)`. -/
theorem rotate_dispatch_bidirectional_spec (a : List α) (first middle last : Nat)
    (h1 : first ≤ middle) (h2 : middle ≤ last) (h3 : last ≤ a.length) :
    ∃ out, rotate_dispatch_bidirectional a first middle last =
        some (out, first + (last - middle)) ∧
      out.length = a.length ∧ (∀ j, j < first ∨ last ≤ j → out[j]? = a[j]?) ∧
      range out first last = range a middle last ++ range a first middle := by
  obtain ⟨a1, ho1, hol1, hof1, hor1⟩ := reverse_dispatch_spec (middle - first + 1) a first
    middle h1 (Nat.le_trans h2 h3) (Nat.lt_succ_self _)
  have hl1 : last ≤ a1.length := hol1 ▸ h3
  obtain ⟨a2, ho2, hol2, hof2, hor2⟩ := reverse_dispatch_spec (last - middle + 1) a1 middle
    last h2 hl1 (Nat.lt_succ_self _)
  have hl2 : last ≤ a2.length := hol2 ▸ hl1
  obtain ⟨a3, f1, l1, ho3, hol3, e1, e2, e3, e4, e5, e6, hof3, hor3⟩ :=
    rotate_bidirectional_loop_spec middle (last - first + 1) a2 first last h1 h2 hl2
      (Nat.lt_succ_self _)
  have hl3 : last ≤ a3.length := hol3 ▸ hl2
  -- the storage before the loop, in terms of the one at the start
  have hB1 : ∀ i, first ≤ i → i < middle → a2[i]? = a[first + middle - 1 - i]? := by
    intro i k1 k2
    rw [hof2 i (Or.inl k2), hor1 i k1 k2]
  have hB2 : ∀ i, middle ≤ i → i < last → a2[i]? = a[middle + last - 1 - i]? := by
    intro i k1 k2
    rw [hor2 i k1 k2, hof1 _ (Or.inr (by omega))]
  have hfr : ∀ j, j < first ∨ last ≤ j → a3[j]? = a[j]? := by
    intro j hj
    rw [hof3 j (by omega), hof2 j (by omega), hof1 j (by omega)]
  unfold rotate_dispatch_bidirectional
  simp only [ho1, ho2, ho3, Option.some_bind]
  by_cases hm : f1 = middle
  · rw [if_pos hm]
    obtain ⟨a4, ho4, hol4, hof4, hor4⟩ := reverse_dispatch_spec (l1 - middle + 1) a3 middle l1
      e4 (Nat.le_trans e5 hl3) (Nat.lt_succ_self _)
    simp only [ho4, Option.map_some']
    have hl1' : l1 = first + (last - middle) := by omega
    subst hm
    have hA := reversed_of_ends e1 e2 e4 e5 hof3 hor3 hof4 hor4
    refine ⟨a4, by rw [hl1'], by omega, ?_, rotated_of_reversed h1 h2 h3 hB1 hB2 hA⟩
    intro j hj
    rw [hof4 j (by omega), hfr j hj]
  · rw [if_neg hm]
    have hm2 : middle = l1 := by
      rcases e6 with k | k
      · exact absurd k hm
      · exact k
    obtain ⟨a4, ho4, hol4, hof4, hor4⟩ := reverse_dispatch_spec (middle - f1 + 1) a3 f1 middle
      e3 (Nat.le_trans h2 hl3) (Nat.lt_succ_self _)
    simp only [ho4, Option.map_some']
    have hf1 : f1 = first + (last - middle) := by omega
    subst hm2
    have hA := reversed_of_ends e1 e2 e3 e5 hof3 hor3 hof4 hor4
    refine ⟨a4, by rw [hf1], by omega, ?_, rotated_of_reversed h1 h2 h3 hB1 hB2 hA⟩
    intro j hj
    rw [hof4 j (by omega), hfr j hj]

end mystl

/-! ## the forward rotate -/

namespace mystl
variable {α : Type}

/-- One step of the forward `rotate`: after `swap(*first++, *first2++)` and the update of
`middle` and `first2`, the element now at the old `first` is in place and the rest of the
target is the target of the new state. -/
theorem rotTarget_step {a : List α} {last f m f2 : Nat} {x y : α} (hfm : f < m)
    (hmf : m ≤ f2) (hfl : f2 < last) (hx : a[f]? = some x) (hy : a[f2]? = some y) :
    rotTarget a last f m f2 =
      y :: rotTarget ((a.set f y).set f2 x) last (f + 1)
        (if f + 1 = m then f2 + 1 else m)
        (if f + 1 = m then f2 + 1 else if f2 + 1 = last then m else f2 + 1) := by
  have hlf := lt_length_of_getElem? hx
  have hlf2 := lt_length_of_getElem? hy
  have hx1 : ((a.set f y).set f2 x)[f2]? = some x :=
    List.getElem?_set_self (by simpa using hlf2)
  have hout : ∀ p q, (f < p ∧ q ≤ f2) ∨ f2 < p → range ((a.set f y).set f2 x) p q =
      range a p q := by
    intro p q h
    rw [range_set_outside x (by omega), range_set_outside y (by omega)]
  unfold rotTarget
  rw [range_cons hfl hy, range_cons hfm hx]
  by_cases h1 : f + 1 = m
  · rw [if_pos h1, if_pos h1, hout (f2 + 1) last (by omega), range_empty _ (Nat.le_refl _),
      range_snoc (show f + 1 < f2 + 1 by omega) (by simpa using hx1),
      show f2 + 1 - 1 = f2 by omega, hout (f + 1) f2 (by omega), ← h1,
      range_empty a (Nat.le_refl (f + 1))]
    simp
  · rw [if_neg h1, if_neg h1]
    by_cases h2 : f2 + 1 = last
    · rw [if_pos h2, range_empty a (show last ≤ f2 + 1 by omega),
        range_empty _ (Nat.le_refl m), hout (f + 1) m (by omega),
        range_snoc (show m < last by omega) (by rw [← h2]; simpa using hx1), ← h2,
        show f2 + 1 - 1 = f2 by omega, hout m f2 (by omega)]
      simp
    · rw [if_neg h2, hout (f2 + 1) last (by omega), hout (f + 1) m (by omega),
        range_snoc (show m < f2 + 1 by omega) (by simpa using hx1),
        show f2 + 1 - 1 = f2 by omega, hout m f2 (by omega)]
      simp

/-- The first loop of the forward `rotate` puts the elements of `[first2, last)` in place
from `first` on; what is left is the target of the state it ends in. -/
theorem rotate_forward_fill_spec (last : Nat) :
    ∀ (fuel : Nat) (a : List α) (f m f2 : Nat), f < m → m ≤ f2 → f2 < last →
      last ≤ a.length → last - f2 ≤ fuel →
      ∃ out f1 m1, rotate_forward_fill last fuel a f m f2 = some (out, f1, m1) ∧
        out.length = a.length ∧ f1 = f + (last - f2) ∧ f1 ≤ m1 ∧ m1 ≤ last ∧
        (m1 < last → f1 < m1) ∧ (∀ j, j < f ∨ last ≤ j → out[j]? = a[j]?) ∧
        range out f f1 ++ rotTarget out last f1 m1 m1 = rotTarget a last f m f2 := by
  intro fuel
  induction fuel with
  | zero => intro a f m f2 _ _ _ _ h; omega
  | succ fuel ih =>
    intro a f m f2 hfm hmf hfl hl hfuel
    obtain ⟨x, hx⟩ := exists_rd (a := a) (i := f) (by omega)
    obtain ⟨y, hy⟩ := exists_rd (a := a) (i := f2) (by omega)
    have hstep := @rotTarget_step α a last f m f2 x y hfm hmf hfl hx hy
    unfold rotate_forward_fill
    rw [swap_eq hx hy]
    simp only [Option.some_bind]
    have hyf : ((a.set f y).set f2 x)[f]? = some y := by
      rw [List.getElem?_set_ne (by omega), List.getElem?_set_self (by omega)]
    by_cases hne : f2 + 1 ≠ last
    · rw [if_pos hne]
      have h2 : ¬ f2 + 1 = last := hne
      rw [if_neg h2] at hstep
      have hsame : (if f + 1 = m then f2 + 1 else f2 + 1) = f2 + 1 := by split <;> rfl
      rw [hsame] at hstep
      obtain ⟨out, f1, m1, ho, hol, e1, e2, e3, e4, hof, hor⟩ :=
        ih ((a.set f y).set f2 x) (f + 1) (if f + 1 = m then f2 + 1 else m) (f2 + 1)
          (by split <;> omega) (by split <;> omega) (by omega) (by simpa using hl) (by omega)
      refine ⟨out, f1, m1, ho, by simpa using hol, by omega, e2, e3, e4, ?_, ?_⟩
      · intro j hj
        rw [hof j (by omega), List.getElem?_set_ne (by omega), List.getElem?_set_ne (by omega)]
      · have hof' : out[f]? = some y := by rw [hof f (by omega)]; exact hyf
        rw [range_cons (show f < f1 by omega) hof', List.cons_append, hor, hstep]
    · rw [if_neg hne]
      have h2 : f2 + 1 = last := by omega
      rw [if_pos h2] at hstep
      refine ⟨(a.set f y).set f2 x, f + 1, if f + 1 = m then f2 + 1 else m, rfl, by simp,
        by omega, by split <;> omega, by split <;> omega, by split <;> omega, ?_, ?_⟩
      · intro j hj
        rw [List.getElem?_set_ne (by omega), List.getElem?_set_ne (by omega)]
      · rw [range_cons (show f < f + 1 by omega) hyf, range_empty _ (Nat.le_refl _), hstep]
        by_cases h1 : f + 1 = m
        · simp only [if_pos h1, List.singleton_append]
        · simp only [if_neg h1, List.singleton_append]

/-- The second loop of the forward `rotate` brings about the target of the state it starts
from. -/
theorem rotate_forward_rest_spec (last : Nat) :
    ∀ (fuel : Nat) (a : List α) (f m f2 : Nat), f ≤ m → m ≤ f2 → f2 ≤ last →
      (f2 = last → m = last) → (f2 < last → f < m) → last ≤ a.length → last - f < fuel →
      ∃ out, rotate_forward_rest last fuel a f m f2 = some out ∧ out.length = a.length ∧
        (∀ j, j < f ∨ last ≤ j → out[j]? = a[j]?) ∧
        range out f last = rotTarget a last f m f2 := by
  intro fuel
  induction fuel with
  | zero => intro a f m f2 _ _ _ _ _ _ h; omega
  | succ fuel ih =>
    intro a f m f2 hfm hmf hfl hex hin hl hfuel
    unfold rotate_forward_rest
    by_cases hne : f2 ≠ last
    · rw [if_pos hne]
      have hfl' : f2 < last := by omega
      have hfm' : f < m := hin hfl'
      obtain ⟨x, hx⟩ := exists_rd (a := a) (i := f) (by omega)
      obtain ⟨y, hy⟩ := exists_rd (a := a) (i := f2) (by omega)
      have hstep := @rotTarget_step α a last f m f2 x y hfm' hmf hfl' hx hy
      rw [swap_eq hx hy]
      simp only [Option.some_bind]
      have hyf : ((a.set f y).set f2 x)[f]? = some y := by
        rw [List.getElem?_set_ne (by omega), List.getElem?_set_self (by omega)]
      have hfin : ∀ (m' f2' : Nat) (out : List α),
          rotTarget a last f m f2 = y :: rotTarget ((a.set f y).set f2 x) last (f + 1) m' f2' →
          out.length = ((a.set f y).set f2 x).length →
          (∀ j, j < f + 1 ∨ last ≤ j → out[j]? = ((a.set f y).set f2 x)[j]?) →
          range out (f + 1) last = rotTarget ((a.set f y).set f2 x) last (f + 1) m' f2' →
          out.length = a.length ∧ (∀ j, j < f ∨ last ≤ j → out[j]? = a[j]?) ∧
            range out f last = rotTarget a last f m f2 := by
        intro m' f2' out hst hol hof hor
        refine ⟨by simpa using hol, ?_, ?_⟩
        · intro j hj
          rw [hof j (by omega), List.getElem?_set_ne (by omega),
            List.getElem?_set_ne (by omega)]
        · have hof' : out[f]? = some y := by rw [hof f (by omega)]; exact hyf
          rw [range_cons (show f < last by omega) hof', hor, hst]
      by_cases h1 : f + 1 = m
      · rw [if_pos h1]
        rw [if_pos h1, if_pos h1] at hstep
        obtain ⟨out, ho, hol, hof, hor⟩ := ih ((a.set f y).set f2 x) (f + 1) (f2 + 1) (f2 + 1)
          (by omega) (Nat.le_refl _) (by omega) (fun h => h) (fun _ => by omega)
          (by simpa using hl) (by omega)
        obtain ⟨r1, r2, r3⟩ := hfin _ _ out hstep hol hof hor
        exact ⟨out, ho, r1, r2, r3⟩
      · rw [if_neg h1]
        rw [if_neg h1, if_neg h1] at hstep
        by_cases h2 : f2 + 1 = last
        · rw [if_pos h2]
          rw [if_pos h2] at hstep
          obtain ⟨out, ho, hol, hof, hor⟩ := ih ((a.set f y).set f2 x) (f + 1) m m
            (by omega) (Nat.le_refl _) (by omega) (fun h => h) (fun _ => by omega)
            (by simpa using hl) (by omega)
          obtain ⟨r1, r2, r3⟩ := hfin _ _ out hstep hol hof hor
          exact ⟨out, ho, r1, r2, r3⟩
        · rw [if_neg h2]
          rw [if_neg h2] at hstep
          obtain ⟨out, ho, hol, hof, hor⟩ := ih ((a.set f y).set f2 x) (f + 1) m (f2 + 1)
            (by omega) (by omega) (by omega) (fun h => by omega) (fun _ => by omega)
            (by simpa using hl) (by omega)
          obtain ⟨r1, r2, r3⟩ := hfin _ _ out hstep hol hof hor
          exact ⟨out, ho, r1, r2, r3⟩
    · rw [if_neg hne]
      have e1 : f2 = last := by
        by_contra k
        exact hne k
      have e2 : m = last := hex e1
      refine ⟨a, rfl, rfl, fun _ _ => rfl, ?_⟩
      unfold rotTarget
      rw [e1, e2, range_empty a (Nat.le_refl last)]
      simp

/-- The forward `rotate_dispatch` returns `first + (last - middle)` and leaves the elements
of `[middle, last)` followed by those of `[first, middle)`. -/
theorem rotate_dispatch_forward_spec (a : List α) (first middle last : Nat)
    (h1 : first < middle) (h2 : middle < last) (h3 : last ≤ a.length) :
    ∃ out, rotate_dispatch_forward a first middle last =
        some (out, first + (last - middle)) ∧
      out.length = a.length ∧ (∀ j, j < first ∨ last ≤ j → out[j]? = a[j]?) ∧
      range out first last = range a middle last ++ range a first middle := by
  obtain ⟨a1, f1, m1, ho1, hol1, e1, e2, e3, e4, hof1, hor1⟩ :=
    rotate_forward_fill_spec last (last - first + 1) a first middle middle h1 (Nat.le_refl _)
      h2 h3 (by omega)
  obtain ⟨a2, ho2, hol2, hof2, hor2⟩ :=
    rotate_forward_rest_spec last (last - first + 1) a1 f1 m1 m1 e2 (Nat.le_refl _) e3
      (fun h => h) e4 (by omega) (by omega)
  unfold rotate_dispatch_forward
  simp only [ho1, ho2, Option.some_bind, Option.map_some']
  refine ⟨a2, by rw [e1], by omega, ?_, ?_⟩
  · intro j hj
    rw [hof2 j (by omega), hof1 j hj]
  · rw [← range_append a2 (show first ≤ f1 by omega) (show f1 ≤ last by omega), hor2,
      range_eq_of_frame (fun j k1 k2 => hof2 j (Or.inl k2)), hor1]
    unfold rotTarget
    rw [range_empty a (Nat.le_refl middle)]
    simp

theorem eq_of_frame_of_range {a b : List α} {first last : Nat} (hfl : first ≤ last)
    (hlen : a.length = b.length)
    (hframe : ∀ j, j < first ∨ last ≤ j → a[j]? = b[j]?)
    (hr : range a first last = range b first last) : a = b := by
  apply List.ext_getElem?
  intro j
  by_cases hj : j < first ∨ last ≤ j
  · exact hframe j hj
  · have h1 := getElem?_of_range_eq (X := range b first last) hr
      (show j - first < last - first by omega)
    have h2 := getElem?_of_range_eq (X := range b first last) (rfl : range b first last = _)
      (show j - first < last - first by omega)
    rw [show first + (j - first) = j by omega] at h1 h2
    rw [h1, h2]

end mystl

namespace mystl
variable {α : Type}

/-- C8: for every range `[first, last)` of the storage (empty and single-element ranges
included) and every strict weak order `comp`, `make_heap(first, last)` returns, leaves
the rest of the storage alone, permutes the range, and establishes the max-heap
invariant: for every index `i` with `1 ≤ i < last - first` the element at the parent index
`(i - 1) / 2` does not compare less than the element at `i`. -/
theorem make_heap_correct (comp : α → α → Bool) (hc : StrictWeakOrder comp) (a : List α)
    (first last : Nat) (hfl : first ≤ last) (hl : last ≤ a.length) :
    ∃ out, make_heap comp a first last = some out ∧ out.length = a.length ∧
      (∀ j, j < first ∨ last ≤ j → out[j]? = a[j]?) ∧
      (range out first last).Perm (range a first last) ∧
      ∀ i, 1 ≤ i → i < last - first →
        ∀ p c, out[first + (i - 1) / 2]? = some p → out[first + i]? = some c →
          comp p c = false := by
  obtain ⟨out, ho, hol, hof, hop, hoh⟩ := make_heap_spec hc a first last hfl hl
  refine ⟨out, ho, hol, hof, range_perm_of_perm hfl hof hop, ?_⟩
  intro i hi1 hi2 p c hp hcc
  exact hoh i hi1 hi2 p c hp hcc

/-- C9: for every non-empty range `[first, last)` whose part `[first, last - 1)` satisfies
the max-heap invariant, `push_heap(first, last)` returns, leaves the rest of the storage
alone, permutes the range, and the whole range satisfies the max-heap invariant. -/
theorem push_heap_correct (comp : α → α → Bool) (hc : StrictWeakOrder comp) (a : List α)
    (first last : Nat) (hfl : first < last) (hl : last ≤ a.length)
    (hh : IsHeap comp a first (last - 1 - first)) :
    ∃ out, push_heap comp a first last = some out ∧ out.length = a.length ∧
      (∀ j, j < first ∨ last ≤ j → out[j]? = a[j]?) ∧
      (range out first last).Perm (range a first last) ∧
      IsHeap comp out first (last - first) := by
  obtain ⟨out, ho, hol, hof, hop, hoh⟩ := push_heap_spec hc a first last hfl hl hh
  have hfl' : first ≤ last := by omega
  exact ⟨out, ho, hol, hof, range_perm_of_perm hfl' hof hop, hoh⟩

/-- C10: for every non-empty range `[first, last)` satisfying the max-heap invariant,
`pop_heap(first, last)` returns and leaves the rest of the storage alone; the element at
`last - 1` is then the one that was at `first`, which no element of the range compared
greater than; `[first, last - 1)` satisfies the max-heap invariant; and the range is a
permutation of its input. -/
theorem pop_heap_correct (comp : α → α → Bool) (hc : StrictWeakOrder comp) (a : List α)
    (first last : Nat) (hfl : first < last) (hl : last ≤ a.length)
    (hh : IsHeap comp a first (last - first)) :
    ∃ out, pop_heap comp a first last = some out ∧ out.length = a.length ∧
      (∀ j, j < first ∨ last ≤ j → out[j]? = a[j]?) ∧
      out[last - 1]? = a[first]? ∧
      (∀ j, first ≤ j → j < last → NotLess comp a first j) ∧
      IsHeap comp out first (last - 1 - first) ∧
      (range out first last).Perm (range a first last) := by
  obtain ⟨out, ho, hol, hof, hor, hmax, hoh, hop⟩ := pop_heap_spec hc a first last hfl hl hh
  have hfl' : first ≤ last := by omega
  exact ⟨out, ho, hol, hof, hor, hmax, hoh, range_perm_of_perm hfl' hof hop⟩

/-- Instance of C8: `make_heap` on the eight numbers `3 1 4 1 5 9 2 6`. -/
theorem make_heap_correct_witness :
    StrictWeakOrder natLt ∧ 0 ≤ 8 ∧ 8 ≤ [3, 1, 4, 1, 5, 9, 2, 6].length ∧
    ∃ out, make_heap natLt [3, 1, 4, 1, 5, 9, 2, 6] 0 8 = some out ∧
      out.length = [3, 1, 4, 1, 5, 9, 2, 6].length ∧
      (∀ j, j < 0 ∨ 8 ≤ j → out[j]? = [3, 1, 4, 1, 5, 9, 2, 6][j]?) ∧
      (range out 0 8).Perm (range [3, 1, 4, 1, 5, 9, 2, 6] 0 8) ∧
      ∀ i, 1 ≤ i → i < 8 - 0 →
        ∀ p c, out[0 + (i - 1) / 2]? = some p → out[0 + i]? = some c → natLt p c = false :=
  ⟨natLt_strictWeakOrder, by decide, by decide,
    make_heap_correct natLt natLt_strictWeakOrder [3, 1, 4, 1, 5, 9, 2, 6] 0 8 (by decide)
      (by decide)⟩

theorem isHeap_example_push : IsHeap natLt [0, 9, 5, 4, 1, 7] 1 (6 - 1 - 1) := by
  intro i h1 h2 x y hx hy
  have : i = 1 ∨ i = 2 ∨ i = 3 := by omega
  rcases this with rfl | rfl | rfl <;> simp at hx hy <;> subst hx <;> subst hy <;> decide

/-- Instance of C9: `push_heap` of `7` onto the heap `9 5 4 1` stored from position 1. -/
theorem push_heap_correct_witness :
    StrictWeakOrder natLt ∧ 1 < 6 ∧ 6 ≤ [0, 9, 5, 4, 1, 7].length ∧
    IsHeap natLt [0, 9, 5, 4, 1, 7] 1 (6 - 1 - 1) ∧
    ∃ out, push_heap natLt [0, 9, 5, 4, 1, 7] 1 6 = some out ∧
      out.length = [0, 9, 5, 4, 1, 7].length ∧
      (∀ j, j < 1 ∨ 6 ≤ j → out[j]? = [0, 9, 5, 4, 1, 7][j]?) ∧
      (range out 1 6).Perm (range [0, 9, 5, 4, 1, 7] 1 6) ∧
      IsHeap natLt out 1 (6 - 1) :=
  ⟨natLt_strictWeakOrder, by decide, by decide, isHeap_example_push,
    push_heap_correct natLt natLt_strictWeakOrder [0, 9, 5, 4, 1, 7] 1 6 (by decide)
      (by decide) isHeap_example_push⟩

theorem isHeap_example_pop : IsHeap natLt [9, 5, 4, 1, 3] 0 (5 - 0) := by
  intro i h1 h2 x y hx hy
  have : i = 1 ∨ i = 2 ∨ i = 3 ∨ i = 4 := by omega
  rcases this with rfl | rfl | rfl | rfl <;> simp at hx hy <;> subst hx <;> subst hy <;> decide

/-- Instance of C10: `pop_heap` on the heap `9 5 4 1 3`. -/
theorem pop_heap_correct_witness :
    StrictWeakOrder natLt ∧ 0 < 5 ∧ 5 ≤ [9, 5, 4, 1, 3].length ∧
    IsHeap natLt [9, 5, 4, 1, 3] 0 (5 - 0) ∧
    ∃ out, pop_heap natLt [9, 5, 4, 1, 3] 0 5 = some out ∧
      out.length = [9, 5, 4, 1, 3].length ∧
      (∀ j, j < 0 ∨ 5 ≤ j → out[j]? = [9, 5, 4, 1, 3][j]?) ∧
      out[5 - 1]? = [9, 5, 4, 1, 3][0]? ∧
      (∀ j, 0 ≤ j → j < 5 → NotLess natLt [9, 5, 4, 1, 3] 0 j) ∧
      IsHeap natLt out 0 (5 - 1 - 0) ∧
      (range out 0 5).Perm (range [9, 5, 4, 1, 3] 0 5) :=
  ⟨natLt_strictWeakOrder, by decide, by decide, isHeap_example_pop,
    pop_heap_correct natLt natLt_strictWeakOrder [9, 5, 4, 1, 3] 0 5 (by decide) (by decide)
      isHeap_example_pop⟩

end mystl

namespace mystl
variable {α : Type}

/-- C6: for every range `[first, last)` and every `middle` with `first ≤ middle ≤ last`,
`partial_sort(first, middle, last)` returns, leaves the rest of the storage alone and
permutes the range; afterwards `[first, middle)` is sorted ascending and holds
`middle - first` smallest elements of the range: no element left in `[middle, last)`
compares less than an element of `[first, middle)`. -/
theorem partial_sort_correct (comp : α → α → Bool) (hc : StrictWeakOrder comp) (a : List α)
    (first middle last : Nat) (hfm : first ≤ middle) (hml : middle ≤ last)
    (hl : last ≤ a.length) :
    ∃ out, partial_sort comp a first middle last = some out ∧ out.length = a.length ∧
      (∀ j, j < first ∨ last ≤ j → out[j]? = a[j]?) ∧
      (range out first last).Perm (range a first last) ∧
      (range out first middle).length = middle - first ∧
      SortedOn comp out first middle ∧
      ∀ x ∈ range out first middle, ∀ y ∈ range out middle last, comp y x = false := by
  obtain ⟨out, ho, hol, hof, hop, hos, hod⟩ := partial_sort_spec hc a first middle last hfm hml hl
  have hfl : first ≤ last := Nat.le_trans hfm hml
  refine ⟨out, ho, hol, hof, range_perm_of_perm hfl hof hop,
    length_range (by omega), hos, ?_⟩
  intro x hx y hy
  obtain ⟨i, hi1, hi2, hi3⟩ := mem_range_iff.mp hx
  obtain ⟨j, hj1, hj2, hj3⟩ := mem_range_iff.mp hy
  exact hod i j hi1 hi2 hj1 hj2 y x hj3 hi3

/-- Instance of C6: the three smallest of `7 2 9 4 1 8 3`. -/
theorem partial_sort_correct_witness :
    StrictWeakOrder natLt ∧ 0 ≤ 3 ∧ 3 ≤ 7 ∧ 7 ≤ [7, 2, 9, 4, 1, 8, 3].length ∧
    ∃ out, partial_sort natLt [7, 2, 9, 4, 1, 8, 3] 0 3 7 = some out ∧
      out.length = [7, 2, 9, 4, 1, 8, 3].length ∧
      (∀ j, j < 0 ∨ 7 ≤ j → out[j]? = [7, 2, 9, 4, 1, 8, 3][j]?) ∧
      (range out 0 7).Perm (range [7, 2, 9, 4, 1, 8, 3] 0 7) ∧
      (range out 0 3).length = 3 - 0 ∧
      SortedOn natLt out 0 3 ∧
      ∀ x ∈ range out 0 3, ∀ y ∈ range out 3 7, natLt y x = false :=
  ⟨natLt_strictWeakOrder, by decide, by decide, by decide,
    partial_sort_correct natLt natLt_strictWeakOrder [7, 2, 9, 4, 1, 8, 3] 0 3 7 (by decide)
      (by decide) (by decide)⟩

/-- C7: for a source range `[first, last)` of length `n` and a destination range
`[result_first, result_last)` of capacity `m` that do not overlap, `partial_sort_copy`
returns `result_first + min n m`; the destination prefix up to the returned position is
sorted ascending and holds `min n m` smallest source elements (the source is that prefix
together with elements none of which compares less than one of the prefix); the source
range, and every position outside the prefix, is unchanged; when `m = 0` it returns
`result_last` and writes nothing. -/
theorem partial_sort_copy_correct (comp : α → α → Bool) (hc : StrictWeakOrder comp)
    (a : List α) (first last result_first result_last : Nat)
    (h1 : first ≤ last) (h2 : last ≤ a.length) (h3 : result_first ≤ result_last)
    (h4 : result_last ≤ a.length) (hd : last ≤ result_first ∨ result_last ≤ first) :
    ∃ out ret, partial_sort_copy comp a first last result_first result_last = some (out, ret) ∧
      ret = result_first + min (last - first) (result_last - result_first) ∧
      out.length = a.length ∧
      (∀ j, first ≤ j → j < last → out[j]? = a[j]?) ∧
      (∀ j, j < result_first ∨ ret ≤ j → out[j]? = a[j]?) ∧
      SortedOn comp out result_first ret ∧
      (∃ rest, (range out result_first ret ++ rest).Perm (range a first last) ∧
        ∀ x ∈ range out result_first ret, ∀ y ∈ rest, comp y x = false) ∧
      (result_first = result_last → ret = result_last ∧ out = a) := by
  by_cases hm : result_first = result_last
  · subst hm
    refine ⟨a, result_first, ?_, ?_, rfl, fun _ _ _ => rfl, fun _ _ => rfl, ?_, ?_,
      fun _ => ⟨rfl, rfl⟩⟩
    · simp [partial_sort_copy]
    · simp
    · intro i hi1 hi2; omega
    · refine ⟨range a first last, ?_, ?_⟩
      · simp [range]
      · intro x hx; simp [range] at hx
  · obtain ⟨out, c, ho, hc1, hc2, hc3, hol, hof, hos, rest, hop, hor⟩ :=
      psort_copy_spec hc a first last result_first result_last h1 h2 (by omega) h4 hd
    have hcm : c = min (last - first) (result_last - result_first) := by
      rw [Nat.min_def]; split <;> omega
    refine ⟨out, result_first + c, ho, by rw [hcm], hol, ?_, hof, hos, ⟨rest, hop, hor⟩,
      fun h => absurd h hm⟩
    intro j hj1 hj2
    exact hof j (by omega)

/-- Instance of C7: the three smallest of `9 1 5 3 7` copied into three free slots. -/
theorem partial_sort_copy_correct_witness :
    StrictWeakOrder natLt ∧ 0 ≤ 5 ∧ 5 ≤ [9, 1, 5, 3, 7, 0, 0, 0].length ∧ 5 ≤ 8 ∧
    8 ≤ [9, 1, 5, 3, 7, 0, 0, 0].length ∧ (5 ≤ 5 ∨ 8 ≤ 0) ∧
    ∃ out ret, partial_sort_copy natLt [9, 1, 5, 3, 7, 0, 0, 0] 0 5 5 8 = some (out, ret) ∧
      ret = 5 + min (5 - 0) (8 - 5) ∧
      out.length = [9, 1, 5, 3, 7, 0, 0, 0].length ∧
      (∀ j, 0 ≤ j → j < 5 → out[j]? = [9, 1, 5, 3, 7, 0, 0, 0][j]?) ∧
      (∀ j, j < 5 ∨ ret ≤ j → out[j]? = [9, 1, 5, 3, 7, 0, 0, 0][j]?) ∧
      SortedOn natLt out 5 ret ∧
      (∃ rest, (range out 5 ret ++ rest).Perm (range [9, 1, 5, 3, 7, 0, 0, 0] 0 5) ∧
        ∀ x ∈ range out 5 ret, ∀ y ∈ rest, natLt y x = false) ∧
      (5 = 8 → ret = 8 ∧ out = [9, 1, 5, 3, 7, 0, 0, 0]) :=
  ⟨natLt_strictWeakOrder, by decide, by decide, by decide, by decide, by decide,
    partial_sort_copy_correct natLt natLt_strictWeakOrder [9, 1, 5, 3, 7, 0, 0, 0] 0 5 5 8
      (by decide) (by decide) (by decide) (by decide) (by decide)⟩

end mystl

namespace mystl
variable {α : Type}

/-- C1: for every range `[first, last)` and every strict weak order `comp`, `sort` returns
and afterwards every adjacent pair `(x, y)` of the range satisfies `comp y x = false`.
First the comparator overload, in which `median` is called with the element type's
`operator<` (any `lt`), then the `operator<` overload. -/
theorem sort_sorted (lt comp : α → α → Bool) (hc : StrictWeakOrder comp) (a : List α)
    (first last : Nat) (hfl : first ≤ last) (hl : last ≤ a.length) :
    (∃ out, sort_comp lt comp a first last = some out ∧ out.length = a.length ∧
      ∀ i, first ≤ i → i + 1 < last →
        ∀ x y, out[i]? = some x → out[i + 1]? = some y → comp y x = false) ∧
    (∃ out, sort comp a first last = some out ∧ out.length = a.length ∧
      ∀ i, first ≤ i → i + 1 < last →
        ∀ x y, out[i]? = some x → out[i + 1]? = some y → comp y x = false) := by
  constructor
  · obtain ⟨out, ho, hol, _, hos⟩ := sort_comp_spec lt hc a first last hfl hl
    exact ⟨out, ho, hol, fun i h1 h2 x y hx hy => hos i h1 h2 y x hy hx⟩
  · obtain ⟨out, ho, hol, _, hos⟩ := sort_comp_spec comp hc a first last hfl hl
    exact ⟨out, ho, hol, fun i h1 h2 x y hx hy => hos i h1 h2 y x hy hx⟩

/-- Instance of C1: `sort` on `5 3 8 1 9 2`. -/
theorem sort_sorted_witness :
    StrictWeakOrder natLt ∧ 0 ≤ 6 ∧ 6 ≤ [5, 3, 8, 1, 9, 2].length ∧
    sort natLt [5, 3, 8, 1, 9, 2] 0 6 = some [1, 2, 3, 5, 8, 9] ∧
    (∃ out, sort_comp natLt natLt [5, 3, 8, 1, 9, 2] 0 6 = some out ∧
      out.length = [5, 3, 8, 1, 9, 2].length ∧
      ∀ i, 0 ≤ i → i + 1 < 6 →
        ∀ x y, out[i]? = some x → out[i + 1]? = some y → natLt y x = false) ∧
    (∃ out, sort natLt [5, 3, 8, 1, 9, 2] 0 6 = some out ∧
      out.length = [5, 3, 8, 1, 9, 2].length ∧
      ∀ i, 0 ≤ i → i + 1 < 6 →
        ∀ x y, out[i]? = some x → out[i + 1]? = some y → natLt y x = false) :=
  ⟨natLt_strictWeakOrder, by decide, by decide, by decide,
    sort_sorted natLt natLt natLt_strictWeakOrder [5, 3, 8, 1, 9, 2] 0 6 (by decide)
      (by decide)⟩

set_option maxRecDepth 1000000 in
/-- C2, the code at the failing input: `sort` on the 129 numbers `1, ..., 128, 0` returns
`0, 2, 3, ..., 128, 128`.  The last call `unchecked_linear_insert(i, *i)` overwrites the slot
its `value` refers to, so the `1` that `intro_sort` left in the last slot is lost and `128`
occurs twice. -/
theorem sort_loses_an_element :
    sort natLt ascendingThenZero 0 129 = some (0 :: (List.range 127).map (· + 2) ++ [128]) ∧
    ascendingThenZero.count 1 = 1 ∧
    (0 :: (List.range 127).map (· + 2) ++ [128]).count 1 = 0 := by
  refine ⟨by decide!, by decide, by decide⟩

/-- C5, the code at the failing input: `nth_element` on `0 4 3 1 2 5` with `nth` at index 2
returns `0 1 3 4 2 5`.  The pivot is the slot holding `1`; the first swap puts `4` into that
slot, the partition goes on against `4`, and `2` stays behind `nth`, whose element is `3`. -/
theorem nth_element_pivot_moves :
    nth_element natLt [0, 4, 3, 1, 2, 5] 0 2 6 = some [0, 1, 3, 4, 2, 5] ∧
    natLt 2 3 = true := by
  decide

end mystl
namespace mystl
variable {α : Type}

/-- C3: for every range `[first, last)` and `middle` with `[first, middle)` and
`[middle, last)` each sorted ascending, `inplace_merge(first, middle, last)` returns and
leaves the whole range `[first, last)` sorted ascending, on the buffer-free path
(`merge_without_buffer`, `buf = none`) and on the buffer-assisted path (`merge_adaptive`,
`buf = some (b, s)` with any capacity `s ≥ 1`, the buffer lying outside the range). -/
theorem inplace_merge_sorted (comp : α → α → Bool) (hc : StrictWeakOrder comp) (a : List α)
    (first middle last : Nat) (buf : Option (Nat × Nat)) (h1 : first ≤ middle)
    (h2 : middle ≤ last) (h3 : last ≤ a.length)
    (hbuf : ∀ b s, buf = some (b, s) → 1 ≤ s ∧ b + s ≤ a.length ∧ (last ≤ b ∨ b + s ≤ first))
    (hs1 : SortedOn comp a first middle) (hs2 : SortedOn comp a middle last) :
    ∃ out, inplace_merge comp a first middle last buf = some out ∧ out.length = a.length ∧
      ∀ i, first ≤ i → i + 1 < last →
        ∀ x y, out[i]? = some x → out[i + 1]? = some y → comp y x = false := by
  obtain ⟨out, ho, hol, _, hor⟩ := inplace_merge_spec hc a first middle last buf h1 h2 h3 hbuf
    hs1 hs2
  have hl1 := sortedList_range hc (show middle ≤ a.length by omega) hs1
  have hl2 := sortedList_range hc h3 hs2
  have hso : SortedOn comp out first last :=
    sortedOn_of_sortedList_range (Nat.le_trans h1 h2)
      (by rw [hor]; exact stable_merge_sorted hc _ _ _ (Nat.le_refl _) hl1 hl2)
  exact ⟨out, ho, hol, fun i hi1 hi2 x y hx hy => hso i hi1 hi2 y x hy hx⟩

/-- Instance of C3: `inplace_merge` on `1 3 5 | 2 4 6`, without a buffer and with a buffer
of two places. -/
theorem inplace_merge_sorted_witness :
    inplace_merge natLt [1, 3, 5, 2, 4, 6, 0, 0] 0 3 6 none = some [1, 2, 3, 4, 5, 6, 0, 0] ∧
    StrictWeakOrder natLt ∧ 0 ≤ 3 ∧ 3 ≤ 6 ∧ 6 ≤ [1, 3, 5, 2, 4, 6, 0, 0].length ∧
    (∀ b s, some (6, 2) = some (b, s) →
      1 ≤ s ∧ b + s ≤ [1, 3, 5, 2, 4, 6, 0, 0].length ∧ (6 ≤ b ∨ b + s ≤ 0)) ∧
    SortedOn natLt [1, 3, 5, 2, 4, 6, 0, 0] 0 3 ∧ SortedOn natLt [1, 3, 5, 2, 4, 6, 0, 0] 3 6 ∧
    ∃ out, inplace_merge natLt [1, 3, 5, 2, 4, 6, 0, 0] 0 3 6 (some (6, 2)) = some out ∧
      out.length = [1, 3, 5, 2, 4, 6, 0, 0].length ∧
      ∀ i, 0 ≤ i → i + 1 < 6 →
        ∀ x y, out[i]? = some x → out[i + 1]? = some y → natLt y x = false :=
  ⟨by decide, natLt_strictWeakOrder, by decide, by decide, by decide,
    fun b s h => by cases h; decide,
    sortedOn_example_halves.1, sortedOn_example_halves.2,
    inplace_merge_sorted natLt natLt_strictWeakOrder [1, 3, 5, 2, 4, 6, 0, 0] 0 3 6
      (some (6, 2)) (by decide) (by decide) (by decide) (fun b s h => by cases h; decide)
      sortedOn_example_halves.1 sortedOn_example_halves.2⟩

/-- C4: `inplace_merge` is stable, on the buffer-free path (`buf = none`) and on the
buffered path (`buf = some (b, s)`, `s ≥ 1`).  For two sorted adjacent sub-ranges it
returns, and the range afterwards is the stable merge of the two: an interleaving of
`[first, middle)` and `[middle, last)` in which the elements of each sub-range keep their
relative order and an element of `[middle, last)` comes before an element of
`[first, middle)` only if it compares less than it, so of two equivalent elements the one
from `[first, middle)` comes first. -/
theorem inplace_merge_stable (comp : α → α → Bool) (hc : StrictWeakOrder comp) (a : List α)
    (first middle last : Nat) (buf : Option (Nat × Nat)) (h1 : first ≤ middle)
    (h2 : middle ≤ last) (h3 : last ≤ a.length)
    (hbuf : ∀ b s, buf = some (b, s) → 1 ≤ s ∧ b + s ≤ a.length ∧ (last ≤ b ∨ b + s ≤ first))
    (hs1 : SortedOn comp a first middle) (hs2 : SortedOn comp a middle last) :
    ∃ out, inplace_merge comp a first middle last buf = some out ∧
      range out first last =
        stable_merge comp (range a first middle) (range a middle last) ∧
      StableInterleave comp (range a first middle) (range a middle last)
        (range out first last) := by
  obtain ⟨out, ho, _, _, hor⟩ := inplace_merge_spec hc a first middle last buf h1 h2 h3 hbuf
    hs1 hs2
  have hl1 := sortedList_range hc (show middle ≤ a.length by omega) hs1
  refine ⟨out, ho, hor, ?_⟩
  rw [hor]
  exact stable_merge_interleave hc _ _ _ (Nat.le_refl _) hl1

/-- Instance of C4: the values 2 and 3 occur in both halves; after the merge the copy from
the first half (tag 0) precedes the copy from the second half (tag 1). -/
theorem inplace_merge_stable_witness :
    inplace_merge tagLt taggedHalves 0 3 6 none =
      some [(1, 0), (2, 0), (2, 1), (3, 0), (3, 1), (4, 1)] ∧
    StrictWeakOrder tagLt ∧ 0 ≤ 3 ∧ 3 ≤ 6 ∧ 6 ≤ taggedHalves.length ∧
    (∀ b s, (none : Option (Nat × Nat)) = some (b, s) →
      1 ≤ s ∧ b + s ≤ taggedHalves.length ∧ (6 ≤ b ∨ b + s ≤ 0)) ∧
    SortedOn tagLt taggedHalves 0 3 ∧ SortedOn tagLt taggedHalves 3 6 ∧
    ∃ out, inplace_merge tagLt taggedHalves 0 3 6 none = some out ∧
      range out 0 6 = stable_merge tagLt (range taggedHalves 0 3) (range taggedHalves 3 6) ∧
      StableInterleave tagLt (range taggedHalves 0 3) (range taggedHalves 3 6)
        (range out 0 6) :=
  ⟨by decide, tagLt_strictWeakOrder, by decide, by decide, by decide,
    (fun b s h => nomatch h),
    sortedOn_tagged_halves.1, sortedOn_tagged_halves.2,
    inplace_merge_stable tagLt tagLt_strictWeakOrder taggedHalves 0 3 6 none (by decide)
      (by decide) (by decide) (fun b s h => nomatch h)
      sortedOn_tagged_halves.1 sortedOn_tagged_halves.2⟩

end mystl
namespace mystl
variable {α : Type}

/-- C11: for every range `[first, last)` satisfying the max-heap invariant,
`sort_heap(first, last)` returns and leaves the rest of the storage alone; the range is
then sorted ascending and a permutation of its input. -/
theorem sort_heap_correct (comp : α → α → Bool) (hc : StrictWeakOrder comp) (a : List α)
    (first last : Nat) (hfl : first ≤ last) (hl : last ≤ a.length)
    (hh : IsHeap comp a first (last - first)) :
    ∃ out, sort_heap comp a first last = some out ∧ out.length = a.length ∧
      (∀ j, j < first ∨ last ≤ j → out[j]? = a[j]?) ∧
      (range out first last).Perm (range a first last) ∧
      ∀ i, first ≤ i → i + 1 < last →
        ∀ x y, out[i]? = some x → out[i + 1]? = some y → comp y x = false := by
  obtain ⟨out, ho, hol, hof, hos, hop⟩ := sort_heap_spec hc a first last hfl hl hh
  exact ⟨out, ho, hol, hof, range_perm_of_perm hfl hof hop,
    fun i hi1 hi2 x y hx hy => hos i hi1 hi2 y x hy hx⟩

/-- Instance of C11: `sort_heap` on the heap `9 5 4 1 3`. -/
theorem sort_heap_correct_witness :
    sort_heap natLt [9, 5, 4, 1, 3] 0 5 = some [1, 3, 4, 5, 9] ∧
    StrictWeakOrder natLt ∧ 0 ≤ 5 ∧ 5 ≤ [9, 5, 4, 1, 3].length ∧
    IsHeap natLt [9, 5, 4, 1, 3] 0 (5 - 0) ∧
    ∃ out, sort_heap natLt [9, 5, 4, 1, 3] 0 5 = some out ∧
      out.length = [9, 5, 4, 1, 3].length ∧
      (∀ j, j < 0 ∨ 5 ≤ j → out[j]? = [9, 5, 4, 1, 3][j]?) ∧
      (range out 0 5).Perm (range [9, 5, 4, 1, 3] 0 5) ∧
      ∀ i, 0 ≤ i → i + 1 < 5 →
        ∀ x y, out[i]? = some x → out[i + 1]? = some y → natLt y x = false :=
  ⟨by decide, natLt_strictWeakOrder, by decide, by decide, isHeap_example_pop,
    sort_heap_correct natLt natLt_strictWeakOrder [9, 5, 4, 1, 3] 0 5 (by decide) (by decide)
      isHeap_example_pop⟩

/-- C12: for every pair of sorted adjacent sub-ranges `[first, middle)` and
`[middle, last)`, `inplace_merge` returns and the range `[first, last)` afterwards is a
permutation of the range before, on the buffer-free path (`buf = none`) and on the buffered
path (`buf = some (b, s)`, a scratch area of any capacity `s ≥ 1` outside the range). -/
theorem inplace_merge_perm (comp : α → α → Bool) (hc : StrictWeakOrder comp) (a : List α)
    (first middle last : Nat) (buf : Option (Nat × Nat)) (h1 : first ≤ middle)
    (h2 : middle ≤ last) (h3 : last ≤ a.length)
    (hbuf : ∀ b s, buf = some (b, s) → 1 ≤ s ∧ b + s ≤ a.length ∧ (last ≤ b ∨ b + s ≤ first))
    (hs1 : SortedOn comp a first middle) (hs2 : SortedOn comp a middle last) :
    ∃ out, inplace_merge comp a first middle last buf = some out ∧ out.length = a.length ∧
      (range out first last).Perm (range a first last) := by
  obtain ⟨out, ho, hol, _, hor⟩ := inplace_merge_spec hc a first middle last buf h1 h2 h3 hbuf
    hs1 hs2
  refine ⟨out, ho, hol, ?_⟩
  rw [hor, ← range_append a h1 h2]
  exact stable_merge_perm comp _ _ _ (Nat.le_refl _)

/-- Instance of C12: `inplace_merge` on `1 3 5 | 2 4 6` with a buffer of two places. -/
theorem inplace_merge_perm_witness :
    StrictWeakOrder natLt ∧ 0 ≤ 3 ∧ 3 ≤ 6 ∧ 6 ≤ [1, 3, 5, 2, 4, 6, 0, 0].length ∧
    (∀ b s, some (6, 2) = some (b, s) →
      1 ≤ s ∧ b + s ≤ [1, 3, 5, 2, 4, 6, 0, 0].length ∧ (6 ≤ b ∨ b + s ≤ 0)) ∧
    SortedOn natLt [1, 3, 5, 2, 4, 6, 0, 0] 0 3 ∧ SortedOn natLt [1, 3, 5, 2, 4, 6, 0, 0] 3 6 ∧
    ∃ out, inplace_merge natLt [1, 3, 5, 2, 4, 6, 0, 0] 0 3 6 (some (6, 2)) = some out ∧
      out.length = [1, 3, 5, 2, 4, 6, 0, 0].length ∧
      (range out 0 6).Perm (range [1, 3, 5, 2, 4, 6, 0, 0] 0 6) :=
  ⟨natLt_strictWeakOrder, by decide, by decide, by decide,
    (fun b s h => by cases h; decide),
    sortedOn_example_halves.1, sortedOn_example_halves.2,
    inplace_merge_perm natLt natLt_strictWeakOrder [1, 3, 5, 2, 4, 6, 0, 0] 0 3 6
      (some (6, 2)) (by decide) (by decide) (by decide) (fun b s h => by cases h; decide)
      sortedOn_example_halves.1 sortedOn_example_halves.2⟩

/-- C13: for every range `[first, last)` and every `middle` with `first ≤ middle ≤ last`,
`middle = first` and `middle = last` included, `partial_sort(first, middle, last)` returns
and the whole range `[first, last)` afterwards is a permutation of the range before. -/
theorem partial_sort_perm (comp : α → α → Bool) (hc : StrictWeakOrder comp) (a : List α)
    (first middle last : Nat) (hfm : first ≤ middle) (hml : middle ≤ last)
    (hl : last ≤ a.length) :
    ∃ out, partial_sort comp a first middle last = some out ∧ out.length = a.length ∧
      (range out first last).Perm (range a first last) := by
  obtain ⟨out, ho, hol, hof, hop, _, _⟩ := partial_sort_spec hc a first middle last hfm hml hl
  exact ⟨out, ho, hol, range_perm_of_perm (Nat.le_trans hfm hml) hof hop⟩

/-- Instance of C13: `partial_sort` of `7 2 9 4 1` with `middle = first`, with `middle` in
between and with `middle = last`. -/
theorem partial_sort_perm_witness :
    partial_sort natLt [7, 2, 9, 4, 1] 0 0 5 = some [1, 7, 9, 4, 2] ∧
    partial_sort natLt [7, 2, 9, 4, 1] 0 5 5 = some [1, 2, 4, 7, 9] ∧
    StrictWeakOrder natLt ∧ 0 ≤ 2 ∧ 2 ≤ 5 ∧ 5 ≤ [7, 2, 9, 4, 1].length ∧
    ∃ out, partial_sort natLt [7, 2, 9, 4, 1] 0 2 5 = some out ∧
      out.length = [7, 2, 9, 4, 1].length ∧
      (range out 0 5).Perm (range [7, 2, 9, 4, 1] 0 5) :=
  ⟨by decide, by decide, natLt_strictWeakOrder, by decide, by decide, by decide,
    partial_sort_perm natLt natLt_strictWeakOrder [7, 2, 9, 4, 1] 0 2 5 (by decide)
      (by decide) (by decide)⟩

/-- C14: for every range `[first, last)` and every `nth` with `first ≤ nth ≤ last`,
`nth_element(first, nth, last)` returns and leaves the rest of the storage alone, and the
range afterwards is a permutation of the range before; when `nth = last` the storage is
left exactly as it was. -/
theorem nth_element_perm (lt : α → α → Bool) (hc : StrictWeakOrder lt) (a : List α)
    (first nth last : Nat) (hfn : first ≤ nth) (hnl : nth ≤ last) (hl : last ≤ a.length) :
    ∃ out, nth_element lt a first nth last = some out ∧ out.length = a.length ∧
      (∀ j, j < first ∨ last ≤ j → out[j]? = a[j]?) ∧
      (range out first last).Perm (range a first last) ∧ (nth = last → out = a) := by
  obtain ⟨out, ho, hol, hof, hop, hon⟩ :=
    nth_element_spec hc a first nth last (Nat.le_trans hfn hnl) hl
  exact ⟨out, ho, hol, hof, range_perm_of_perm (Nat.le_trans hfn hnl) hof hop, hon⟩

/-- Instance of C14: `nth_element` on `7 2 9 4 1 8 3` with `nth` at index 3, and with
`nth = last`. -/
theorem nth_element_perm_witness :
    nth_element natLt [7, 2, 9, 4, 1, 8, 3] 0 7 7 = some [7, 2, 9, 4, 1, 8, 3] ∧
    StrictWeakOrder natLt ∧ 0 ≤ 3 ∧ 3 ≤ 7 ∧ 7 ≤ [7, 2, 9, 4, 1, 8, 3].length ∧
    ∃ out, nth_element natLt [7, 2, 9, 4, 1, 8, 3] 0 3 7 = some out ∧
      out.length = [7, 2, 9, 4, 1, 8, 3].length ∧
      (∀ j, j < 0 ∨ 7 ≤ j → out[j]? = [7, 2, 9, 4, 1, 8, 3][j]?) ∧
      (range out 0 7).Perm (range [7, 2, 9, 4, 1, 8, 3] 0 7) ∧
      (3 = 7 → out = [7, 2, 9, 4, 1, 8, 3]) :=
  ⟨by decide, natLt_strictWeakOrder, by decide, by decide, by decide,
    nth_element_perm natLt natLt_strictWeakOrder [7, 2, 9, 4, 1, 8, 3] 0 3 7 (by decide)
      (by decide) (by decide)⟩

end mystl

namespace mystl
variable {α : Type}

/-- C16: for every pair of sorted adjacent sub-ranges and every scratch buffer of capacity
`bs ≥ 1` outside the range, `merge_adaptive` and `merge_without_buffer`, called as
`inplace_merge_aux` calls them, both return, and their results agree position by position
on `[first, last)` and on every position outside the buffer. -/
theorem merge_adaptive_eq_merge_without_buffer (comp : α → α → Bool)
    (hc : StrictWeakOrder comp) (a : List α) (first middle last buffer bs : Nat)
    (h1 : first ≤ middle) (h2 : middle ≤ last) (h3 : last ≤ a.length) (hbs : 1 ≤ bs)
    (hb : buffer + bs ≤ a.length) (hd : last ≤ buffer ∨ buffer + bs ≤ first)
    (hs1 : SortedOn comp a first middle) (hs2 : SortedOn comp a middle last) :
    ∃ o1 o2,
      merge_adaptive comp buffer bs (middle - first + (last - middle) + 1) a first middle last
        (middle - first) (last - middle) = some o1 ∧
      merge_without_buffer comp (middle - first + (last - middle) + 1) a first middle last
        (middle - first) (last - middle) = some o2 ∧
      o1.length = o2.length ∧
      range o1 first last = range o2 first last ∧
      (∀ j, first ≤ j → j < last → o1[j]? = o2[j]?) ∧
      (∀ j, j < buffer ∨ buffer + bs ≤ j → o1[j]? = o2[j]?) := by
  have hl1 := sortedList_range hc (show middle ≤ a.length by omega) hs1
  have hl2 := sortedList_range hc h3 hs2
  obtain ⟨o1, e1, l1, f1, r1⟩ := merge_adaptive_spec hc buffer bs hbs
    (middle - first + (last - middle) + 1) a first middle last h1 h2 h3 hb hd (by omega)
    hl1 hl2
  obtain ⟨o2, e2, l2, f2, r2⟩ := merge_without_buffer_spec hc
    (middle - first + (last - middle) + 1) a first middle last h1 h2 h3 (by omega) hl1 hl2
  have hin : ∀ j, first ≤ j → j < last → o1[j]? = o2[j]? := by
    intro j hj1 hj2
    have e := getElem?_of_range_eq (r1.trans r2.symm) (show j - first < last - first by omega)
    rw [show first + (j - first) = j by omega, getElem?_range,
      if_pos (show j - first < last - first by omega),
      show first + (j - first) = j by omega] at e
    exact e
  refine ⟨o1, o2, e1, e2, l1.trans l2.symm, r1.trans r2.symm, hin, ?_⟩
  intro j hj
  by_cases hr : first ≤ j ∧ j < last
  · exact hin j hr.1 hr.2
  · rw [f1 j (by omega) hj, f2 j (by omega)]

/-- Instance of C16: `1 3 5 | 2 4 6` merged with a buffer of two places and without one. -/
theorem merge_adaptive_eq_merge_without_buffer_witness :
    merge_adaptive natLt 6 2 7 [1, 3, 5, 2, 4, 6, 0, 0] 0 3 6 3 3 =
      some [1, 2, 3, 4, 5, 6, 5, 0] ∧
    merge_without_buffer natLt 7 [1, 3, 5, 2, 4, 6, 0, 0] 0 3 6 3 3 =
      some [1, 2, 3, 4, 5, 6, 0, 0] ∧
    StrictWeakOrder natLt ∧ 0 ≤ 3 ∧ 3 ≤ 6 ∧ 6 ≤ [1, 3, 5, 2, 4, 6, 0, 0].length ∧ 1 ≤ 2 ∧
    6 + 2 ≤ [1, 3, 5, 2, 4, 6, 0, 0].length ∧ (6 ≤ 6 ∨ 6 + 2 ≤ 0) ∧
    SortedOn natLt [1, 3, 5, 2, 4, 6, 0, 0] 0 3 ∧ SortedOn natLt [1, 3, 5, 2, 4, 6, 0, 0] 3 6 ∧
    ∃ o1 o2,
      merge_adaptive natLt 6 2 (3 - 0 + (6 - 3) + 1) [1, 3, 5, 2, 4, 6, 0, 0] 0 3 6
        (3 - 0) (6 - 3) = some o1 ∧
      merge_without_buffer natLt (3 - 0 + (6 - 3) + 1) [1, 3, 5, 2, 4, 6, 0, 0] 0 3 6
        (3 - 0) (6 - 3) = some o2 ∧
      o1.length = o2.length ∧
      range o1 0 6 = range o2 0 6 ∧
      (∀ j, 0 ≤ j → j < 6 → o1[j]? = o2[j]?) ∧
      (∀ j, j < 6 ∨ 6 + 2 ≤ j → o1[j]? = o2[j]?) :=
  ⟨by decide, by decide, natLt_strictWeakOrder, by decide, by decide, by decide, by decide,
    by decide, by decide, sortedOn_example_halves.1, sortedOn_example_halves.2,
    merge_adaptive_eq_merge_without_buffer natLt natLt_strictWeakOrder
      [1, 3, 5, 2, 4, 6, 0, 0] 0 3 6 6 2 (by decide) (by decide) (by decide) (by decide)
      (by decide) (by decide) sortedOn_example_halves.1 sortedOn_example_halves.2⟩

/-- C17: for every random-access range `[first, last)` and every `middle` with
`first ≤ middle ≤ last` (`middle = first`, `middle = last` and equal block lengths
included), `rotate(first, middle, last)` returns `first + (last - middle)` and leaves the
rest of the storage alone; the range then holds the old `[middle, last)` followed by the
old `[first, middle)`, each in its original order. -/
theorem rotate_correct (a : List α) (first middle last : Nat) (h1 : first ≤ middle)
    (h2 : middle ≤ last) (h3 : last ≤ a.length) :
    ∃ out, rotate a first middle last = some (out, first + (last - middle)) ∧
      out.length = a.length ∧ (∀ j, j < first ∨ last ≤ j → out[j]? = a[j]?) ∧
      range out first last = range a middle last ++ range a first middle ∧
      (∀ t, t < last - middle → out[first + t]? = a[middle + t]?) ∧
      (∀ t, t < middle - first → out[first + (last - middle) + t]? = a[first + t]?) := by
  obtain ⟨out, ho, hol, hof, hor⟩ := rotate_spec a first middle last h1 h2 h3
  refine ⟨out, ho, hol, hof, hor, ?_, ?_⟩
  · intro t ht
    have e := getElem?_of_range_eq hor (show t < last - first by omega)
    rw [getElem?_append_range a h1 h2 h3 (by omega)] at e
    unfold rotSource at e
    rw [if_pos ht] at e
    rw [e]; congr 1; omega
  · intro t ht
    have e := getElem?_of_range_eq hor (show last - middle + t < last - first by omega)
    rw [getElem?_append_range a h1 h2 h3 (by omega)] at e
    unfold rotSource at e
    rw [if_neg (by omega)] at e
    rw [← Nat.add_assoc] at e
    rw [e]; congr 1; omega

/-- Instance of C17: `rotate` of `1 2 3 4 5 6 7` about position 2, with the two special
cases and a case of equal block lengths. -/
theorem rotate_correct_witness :
    rotate [1, 2, 3, 4, 5, 6, 7] 0 2 7 = some ([3, 4, 5, 6, 7, 1, 2], 5) ∧
    rotate [1, 2, 3, 4, 5, 6, 7] 0 0 7 = some ([1, 2, 3, 4, 5, 6, 7], 7) ∧
    rotate [1, 2, 3, 4, 5, 6, 7] 0 7 7 = some ([1, 2, 3, 4, 5, 6, 7], 0) ∧
    rotate [1, 2, 3, 4, 5, 6, 7] 1 4 7 = some ([1, 5, 6, 7, 2, 3, 4], 4) ∧
    0 ≤ 2 ∧ 2 ≤ 7 ∧ 7 ≤ [1, 2, 3, 4, 5, 6, 7].length ∧
    ∃ out, rotate [1, 2, 3, 4, 5, 6, 7] 0 2 7 = some (out, 0 + (7 - 2)) ∧
      out.length = [1, 2, 3, 4, 5, 6, 7].length ∧
      (∀ j, j < 0 ∨ 7 ≤ j → out[j]? = [1, 2, 3, 4, 5, 6, 7][j]?) ∧
      range out 0 7 = range [1, 2, 3, 4, 5, 6, 7] 2 7 ++ range [1, 2, 3, 4, 5, 6, 7] 0 2 ∧
      (∀ t, t < 7 - 2 → out[0 + t]? = [1, 2, 3, 4, 5, 6, 7][2 + t]?) ∧
      (∀ t, t < 2 - 0 → out[0 + (7 - 2) + t]? = [1, 2, 3, 4, 5, 6, 7][0 + t]?) :=
  ⟨by decide, by decide, by decide, by decide, by decide, by decide, by decide,
    rotate_correct [1, 2, 3, 4, 5, 6, 7] 0 2 7 (by decide) (by decide) (by decide)⟩

/-- C20: for all values `a`, `b`, `c` and every strict weak order `comp`,
`median(a, b, c)` is one of its three arguments, and of the other two one does not compare
greater than it and the other does not compare less than it. -/
theorem median_correct {β : Type} (comp : β → β → Bool) (hc : StrictWeakOrder comp)
    (a b c : β) :
    (median comp a b c = a ∧
      ((comp a b = false ∧ comp c a = false) ∨ (comp a c = false ∧ comp b a = false))) ∨
    (median comp a b c = b ∧
      ((comp b a = false ∧ comp c b = false) ∨ (comp b c = false ∧ comp a b = false))) ∨
    (median comp a b c = c ∧
      ((comp c a = false ∧ comp b c = false) ∨ (comp c b = false ∧ comp a c = false))) := by
  unfold median
  cases hab : comp a b with
  | true =>
    have hba := hc.asymm hab
    rw [if_pos rfl]
    cases hbc : comp b c with
    | true =>
      rw [if_pos rfl]
      exact Or.inr (Or.inl ⟨rfl, Or.inl ⟨hba, hc.asymm hbc⟩⟩)
    | false =>
      rw [if_neg (by simp)]
      cases hac : comp a c with
      | true =>
        rw [if_pos rfl]
        exact Or.inr (Or.inr ⟨rfl, Or.inl ⟨hc.asymm hac, rfl⟩⟩)
      | false =>
        rw [if_neg (by simp)]
        exact Or.inl ⟨rfl, Or.inr ⟨rfl, hba⟩⟩
  | false =>
    rw [if_neg (by simp)]
    cases hac : comp a c with
    | true =>
      rw [if_pos rfl]
      exact Or.inl ⟨rfl, Or.inl ⟨rfl, hc.asymm hac⟩⟩
    | false =>
      rw [if_neg (by simp)]
      cases hbc : comp b c with
      | true =>
        rw [if_pos rfl]
        exact Or.inr (Or.inr ⟨rfl, Or.inr ⟨hc.asymm hbc, rfl⟩⟩)
      | false =>
        rw [if_neg (by simp)]
        exact Or.inr (Or.inl ⟨rfl, Or.inr ⟨rfl, rfl⟩⟩)

/-- Instance of C20: the median of `3 1 2` is `2`. -/
theorem median_correct_witness :
    median natLt 3 1 2 = 2 ∧ StrictWeakOrder natLt ∧
    ((median natLt 3 1 2 = 3 ∧
      ((natLt 3 1 = false ∧ natLt 2 3 = false) ∨ (natLt 3 2 = false ∧ natLt 1 3 = false))) ∨
    (median natLt 3 1 2 = 1 ∧
      ((natLt 1 3 = false ∧ natLt 2 1 = false) ∨ (natLt 1 2 = false ∧ natLt 3 1 = false))) ∨
    (median natLt 3 1 2 = 2 ∧
      ((natLt 2 3 = false ∧ natLt 1 2 = false) ∨ (natLt 2 1 = false ∧ natLt 3 2 = false)))) :=
  ⟨by decide, natLt_strictWeakOrder, median_correct natLt natLt_strictWeakOrder 3 1 2⟩

end mystl

namespace mystl
variable {α : Type}

set_option maxRecDepth 1000000 in
/-- C15 as stated fails: the 129 pairs `(0, 0), ..., (0, 128)` are sorted under `tagLt`,
which compares the first components only, and `sort` returns them in reverse order; the
first position held `(0, 0)` and holds `(0, 128)` afterwards. -/
theorem sort_sorted_range_moves :
    (∀ i, 0 ≤ i → i + 1 < 129 →
      ∀ x y, equalKeys[i]? = some x → equalKeys[i + 1]? = some y → tagLt y x = false) ∧
    sort tagLt equalKeys 0 129 = some equalKeys.reverse ∧
    equalKeys[0]? = some (0, 0) ∧ equalKeys.reverse[0]? = some (0, 128) := by
  refine ⟨fun i h1 h2 x y hx hy => sortedOn_equalKeys i h1 h2 y x hy hx, by decide!,
    by decide, by decide⟩

/-- C15, amended: for every range `[first, last)` already sorted under the comparator, of
any length, `sort` (the comparator overload `sort_comp lt comp`, and with `lt = comp` the
`operator<` overload) returns, leaves the rest of the storage alone and permutes the range,
and every position holds an element equivalent under the comparator to the one it held
before; every position holds the same element when the range has at most 128 elements, and
when equivalent elements are equal. -/
theorem sort_sorted_range_equiv (lt comp : α → α → Bool) (hc : StrictWeakOrder comp)
    (a : List α) (first last : Nat) (hfl : first ≤ last) (hl : last ≤ a.length)
    (hs : ∀ i, first ≤ i → i + 1 < last →
      ∀ x y, a[i]? = some x → a[i + 1]? = some y → comp y x = false) :
    ∃ out, sort_comp lt comp a first last = some out ∧ out.length = a.length ∧
      (∀ j, j < first ∨ last ≤ j → out[j]? = a[j]?) ∧
      (range out first last).Perm (range a first last) ∧
      (∀ (j : Nat) (x y : α), out[j]? = some x → a[j]? = some y →
        comp x y = false ∧ comp y x = false) ∧
      (last - first ≤ 128 → out = a) ∧
      ((∀ x y, comp x y = false → comp y x = false → x = y) → out = a) :=
  sort_comp_sorted_spec lt hc a first last hfl hl
    (fun i h1 h2 y x hy hx => hs i h1 h2 x y hx hy)

/-- Instance of C15 (amended): `sort` on the sorted range `1 2 2 3 5`. -/
theorem sort_sorted_range_equiv_witness :
    sort natLt [1, 2, 2, 3, 5] 0 5 = some [1, 2, 2, 3, 5] ∧
    StrictWeakOrder natLt ∧ 0 ≤ 5 ∧ 5 ≤ [1, 2, 2, 3, 5].length ∧
    (∀ i, 0 ≤ i → i + 1 < 5 →
      ∀ x y, [1, 2, 2, 3, 5][i]? = some x → [1, 2, 2, 3, 5][i + 1]? = some y →
        natLt y x = false) ∧
    ∃ out, sort_comp natLt natLt [1, 2, 2, 3, 5] 0 5 = some out ∧
      out.length = [1, 2, 2, 3, 5].length ∧
      (∀ j, j < 0 ∨ 5 ≤ j → out[j]? = [1, 2, 2, 3, 5][j]?) ∧
      (range out 0 5).Perm (range [1, 2, 2, 3, 5] 0 5) ∧
      (∀ (j : Nat) (x y : Nat), out[j]? = some x → [1, 2, 2, 3, 5][j]? = some y →
        natLt x y = false ∧ natLt y x = false) ∧
      (5 - 0 ≤ 128 → out = [1, 2, 2, 3, 5]) ∧
      ((∀ x y, natLt x y = false → natLt y x = false → x = y) → out = [1, 2, 2, 3, 5]) :=
  ⟨by decide, natLt_strictWeakOrder, by decide, by decide,
    fun i h1 h2 x y hx hy => sortedOn_example_sorted i h1 h2 y x hy hx,
    sort_sorted_range_equiv natLt natLt natLt_strictWeakOrder [1, 2, 2, 3, 5] 0 5 (by decide)
      (by decide) (fun i h1 h2 x y hx hy => sortedOn_example_sorted i h1 h2 y x hy hx)⟩

/-- C18, the code at the failing input: in `nth_element(first, first + 2, last)` on
`0 4 3 1 2 5` the first partition gets as its pivot the slot 3 that `median` returned, which
holds 1.  The first exchange puts 4 into that slot, and the partition returns the cut 3;
with a copy of the value 1 taken beforehand it returns the cut 2. -/
theorem nth_element_pivot_not_kept :
    (median (fun (p q : Nat × Nat) => natLt p.2 q.2) (0, 0) (3, 1) (5, 5)).1 = 3 ∧
    deref [0, 4, 3, 1, 2, 5] (Ref.slot 3) = some 1 ∧
    unchecked_partition natLt [0, 4, 3, 1, 2, 5] 0 6 (Ref.slot 3) =
      some ([0, 1, 3, 4, 2, 5], 3) ∧
    deref [0, 1, 3, 4, 2, 5] (Ref.slot 3) = some 4 ∧
    unchecked_partition natLt [0, 4, 3, 1, 2, 5] 0 6 (Ref.val 1) =
      some ([0, 1, 3, 4, 2, 5], 2) ∧
    nth_element_loop natLt natLt 2 7 [0, 4, 3, 1, 2, 5] 0 6 =
      some ([0, 1, 3, 4, 2, 5], 0, 3) := by
  refine ⟨by decide, by decide, by decide, by decide, by decide, by decide⟩

/-- C19, the code at the failing input: `unchecked_partition` on `3 5 2 4 1` with the pivot
2, the median of 3, 2 and 1, leaves `1 2 5 4 3` and returns the cut 2.  The element 2 at
index 1 lies in `[first, cut)` and does not compare less than the pivot, and the first
element not less than the pivot is at index 1, not at the cut. -/
theorem unchecked_partition_pivot_left :
    median natLt 3 2 1 = 2 ∧
    unchecked_partition natLt [3, 5, 2, 4, 1] 0 5 (Ref.val 2) = some ([1, 2, 5, 4, 3], 2) ∧
    [1, 2, 5, 4, 3][1]? = some 2 ∧ natLt 2 2 = false := by
  refine ⟨by decide, by decide, by decide, by decide⟩

end mystl

namespace mystl
variable {α : Type}

/-- C21: `slg2(0) = 0`, and for every `n ≥ 1` `slg2(n)` is the `k` with
`2 ^ k ≤ n < 2 ^ (k + 1)`, the floor of the binary logarithm; `sort` on a range of `n`
elements hands `slg2(n) * 2` to `intro_sort` as the depth budget (both overloads). -/
theorem slg2_correct (n : Nat) (hn : 1 ≤ n) :
    slg2 0 = some 0 ∧
    ∃ k, slg2 n = some k ∧ 2 ^ k ≤ n ∧ n < 2 ^ (k + 1) ∧ k = Nat.log2 n ∧
      ∀ (β : Type) (lt comp : β → β → Bool) (a : List β) (first last : Nat),
        last - first = n →
        sort_comp lt comp a first last =
          ((intro_sort lt comp (k * 2) a first last).bind fun a1 =>
            final_insertion_sort comp a1 first last) ∧
        sort lt a first last =
          ((intro_sort lt lt (k * 2) a first last).bind fun a1 =>
            final_insertion_sort lt a1 first last) := by
  obtain ⟨k, hk, h1, h2⟩ := slg2_spec n hn
  have hlog := slg2_eq_log2 n hn
  rw [hk] at hlog
  refine ⟨by decide, k, hk, h1, h2, Option.some.inj hlog, ?_⟩
  intro β lt comp a first last hlen
  have hne : first ≠ last := by omega
  rw [← hlen] at hk
  exact ⟨sort_comp_budget lt comp a first last k hne hk,
    sort_comp_budget lt lt a first last k hne hk⟩

/-- Instance of C21: `slg2(200) = 7`. -/
theorem slg2_correct_witness :
    slg2 200 = some 7 ∧ 1 ≤ 200 ∧ slg2 0 = some 0 ∧
    ∃ k, slg2 200 = some k ∧ 2 ^ k ≤ 200 ∧ 200 < 2 ^ (k + 1) ∧ k = Nat.log2 200 ∧
      ∀ (β : Type) (lt comp : β → β → Bool) (a : List β) (first last : Nat),
        last - first = 200 →
        sort_comp lt comp a first last =
          ((intro_sort lt comp (k * 2) a first last).bind fun a1 =>
            final_insertion_sort comp a1 first last) ∧
        sort lt a first last =
          ((intro_sort lt lt (k * 2) a first last).bind fun a1 =>
            final_insertion_sort lt a1 first last) :=
  ⟨by decide, by decide, slg2_correct 200 (by decide)⟩

/-- C22: for every range, `sort` returns (both overloads), and the nesting depth of the
self-recursion of `intro_sort` does not exceed the initial budget `2 * slg2(n)`, `slg2(n)`
being the floor of the binary logarithm of the length; for every call of `intro_sort` the
nesting depth below it is at most its budget, and a call with budget 0 on a range of more
than 128 elements is `partial_sort(first, last, last)`, without any recursion. -/
theorem sort_terminates (lt comp : α → α → Bool) (hc : StrictWeakOrder comp) (a : List α)
    (first last : Nat) (hfl : first ≤ last) (hl : last ≤ a.length) :
    (∃ out, sort_comp lt comp a first last = some out) ∧
    (∃ out, sort comp a first last = some out) ∧
    (first < last → ∃ k a1 n, slg2 (last - first) = some k ∧ 2 ^ k ≤ last - first ∧
      last - first < 2 ^ (k + 1) ∧
      intro_sort_nesting lt comp (k * 2) a first last = some (a1, n) ∧ n ≤ 2 * k ∧
      intro_sort lt comp (k * 2) a first last = some a1) ∧
    (∀ (d : Nat) (b : List α) (f l : Nat) (out : List α) (n : Nat),
      intro_sort_nesting lt comp d b f l = some (out, n) →
        n ≤ d ∧ intro_sort lt comp d b f l = some out) ∧
    (∀ (b : List α) (f l : Nat), f ≤ l → l - f > 128 →
      intro_sort_nesting lt comp 0 b f l =
        (partial_sort comp b f l l).map fun b1 => (b1, 0)) := by
  obtain ⟨o1, ho1, _⟩ := sort_comp_spec lt hc a first last hfl hl
  obtain ⟨o2, ho2, _⟩ := sort_comp_spec comp hc a first last hfl hl
  refine ⟨⟨o1, ho1⟩, ⟨o2, ho2⟩, ?_, ?_, ?_⟩
  · intro hlt
    obtain ⟨k, a1, n, out, e1, e2, e3, e4, e5, e6, _, _⟩ :=
      sort_comp_nesting lt hc a first last hlt hl
    exact ⟨k, a1, n, e1, e2, e3, e4, by omega, e6⟩
  · intro d b f l out n h
    refine ⟨intro_sort_nesting_le lt comp d b f l out n h, ?_⟩
    rw [← intro_sort_nesting_fst lt comp d b f l, h]
    rfl
  · intro b f l hfl' hk
    exact intro_sort_nesting_zero lt comp b f l (by rw [size_cast_of_le hfl']; exact hk)

/-- Instance of C22: `sort` on `5 3 8 1 9 2`. -/
theorem sort_terminates_witness :
    StrictWeakOrder natLt ∧ 0 ≤ 6 ∧ 6 ≤ [5, 3, 8, 1, 9, 2].length ∧
    (∃ out, sort_comp natLt natLt [5, 3, 8, 1, 9, 2] 0 6 = some out) ∧
    (∃ out, sort natLt [5, 3, 8, 1, 9, 2] 0 6 = some out) ∧
    (0 < 6 → ∃ k a1 n, slg2 (6 - 0) = some k ∧ 2 ^ k ≤ 6 - 0 ∧
      6 - 0 < 2 ^ (k + 1) ∧
      intro_sort_nesting natLt natLt (k * 2) [5, 3, 8, 1, 9, 2] 0 6 = some (a1, n) ∧
      n ≤ 2 * k ∧
      intro_sort natLt natLt (k * 2) [5, 3, 8, 1, 9, 2] 0 6 = some a1) ∧
    (∀ (d : Nat) (b : List Nat) (f l : Nat) (out : List Nat) (n : Nat),
      intro_sort_nesting natLt natLt d b f l = some (out, n) →
        n ≤ d ∧ intro_sort natLt natLt d b f l = some out) ∧
    (∀ (b : List Nat) (f l : Nat), f ≤ l → l - f > 128 →
      intro_sort_nesting natLt natLt 0 b f l =
        (partial_sort natLt b f l l).map fun b1 => (b1, 0)) :=
  ⟨natLt_strictWeakOrder, by decide, by decide,
    sort_terminates natLt natLt natLt_strictWeakOrder [5, 3, 8, 1, 9, 2] 0 6 (by decide)
      (by decide)⟩

/-- C23: for every range and every `nth` with `first ≤ nth < last`, `nth_element(first,
nth, last)` (the `operator<` overload) returns.  Every partition step of its loop, on a
range of more than three elements in whatever state the storage is, returns a cut with
`first < cut < last`; the loop ends after at most `last - first` rounds with a working range
`[f1, l1)` of at most three elements that still contains `nth`. -/
theorem nth_element_terminates (lt : α → α → Bool) (hc : StrictWeakOrder lt) (a : List α)
    (first nth last : Nat) (hfn : first ≤ nth) (hnl : nth < last) (hl : last ≤ a.length) :
    (∃ out, nth_element lt a first nth last = some out) ∧
    (∃ out f1 l1, nth_element_loop lt lt nth (last - first + 1) a first last =
        some (out, f1, l1) ∧
      first ≤ f1 ∧ f1 ≤ nth ∧ nth < l1 ∧ l1 ≤ last ∧ l1 - f1 ≤ 3) ∧
    (∀ (b : List α) (f l : Nat) (x y z : α), l - f > 3 → l ≤ b.length →
      b[f]? = some x → b[f + (l - f) / 2]? = some y → b[l - 1]? = some z →
      ∃ out cut,
        unchecked_partition lt b f l
          (Ref.slot (median (fun (p q : Nat × α) => lt p.2 q.2)
            (f, x) (f + (l - f) / 2, y) (l - 1, z)).1) = some (out, cut) ∧
        f < cut ∧ cut < l) := by
  obtain ⟨out, ho, _⟩ := nth_element_spec hc a first nth last (by omega) hl
  obtain ⟨o, f1, l1, h1, k1, k2, k3, k4, k5, _⟩ :=
    nth_element_loop_contains lt hc.irrefl nth (last - first + 1) a first last hfn hnl hl
      (by omega)
  refine ⟨⟨out, ho⟩, ⟨o, f1, l1, h1, k1, k2, k3, k4, k5⟩, ?_⟩
  intro b f l x y z h3 hlb hx hy hz
  obtain ⟨o2, cut, e1, e2, e3, _⟩ :=
    nth_element_partition_spec lt hc.irrefl b f l x y z h3 hlb hx hy hz
  exact ⟨o2, cut, e1, e2, e3⟩

/-- Instance of C23: `nth_element` on `7 2 9 4 1 8 3` with `nth` at index 3. -/
theorem nth_element_terminates_witness :
    StrictWeakOrder natLt ∧ 0 ≤ 3 ∧ 3 < 7 ∧ 7 ≤ [7, 2, 9, 4, 1, 8, 3].length ∧
    (∃ out, nth_element natLt [7, 2, 9, 4, 1, 8, 3] 0 3 7 = some out) ∧
    (∃ out f1 l1, nth_element_loop natLt natLt 3 (7 - 0 + 1) [7, 2, 9, 4, 1, 8, 3] 0 7 =
        some (out, f1, l1) ∧
      0 ≤ f1 ∧ f1 ≤ 3 ∧ 3 < l1 ∧ l1 ≤ 7 ∧ l1 - f1 ≤ 3) ∧
    (∀ (b : List Nat) (f l : Nat) (x y z : Nat), l - f > 3 → l ≤ b.length →
      b[f]? = some x → b[f + (l - f) / 2]? = some y → b[l - 1]? = some z →
      ∃ out cut,
        unchecked_partition natLt b f l
          (Ref.slot (median (fun (p q : Nat × Nat) => natLt p.2 q.2)
            (f, x) (f + (l - f) / 2, y) (l - 1, z)).1) = some (out, cut) ∧
        f < cut ∧ cut < l) :=
  ⟨natLt_strictWeakOrder, by decide, by decide, by decide,
    nth_element_terminates natLt natLt_strictWeakOrder [7, 2, 9, 4, 1, 8, 3] 0 3 7
      (by decide) (by decide) (by decide)⟩

end mystl

namespace mystl
variable {α : Type}

/-- C24: for every range `[first, last)` sorted ascending and every value,
`lower_bound(first, last, value)` returns a position `q` of `[first, last]` such that every
element before `q` compares less than `value` and no element from `q` on does: the first
position whose element is not less than `value`, or `last` if there is none. -/
theorem lower_bound_correct (comp : α → α → Bool) (hc : StrictWeakOrder comp) (a : List α)
    (first last : Nat) (value : α) (hfl : first ≤ last) (hl : last ≤ a.length)
    (hs : ∀ i, first ≤ i → i + 1 < last →
      ∀ x y, a[i]? = some x → a[i + 1]? = some y → comp y x = false) :
    ∃ q, lower_bound comp a first last value = some q ∧ first ≤ q ∧ q ≤ last ∧
      (∀ j x, first ≤ j → j < q → a[j]? = some x → comp x value = true) ∧
      (∀ j x, q ≤ j → j < last → a[j]? = some x → comp x value = false) ∧
      (q = last ↔ ∀ j x, first ≤ j → j < last → a[j]? = some x → comp x value = true) := by
  obtain ⟨q, hq, h1, h2, h3, h4⟩ := lower_bound_spec hc a first last value hfl hl
    (fun i k1 k2 y x hy hx => hs i k1 k2 x y hx hy)
  refine ⟨q, hq, h1, h2, h3, h4, ?_⟩
  constructor
  · intro e j x k1 k2 hx
    exact h3 j x k1 (by omega) hx
  · intro hall
    by_cases e : q = last
    · exact e
    · obtain ⟨x, hx⟩ := exists_rd (a := a) (i := q) (by omega)
      have t1 := hall q x h1 (by omega) hx
      have t2 := h4 q x (Nat.le_refl _) (by omega) hx
      rw [t1] at t2; cases t2

/-- Instance of C24: `lower_bound` of 3 in `1 3 3 3 5 8` is position 1. -/
theorem lower_bound_correct_witness :
    lower_bound natLt [1, 3, 3, 3, 5, 8] 0 6 3 = some 1 ∧
    lower_bound natLt [1, 3, 3, 3, 5, 8] 0 6 9 = some 6 ∧
    StrictWeakOrder natLt ∧ 0 ≤ 6 ∧ 6 ≤ [1, 3, 3, 3, 5, 8].length ∧
    (∀ i, 0 ≤ i → i + 1 < 6 →
      ∀ x y, [1, 3, 3, 3, 5, 8][i]? = some x → [1, 3, 3, 3, 5, 8][i + 1]? = some y →
        natLt y x = false) ∧
    ∃ q, lower_bound natLt [1, 3, 3, 3, 5, 8] 0 6 3 = some q ∧ 0 ≤ q ∧ q ≤ 6 ∧
      (∀ j x, 0 ≤ j → j < q → [1, 3, 3, 3, 5, 8][j]? = some x → natLt x 3 = true) ∧
      (∀ j x, q ≤ j → j < 6 → [1, 3, 3, 3, 5, 8][j]? = some x → natLt x 3 = false) ∧
      (q = 6 ↔ ∀ j x, 0 ≤ j → j < 6 → [1, 3, 3, 3, 5, 8][j]? = some x → natLt x 3 = true) :=
  ⟨by decide, by decide, natLt_strictWeakOrder, by decide, by decide,
    fun i h1 h2 x y hx hy => sortedOn_example_bounds i h1 h2 y x hy hx,
    lower_bound_correct natLt natLt_strictWeakOrder [1, 3, 3, 3, 5, 8] 0 6 3 (by decide)
      (by decide) (fun i h1 h2 x y hx hy => sortedOn_example_bounds i h1 h2 y x hy hx)⟩

/-- C25: for every range `[first, last)` sorted ascending and every value,
`upper_bound(first, last, value)` returns a position `q` of `[first, last]` such that
`value` compares less than every element from `q` on and less than no element before `q`:
the first position whose element is greater than `value`, or `last` if there is none. -/
theorem upper_bound_correct (comp : α → α → Bool) (hc : StrictWeakOrder comp) (a : List α)
    (first last : Nat) (value : α) (hfl : first ≤ last) (hl : last ≤ a.length)
    (hs : ∀ i, first ≤ i → i + 1 < last →
      ∀ x y, a[i]? = some x → a[i + 1]? = some y → comp y x = false) :
    ∃ q, upper_bound comp a first last value = some q ∧ first ≤ q ∧ q ≤ last ∧
      (∀ j x, first ≤ j → j < q → a[j]? = some x → comp value x = false) ∧
      (∀ j x, q ≤ j → j < last → a[j]? = some x → comp value x = true) ∧
      (q = last ↔ ∀ j x, first ≤ j → j < last → a[j]? = some x → comp value x = false) := by
  obtain ⟨q, hq, h1, h2, h3, h4⟩ := upper_bound_spec hc a first last value hfl hl
    (fun i k1 k2 y x hy hx => hs i k1 k2 x y hx hy)
  refine ⟨q, hq, h1, h2, h3, h4, ?_⟩
  constructor
  · intro e j x k1 k2 hx
    exact h3 j x k1 (by omega) hx
  · intro hall
    by_cases e : q = last
    · exact e
    · obtain ⟨x, hx⟩ := exists_rd (a := a) (i := q) (by omega)
      have t1 := hall q x h1 (by omega) hx
      have t2 := h4 q x (Nat.le_refl _) (by omega) hx
      rw [t1] at t2; cases t2

/-- Instance of C25: `upper_bound` of 3 in `1 3 3 3 5 8` is position 4. -/
theorem upper_bound_correct_witness :
    upper_bound natLt [1, 3, 3, 3, 5, 8] 0 6 3 = some 4 ∧
    upper_bound natLt [1, 3, 3, 3, 5, 8] 0 6 8 = some 6 ∧
    StrictWeakOrder natLt ∧ 0 ≤ 6 ∧ 6 ≤ [1, 3, 3, 3, 5, 8].length ∧
    (∀ i, 0 ≤ i → i + 1 < 6 →
      ∀ x y, [1, 3, 3, 3, 5, 8][i]? = some x → [1, 3, 3, 3, 5, 8][i + 1]? = some y →
        natLt y x = false) ∧
    ∃ q, upper_bound natLt [1, 3, 3, 3, 5, 8] 0 6 3 = some q ∧ 0 ≤ q ∧ q ≤ 6 ∧
      (∀ j x, 0 ≤ j → j < q → [1, 3, 3, 3, 5, 8][j]? = some x → natLt 3 x = false) ∧
      (∀ j x, q ≤ j → j < 6 → [1, 3, 3, 3, 5, 8][j]? = some x → natLt 3 x = true) ∧
      (q = 6 ↔ ∀ j x, 0 ≤ j → j < 6 → [1, 3, 3, 3, 5, 8][j]? = some x → natLt 3 x = false) :=
  ⟨by decide, by decide, natLt_strictWeakOrder, by decide, by decide,
    fun i h1 h2 x y hx hy => sortedOn_example_bounds i h1 h2 y x hy hx,
    upper_bound_correct natLt natLt_strictWeakOrder [1, 3, 3, 3, 5, 8] 0 6 3 (by decide)
      (by decide) (fun i h1 h2 x y hx hy => sortedOn_example_bounds i h1 h2 y x hy hx)⟩

/-- C26, the code at the failing input: on `9 1 5 3` the `operator<` overload of `is_heap`
returns true, although the element 1 at index 1, the parent of index 3, compares less than
the element 3 there; `parent` is never advanced, so every element is compared with the
first one.  The comparator overload returns false. -/
theorem is_heap_accepts_non_heap :
    is_heap natLt [9, 1, 5, 3] 0 4 = some true ∧
    [9, 1, 5, 3][(3 - 1) / 2]? = some 1 ∧ [9, 1, 5, 3][3]? = some 3 ∧ natLt 1 3 = true ∧
    is_heap_comp natLt [9, 1, 5, 3] 0 4 = some false := by
  refine ⟨by decide, by decide, by decide, by decide, by decide⟩

/-- C27, the code at the failing input: `equal_range` of 2 in `1 3 5` returns
`(last, last)`, whereas `lower_bound` and `upper_bound` both return position 1, the first
position whose element is not less than, and greater than, the value. -/
theorem equal_range_of_absent_value :
    equal_range natLt [1, 3, 5] 0 3 2 = some (3, 3) ∧
    lower_bound natLt [1, 3, 5] 0 3 2 = some 1 ∧
    upper_bound natLt [1, 3, 5] 0 3 2 = some 1 ∧
    equal_range natLt [1, 3, 5] 0 3 3 = some (1, 2) := by
  refine ⟨by decide, by decide, by decide, by decide⟩

/-- C28, the code at the failing input: on `5 3 1`, sorted under `>`,
`binary_search(first, last, 5, greater)` returns false although the range holds 5: its
`lower_bound` compares with `operator<` and returns `last`, where `lower_bound` with the
comparator returns the position of 5. -/
theorem binary_search_comp_misses :
    binary_search_comp natLt natGt [5, 3, 1] 0 3 5 = some false ∧
    [5, 3, 1][0]? = some 5 ∧ natGt 5 5 = false ∧
    lower_bound natLt [5, 3, 1] 0 3 5 = some 3 ∧
    lower_bound natGt [5, 3, 1] 0 3 5 = some 0 := by
  refine ⟨by decide, by decide, by decide, by decide, by decide⟩

set_option maxRecDepth 1000000 in
/-- C29, the code at the failing input: the 129 numbers `0, 2, 3, ..., 128, 1` are
coarsely ordered (the only pair 128 positions apart is `0`, `1`), and
`final_insertion_sort` returns `0, 2, 3, ..., 128, 128`: the call
`unchecked_linear_insert(i, *i)` for the last slot overwrites the slot its `value` refers
to, so the 1 is lost and 128 occurs twice. -/
theorem final_insertion_sort_loses_an_element :
    final_insertion_sort natLt coarselyOrdered 0 129 =
      some (0 :: (List.range 127).map (· + 2) ++ [128]) ∧
    coarselyOrdered[0]? = some 0 ∧ coarselyOrdered[128]? = some 1 ∧ natLt 1 0 = false ∧
    coarselyOrdered.count 1 = 1 ∧
    (0 :: (List.range 127).map (· + 2) ++ [128]).count 1 = 0 := by
  refine ⟨by decide!, by decide, by decide, by decide, by decide, by decide⟩

/-- C30: for every range of more than 128 elements, `intro_sort` with the depth budget 0
is `partial_sort(first, last, last)`, which is `make_heap` followed by `sort_heap`, without
any partitioning; it returns, leaves the rest of the storage alone, and leaves the range
sorted ascending and a permutation of its input. -/
theorem intro_sort_budget_zero (lt comp : α → α → Bool) (hc : StrictWeakOrder comp)
    (a : List α) (first last : Nat) (hfl : first ≤ last) (hl : last ≤ a.length)
    (hk : last - first > 128) :
    intro_sort lt comp 0 a first last =
      ((make_heap comp a first last).bind fun a1 => sort_heap comp a1 first last) ∧
    ∃ out, intro_sort lt comp 0 a first last = some out ∧ out.length = a.length ∧
      (∀ j, j < first ∨ last ≤ j → out[j]? = a[j]?) ∧
      (range out first last).Perm (range a first last) ∧
      ∀ i, first ≤ i → i + 1 < last →
        ∀ x y, out[i]? = some x → out[i + 1]? = some y → comp y x = false := by
  have e : intro_sort lt comp 0 a first last = partial_sort comp a first last last := by
    unfold intro_sort
    rw [size_cast_of_le hfl, if_pos (show last - first > kSmallSectionSize from hk)]
  obtain ⟨out, ho, hol, hof, hop, hos, _⟩ :=
    partial_sort_spec hc a first last last hfl (Nat.le_refl _) hl
  refine ⟨by rw [e, partial_sort_full], out, by rw [e, ho], hol, hof,
    range_perm_of_perm hfl hof hop, fun i h1 h2 x y hx hy => hos i h1 h2 y x hy hx⟩

set_option maxRecDepth 100000 in
/-- Instance of C30: the 129 numbers `1, ..., 128, 0`. -/
theorem intro_sort_budget_zero_witness :
    StrictWeakOrder natLt ∧ 0 ≤ 129 ∧ 129 ≤ ascendingThenZero.length ∧ 129 - 0 > 128 ∧
    intro_sort natLt natLt 0 ascendingThenZero 0 129 =
      ((make_heap natLt ascendingThenZero 0 129).bind fun a1 => sort_heap natLt a1 0 129) ∧
    ∃ out, intro_sort natLt natLt 0 ascendingThenZero 0 129 = some out ∧
      out.length = ascendingThenZero.length ∧
      (∀ j, j < 0 ∨ 129 ≤ j → out[j]? = ascendingThenZero[j]?) ∧
      (range out 0 129).Perm (range ascendingThenZero 0 129) ∧
      ∀ i, 0 ≤ i → i + 1 < 129 →
        ∀ x y, out[i]? = some x → out[i + 1]? = some y → natLt y x = false :=
  ⟨natLt_strictWeakOrder, by decide, by decide, by decide,
    intro_sort_budget_zero natLt natLt natLt_strictWeakOrder ascendingThenZero 0 129
      (by decide) (by decide) (by decide)⟩

end mystl


namespace mystl
variable {α : Type}

/-- C31: on a range of at most 128 elements `intro_sort` returns at once with the storage
as it was, whatever its budget, and `sort` (both overloads) is `insertion_sort` on the whole
range: the same result on the same input, a result that exists for every range inside the
storage. -/
theorem sort_small_eq_insertion_sort (lt comp : α → α → Bool) (a : List α)
    (first last : Nat) (hfl : first ≤ last) (hk : last - first ≤ 128) :
    (∀ depth_limit, intro_sort lt comp depth_limit a first last = some a) ∧
    sort_comp lt comp a first last = insertion_sort comp a first last ∧
    sort lt a first last = insertion_sort lt a first last ∧
    (StrictWeakOrder comp → last ≤ a.length →
      ∃ out, insertion_sort comp a first last = some out ∧
        sort_comp lt comp a first last = some out) := by
  have hsmall : ∀ (c : α → α → Bool) (d : Nat), intro_sort lt c d a first last = some a :=
    fun c d => intro_sort_small lt c d a first last hfl hk
  have hfin : ∀ (c : α → α → Bool),
      final_insertion_sort c a first last = insertion_sort c a first last := by
    intro c
    unfold final_insertion_sort
    rw [size_cast_of_le hfl, if_neg (show ¬ last - first > kSmallSectionSize from by
      show ¬ last - first > 128
      omega)]
  have hsort : ∀ (c : α → α → Bool),
      sort_comp lt c a first last = insertion_sort c a first last := by
    intro c
    by_cases hne : first = last
    · subst hne
      simp [sort_comp, insertion_sort]
    · obtain ⟨k, hk2⟩ := slg2_loop_some (last - first + 1) (last - first) 0 (by omega)
      rw [sort_comp_budget lt c a first last k hne hk2, hsmall c (k * 2)]
      exact hfin c
  refine ⟨hsmall comp, hsort comp, hsort lt, ?_⟩
  intro hc hl
  obtain ⟨out, ho, _⟩ := insertion_sort_spec hc a first last hfl hl
  exact ⟨out, ho, by rw [hsort comp, ho]⟩

/-- Instance of C31: `sort` and `insertion_sort` on `5 3 8 1 9 2`. -/
theorem sort_small_eq_insertion_sort_witness :
    0 ≤ 6 ∧ 6 - 0 ≤ 128 ∧
    insertion_sort natLt [5, 3, 8, 1, 9, 2] 0 6 = some [1, 2, 3, 5, 8, 9] ∧
    (∀ depth_limit,
      intro_sort natLt natLt depth_limit [5, 3, 8, 1, 9, 2] 0 6 = some [5, 3, 8, 1, 9, 2]) ∧
    sort_comp natLt natLt [5, 3, 8, 1, 9, 2] 0 6 = insertion_sort natLt [5, 3, 8, 1, 9, 2] 0 6 ∧
    sort natLt [5, 3, 8, 1, 9, 2] 0 6 = insertion_sort natLt [5, 3, 8, 1, 9, 2] 0 6 ∧
    (StrictWeakOrder natLt → 6 ≤ [5, 3, 8, 1, 9, 2].length →
      ∃ out, insertion_sort natLt [5, 3, 8, 1, 9, 2] 0 6 = some out ∧
        sort_comp natLt natLt [5, 3, 8, 1, 9, 2] 0 6 = some out) :=
  ⟨by decide, by decide, by decide,
    sort_small_eq_insertion_sort natLt natLt [5, 3, 8, 1, 9, 2] 0 6 (by decide) (by decide)⟩

/-- C32: for every range and every strict weak order `comp`, `intro_sort` with the budget
`slg2(n) * 2` that `sort` gives it returns (in both overloads, `lt` being the comparison
`median` is called with), leaves the rest of the storage alone, permutes the range, and
leaves it coarsely ordered: for positions `i < j` of the range with `j - i ≥ 128` the
element at `j` does not compare less than the element at `i`.  The same holds for every
other budget. -/
theorem intro_sort_coarsely_ordered (lt comp : α → α → Bool) (hc : StrictWeakOrder comp)
    (a : List α) (first last : Nat) (hfl : first ≤ last) (hl : last ≤ a.length) :
    (∃ k out, slg2 (last - first) = some k ∧
      intro_sort lt comp (k * 2) a first last = some out ∧ out.length = a.length ∧
      (∀ j, j < first ∨ last ≤ j → out[j]? = a[j]?) ∧
      (range out first last).Perm (range a first last) ∧
      ∀ i j, first ≤ i → i < j → j < last → j - i ≥ 128 →
        ∀ x y, out[i]? = some x → out[j]? = some y → comp y x = false) ∧
    ∀ depth_limit, ∃ out, intro_sort lt comp depth_limit a first last = some out ∧
      (range out first last).Perm (range a first last) ∧
      ∀ i j, first ≤ i → i < j → j < last → j - i ≥ 128 →
        ∀ x y, out[i]? = some x → out[j]? = some y → comp y x = false := by
  have hks : kSmallSectionSize = 128 := rfl
  constructor
  · obtain ⟨k, hk⟩ := slg2_loop_some (last - first + 1) (last - first) 0 (by omega)
    obtain ⟨out, ho, hol, hof, hop, hco⟩ := intro_sort_coarse lt hc (k * 2) a first last hfl hl
    exact ⟨k, out, hk, ho, hol, hof, range_perm_of_perm hfl hof hop,
      fun i j h1 h2 h3 h4 x y hx hy => hco i j h1 (by omega) h3 y x hy hx⟩
  · intro d
    obtain ⟨out, ho, hol, hof, hop, hco⟩ := intro_sort_coarse lt hc d a first last hfl hl
    exact ⟨out, ho, range_perm_of_perm hfl hof hop,
      fun i j h1 h2 h3 h4 x y hx hy => hco i j h1 (by omega) h3 y x hy hx⟩

set_option maxRecDepth 1000000 in
/-- Instance of C32: `intro_sort` on the 129 numbers `1, ..., 128, 0`, with the budget
`slg2(129) * 2 = 14`, leaves `0, 2, 3, ..., 128, 1`. -/
theorem intro_sort_coarsely_ordered_witness :
    StrictWeakOrder natLt ∧ 0 ≤ 129 ∧ 129 ≤ ascendingThenZero.length ∧
    slg2 129 = some 7 ∧
    intro_sort natLt natLt 14 ascendingThenZero 0 129 = some coarselyOrdered ∧
    (∃ k out, slg2 (129 - 0) = some k ∧
      intro_sort natLt natLt (k * 2) ascendingThenZero 0 129 = some out ∧
      out.length = ascendingThenZero.length ∧
      (∀ j, j < 0 ∨ 129 ≤ j → out[j]? = ascendingThenZero[j]?) ∧
      (range out 0 129).Perm (range ascendingThenZero 0 129) ∧
      ∀ i j, 0 ≤ i → i < j → j < 129 → j - i ≥ 128 →
        ∀ x y, out[i]? = some x → out[j]? = some y → natLt y x = false) ∧
    ∀ depth_limit, ∃ out, intro_sort natLt natLt depth_limit ascendingThenZero 0 129 = some out ∧
      (range out 0 129).Perm (range ascendingThenZero 0 129) ∧
      ∀ i j, 0 ≤ i → i < j → j < 129 → j - i ≥ 128 →
        ∀ x y, out[i]? = some x → out[j]? = some y → natLt y x = false :=
  ⟨natLt_strictWeakOrder, by decide, by decide, by decide, by decide!,
    intro_sort_coarsely_ordered natLt natLt natLt_strictWeakOrder ascendingThenZero 0 129
      (by decide) (by decide)⟩

set_option maxRecDepth 100000 in
/-- C36, the code at a failing input: the comparator overload of `intro_sort` calls the
three-argument `median`, which compares with the element type's `operator<`.  On the 129
numbers `10, 7, ..., 7, 5, 7, ..., 7, 22`, sorted by their last digit, the samples are `10`,
`5` and `22`; the partition step runs with the pivot `10`, the median under `<`, although
both other samples compare greater than `10` under the comparator, whose median is `22`.
The partition then cuts at `first` and moves nothing. -/
theorem intro_sort_comp_pivot_not_median :
    sampledRange[0]? = some 10 ∧ sampledRange[0 + (129 - 0) / 2]? = some 5 ∧
    sampledRange[129 - 1]? = some 22 ∧
    (∀ depth_limit, intro_sort natLt lastDigitLt (depth_limit + 1) sampledRange 0 129 =
      (unchecked_partition lastDigitLt sampledRange 0 129 (Ref.val 10)).bind
        fun (a1, cut) =>
          (intro_sort natLt lastDigitLt depth_limit a1 cut 129).bind fun a2 =>
            intro_sort natLt lastDigitLt depth_limit a2 0 cut) ∧
    median natLt 10 5 22 = 10 ∧ median lastDigitLt 10 5 22 = 22 ∧
    lastDigitLt 10 5 = true ∧ lastDigitLt 10 22 = true ∧
    unchecked_partition lastDigitLt sampledRange 0 129 (Ref.val 10) =
      some (sampledRange, 0) := by
  refine ⟨by decide, by decide, by decide, ?_, by decide, by decide, by decide, by decide,
    by decide!⟩
  intro d
  rw [intro_sort]
  rfl

end mystl

namespace mystl
variable {α : Type}

/-- C33: for every range and every strict weak order `comp`, `sort` returns (first the
comparator overload, `lt` being the comparison `median` is called with, then the
`operator<` overload).  `calls` lists the calls of `unchecked_linear_insert` made during
its `final_insertion_sort`: the position `i` of the call and the lowest position it reads,
where its backward scan stops.  That position is not before `first`, and `i` is before
`last`; the call reads from there up to `i - 1` and writes above it, up to `i`, so it
neither reads nor writes before `first` or from `last` on. -/
theorem sort_scan_in_range (lt comp : α → α → Bool) (hc : StrictWeakOrder comp)
    (a : List α) (first last : Nat) (hfl : first ≤ last) (hl : last ≤ a.length) :
    (∃ out calls, sort_stops lt comp a first last = some (out, calls) ∧
      sort_comp lt comp a first last = some out ∧
      ∀ c ∈ calls, first ≤ c.2 ∧ c.2 < c.1 ∧ c.1 < last) ∧
    (∃ out calls, sort_stops comp comp a first last = some (out, calls) ∧
      sort comp a first last = some out ∧
      ∀ c ∈ calls, first ≤ c.2 ∧ c.2 < c.1 ∧ c.1 < last) :=
  ⟨sort_stops_spec lt hc a first last hfl hl, sort_stops_spec comp hc a first last hfl hl⟩

set_option maxRecDepth 1000000 in
/-- Instance of C33: `sort` on the 129 numbers `1, ..., 128, 0`.  On what `intro_sort`
leaves of them, `0, 2, 3, ..., 128, 1`, the calls made by `insertion_sort`, at the positions
1 to 127, read one position each and the one call `unchecked_linear_insert(i, *i)`, at
position 128, reads down to position 126. -/
theorem sort_scan_in_range_witness :
    StrictWeakOrder natLt ∧ 0 ≤ 129 ∧ 129 ≤ ascendingThenZero.length ∧
    (final_insertion_sort_stops natLt coarselyOrdered 0 129).map Prod.snd =
      some ((List.range 127).map (fun i => (i + 1, i)) ++ [(128, 126)]) ∧
    (∃ out calls, sort_stops natLt natLt ascendingThenZero 0 129 = some (out, calls) ∧
      sort_comp natLt natLt ascendingThenZero 0 129 = some out ∧
      ∀ c ∈ calls, 0 ≤ c.2 ∧ c.2 < c.1 ∧ c.1 < 129) ∧
    (∃ out calls, sort_stops natLt natLt ascendingThenZero 0 129 = some (out, calls) ∧
      sort natLt ascendingThenZero 0 129 = some out ∧
      ∀ c ∈ calls, 0 ≤ c.2 ∧ c.2 < c.1 ∧ c.1 < 129) :=
  ⟨natLt_strictWeakOrder, by decide, by decide, by decide!,
    sort_scan_in_range natLt natLt natLt_strictWeakOrder ascendingThenZero 0 129 (by decide)
      (by decide)⟩

/-- C34: for every range, whatever it holds, and every strict weak order `comp`,
`insertion_sort(first, last)` returns, leaves the rest of the storage alone, and leaves the
range sorted ascending and a permutation of its input.  `calls` lists its calls of
`unchecked_linear_insert`: the position `i` of the call and the lowest position it reads,
where its backward scan stops.  That position is not before `first`, and `i` is before
`last`; the call reads from there up to `i - 1` and writes above it, up to `i`.  An
element that compares less than the one at `first` does not go through
`unchecked_linear_insert`: it is stored at `first` after `copy_backward` has moved
`[first, i)` one place up. -/
theorem insertion_sort_correct (comp : α → α → Bool) (hc : StrictWeakOrder comp)
    (a : List α) (first last : Nat) (hfl : first ≤ last) (hl : last ≤ a.length) :
    (∃ out calls, insertion_sort_stops comp a first last = some (out, calls) ∧
      insertion_sort comp a first last = some out ∧ out.length = a.length ∧
      (∀ j, j < first ∨ last ≤ j → out[j]? = a[j]?) ∧
      (∀ i, first ≤ i → i + 1 < last →
        ∀ x y, out[i]? = some x → out[i + 1]? = some y → comp y x = false) ∧
      (range out first last).Perm (range a first last) ∧
      ∀ c ∈ calls, first ≤ c.2 ∧ c.2 < c.1 ∧ c.1 < last) ∧
    ∀ (n : Nat) (b : List α) (i : Nat) (value x : α), b[i]? = some value →
      b[first]? = some x → comp value x = true →
      insertion_sort_loop comp first (n + 1) b i =
        ((copy_backward i (i + 1) (i - first) b).bind fun a1 => wr a1 first value).bind
          fun a1 => insertion_sort_loop comp first n a1 (i + 1) := by
  constructor
  · obtain ⟨out, ho, hol, hof, hos, hop⟩ := insertion_sort_perm_spec hc a first last hfl hl
    have hfst := insertion_sort_stops_fst comp a first last
    rw [ho] at hfst
    obtain ⟨ps, hps⟩ := exists_snd_of_map_fst hfst
    exact ⟨out, ps, hps, ho, hol, hof, fun i h1 h2 x y hx hy => hos i h1 h2 y x hy hx,
      range_perm_of_perm hfl hof hop, insertion_sort_stops_ge comp a first last out ps hfl hps⟩
  · intro n b i value x hv hx hcmp
    rw [insertion_sort_loop_succ comp first n b i value x hv hx, if_pos hcmp]

/-- Instance of C34: `insertion_sort` on `5 3 8 1 9 2`; `unchecked_linear_insert` is called
for `8` and `9`, which stay where they are, and for `2`, whose scan reads down to the `1`
at position 0. -/
theorem insertion_sort_correct_witness :
    StrictWeakOrder natLt ∧ 0 ≤ 6 ∧ 6 ≤ [5, 3, 8, 1, 9, 2].length ∧
    insertion_sort_stops natLt [5, 3, 8, 1, 9, 2] 0 6 =
      some ([1, 2, 3, 5, 8, 9], [(2, 1), (4, 3), (5, 0)]) ∧
    (∃ out calls, insertion_sort_stops natLt [5, 3, 8, 1, 9, 2] 0 6 = some (out, calls) ∧
      insertion_sort natLt [5, 3, 8, 1, 9, 2] 0 6 = some out ∧
      out.length = [5, 3, 8, 1, 9, 2].length ∧
      (∀ j, j < 0 ∨ 6 ≤ j → out[j]? = [5, 3, 8, 1, 9, 2][j]?) ∧
      (∀ i, 0 ≤ i → i + 1 < 6 →
        ∀ x y, out[i]? = some x → out[i + 1]? = some y → natLt y x = false) ∧
      (range out 0 6).Perm (range [5, 3, 8, 1, 9, 2] 0 6) ∧
      ∀ c ∈ calls, 0 ≤ c.2 ∧ c.2 < c.1 ∧ c.1 < 6) ∧
    ∀ (n : Nat) (b : List Nat) (i : Nat) (value x : Nat), b[i]? = some value →
      b[0]? = some x → natLt value x = true →
      insertion_sort_loop natLt 0 (n + 1) b i =
        ((copy_backward i (i + 1) (i - 0) b).bind fun a1 => wr a1 0 value).bind
          fun a1 => insertion_sort_loop natLt 0 n a1 (i + 1) :=
  ⟨natLt_strictWeakOrder, by decide, by decide, by decide,
    insertion_sort_correct natLt natLt_strictWeakOrder [5, 3, 8, 1, 9, 2] 0 6 (by decide)
      (by decide)⟩

end mystl

namespace mystl
variable {α : Type}

/-- C35: for every `holeIndex < len` and every `value`, if every node below the children
of `holeIndex` does not compare greater than its parent (the subtrees rooted at the children
of `holeIndex` are max-heaps), `adjust_heap(first, holeIndex, len, value)` returns; then no
node of the subtree rooted at `holeIndex` compares greater than its parent, every position
outside that subtree is as it was, and the storage holds what it held with `value` in the
place of the element at `holeIndex`. -/
theorem adjust_heap_correct (comp : α → α → Bool) (hc : StrictWeakOrder comp) (a : List α)
    (first holeIndex len : Nat) (value : α) (hlen : first + len ≤ a.length)
    (hk : holeIndex < len)
    (H : ∀ i, 1 ≤ i → i < len → InSubtree holeIndex ((i - 1) / 2) →
      (i - 1) / 2 ≠ holeIndex →
      ∀ p c, a[first + (i - 1) / 2]? = some p → a[first + i]? = some c → comp p c = false) :
    ∃ out, adjust_heap comp a first holeIndex len value = some out ∧
      out.length = a.length ∧
      (∀ i, 1 ≤ i → i < len → InSubtree holeIndex ((i - 1) / 2) →
        ∀ p c, out[first + (i - 1) / 2]? = some p → out[first + i]? = some c →
          comp p c = false) ∧
      (∀ j, (∀ x, InSubtree holeIndex x → x < len → j ≠ first + x) → out[j]? = a[j]?) ∧
      out.Perm (a.set (first + holeIndex) value) := by
  obtain ⟨out, ho, hol, hoh, hof, hop⟩ :=
    adjust_heap_spec hc a first holeIndex len value hlen hk
      (fun i h1 h2 h3 h4 p c hp hcc => H i h1 h2 h3 h4 p c hp hcc)
  exact ⟨out, ho, hol, fun i h1 h2 h3 p c hp hcc => hoh i h1 h2 h3 p c hp hcc, hof, hop⟩

theorem subtrees_example_adjust :
    ∀ i, 1 ≤ i → i < 7 → InSubtree 0 ((i - 1) / 2) → (i - 1) / 2 ≠ 0 →
      ∀ p c, [0, 2, 9, 8, 4, 5, 6, 7][1 + (i - 1) / 2]? = some p →
        [0, 2, 9, 8, 4, 5, 6, 7][1 + i]? = some c → natLt p c = false := by
  intro i h1 h2 _ hne p c hp hcc
  have : i = 1 ∨ i = 2 ∨ i = 3 ∨ i = 4 ∨ i = 5 ∨ i = 6 := by omega
  rcases this with rfl | rfl | rfl | rfl | rfl | rfl
  · exact absurd rfl hne
  · exact absurd rfl hne
  all_goals simp at hp hcc <;> subst hp <;> subst hcc <;> decide

/-- Instance of C35: `adjust_heap` sifts `2` down from the root of `2 9 8 4 5 6 7`, stored
from position 1. -/
theorem adjust_heap_correct_witness :
    StrictWeakOrder natLt ∧ 1 + 7 ≤ [0, 2, 9, 8, 4, 5, 6, 7].length ∧ 0 < 7 ∧
    adjust_heap natLt [0, 2, 9, 8, 4, 5, 6, 7] 1 0 7 2 = some [0, 9, 5, 8, 4, 2, 6, 7] ∧
    ∃ out, adjust_heap natLt [0, 2, 9, 8, 4, 5, 6, 7] 1 0 7 2 = some out ∧
      out.length = [0, 2, 9, 8, 4, 5, 6, 7].length ∧
      (∀ i, 1 ≤ i → i < 7 → InSubtree 0 ((i - 1) / 2) →
        ∀ p c, out[1 + (i - 1) / 2]? = some p → out[1 + i]? = some c →
          natLt p c = false) ∧
      (∀ j, (∀ x, InSubtree 0 x → x < 7 → j ≠ 1 + x) →
        out[j]? = [0, 2, 9, 8, 4, 5, 6, 7][j]?) ∧
      out.Perm ([0, 2, 9, 8, 4, 5, 6, 7].set (1 + 0) 2) :=
  ⟨natLt_strictWeakOrder, by decide, by decide, by decide,
    adjust_heap_correct natLt natLt_strictWeakOrder [0, 2, 9, 8, 4, 5, 6, 7] 1 0 7 2
      (by decide) (by decide) subtrees_example_adjust⟩

/-- C37: for every range, every strict weak order `comp` and every pivot value such that
some element of the range does not compare less than the pivot and some element does not
compare greater, `unchecked_partition` returns a cut with `first ≤ cut < last`, leaves the
rest of the storage alone and permutes the range; afterwards the pivot does not compare
less than any element of `[first, cut)` and no element of `[cut, last)` compares less than
the pivot. -/
theorem unchecked_partition_correct (comp : α → α → Bool) (hc : StrictWeakOrder comp)
    (a : List α) (first last : Nat) (pivot : α) (hl : last ≤ a.length)
    (hge : ∃ j, first ≤ j ∧ j < last ∧ ∀ y, a[j]? = some y → comp y pivot = false)
    (hle : ∃ j, first ≤ j ∧ j < last ∧ ∀ y, a[j]? = some y → comp pivot y = false) :
    ∃ out cut, unchecked_partition comp a first last (Ref.val pivot) = some (out, cut) ∧
      first ≤ cut ∧ cut ≤ last ∧ cut < last ∧ out.length = a.length ∧
      (∀ j, j < first ∨ last ≤ j → out[j]? = a[j]?) ∧
      (range out first last).Perm (range a first last) ∧
      (∀ j, first ≤ j → j < cut → ∀ y, out[j]? = some y → comp pivot y = false) ∧
      (∀ j, cut ≤ j → j < last → ∀ y, out[j]? = some y → comp y pivot = false) := by
  obtain ⟨ju, hju1, hju2, hju3⟩ := hge
  obtain ⟨jd, hjd1, hjd2, hjd3⟩ := hle
  obtain ⟨out, cut, ho, hol, hc1, hc2, hof, hop⟩ :=
    unchecked_partition_loop_val comp pivot first last (a.length + 1) a first last
      (by omega) (by omega) (Nat.le_refl _) (Nat.le_refl _) hl ⟨ju, hju1, hju2, hju3⟩
      ⟨jd, hjd1, by omega, hjd3⟩
  obtain ⟨hleft, hright⟩ :=
    unchecked_partition_loop_parts (fun u v h => hc.asymm h) pivot first last
      (a.length + 1) a first last out cut (fun j h1 h2 => by omega)
      (fun j h1 h2 => by omega) ho
  exact ⟨out, cut, ho, hc1, by omega, hc2, hol, hof,
    range_perm_of_perm (by omega) hof hop, hleft, hright⟩

/-- Instance of C37: `unchecked_partition` of `3 5 2 4 1` around the value `3`. -/
theorem unchecked_partition_correct_witness :
    StrictWeakOrder natLt ∧ 5 ≤ [3, 5, 2, 4, 1].length ∧
    (∃ j, 0 ≤ j ∧ j < 5 ∧ ∀ y, [3, 5, 2, 4, 1][j]? = some y → natLt y 3 = false) ∧
    (∃ j, 0 ≤ j ∧ j < 5 ∧ ∀ y, [3, 5, 2, 4, 1][j]? = some y → natLt 3 y = false) ∧
    unchecked_partition natLt [3, 5, 2, 4, 1] 0 5 (Ref.val 3) = some ([1, 2, 5, 4, 3], 2) ∧
    ∃ out cut, unchecked_partition natLt [3, 5, 2, 4, 1] 0 5 (Ref.val 3) = some (out, cut) ∧
      0 ≤ cut ∧ cut ≤ 5 ∧ cut < 5 ∧ out.length = [3, 5, 2, 4, 1].length ∧
      (∀ j, j < 0 ∨ 5 ≤ j → out[j]? = [3, 5, 2, 4, 1][j]?) ∧
      (range out 0 5).Perm (range [3, 5, 2, 4, 1] 0 5) ∧
      (∀ j, 0 ≤ j → j < cut → ∀ y, out[j]? = some y → natLt 3 y = false) ∧
      (∀ j, cut ≤ j → j < 5 → ∀ y, out[j]? = some y → natLt y 3 = false) :=
  ⟨natLt_strictWeakOrder, by decide,
    ⟨0, by decide, by decide, fun y hy => by simp at hy; subst hy; decide⟩,
    ⟨0, by decide, by decide, fun y hy => by simp at hy; subst hy; decide⟩, by decide,
    unchecked_partition_correct natLt natLt_strictWeakOrder [3, 5, 2, 4, 1] 0 5 3 (by decide)
      ⟨0, by decide, by decide, fun y hy => by simp at hy; subst hy; decide⟩
      ⟨0, by decide, by decide, fun y hy => by simp at hy; subst hy; decide⟩⟩

/-- C38: for every range of at least two elements (so for every range of length `≥ 3`)
and every strict weak order `comp`, `unchecked_partition` around the median of the first,
the middle (index `(last - first) / 2`) and the last element, taken as a value, returns a
cut with `first < cut < last`.  The position `first` never moves beyond the cut and the
position `last` never moves below `first`: every position the call reads or writes lies in
`[first, last)`, and the rest of the storage is as it was. -/
theorem unchecked_partition_median_in_range (comp : α → α → Bool)
    (hc : StrictWeakOrder comp) (a : List α) (first last : Nat) (x y z : α)
    (hn : 2 ≤ last - first) (hl : last ≤ a.length) (hx : a[first]? = some x)
    (hy : a[first + (last - first) / 2]? = some y) (hz : a[last - 1]? = some z) :
    ∃ out cut last1,
      unchecked_partition_ends comp a first last (Ref.val (median comp x y z)) =
        some (out, cut, last1) ∧
      unchecked_partition comp a first last (Ref.val (median comp x y z)) =
        some (out, cut) ∧
      first < cut ∧ cut < last ∧ first ≤ last1 ∧ last1 < last ∧
      out.length = a.length ∧ (∀ j, j < first ∨ last ≤ j → out[j]? = a[j]?) := by
  obtain ⟨k, hk1, hk2, hk3⟩ : ∃ k, first ≤ k ∧ k < last ∧
      a[k]? = some (median comp x y z) := by
    rcases median_mem comp x y z with h | h | h
    · exact ⟨first, Nat.le_refl _, by omega, by rw [h]; exact hx⟩
    · exact ⟨first + (last - first) / 2, by omega, by omega, by rw [h]; exact hy⟩
    · exact ⟨last - 1, by omega, by omega, by rw [h]; exact hz⟩
  have hup : ∃ j, first ≤ j ∧ j < last ∧
      ∀ w, a[j]? = some w → comp w (median comp x y z) = false :=
    ⟨k, hk1, hk2, fun w hw => by rw [hk3] at hw; cases hw; exact hc.irrefl _⟩
  have hdn : ∃ j, first ≤ j ∧ j + 1 ≤ last ∧
      ∀ w, a[j]? = some w → comp (median comp x y z) w = false :=
    ⟨k, hk1, by omega, fun w hw => by rw [hk3] at hw; cases hw; exact hc.irrefl _⟩
  obtain ⟨out, cut, l1, he, _, _, he3, he4⟩ :=
    unchecked_partition_loop_ends_val comp (median comp x y z) first last (a.length + 1) a
      first last (by omega) (by omega) (Nat.le_refl _) (Nat.le_refl _) hl hup hdn
  obtain ⟨out', cut', ho, hol, _, hc2, hof, _⟩ :=
    unchecked_partition_loop_val comp (median comp x y z) first last (a.length + 1) a
      first last (by omega) (by omega) (Nat.le_refl _) (Nat.le_refl _) hl hup hdn
  have hfst := unchecked_partition_loop_ends_fst comp (Ref.val (median comp x y z))
    (a.length + 1) a first last
  rw [he, ho] at hfst
  simp only [Option.map_some'] at hfst
  injection hfst with hfst
  injection hfst with e1 e2
  subst e1
  subst e2
  obtain ⟨_, hcut⟩ := unchecked_partition_loop_cut_ge comp (median comp x y z)
    (a.length + 1) a first last out cut ho
  have hdiv : 1 ≤ (last - first) / 2 := by omega
  have hgt : first < cut := by
    rcases median_not_less_other comp hc.irrefl x y z with h | h
    · rcases hcut (first + (last - first) / 2) y (by omega) hy h with h' | h'
      · exact h'
      · omega
    · rcases hcut (last - 1) z (by omega) hz h with h' | h'
      · exact h'
      · omega
  exact ⟨out, cut, l1, he, ho, hgt, hc2, he3, he4, hol, hof⟩

/-- Instance of C38: `unchecked_partition` of `3 5 2 4 1` around the median `2` of `3`, `2`
and `1`. -/
theorem unchecked_partition_median_in_range_witness :
    StrictWeakOrder natLt ∧ 2 ≤ 5 - 0 ∧ 5 ≤ [3, 5, 2, 4, 1].length ∧
    [3, 5, 2, 4, 1][0]? = some 3 ∧ [3, 5, 2, 4, 1][0 + (5 - 0) / 2]? = some 2 ∧
    [3, 5, 2, 4, 1][5 - 1]? = some 1 ∧
    unchecked_partition_ends natLt [3, 5, 2, 4, 1] 0 5 (Ref.val (median natLt 3 2 1)) =
      some ([1, 2, 5, 4, 3], 2, 1) ∧
    ∃ out cut last1,
      unchecked_partition_ends natLt [3, 5, 2, 4, 1] 0 5 (Ref.val (median natLt 3 2 1)) =
        some (out, cut, last1) ∧
      unchecked_partition natLt [3, 5, 2, 4, 1] 0 5 (Ref.val (median natLt 3 2 1)) =
        some (out, cut) ∧
      0 < cut ∧ cut < 5 ∧ 0 ≤ last1 ∧ last1 < 5 ∧
      out.length = [3, 5, 2, 4, 1].length ∧
      (∀ j, j < 0 ∨ 5 ≤ j → out[j]? = [3, 5, 2, 4, 1][j]?) :=
  ⟨natLt_strictWeakOrder, by decide, by decide, by decide, by decide, by decide, by decide,
    unchecked_partition_median_in_range natLt natLt_strictWeakOrder [3, 5, 2, 4, 1] 0 5 3 2 1
      (by decide) (by decide) (by decide) (by decide) (by decide)⟩

end mystl

namespace mystl
variable {α : Type}

/-- C39: whatever the two ranges hold and whatever `comp` is, the cuts that
`merge_without_buffer` and `merge_adaptive` choose before they recurse exist, and both
recursive calls get lengths with a strictly smaller sum than `len1 + len2`: in
`merge_without_buffer` whenever it recurses (neither length is 0 and their sum is not 2),
in `merge_adaptive` whenever it recurses (neither range fits into the buffer) with a buffer
of at least one element.  Hence `inplace_merge` returns, without a buffer and with one of
at least one element outside the range. -/
theorem merge_recursion_decreases (comp : α → α → Bool) (a : List α)
    (first middle last : Nat) (h1 : first ≤ middle) (h2 : middle ≤ last)
    (h3 : last ≤ a.length) :
    (middle - first ≠ 0 → last - middle ≠ 0 → (middle - first) + (last - middle) ≠ 2 →
      ∃ first_cut second_cut len11 len22,
        merge_cuts comp a first middle last (middle - first) (last - middle) =
          some (first_cut, second_cut, len11, len22) ∧
        len11 + len22 < (middle - first) + (last - middle) ∧
        (middle - first - len11) + (last - middle - len22) <
          (middle - first) + (last - middle) ∧
        ∀ fuel,
          merge_without_buffer comp (fuel + 1) a first middle last (middle - first)
              (last - middle) =
            (rotate a first_cut middle second_cut).bind fun (a1, new_middle) =>
            (merge_without_buffer comp fuel a1 first first_cut new_middle len11 len22).bind
              fun a2 =>
                merge_without_buffer comp fuel a2 new_middle second_cut last
                  (middle - first - len11) (last - middle - len22)) ∧
    (∀ buffer buffer_size, 1 ≤ buffer_size →
      ¬ (middle - first ≤ last - middle ∧ middle - first ≤ buffer_size) →
      ¬ (last - middle ≤ buffer_size) →
      ∃ first_cut second_cut len11 len22,
        merge_cuts comp a first middle last (middle - first) (last - middle) =
          some (first_cut, second_cut, len11, len22) ∧
        len11 + len22 < (middle - first) + (last - middle) ∧
        (middle - first - len11) + (last - middle - len22) <
          (middle - first) + (last - middle) ∧
        ∀ fuel,
          merge_adaptive comp buffer buffer_size (fuel + 1) a first middle last
              (middle - first) (last - middle) =
            (rotate_adaptive a first_cut middle second_cut (middle - first - len11) len22
                buffer buffer_size).bind fun (a1, new_middle) =>
            (merge_adaptive comp buffer buffer_size fuel a1 first first_cut new_middle len11
                len22).bind fun a2 =>
              merge_adaptive comp buffer buffer_size fuel a2 new_middle second_cut last
                (middle - first - len11) (last - middle - len22)) ∧
    ∀ buf : Option (Nat × Nat),
      (∀ b s, buf = some (b, s) → 1 ≤ s ∧ b + s ≤ a.length ∧ (last ≤ b ∨ b + s ≤ first)) →
      ∃ out, inplace_merge comp a first middle last buf = some out := by
  refine ⟨?_, ?_, ?_⟩
  · intro hz1 hz2 h2e
    obtain ⟨fc, sc, hcut, c1, c2, c3, c4, cgt, cle⟩ :=
      merge_cuts_bounds comp a first middle last (by omega) (by omega) h3
    refine ⟨fc, sc, fc - first, sc - middle, hcut, ?_, ?_, ?_⟩
    · by_cases hgt : middle - first > last - middle
      · have := cgt hgt; omega
      · have := cle hgt; omega
    · by_cases hgt : middle - first > last - middle
      · have := cgt hgt; omega
      · have := cle hgt; omega
    · intro fuel
      rw [merge_without_buffer_rec comp fuel a first middle last _ _ hz1 hz2 h2e, hcut]
      rfl
  · intro buffer bs hbs hb1 hb2
    obtain ⟨fc, sc, hcut, c1, c2, c3, c4, cgt, cle⟩ :=
      merge_cuts_bounds comp a first middle last (by omega) (by omega) h3
    refine ⟨fc, sc, fc - first, sc - middle, hcut, ?_, ?_, ?_⟩
    · by_cases hgt : middle - first > last - middle
      · have := cgt hgt; omega
      · have := cle hgt; omega
    · by_cases hgt : middle - first > last - middle
      · have := cgt hgt; omega
      · have := cle hgt; omega
    · intro fuel
      rw [merge_adaptive_rec comp buffer bs fuel a first middle last _ _ hb1 hb2, hcut]
      rfl
  · intro buf hbuf
    obtain ⟨out, ho, _⟩ := inplace_merge_total comp a first middle last buf h1 h2 h3 hbuf
    exact ⟨out, ho⟩

/-- Instance of C39: the two ranges `5 1 3` and `6 2 4`, neither of them sorted, followed
by two places of scratch space. -/
theorem merge_recursion_decreases_witness :
    0 ≤ 3 ∧ 3 ≤ 6 ∧ 6 ≤ [5, 1, 3, 6, 2, 4, 0, 0].length ∧
    merge_cuts natLt [5, 1, 3, 6, 2, 4, 0, 0] 0 3 6 (3 - 0) (6 - 3) = some (2, 4, 2, 1) ∧
    inplace_merge natLt [5, 1, 3, 6, 2, 4, 0, 0] 0 3 6 none =
      some [5, 1, 6, 2, 3, 4, 0, 0] ∧
    (3 - 0 ≠ 0 → 6 - 3 ≠ 0 → (3 - 0) + (6 - 3) ≠ 2 →
      ∃ first_cut second_cut len11 len22,
        merge_cuts natLt [5, 1, 3, 6, 2, 4, 0, 0] 0 3 6 (3 - 0) (6 - 3) =
          some (first_cut, second_cut, len11, len22) ∧
        len11 + len22 < (3 - 0) + (6 - 3) ∧
        (3 - 0 - len11) + (6 - 3 - len22) < (3 - 0) + (6 - 3) ∧
        ∀ fuel,
          merge_without_buffer natLt (fuel + 1) [5, 1, 3, 6, 2, 4, 0, 0] 0 3 6 (3 - 0)
              (6 - 3) =
            (rotate [5, 1, 3, 6, 2, 4, 0, 0] first_cut 3 second_cut).bind
              fun (a1, new_middle) =>
            (merge_without_buffer natLt fuel a1 0 first_cut new_middle len11 len22).bind
              fun a2 =>
                merge_without_buffer natLt fuel a2 new_middle second_cut 6
                  (3 - 0 - len11) (6 - 3 - len22)) ∧
    (∀ buffer buffer_size, 1 ≤ buffer_size →
      ¬ (3 - 0 ≤ 6 - 3 ∧ 3 - 0 ≤ buffer_size) →
      ¬ (6 - 3 ≤ buffer_size) →
      ∃ first_cut second_cut len11 len22,
        merge_cuts natLt [5, 1, 3, 6, 2, 4, 0, 0] 0 3 6 (3 - 0) (6 - 3) =
          some (first_cut, second_cut, len11, len22) ∧
        len11 + len22 < (3 - 0) + (6 - 3) ∧
        (3 - 0 - len11) + (6 - 3 - len22) < (3 - 0) + (6 - 3) ∧
        ∀ fuel,
          merge_adaptive natLt buffer buffer_size (fuel + 1) [5, 1, 3, 6, 2, 4, 0, 0] 0 3 6
              (3 - 0) (6 - 3) =
            (rotate_adaptive [5, 1, 3, 6, 2, 4, 0, 0] first_cut 3 second_cut
                (3 - 0 - len11) len22 buffer buffer_size).bind fun (a1, new_middle) =>
            (merge_adaptive natLt buffer buffer_size fuel a1 0 first_cut new_middle len11
                len22).bind fun a2 =>
              merge_adaptive natLt buffer buffer_size fuel a2 new_middle second_cut 6
                (3 - 0 - len11) (6 - 3 - len22)) ∧
    ∀ buf : Option (Nat × Nat),
      (∀ b s, buf = some (b, s) →
        1 ≤ s ∧ b + s ≤ [5, 1, 3, 6, 2, 4, 0, 0].length ∧ (6 ≤ b ∨ b + s ≤ 0)) →
      ∃ out, inplace_merge natLt [5, 1, 3, 6, 2, 4, 0, 0] 0 3 6 buf = some out :=
  ⟨by decide, by decide, by decide, by decide, by decide,
    merge_recursion_decreases natLt [5, 1, 3, 6, 2, 4, 0, 0] 0 3 6 (by decide) (by decide)
      (by decide)⟩

/-- C40: for every range and every `middle` with `first < middle < last`, the forward, the
bidirectional and the random-access version of `rotate_dispatch` return, leave the same
storage, and return the same position `first + (last - middle)`; the range then holds the
elements of `[middle, last)` followed by those of `[first, middle)` and the rest of the
storage is as it was. -/
theorem rotate_dispatch_agree (a : List α) (first middle last : Nat) (h1 : first < middle)
    (h2 : middle < last) (h3 : last ≤ a.length) :
    ∃ out, rotate_dispatch_forward a first middle last =
        some (out, first + (last - middle)) ∧
      rotate_dispatch_bidirectional a first middle last =
        some (out, first + (last - middle)) ∧
      rotate_dispatch a first middle last = some (out, first + (last - middle)) ∧
      out.length = a.length ∧ (∀ j, j < first ∨ last ≤ j → out[j]? = a[j]?) ∧
      range out first last = range a middle last ++ range a first middle := by
  obtain ⟨o1, e1, l1, f1, r1⟩ := rotate_dispatch_forward_spec a first middle last h1 h2 h3
  obtain ⟨o2, e2, l2, f2, r2⟩ :=
    rotate_dispatch_bidirectional_spec a first middle last (by omega) (by omega) h3
  obtain ⟨o3, e3, l3, f3, r3⟩ := rotate_spec a first middle last (by omega) (by omega) h3
  unfold rotate at e3
  rw [if_neg (by omega), if_neg (by omega)] at e3
  have q1 : o1 = o3 := eq_of_frame_of_range (by omega : first ≤ last) (by omega)
    (fun j hj => by rw [f1 j hj, f3 j hj]) (by rw [r1, r3])
  have q2 : o2 = o3 := eq_of_frame_of_range (by omega : first ≤ last) (by omega)
    (fun j hj => by rw [f2 j hj, f3 j hj]) (by rw [r2, r3])
  exact ⟨o3, q1 ▸ e1, q2 ▸ e2, e3, l3, f3, r3⟩

/-- Instance of C40: the three versions on `0 1 2 3 4 5 6 7 8 9` with the range `[1, 9)` and
`middle` at position 4. -/
theorem rotate_dispatch_agree_witness :
    1 < 4 ∧ 4 < 9 ∧ 9 ≤ [0, 1, 2, 3, 4, 5, 6, 7, 8, 9].length ∧
    rotate_dispatch_forward [0, 1, 2, 3, 4, 5, 6, 7, 8, 9] 1 4 9 =
      some ([0, 4, 5, 6, 7, 8, 1, 2, 3, 9], 6) ∧
    rotate_dispatch_bidirectional [0, 1, 2, 3, 4, 5, 6, 7, 8, 9] 1 4 9 =
      some ([0, 4, 5, 6, 7, 8, 1, 2, 3, 9], 6) ∧
    rotate_dispatch [0, 1, 2, 3, 4, 5, 6, 7, 8, 9] 1 4 9 =
      some ([0, 4, 5, 6, 7, 8, 1, 2, 3, 9], 6) ∧
    ∃ out, rotate_dispatch_forward [0, 1, 2, 3, 4, 5, 6, 7, 8, 9] 1 4 9 =
        some (out, 1 + (9 - 4)) ∧
      rotate_dispatch_bidirectional [0, 1, 2, 3, 4, 5, 6, 7, 8, 9] 1 4 9 =
        some (out, 1 + (9 - 4)) ∧
      rotate_dispatch [0, 1, 2, 3, 4, 5, 6, 7, 8, 9] 1 4 9 = some (out, 1 + (9 - 4)) ∧
      out.length = [0, 1, 2, 3, 4, 5, 6, 7, 8, 9].length ∧
      (∀ j, j < 1 ∨ 9 ≤ j → out[j]? = [0, 1, 2, 3, 4, 5, 6, 7, 8, 9][j]?) ∧
      range out 1 9 = range [0, 1, 2, 3, 4, 5, 6, 7, 8, 9] 4 9 ++
        range [0, 1, 2, 3, 4, 5, 6, 7, 8, 9] 1 4 :=
  ⟨by decide, by decide, by decide, by decide, by decide, by decide,
    rotate_dispatch_agree [0, 1, 2, 3, 4, 5, 6, 7, 8, 9] 1 4 9 (by decide) (by decide)
      (by decide)⟩

end mystl
